import Mathlib

/-! # Local register allocator (allocator.cpp): shallow embedding

The C++ `Allocator` is embedded as pure functions over explicit state.
`std::vector` is a `List` indexed by an `Int`; an index outside the vector is
undefined behaviour in C++ and makes the embedded function return `none`.
`std::list<Instruction>` with a cursor is the list of instructions already
behind the cursor together with the instructions still ahead of it, so that
`intRep.insert(it, i)` appends `i` to what is behind the cursor.
-/

namespace Alloc

/-! ## Constants and data model -/

/-- Modelled from the spec: the sentinel `INVALID` of the absent `parser.h`;
`getNumSR` starts from it and returns `highSR + 1`, `Clean::dirty = -1`. -/
def INVALID : Int := -1

/-- The C++ `INT_MAX` of a 32-bit `int`. -/
def INT_MAX : Int := 2147483647

/-- The macro `SPILL` of allocator.h. -/
def SPILL : Int := 32768

/-- Modelled from the spec: the opcodes of the absent `parser.h`
(spec section 3, and the `switch` of `printCode`). -/
inductive Opcode where
  | load | loadI | store | add | sub | mult | lshift | rshift | output | nop
  deriving DecidableEq, Repr

/-- The enum `Clean` of allocator.h. -/
inductive Clean where
  | remat | spilled | cleanLoad | dirty
  deriving DecidableEq, Repr

/-- Modelled from the spec: the struct `Register` of the absent `parser.h`
(spec section 3, Operand). -/
structure Register where
  isReg : Bool
  sr : Int
  vr : Int
  pr : Int
  nu : Int
  deriving DecidableEq, Repr

/-- Modelled from the spec: the struct `Instruction` of the absent `parser.h`. -/
structure Instruction where
  op : Opcode
  src1 : Register
  src2 : Register
  dest : Register
  deriving DecidableEq, Repr

/-- Modelled from the spec: a default-constructed `Register` (not a register,
every field `INVALID`), as `Instruction {op}` builds its three operands. -/
def Register.blank : Register :=
  { isReg := false, sr := INVALID, vr := INVALID, pr := INVALID, nu := INVALID }

/-- Modelled from the spec: the constructor call `Instruction {op}`. -/
def Instruction.mk0 (op : Opcode) : Instruction :=
  { op := op, src1 := Register.blank, src2 := Register.blank, dest := Register.blank }

/-! ## Vectors indexed by `int` -/

/-- Read `xs[i]`; `none` when `i` is outside the vector. -/
def getI {α : Type} (xs : List α) (i : Int) : Option α :=
  if 0 ≤ i then xs[i.toNat]? else none

/-- Write `xs[i] = v`; `none` when `i` is outside the vector. -/
def setI {α : Type} (xs : List α) (i : Int) (v : α) : Option (List α) :=
  if 0 ≤ i ∧ i.toNat < xs.length then some (xs.set i.toNat v) else none

/-! ## Register class state -/

/-- The nested struct `Allocator::Class`; `stk` has its top at the head. -/
structure Class where
  sz : Int
  free : List Bool
  name : List Int
  next : List Int
  cclean : List Clean
  stk : List Int
  deriving DecidableEq, Repr

/-- The constructor `Class::Class(numRegs)`: `sz` entries of each vector, and
the stack filled from `sz - 1` down to `0`, so that `0` is on top. -/
def Class.new (numRegs : Int) : Class :=
  { sz := numRegs
    free := List.replicate numRegs.toNat true
    name := List.replicate numRegs.toNat INVALID
    next := List.replicate numRegs.toNat INT_MAX
    cclean := List.replicate numRegs.toNat Clean.dirty
    stk := (List.range numRegs.toNat).map Int.ofNat }

/-- The members of `Allocator` other than `intRep`. -/
structure Mem where
  k : Int
  nextMemAddr : Int
  maxLive : Int
  vr2mem : List Int
  clean : List Clean
  deriving DecidableEq, Repr

/-! ## Live-range analysis: `computeLastUses` and `update` -/

/-- The locals of `computeLastUses` that `update` and the sweep share,
together with the members `maxLive`, `vr2mem` and `clean`. -/
structure LU where
  sr2vr : List Int
  lastUse : List Int
  stores : List (Int × Int)
  loads : List (Int × Int)
  vrName : Int
  numLive : Int
  maxLive : Int
  vr2mem : List Int
  clean : List Clean
  deriving DecidableEq, Repr

/-- The body of the loop of `Allocator::getNumSR`: the local `highSR` after
the three tests on the instruction `it`. -/
def srStep (highSR : Int) (it : Instruction) : Int :=
  let h1 := if it.dest.isReg && decide (it.dest.sr > highSR) then it.dest.sr else highSR
  let h2 := if it.src2.isReg && decide (it.src2.sr > h1) then it.src2.sr else h1
  if it.src1.isReg && decide (it.src1.sr > h2) then it.src1.sr else h2

/-- The function `Allocator::getNumSR`: largest source register number plus one. -/
def getNumSR (ir : List Instruction) : Int :=
  (ir.foldl srStep INVALID) + 1

/-- The first half of `Allocator::update` (lines 369-379): when the source
register is not in use, open a new live range for it. -/
def openRange (sr : Int) (s : LU) : Option LU := do
  let cur ← getI s.sr2vr sr
  if cur = INVALID then do
    let sr2vr1 ← setI s.sr2vr sr s.vrName
    pure { s with
      sr2vr := sr2vr1
      vrName := s.vrName + 1
      numLive := s.numLive + 1
      maxLive := if s.numLive + 1 > s.maxLive then s.numLive + 1 else s.maxLive
      vr2mem := s.vr2mem ++ [INVALID]
      clean := s.clean ++ [Clean.dirty] }
  else pure s

/-- The function `Allocator::update`: name the live range of `op.sr`, set
`op.vr` and `op.nu`, and record `ind` as the last use seen. -/
def update (op : Register) (ind : Int) (s : LU) : Option (Register × LU) := do
  let s1 ← openRange op.sr s
  let v ← getI s1.sr2vr op.sr
  let nu ← getI s1.lastUse op.sr
  let lastUse1 ← setI s1.lastUse op.sr ind
  pure ({ op with vr := v, nu := nu }, { s1 with lastUse := lastUse1 })

/-- The reconciliation of the `stores` log at a definition of `vr`
(allocator.cpp lines 292-302): `find_if` stops at the first entry whose first
field is `vr`; when its address is still `INVALID`, the entry gets the
immediate of a `loadI`, and is erased at any other instruction. -/
def reconcileStores (vr : Int) (op : Opcode) (imm : Int) :
    List (Int × Int) → List (Int × Int)
  | [] => []
  | s :: rest =>
    if s.1 = vr then
      if s.2 = INVALID then
        if op = Opcode.loadI then (s.1, imm) :: rest else rest
      else s :: rest
    else s :: reconcileStores vr op imm rest

/-- The clean-load test at a `loadI addr => vr` (allocator.cpp lines 326-344):
walk `loads`; at the first entry reading `vr`, when no logged store has
address `addr`, tag the loaded VR `cleanLoad`, erase the entry and stop.
Returns the remaining log, `vr2mem` and `clean`. -/
def cleanLoads (stores : List (Int × Int)) (vr addr : Int) :
    List (Int × Int) → List Int → List Clean →
    Option (List (Int × Int) × List Int × List Clean)
  | [], vr2mem, clean => some ([], vr2mem, clean)
  | l :: rest, vr2mem, clean =>
    if l.1 = vr ∧ (stores.find? (fun s => s.2 == addr)).isNone then do
      let clean1 ← setI clean l.2 Clean.cleanLoad
      let vr2mem1 ← setI vr2mem l.2 addr
      pure (rest, vr2mem1, clean1)
    else do
      let (rest1, vr2mem1, clean1) ← cleanLoads stores vr addr rest vr2mem clean
      pure (l :: rest1, vr2mem1, clean1)

/-- The kill of `computeLastUses` (lines 285-303): when the destination is a
register, update it, end its live range and reconcile the `stores` log. -/
def luDest (i : Int) (it : Instruction) (s : LU) : Option (Instruction × LU) :=
  if it.dest.isReg then do
    let (d, a) ← update it.dest i s
    let sr2vr1 ← setI a.sr2vr d.sr INVALID
    let lastUse1 ← setI a.lastUse d.sr INT_MAX
    pure ({ it with dest := d },
          { a with sr2vr := sr2vr1, lastUse := lastUse1, numLive := a.numLive - 1,
                   stores := reconcileStores d.vr it.op it.src1.sr a.stores })
  else some (it, s)

/-- The update of the first use (lines 305-306). -/
def luSrc1 (i : Int) (it : Instruction) (s : LU) : Option (Instruction × LU) :=
  if it.src1.isReg then do
    let (r, a) ← update it.src1 i s
    pure ({ it with src1 := r }, a)
  else some (it, s)

/-- The update of the other use (lines 308-309). -/
def luSrc2 (i : Int) (it : Instruction) (s : LU) : Option (Instruction × LU) :=
  if it.src2.isReg then do
    let (r, a) ← update it.src2 i s
    pure ({ it with src2 := r }, a)
  else some (it, s)

/-- The rematerializable tagging (lines 312-315). -/
def luRemat (it : Instruction) (s : LU) : Option LU :=
  if it.op = Opcode.loadI then do
    let clean1 ← setI s.clean it.dest.vr Clean.remat
    let vr2mem1 ← setI s.vr2mem it.dest.vr it.src1.sr
    pure { s with clean := clean1, vr2mem := vr2mem1 }
  else some s

/-- The recording of stores and loads (lines 320-323). -/
def luLogs (it : Instruction) (s : LU) : LU :=
  let s1 := if it.op = Opcode.store
    then { s with stores := s.stores ++ [(it.src2.vr, INVALID)] } else s
  if it.op = Opcode.load
    then { s1 with loads := s1.loads ++ [(it.src1.vr, it.dest.vr)] } else s1

/-- The check of the loads at a `loadI` (lines 326-344). -/
def luClean (it : Instruction) (s : LU) : Option LU :=
  if it.op = Opcode.loadI then do
    let (loads1, vr2mem1, clean1) ←
      cleanLoads s.stores it.dest.vr it.src1.sr s.loads s.vr2mem s.clean
    pure { s with loads := loads1, vr2mem := vr2mem1, clean := clean1 }
  else some s

/-- One iteration of the loop of `computeLastUses`, at the instruction `it`
of forward index `i`. -/
def luStep (i : Int) (it : Instruction) (s : LU) : Option (Instruction × LU) := do
  let (it1, s1) ← luDest i it s
  let (it2, s2) ← luSrc1 i it1 s1
  let (it3, s3) ← luSrc2 i it2 s2
  let s4 ← luRemat it3 s3
  let s5 ← luClean it3 (luLogs it3 s4)
  pure (it3, s5)

/-- The backward loop of `computeLastUses` over the instructions from forward
index `i` on: the later instructions are visited first. -/
def luSweep : Nat → List Instruction → LU → Option (List Instruction × LU)
  | _, [], s => some ([], s)
  | i, it :: rest, s => do
    let (rest1, s1) ← luSweep (i + 1) rest s
    let (it1, s2) ← luStep (i : Int) it s1
    pure (it1 :: rest1, s2)

/-- The initial locals of `computeLastUses`, with the members as the
constructor of `Allocator` leaves them. -/
def LU.init (ir : List Instruction) : LU :=
  { sr2vr := List.replicate (getNumSR ir).toNat INVALID
    lastUse := List.replicate (getNumSR ir).toNat INT_MAX
    stores := []
    loads := []
    vrName := 0
    numLive := 0
    maxLive := 0
    vr2mem := []
    clean := [] }

/-- The function `Allocator::computeLastUses`. -/
def computeLastUses (ir : List Instruction) : Option (List Instruction × LU) :=
  luSweep 0 ir (LU.init ir)

/-! ## The allocator sweep: `assignRegisters`, `ensure`, `allocate` -/

/-- The function `Allocator::freeRegister`. -/
def freeRegister (pr : Int) (c : Class) : Option Class := do
  let name1 ← setI c.name pr INVALID
  let next1 ← setI c.next pr INT_MAX
  let free1 ← setI c.free pr true
  let cclean1 ← setI c.cclean pr Clean.dirty
  pure { c with name := name1, next := next1, free := free1, cclean := cclean1,
                stk := pr :: c.stk }

/-- The loop of `Allocator::bestOfType` from index `i` on, `fuel` iterations
left; `pr` and `optNextUse` are the loop's two locals. -/
def bestOfTypeLoop (c : Class) (cln : Clean) (n : Bool) :
    Nat → Int → Int → Int → Option Int
  | 0, _, pr, _ => some pr
  | fuel + 1, i, pr, optNextUse => do
    let cc ← getI c.cclean i
    if (n && cc != cln) || cc == cln then do
      let nx ← getI c.next i
      if nx ≥ optNextUse then bestOfTypeLoop c cln n fuel (i + 1) i nx
      else bestOfTypeLoop c cln n fuel (i + 1) pr optNextUse
    else bestOfTypeLoop c cln n fuel (i + 1) pr optNextUse

/-- The function `Allocator::bestOfType`: the last register of the wanted
kind whose next use is at least that of every earlier one. -/
def bestOfType (c : Class) (cln : Clean) (n : Bool) : Option Int :=
  bestOfTypeLoop c cln n c.sz.toNat 0 INVALID INVALID

/-- The index `std::max_element` returns on `xs` scanned from index `i`, with
`best` the index and `bv` the value of the largest element so far: the first
largest element. -/
def maxElementFrom : List Int → Nat → Nat → Int → Nat
  | [], _, best, _ => best
  | x :: xs, i, best, bv => if bv < x then maxElementFrom xs (i + 1) i x
                            else maxElementFrom xs (i + 1) best bv

/-- The index of `std::max_element(xs.begin(), xs.end())`; `0` (the end
iterator) on an empty vector. -/
def maxElement : List Int → Nat
  | [] => 0
  | x :: xs => maxElementFrom xs 1 0 x

/-- The function `Allocator::optimalPR`. -/
def optimalPR (c : Class) : Option Int :=
  if c.cclean.contains Clean.remat then bestOfType c Clean.remat false
  else if c.cclean.any (fun x => x != Clean.dirty) then bestOfType c Clean.dirty true
  else some (maxElement c.next : Int)

/-- The instruction `loadI imm => r pr` as `ensure` and `allocate` build it. -/
def mkLoadI (imm pr : Int) : Instruction :=
  { Instruction.mk0 Opcode.loadI with
    src1 := { Register.blank with sr := imm }
    dest := { Register.blank with isReg := true, pr := pr } }

/-- The instruction `load r a => r pr` as `ensure` builds it. -/
def mkLoad (a pr : Int) : Instruction :=
  { Instruction.mk0 Opcode.load with
    src1 := { Register.blank with isReg := true, pr := a }
    dest := { Register.blank with isReg := true, pr := pr } }

/-- The instruction `store r pr => r a` as `allocate` builds it. -/
def mkStore (pr a : Int) : Instruction :=
  { Instruction.mk0 Opcode.store with
    src1 := { Register.blank with isReg := true, pr := pr }
    src2 := { Register.blank with isReg := true, pr := a } }

/-- The spill of `allocate` (lines 167-190): when the virtual register in
`pr` is dirty, store it at `nextMemAddr` through the register `k`. -/
def spill (pr : Int) (c : Class) (m : Mem) : Option (Mem × List Instruction) := do
  let victim ← getI c.name pr
  let cl ← getI m.clean victim
  if cl = Clean.dirty then do
    let vr2mem1 ← setI m.vr2mem victim m.nextMemAddr
    let clean1 ← setI m.clean victim Clean.spilled
    pure ({ m with vr2mem := vr2mem1, nextMemAddr := m.nextMemAddr + 4, clean := clean1 },
          [mkLoadI m.nextMemAddr m.k, mkStore pr m.k])
  else pure (m, [])

/-- The choice of `allocate` (lines 157-191): a free register from the
stack, or the optimal register, spilled. -/
def choose (c : Class) (m : Mem) : Option (Int × Class × Mem × List Instruction) :=
  match c.stk with
  | top :: rest => some (top, { c with stk := rest }, m, [])
  | [] => do
    let pr ← optimalPR c
    let (m1, ins) ← spill pr c m
    pure (pr, c, m1, ins)

/-- The end of `allocate` (lines 193-196): mark `pr` as holding `vr`. -/
def occupy (pr vr : Int) (c : Class) (m : Mem) : Option Class := do
  let name1 ← setI c.name pr vr
  let next1 ← setI c.next pr INVALID
  let free1 ← setI c.free pr false
  let cl ← getI m.clean vr
  let cclean1 ← setI c.cclean pr cl
  pure { c with name := name1, next := next1, free := free1, cclean := cclean1 }

/-- The function `Allocator::allocate`. Returns the physical register, the
class, the members and the instructions inserted before the cursor. -/
def allocate (vr : Int) (c : Class) (m : Mem) :
    Option (Int × Class × Mem × List Instruction) := do
  let (pr, c1, m1, ins) ← choose c m
  let c2 ← occupy pr vr c1 m1
  pure (pr, c2, m1, ins)

/-- The restore of `ensure` (lines 115-144): the instructions that bring
`vr` back into `pr`. -/
def restore (vr pr : Int) (m : Mem) : Option (List Instruction) := do
  let cl ← getI m.clean vr
  let a ← getI m.vr2mem vr
  if cl = Clean.remat then pure [mkLoadI a pr]
  else if a ≠ INVALID then pure [mkLoadI a m.k, mkLoad m.k pr]
  else pure []

/-- The function `Allocator::ensure`. -/
def ensure (vr : Int) (c : Class) (m : Mem) :
    Option (Int × Class × Mem × List Instruction) :=
  if c.name.indexOf vr < c.name.length then
    some ((c.name.indexOf vr : Int), c, m, [])
  else do
    let (pr, c1, m1, ins) ← allocate vr c m
    let ins1 ← restore vr pr m1
    pure (pr, c1, m1, ins ++ ins1)

/-- The assignment of a source operand (lines 64-68): `ensure` when it is a
register. -/
def assignSrc (r : Register) (c : Class) (m : Mem) :
    Option (Register × Class × Mem × List Instruction) :=
  if r.isReg then do
    let (pr, c1, m1, ins) ← ensure r.vr c m
    pure ({ r with pr := pr }, c1, m1, ins)
  else some (r, c, m, [])

/-- The conditional calls of `freeRegister` (lines 74-78). -/
def freeIf (b : Bool) (pr : Int) (c : Class) : Option Class :=
  if b then freeRegister pr c else some c

/-- The recording of the next use of a source operand (lines 84-88). -/
def keepNext (r : Register) (c : Class) : Option Class :=
  if r.pr ≠ INVALID then do
    let next1 ← setI c.next r.pr r.nu
    pure { c with next := next1 }
  else some c

/-- The assignment of the destination (lines 91-94). -/
def assignDest (r : Register) (c : Class) (m : Mem) :
    Option (Register × Class × Mem × List Instruction) :=
  if r.isReg then do
    let (pr, c1, m1, ins) ← allocate r.vr c m
    let next1 ← setI c1.next pr r.nu
    pure ({ r with pr := pr }, { c1 with next := next1 }, m1, ins)
  else some (r, c, m, [])

/-- The body of the loop of `Allocator::assignRegisters` at the instruction
`it`: the instructions inserted before it, and `it` with its physical
registers set. -/
def assignStep (it : Instruction) (c : Class) (m : Mem) :
    Option (List Instruction × Instruction × Class × Mem) := do
  let (s1, c1, m1, ins1) ← assignSrc it.src1 c m
  let (s2, c2, m2, ins2) ← assignSrc it.src2 c1 m1
  let c3 ← freeIf (decide (s1.nu = INT_MAX)) s1.pr c2
  let c4 ← freeIf (s2.isReg && decide (s2.nu = INT_MAX)) s2.pr c3
  let c5 ← keepNext s1 c4
  let c6 ← keepNext s2 c5
  let (d, c7, m3, ins3) ← assignDest it.dest c6 m2
  pure (ins1 ++ ins2 ++ ins3, { it with src1 := s1, src2 := s2, dest := d }, c7, m3)

/-- The loop of `Allocator::assignRegisters` over the instructions ahead of
the cursor: for each one, the instructions inserted before it and the
instruction itself, with the final class and members. -/
def assignLoop : List Instruction → Class → Mem →
    Option (List (List Instruction × Instruction) × Class × Mem)
  | [], c, m => some ([], c, m)
  | it :: rest, c, m => do
    let (ins, it1, c1, m1) ← assignStep it c m
    let (gs, c2, m2) ← assignLoop rest c1 m1
    pure ((ins, it1) :: gs, c2, m2)

/-- The list `intRep` that a run of `assignRegisters` leaves: every
instruction preceded by what was inserted before it. -/
def flatten (gs : List (List Instruction × Instruction)) : List Instruction :=
  gs.flatMap (fun g => g.1 ++ [g.2])

/-- The result of constructing an `Allocator`. -/
structure Result where
  groups : List (List Instruction × Instruction)
  c : Class
  m : Mem
  deriving Repr

/-- The list `intRep` after construction. -/
def Result.intRep (r : Result) : List Instruction := flatten r.groups

/-- The constructor `Allocator::Allocator` on the parsed block `ir` with
`numRegs` registers requested. -/
def Allocator (ir : List Instruction) (numRegs : Int) : Option Result := do
  let (ir1, s) ← computeLastUses ir
  -- if we do not have enough registers, reserve last register for spilling
  let k := if numRegs < s.maxLive then numRegs - 1 else numRegs
  let m : Mem := { k := k, nextMemAddr := SPILL, maxLive := s.maxLive,
                   vr2mem := s.vr2mem, clean := s.clean }
  let (gs, c, m1) ← assignLoop ir1 (Class.new k) m
  pure { groups := gs, c := c, m := m1 }

/-! ## Reference semantics of a block -/

/-- The state of the abstract ILOC machine: a register file, a flat memory
and the values printed so far. -/
structure Machine where
  regs : Int → Int
  mem : Int → Int
  out : List Int

/-- Overwrite one cell of a register file or of the memory. -/
def upd (f : Int → Int) (a v : Int) : Int → Int := fun x => if x = a then v else f x

/-- Modelled from the spec: the ILOC-like semantics of one instruction
(loads and stores touch a flat memory, arithmetic operates on registers,
`output c` prints the word at address `c`); `sel` picks the register name an
operand is read by, its source register or its physical register. -/
def exec1 (sel : Register → Int) (s : Machine) (i : Instruction) : Machine :=
  match i.op with
  | Opcode.loadI => { s with regs := upd s.regs (sel i.dest) i.src1.sr }
  | Opcode.load => { s with regs := upd s.regs (sel i.dest) (s.mem (s.regs (sel i.src1))) }
  | Opcode.store => { s with mem := upd s.mem (s.regs (sel i.src2)) (s.regs (sel i.src1)) }
  | Opcode.add =>
    { s with regs := upd s.regs (sel i.dest) (s.regs (sel i.src1) + s.regs (sel i.src2)) }
  | Opcode.sub =>
    { s with regs := upd s.regs (sel i.dest) (s.regs (sel i.src1) - s.regs (sel i.src2)) }
  | Opcode.mult =>
    { s with regs := upd s.regs (sel i.dest) (s.regs (sel i.src1) * s.regs (sel i.src2)) }
  | Opcode.lshift =>
    let v := s.regs (sel i.src1) * 2 ^ (s.regs (sel i.src2)).toNat
    { s with regs := upd s.regs (sel i.dest) v }
  | Opcode.rshift =>
    let v := s.regs (sel i.src1) / 2 ^ (s.regs (sel i.src2)).toNat
    { s with regs := upd s.regs (sel i.dest) v }
  | Opcode.output => { s with out := s.out ++ [s.mem i.src1.sr] }
  | Opcode.nop => s

/-- The values a block prints when run from the memory `mem0` with every
register holding `0`. -/
def outputs (sel : Register → Int) (mem0 : Int → Int) (ir : List Instruction) : List Int :=
  (ir.foldl (exec1 sel) { regs := fun _ => 0, mem := mem0, out := [] }).out

/-- The addresses a block loads from or stores to when run from `mem0`, in
order. -/
def addresses (sel : Register → Int) (mem0 : Int → Int) (ir : List Instruction) : List Int :=
  (ir.foldl (fun (acc : Machine × List Int) i =>
      (exec1 sel acc.1 i,
       match i.op with
       | Opcode.load => acc.2 ++ [acc.1.regs (sel i.src1)]
       | Opcode.store => acc.2 ++ [acc.1.regs (sel i.src2)]
       | Opcode.output => acc.2 ++ [i.src1.sr]
       | _ => acc.2))
    ({ regs := fun _ => 0, mem := mem0, out := [] }, [])).2

/-- A block is well formed when every register it reads was defined by an
earlier instruction of the block; `defd` lists the source registers defined
so far. Operands that are registers carry a source register number that is
not negative. -/
def wellFormedFrom : List Int → List Instruction → Bool
  | _, [] => true
  | defd, i :: rest =>
    (!i.src1.isReg || defd.contains i.src1.sr) &&
    (!i.src2.isReg || defd.contains i.src2.sr) &&
    (!i.dest.isReg || decide (0 ≤ i.dest.sr)) &&
    wellFormedFrom (if i.dest.isReg then i.dest.sr :: defd else defd) rest

/-- Every register read of the block is preceded by a definition of that
source register. -/
def wellFormed (ir : List Instruction) : Bool := wellFormedFrom [] ir

/-! ## The allocator sweep with a log of what is inserted

The same functions as above, except that they return, in place of the
inserted instructions, one `Item` for each insertion, which also records the
virtual register the insertion is made for. Expanding the items gives back
the instructions (`assignLoopLog_instrs`). -/

/-- One entry of the log of a run: the dirty spill of `vr` out of `pr` to the
address `a` (`loadI a => k; store pr => k`), the rematerialization of `vr`
into `pr` (`loadI a => pr`), the restore of `vr` into `pr` from the address
`a` (`loadI a => k; load k => pr`), or an instruction of the block. -/
inductive Item where
  | spillPair (vr pr a k : Int)
  | rematLoad (vr pr a : Int)
  | restorePair (vr pr a k : Int)
  | orig (i : Instruction)
  deriving DecidableEq, Repr

/-- The instructions an item stands for. -/
def Item.instrs : Item → List Instruction
  | Item.spillPair _ pr a k => [mkLoadI a k, mkStore pr k]
  | Item.rematLoad _ pr a => [mkLoadI a pr]
  | Item.restorePair _ pr a k => [mkLoadI a k, mkLoad k pr]
  | Item.orig i => [i]

/-- The instructions a log stands for. -/
def expand (tr : List Item) : List Instruction := tr.flatMap Item.instrs

/-- The virtual register and the address of a dirty spill. -/
def Item.spillOf : Item → Option (Int × Int)
  | Item.spillPair vr _ a _ => some (vr, a)
  | _ => none

/-- The function `spill` with its log. -/
def spillLog (pr : Int) (c : Class) (m : Mem) : Option (Mem × List Item) := do
  let victim ← getI c.name pr
  let cl ← getI m.clean victim
  if cl = Clean.dirty then do
    let vr2mem1 ← setI m.vr2mem victim m.nextMemAddr
    let clean1 ← setI m.clean victim Clean.spilled
    pure ({ m with vr2mem := vr2mem1, nextMemAddr := m.nextMemAddr + 4, clean := clean1 },
          [Item.spillPair victim pr m.nextMemAddr m.k])
  else pure (m, [])

/-- The function `choose` with its log. -/
def chooseLog (c : Class) (m : Mem) : Option (Int × Class × Mem × List Item) :=
  match c.stk with
  | top :: rest => some (top, { c with stk := rest }, m, [])
  | [] => do
    let pr ← optimalPR c
    let (m1, ins) ← spillLog pr c m
    pure (pr, c, m1, ins)

/-- The function `allocate` with its log. -/
def allocateLog (vr : Int) (c : Class) (m : Mem) :
    Option (Int × Class × Mem × List Item) := do
  let (pr, c1, m1, ins) ← chooseLog c m
  let c2 ← occupy pr vr c1 m1
  pure (pr, c2, m1, ins)

/-- The function `restore` with its log. -/
def restoreLog (vr pr : Int) (m : Mem) : Option (List Item) := do
  let cl ← getI m.clean vr
  let a ← getI m.vr2mem vr
  if cl = Clean.remat then pure [Item.rematLoad vr pr a]
  else if a ≠ INVALID then pure [Item.restorePair vr pr a m.k]
  else pure []

/-- The function `ensure` with its log. -/
def ensureLog (vr : Int) (c : Class) (m : Mem) :
    Option (Int × Class × Mem × List Item) :=
  if c.name.indexOf vr < c.name.length then
    some ((c.name.indexOf vr : Int), c, m, [])
  else do
    let (pr, c1, m1, ins) ← allocateLog vr c m
    let ins1 ← restoreLog vr pr m1
    pure (pr, c1, m1, ins ++ ins1)

/-- The function `assignSrc` with its log. -/
def assignSrcLog (r : Register) (c : Class) (m : Mem) :
    Option (Register × Class × Mem × List Item) :=
  if r.isReg then do
    let (pr, c1, m1, ins) ← ensureLog r.vr c m
    pure ({ r with pr := pr }, c1, m1, ins)
  else some (r, c, m, [])

/-- The function `assignDest` with its log. -/
def assignDestLog (r : Register) (c : Class) (m : Mem) :
    Option (Register × Class × Mem × List Item) :=
  if r.isReg then do
    let (pr, c1, m1, ins) ← allocateLog r.vr c m
    let next1 ← setI c1.next pr r.nu
    pure ({ r with pr := pr }, { c1 with next := next1 }, m1, ins)
  else some (r, c, m, [])

/-- The function `assignStep` with its log. -/
def assignStepLog (it : Instruction) (c : Class) (m : Mem) :
    Option (List Item × Instruction × Class × Mem) := do
  let (s1, c1, m1, ins1) ← assignSrcLog it.src1 c m
  let (s2, c2, m2, ins2) ← assignSrcLog it.src2 c1 m1
  let c3 ← freeIf (decide (s1.nu = INT_MAX)) s1.pr c2
  let c4 ← freeIf (s2.isReg && decide (s2.nu = INT_MAX)) s2.pr c3
  let c5 ← keepNext s1 c4
  let c6 ← keepNext s2 c5
  let (d, c7, m3, ins3) ← assignDestLog it.dest c6 m2
  pure (ins1 ++ ins2 ++ ins3, { it with src1 := s1, src2 := s2, dest := d }, c7, m3)

/-- The function `assignLoop` with its log: what is inserted before each
instruction, then the instruction, in the order of the output. -/
def assignLoopLog : List Instruction → Class → Mem → Option (List Item × Class × Mem)
  | [], c, m => some ([], c, m)
  | it :: rest, c, m => do
    let (ins, it1, c1, m1) ← assignStepLog it c m
    let (tr, c2, m2) ← assignLoopLog rest c1 m1
    pure (ins ++ Item.orig it1 :: tr, c2, m2)

/-- The log of the construction of an `Allocator`. -/
def AllocatorLog (ir : List Instruction) (numRegs : Int) : Option (List Item) := do
  let (ir1, s) ← computeLastUses ir
  let k := if numRegs < s.maxLive then numRegs - 1 else numRegs
  let m : Mem := { k := k, nextMemAddr := SPILL, maxLive := s.maxLive,
                   vr2mem := s.vr2mem, clean := s.clean }
  let (tr, _, _) ← assignLoopLog ir1 (Class.new k) m
  pure tr

/-! ## Vocabulary of the statements -/

/-- What the parser fixes of an operand: whether it is a register, and its
source register number or immediate. -/
def Register.shape (r : Register) : Bool × Int := (r.isReg, r.sr)

/-- What the parser fixes of an instruction: its opcode and the shape of its
three operands. -/
def Instruction.shape (i : Instruction) : Opcode × (Bool × Int) × (Bool × Int) × (Bool × Int) :=
  (i.op, i.src1.shape, i.src2.shape, i.dest.shape)

/-- The three operands of an instruction. -/
def Instruction.operands (i : Instruction) : List Register := [i.src1, i.src2, i.dest]

/-- The instructions `ensure` and `allocate` build, for `k` the member `k`:
`loadI a => k`, `loadI a => pr`, `load k => pr` or `store pr => k`, with
`0 ≤ pr < k`. -/
def IsSplice (k : Int) (s : Instruction) : Prop :=
  ∃ a pr, 0 ≤ pr ∧ pr < k ∧
    (s = mkLoadI a k ∨ s = mkLoadI a pr ∨ s = mkLoad k pr ∨ s = mkStore pr k)

/-- What the assignment of one operand keeps and establishes: the operand
`r` becomes `r1`, the class `c` becomes `c1`, the members `m` become `m1` and
`ins` is inserted. -/
structure OperandOK (r r1 : Register) (c c1 : Class) (m m1 : Mem)
    (ins : List Instruction) : Prop where
  shape : r1.shape = r.shape
  vr : r1.vr = r.vr
  nu : r1.nu = r.nu
  len : c1.name.length = c.name.length
  k : m1.k = m.k
  maxLive : m1.maxLive = m.maxLive
  splice : ∀ s ∈ ins, IsSplice m.k s
  bound : r1.isReg = true → 0 ≤ r1.pr ∧ r1.pr < m.k

/-- The tables `clean` and `vr2mem` have the same length, and a virtual
register tagged `dirty` has no address recorded. -/
def TagOK (clean : List Clean) (vr2mem : List Int) : Prop :=
  clean.length = vr2mem.length ∧
  ∀ v, getI clean v = some Clean.dirty → getI vr2mem v = some INVALID

/-- The dirty spills of a log, in order: the virtual register spilled and
the address it is stored to. -/
def spills (tr : List Item) : List (Int × Int) := tr.filterMap Item.spillOf

/-- The bookkeeping of spills after the log `tr`, for `clean0` the table
`clean` as the analysis left it: the spill addresses so far, the next one,
the registers spilled so far, and where each register tagged `dirty` by the
analysis stands. -/
structure SpillInv (clean0 : List Clean) (k : Int) (m : Mem) (tr : List Item) : Prop where
  k_eq : m.k = k
  addrs : (spills tr).map Prod.snd =
    (List.range (spills tr).length).map (fun (j : Nat) => SPILL + 4 * (j : Int))
  next : m.nextMemAddr = SPILL + 4 * ((spills tr).length : Int)
  spilled : ∀ x ∈ spills tr, getI m.clean x.1 = some Clean.spilled
  nodup : ((spills tr).map Prod.fst).Nodup
  dirty : ∀ v, getI clean0 v = some Clean.dirty →
    (getI m.clean v = some Clean.dirty ∧ getI m.vr2mem v = some INVALID) ∨
    (getI m.clean v = some Clean.spilled ∧
      ∃ q a, Item.spillPair v q a k ∈ tr ∧ getI m.vr2mem v = some a)
  paired : ∀ t1 t2 vr p a kk, tr = t1 ++ Item.restorePair vr p a kk :: t2 →
    getI clean0 vr = some Clean.dirty → ∃ q, Item.spillPair vr q a kk ∈ t1

/-! ## Liveness of source registers -/

/-- The instruction reads the source register `s` through a source operand. -/
def Instruction.reads (it : Instruction) (s : Int) : Bool :=
  (it.src1.isReg && it.src1.sr == s) || (it.src2.isReg && it.src2.sr == s)

/-- The instruction writes the source register `s`. -/
def Instruction.writes (it : Instruction) (s : Int) : Bool :=
  it.dest.isReg && it.dest.sr == s

/-- The source register `s` is live on entry to a block: the block reads it
before writing it. -/
def liveIn : List Instruction → Int → Bool
  | [], _ => false
  | it :: rest, s => it.reads s || (!it.writes s && liveIn rest s)

/-- The number of source registers below `n` that satisfy `p`. -/
def countLive (n : Nat) (p : Int → Bool) : Nat :=
  ((List.range n).filter (fun (s : Nat) => p (s : Int))).length

/-- The register pressure at the instruction of index `i`, over the source
registers below `n`: the larger of the number of registers live on entry to
it and the number of registers that are live on exit from it or written by
it. -/
def pressureAt (n : Nat) (ir : List Instruction) (i : Nat) : Nat :=
  max (countLive n (liveIn (ir.drop i)))
    (countLive n (fun s => liveIn (ir.drop (i + 1)) s ||
      (match ir[i]? with
       | some it => it.writes s
       | none => false)))

/-- The largest register pressure over the instructions of a block. -/
def peak (n : Nat) (ir : List Instruction) : Nat :=
  ((List.range ir.length).map (pressureAt n ir)).foldr max 0

/-- The tables of the analysis agree with the set `f` of live source
registers: `sr2vr` is valid exactly on `f`, and `numLive` counts `f`. -/
structure LiveState (n : Nat) (f : Int → Bool) (s : LU) : Prop where
  len : s.sr2vr.length = n
  name : 0 ≤ s.vrName
  valid : ∀ j : Int, 0 ≤ j → j < n →
    ∃ v, getI s.sr2vr j = some v ∧ (v ≠ INVALID ↔ f j = true)
  count : s.numLive = countLive n f
  le : s.numLive ≤ s.maxLive

/-- The largest register pressure of a block, by recursion on the block. -/
def peakFrom (n : Nat) : List Instruction → Nat
  | [] => 0
  | it :: rest => max (peakFrom n rest)
      (max (countLive n (liveIn (it :: rest)))
           (countLive n (fun s => liveIn rest s || it.writes s)))

/-- In the words of the claim: the index of the instruction writing the
virtual register `v`, in an analysed block. -/
def defIndex (ir : List Instruction) (v : Int) : Option Nat :=
  ir.findIdx? (fun it => it.dest.isReg && it.dest.vr == v)

/-- In the words of the claim: the index of the last instruction reading the
virtual register `v`, in an analysed block. -/
def lastUseIndex (ir : List Instruction) (v : Int) : Option Nat :=
  ((List.range ir.length).filter (fun i =>
    match ir[i]? with
    | some it => (it.src1.isReg && it.src1.vr == v) || (it.src2.isReg && it.src2.vr == v)
    | none => false)).getLast?

/-- In the words of the claim: the number of virtual registers `v` below
`nvr` with `def(v) ≤ i ≤ last_use(v)`. -/
def spanCount (ir : List Instruction) (nvr : Nat) (i : Nat) : Nat :=
  ((List.range nvr).filter (fun (v : Nat) =>
    match defIndex ir (v : Int), lastUseIndex ir (v : Int) with
    | some d, some u => decide (d ≤ i) && decide (i ≤ u)
    | _, _ => false)).length

/-- In the words of the claim: the maximum over the instruction indices of
`spanCount`. -/
def claimedMaxLive (ir : List Instruction) (nvr : Nat) : Nat :=
  ((List.range ir.length).map (spanCount ir nvr)).foldr max 0

/-! ## The logs of the clean-load analysis -/

/-- The virtual register `v` is the destination of an instruction of `done`:
its live range is closed. -/
def killedIn (done : List Instruction) (v : Int) : Prop :=
  ∃ D ∈ done, D.dest.isReg = true ∧ D.dest.vr = v

/-- The naming of live ranges, for `K` the closed virtual registers: the
names in `sr2vr` are below `vrName`, pairwise distinct and not closed. -/
structure NameInv (K : Int → Prop) (s : LU) : Prop where
  name : 0 ≤ s.vrName
  live_lt : ∀ sr v, getI s.sr2vr sr = some v → v ≠ INVALID → 0 ≤ v ∧ v < s.vrName
  killed_lt : ∀ v, K v → 0 ≤ v ∧ v < s.vrName
  killed_dead : ∀ v, K v → ∀ sr, getI s.sr2vr sr ≠ some v
  inj : ∀ sr sr1 v, getI s.sr2vr sr = some v → getI s.sr2vr sr1 = some v → v ≠ INVALID →
    sr = sr1

/-- The tables `c1`, `v1` tag `cleanLoad` only what `c`, `v` tag so, with the
same address. -/
def Keeps (c : List Clean) (v : List Int) (c1 : List Clean) (v1 : List Int) : Prop :=
  ∀ x, getI c1 x = some Clean.cleanLoad → getI c x = some Clean.cleanLoad ∧ getI v1 x = getI v x

/-- The `stores` log after the instruction `it` is recorded (line 321). -/
def logStore (it : Instruction) (st : List (Int × Int)) : List (Int × Int) :=
  if it.op = Opcode.store then st ++ [(it.src2.vr, INVALID)] else st

/-- The `stores` log after the destination of `it` is reconciled
(lines 292-302). -/
def killStore (it : Instruction) (st : List (Int × Int)) : List (Int × Int) :=
  if it.dest.isReg then reconcileStores it.dest.vr it.op it.src1.sr st else st

/-- The `stores` log after the instructions `done` (the first of them at
index `0`): a store whose address register is not defined yet has an entry
with address `INVALID`; an entry of a register not defined yet has address
`INVALID`; a store whose address register is defined by an earlier `loadI`
has an entry with the immediate of that `loadI`. -/
structure StoreInv (done : List Instruction) (stores : List (Int × Int)) : Prop where
  pending : ∀ (j : Nat) (S : Instruction), done[j]? = some S → S.op = Opcode.store → ¬ killedIn done S.src2.vr →
    (S.src2.vr, INVALID) ∈ stores
  unknown : ∀ e ∈ stores, ¬ killedIn done e.1 → e.2 = INVALID
  known : ∀ (js jq : Nat) (S Q : Instruction), done[js]? = some S → done[jq]? = some Q → jq < js →
    S.op = Opcode.store → Q.op = Opcode.loadI → Q.dest.isReg = true →
    Q.dest.vr = S.src2.vr → (S.src2.vr, Q.src1.sr) ∈ stores

/-- Every entry of the `loads` log comes from a `load` of `done`. -/
def LoadInv (done : List Instruction) (loads : List (Int × Int)) : Prop :=
  ∀ e ∈ loads, ∃ (j : Nat) (L : Instruction), done[j]? = some L ∧ L.op = Opcode.load ∧
    e = (L.src1.vr, L.dest.vr)

/-- What the tag `cleanLoad` of `v` stands for in the analysed instructions
`done`: `v` is the destination of a `load` whose address register is defined
by an earlier `loadI` of the immediate `vr2mem[v]`, and no `store` after the
`load` has an address register defined by a `loadI` of the same immediate
located at or after that `loadI`. -/
def CleanLoadOK (done : List Instruction) (vr2mem : List Int) (v : Int) : Prop :=
  ∃ (p l : Nat) (P L : Instruction), p < l ∧ done[p]? = some P ∧ done[l]? = some L ∧
    P.op = Opcode.loadI ∧ L.op = Opcode.load ∧ L.dest.vr = v ∧ L.src1.vr = P.dest.vr ∧
    getI vr2mem v = some P.src1.sr ∧
    ∀ (s q : Nat) (S Q : Instruction), l < s → p ≤ q → q < s → done[s]? = some S →
      done[q]? = some Q → S.op = Opcode.store → Q.op = Opcode.loadI → Q.dest.isReg = true →
      Q.dest.vr = S.src2.vr → Q.src1.sr ≠ P.src1.sr

/-- The state of the analysis after the instructions `done`. -/
structure AnalysisInv (done : List Instruction) (s : LU) : Prop where
  tag : TagOK s.clean s.vr2mem
  names : NameInv (killedIn done) s
  stores : StoreInv done s.stores
  loads : LoadInv done s.loads
  clean : ∀ v, getI s.clean v = some Clean.cleanLoad → CleanLoadOK done s.vr2mem v

/-- The stores a block executes when run from `mem0`: the index of each
`store` and the address it writes. -/
def storeTargets (sel : Register → Int) (mem0 : Int → Int) (ir : List Instruction) :
    List (Nat × Int) :=
  (ir.enum.foldl (fun (acc : Machine × List (Nat × Int)) (x : Nat × Instruction) =>
      (exec1 sel acc.1 x.2,
       if x.2.op = Opcode.store then acc.2 ++ [(x.1, acc.1.regs (sel x.2.src2))] else acc.2))
    ({ regs := fun _ => 0, mem := mem0, out := [] }, [])).2

/-! ## The states of a run of `assignRegisters` -/

/-- The body of the loop of `Allocator::assignRegisters` at the instruction
`it`, as `assignStep`, returning the class and the members after each of its
seven statements: the two calls of `ensure`, the two conditional calls of
`freeRegister`, the two assignments of `next` and the assignment of the
destination. -/
def assignStepPts (it : Instruction) (c : Class) (m : Mem) :
    Option (List (Class × Mem) × Class × Mem) := do
  let (s1, c1, m1, _) ← assignSrc it.src1 c m
  let (s2, c2, m2, _) ← assignSrc it.src2 c1 m1
  let c3 ← freeIf (decide (s1.nu = INT_MAX)) s1.pr c2
  let c4 ← freeIf (s2.isReg && decide (s2.nu = INT_MAX)) s2.pr c3
  let c5 ← keepNext s1 c4
  let c6 ← keepNext s2 c5
  let (_, c7, m3, _) ← assignDest it.dest c6 m2
  pure ([(c1, m1), (c2, m2), (c3, m2), (c4, m2), (c5, m2), (c6, m2), (c7, m3)], c7, m3)

/-- The loop of `Allocator::assignRegisters`, as `assignLoop`, returning the
class and the members after every statement of every iteration, in order. -/
def assignLoopPts : List Instruction → Class → Mem → Option (List (Class × Mem))
  | [], _, _ => some []
  | it :: rest, c, m => do
    let (pts, c1, m1) ← assignStepPts it c m
    let more ← assignLoopPts rest c1 m1
    pure (pts ++ more)

/-- The constructor `Allocator::Allocator`, returning the class and the
members on entry to `assignRegisters` and then after every statement of it:
the state after the statement `j` (from `1` to `7`) of the iteration at the
instruction of index `i` is at index `7 * i + j`. -/
def AllocatorPts (ir : List Instruction) (numRegs : Int) : Option (List (Class × Mem)) := do
  let (ir1, s) ← computeLastUses ir
  let k := if numRegs < s.maxLive then numRegs - 1 else numRegs
  let m : Mem := { k := k, nextMemAddr := SPILL, maxLive := s.maxLive,
                   vr2mem := s.vr2mem, clean := s.clean }
  let pts ← assignLoopPts ir1 (Class.new k) m
  pure ((Class.new k, m) :: pts)

/-! ## The claims in their own words -/

/-- In the words of the claim: scanning `ir`, whose first instruction has
index `j`, the index of the first instruction that reads the source register
`s` before any instruction writes it; `INT_MAX` when there is none. -/
def nextUseFrom : List Instruction → Int → Nat → Int
  | [], _, _ => INT_MAX
  | it :: rest, s, j =>
    if it.reads s then (j : Int)
    else if it.writes s then INT_MAX
    else nextUseFrom rest s (j + 1)

/-- In the words of the claim: the smallest index `j > i` at which `s` is
read with no instruction at an index in `(i, j)` writing `s`; `INT_MAX` when
there is none. -/
def claimedNextUse (ir : List Instruction) (i : Nat) (s : Int) : Int :=
  nextUseFrom (ir.drop (i + 1)) s (i + 1)

/-- In the words of the claim: for every physical register `p` of the class,
`free[p]` is true exactly when `p` is on the free stack, exactly when
`name[p]` is `INVALID`; and no register is on the free stack twice. -/
def freeListOK (c : Class) : Bool :=
  (List.range c.sz.toNat).all (fun (p : Nat) =>
    ((getI c.free p == some true) == c.stk.contains (p : Int)) &&
    (c.stk.contains (p : Int) == (getI c.name p == some INVALID))) &&
  decide c.stk.Nodup

/-- The register `r` is, among the registers below `i` whose tag satisfies
`Q`, one with the largest `next`, and the last such one. -/
def LastBest (c : Class) (Q : Clean → Bool) (i r : Int) : Prop :=
  0 ≤ r ∧ r < i ∧ ∃ cc x, getI c.cclean r = some cc ∧ Q cc = true ∧ getI c.next r = some x ∧
    ∀ j cj xj, 0 ≤ j → j < i → getI c.cclean j = some cj → Q cj = true →
      getI c.next j = some xj → xj ≤ x ∧ (xj = x → j ≤ r)

/-- The index `r` holds a largest element of `xs`, and the first such one. -/
def FirstMax (xs : List Int) (r : Nat) : Prop :=
  ∃ x, xs[r]? = some x ∧ ∀ (j : Nat) (y : Int), xs[j]? = some y → y ≤ x ∧ (y = x → r ≤ j)

/-- The three operand positions of an instruction. -/
inductive Slot where
  | src1
  | src2
  | dest
  deriving DecidableEq, Repr

/-- The operand of an instruction at a position. -/
def Instruction.slot (it : Instruction) : Slot → Register
  | Slot.src1 => it.src1
  | Slot.src2 => it.src2
  | Slot.dest => it.dest

/-- In the words of the claim: the last index below `i` at which the source
register `s` is written; `none` before the first definition of `s`. -/
def lastDef (ir : List Instruction) (s : Int) : Nat → Option Nat
  | 0 => none
  | i + 1 =>
    if (match ir[i]? with
        | some D => D.writes s
        | none => false) then some i
    else lastDef ir s i

/-- In the words of the claim: the live range of the operand at the position
`sl` of the instruction of index `i`, which names the source register `s`,
given by the index of the definition that opens it: the instruction itself
for a destination, the last definition of `s` before `i` for a source,
`none` for the reads of `s` before its first definition. -/
def rangeOf (ir : List Instruction) (i : Nat) (sl : Slot) (s : Int) : Option Nat :=
  match sl with
  | Slot.dest => some i
  | _ => lastDef ir s i

/-- In the words of the claim: successive calls of `allocate`, one for each
virtual register of the list, with no call of `freeRegister` in between;
returns the physical registers in the order of the calls, the class, the
members and the instructions inserted. -/
def allocateAll : List Int → Class → Mem →
    Option (List Int × Class × Mem × List Instruction)
  | [], c, m => some ([], c, m, [])
  | vr :: rest, c, m => do
    let (pr, c1, m1, ins) ← allocate vr c m
    let (prs, c2, m2, ins2) ← allocateAll rest c1 m1
    pure (pr :: prs, c2, m2, ins ++ ins2)

/-- In the words of the claims: `s` is the instruction `loadI imm => r pr`.
Its opcode is `loadI`, its first operand is the immediate `imm`, it has no
second operand and its destination is the physical register `pr`; these are
the fields `printCode` prints. -/
def Instruction.isLoadI (s : Instruction) (imm pr : Int) : Prop :=
  s.op = Opcode.loadI ∧ s.src1.isReg = false ∧ s.src1.sr = imm ∧
  s.src2.isReg = false ∧ s.src2.pr = INVALID ∧ s.dest.isReg = true ∧ s.dest.pr = pr

/-- In the words of the claims: `s` is the instruction `load r a => r pr`.
Its opcode is `load`, its first operand is the physical register `a`, it has
no second operand and its destination is the physical register `pr`. -/
def Instruction.isLoad (s : Instruction) (a pr : Int) : Prop :=
  s.op = Opcode.load ∧ s.src1.isReg = true ∧ s.src1.pr = a ∧
  s.src2.isReg = false ∧ s.src2.pr = INVALID ∧ s.dest.isReg = true ∧ s.dest.pr = pr

/-- In the words of the claims: `s` is the instruction `store r pr => r a`.
Its opcode is `store`, its first operand is the physical register `pr`, its
second operand, the address, is the physical register `a`, and it has no
destination. -/
def Instruction.isStore (s : Instruction) (pr a : Int) : Prop :=
  s.op = Opcode.store ∧ s.src1.isReg = true ∧ s.src1.pr = pr ∧
  s.src2.isReg = true ∧ s.src2.pr = a ∧ s.dest.isReg = false ∧ s.dest.pr = INVALID

/-! ## The input contract and what a run keeps true -/

/-- Modelled from the spec: an operand as the front end leaves it. A register
operand has a source register number that is not negative; on an operand
that is not a register the fields `pr` and `nu` are unset. -/
def Register.parsed (r : Register) : Bool :=
  (!r.isReg || decide (0 ≤ r.sr)) && (r.isReg || (r.pr == INVALID && r.nu == INVALID))

/-- Modelled from the spec: an instruction as the front end leaves it. Every
operand is as above, and a `loadI` or a `load` has a register as its
destination. -/
def Instruction.parsed (it : Instruction) : Bool :=
  it.src1.parsed && it.src2.parsed && it.dest.parsed &&
  (it.op != Opcode.loadI || it.dest.isReg) && (it.op != Opcode.load || it.dest.isReg)

/-- An operand after `computeLastUses`, for `n` virtual registers: a register
operand has a virtual register below `n` and a next use that is at least
`INVALID`; another operand still has `pr` and `nu` unset. -/
def Register.ready (n : Int) (r : Register) : Prop :=
  (r.isReg = true → 0 ≤ r.vr ∧ r.vr < n ∧ -1 ≤ r.nu) ∧
  (r.isReg = false → r.pr = INVALID ∧ r.nu = INVALID)

/-- What the backward sweep keeps true of its locals, for `N` source
registers: the sizes of the vectors, and that every index kept in them is
inside the vector it is used on. -/
structure SweepOK (N : Nat) (s : LU) : Prop where
  len1 : s.sr2vr.length = N
  len2 : s.lastUse.length = N
  name : (s.clean.length : Int) = s.vrName
  tag : s.clean.length = s.vr2mem.length
  live : ∀ sr v, getI s.sr2vr sr = some v → v ≠ INVALID → 0 ≤ v ∧ v < s.vrName
  loads : ∀ e ∈ s.loads, 0 ≤ e.2 ∧ e.2 < s.vrName
  last : ∀ sr x, getI s.lastUse sr = some x → -1 ≤ x

/-- Every register operand of `it` has a source register number below `N`. -/
def Instruction.srBound (N : Int) (it : Instruction) : Prop :=
  ∀ o ∈ it.operands, o.isReg = true → o.sr < N

/-- What the allocator sweep keeps true of the class, for `K` physical and `n`
virtual registers, at every register but `q`: the sizes of the vectors, that
the stack holds register indices, that a register without a name is on the
stack and that a name is a virtual register. -/
structure ClassPre (K : Nat) (n : Int) (q : Int) (c : Class) : Prop where
  pos : 1 ≤ K
  sz : c.sz = K
  lname : c.name.length = K
  lnext : c.next.length = K
  lfree : c.free.length = K
  lclean : c.cclean.length = K
  stk : ∀ p ∈ c.stk, 0 ≤ p ∧ p < K
  nm : ∀ p v, p ≠ q → getI c.name p = some v →
    (v = INVALID → p ∈ c.stk) ∧ (v ≠ INVALID → 0 ≤ v ∧ v < n)
  nx : ∀ p x, getI c.next p = some x → -1 ≤ x

/-- The same at every register. -/
def ClassOK (K : Nat) (n : Int) (c : Class) : Prop := ClassPre K n INVALID c

/-- The sizes of `clean` and `vr2mem`, for `n` virtual registers. -/
structure MemOK (n : Int) (m : Mem) : Prop where
  lclean : (m.clean.length : Int) = n
  lmem : m.vr2mem.length = m.clean.length

/-- The definitions of an analysed block are fresh: no register operand of an
instruction carries the virtual register written by a later instruction, and
no source operand carries the one written by its own instruction. -/
def DefsFresh : List Instruction → Prop
  | [] => True
  | it :: rest =>
    (∀ o ∈ it.operands, o.isReg = true → ¬ killedIn rest o.vr) ∧
    (it.dest.isReg = true →
      (it.src1.isReg = true → it.src1.vr ≠ it.dest.vr) ∧
      (it.src2.isReg = true → it.src2.vr ≠ it.dest.vr)) ∧
    DefsFresh rest

/-- The tags of the `loadI` destinations after the instructions `done`: the
destination of every `loadI` is tagged `remat` with the immediate as its
address, and no `load` writes the virtual register of a `loadI`. -/
structure RematInv (done : List Instruction) (s : LU) : Prop where
  regs : ∀ P ∈ done, P.op = Opcode.loadI ∨ P.op = Opcode.load → P.dest.isReg = true
  tag : ∀ P ∈ done, P.op = Opcode.loadI →
    getI s.clean P.dest.vr = some Clean.remat ∧ getI s.vr2mem P.dest.vr = some P.src1.sr
  apart : ∀ L ∈ done, ∀ P ∈ done, L.op = Opcode.load → P.op = Opcode.loadI →
    L.dest.vr ≠ P.dest.vr

/-- What a run of `assignRegisters` keeps true, for `clean0` and `vr2mem0`
the tables as the analysis left them and `rest` the instructions still ahead:
no virtual register is named by two physical registers; no physical register
names the destination of an instruction still ahead; the name of a register
tagged `remat` is tagged `remat` in `clean`; what the analysis tagged `remat`
is still tagged `remat`, with the same address. -/
structure RunInv (clean0 : List Clean) (vr2mem0 : List Int) (rest : List Instruction)
    (c : Class) (m : Mem) : Prop where
  uniq : ∀ p q v, getI c.name p = some v → getI c.name q = some v → v ≠ INVALID → p = q
  fresh : ∀ D ∈ rest, D.dest.isReg = true → ∀ p, getI c.name p = some D.dest.vr →
    D.dest.vr = INVALID
  coh : ∀ q, getI c.cclean q = some Clean.remat →
    ∃ v, getI c.name q = some v ∧ getI m.clean v = some Clean.remat
  remat : ∀ v, getI clean0 v = some Clean.remat →
    getI m.clean v = some Clean.remat ∧ getI m.vr2mem v = getI vr2mem0 v

/-- What an entry of the log may be, for `clean0` and `vr2mem0` the tables as
the analysis left them: a spill or a two-instruction restore is never made
for a register tagged `remat`, and a rematerialization of such a register
loads the address recorded for it. -/
def Item.rematOK (clean0 : List Clean) (vr2mem0 : List Int) : Item → Prop
  | Item.spillPair vr _ _ _ => getI clean0 vr ≠ some Clean.remat
  | Item.restorePair vr _ _ _ => getI clean0 vr ≠ some Clean.remat
  | Item.rematLoad vr _ a => getI clean0 vr = some Clean.remat → getI vr2mem0 vr = some a
  | Item.orig _ => True

/-- What the analysis tagged `remat` is still tagged `remat` in `m`, with the
same address. -/
def RematKept (clean0 : List Clean) (vr2mem0 : List Int) (m : Mem) : Prop :=
  ∀ v, getI clean0 v = some Clean.remat →
    getI m.clean v = some Clean.remat ∧ getI m.vr2mem v = getI vr2mem0 v

/-- The cache `cclean` agrees with `clean` at every physical register but
`q`: a register that has a name caches the tag of its name, and a register
without a name is cached as `dirty`. -/
def CachePre (q : Int) (c : Class) (m : Mem) : Prop :=
  ∀ p v, p ≠ q → getI c.name p = some v →
    (v ≠ INVALID → ∃ cl, getI c.cclean p = some cl ∧ getI m.clean v = some cl) ∧
    (v = INVALID → getI c.cclean p = some Clean.dirty)

/-- The same at every physical register. -/
def CacheOK (c : Class) (m : Mem) : Prop :=
  ∀ p v, getI c.name p = some v →
    (v ≠ INVALID → ∃ cl, getI c.cclean p = some cl ∧ getI m.clean v = some cl) ∧
    (v = INVALID → getI c.cclean p = some Clean.dirty)

/-- A physical register whose flag `free` is set has no name. -/
def FlagOK (c : Class) : Prop :=
  ∀ p, getI c.free p = some true → getI c.name p = some INVALID

/-- The scratch register an entry of the log names is `k`. -/
def Item.usesScratch (k : Int) : Item → Prop
  | Item.spillPair _ _ _ kk => kk = k
  | Item.restorePair _ _ _ kk => kk = k
  | _ => True

/-! ## The operands of a block and their live ranges -/

/-- The live range of an operand of a block when an instruction that writes
its source register (`w`) or does not is put in front of the block. -/
def shiftKey (w : Bool) : Option Nat → Option Nat
  | some d => some (d + 1)
  | none => if w then some 0 else none

/-- An operand of a block, as its source register, its live range and its
virtual register, when `it` is put in front of the block. -/
def shiftOcc (it : Instruction) (e : Int × Option Nat × Int) : Int × Option Nat × Int :=
  (e.1, shiftKey (it.writes e.1) e.2.1, e.2.2)

/-- The register operands of an instruction put in front of a block, each as
its source register, its live range and its virtual register. -/
def ownOccs (it : Instruction) : List (Int × Option Nat × Int) :=
  (if it.src2.isReg then [(it.src2.sr, none, it.src2.vr)] else []) ++
  ((if it.src1.isReg then [(it.src1.sr, none, it.src1.vr)] else []) ++
   (if it.dest.isReg then [(it.dest.sr, some 0, it.dest.vr)] else []))

/-- The register operands of an analysed block, each as its source register,
its live range and its virtual register. -/
def occsOf : List Instruction → List (Int × Option Nat × Int)
  | [] => []
  | it :: rest => ownOccs it ++ (occsOf rest).map (shiftOcc it)

/-- The naming of the operands `O` seen so far by the backward sweep: the
virtual registers are below `vrName`; two operands have the same one exactly
when they have the same source register and the same live range; a source
register in use names the operands of its live range that is still open, and
one not in use has no open live range; every virtual register below `vrName`
is carried by an operand. -/
structure OccInv (O : List (Int × Option Nat × Int)) (s : LU) : Prop where
  name : 0 ≤ s.vrName
  lt : ∀ e ∈ O, 0 ≤ e.2.2 ∧ e.2.2 < s.vrName
  same : ∀ e ∈ O, ∀ f ∈ O, (e.2.2 = f.2.2 ↔ (e.1 = f.1 ∧ e.2.1 = f.2.1))
  live : ∀ sr v, getI s.sr2vr sr = some v → v ≠ INVALID →
    (0 ≤ v ∧ v < s.vrName) ∧ ∀ e ∈ O, (e.2.2 = v ↔ (e.1 = sr ∧ e.2.1 = none))
  dead : ∀ sr, getI s.sr2vr sr = some INVALID → ∀ e ∈ O, ¬ (e.1 = sr ∧ e.2.1 = none)
  all : ∀ v, 0 ≤ v → v < s.vrName → ∃ e ∈ O, e.2.2 = v

/-- The operand `e`, as its source register, its live range and its virtual
register, is a register operand of the block. -/
def IsOcc (done : List Instruction) (e : Int × Option Nat × Int) : Prop :=
  ∃ (i : Nat) (A : Instruction) (sl : Slot), done[i]? = some A ∧ (A.slot sl).isReg = true ∧
    (A.slot sl).sr = e.1 ∧ (A.slot sl).vr = e.2.2 ∧ rangeOf done i sl e.1 = e.2.1

/-! ## Blocks used as concrete inputs -/

/-- A register operand as the parser leaves it. -/
def reg (n : Int) : Register := { Register.blank with isReg := true, sr := n }

/-- An immediate operand as the parser leaves it. -/
def imm (n : Int) : Register := { Register.blank with sr := n }

/-- The parsed instruction `loadI c => r d`. -/
def iLoadI (c d : Int) : Instruction :=
  { op := Opcode.loadI, src1 := imm c, src2 := Register.blank, dest := reg d }

/-- The parsed instruction `load r a => r d`. -/
def iLoad (a d : Int) : Instruction :=
  { op := Opcode.load, src1 := reg a, src2 := Register.blank, dest := reg d }

/-- The parsed instruction `store r v => r a`. -/
def iStore (v a : Int) : Instruction :=
  { op := Opcode.store, src1 := reg v, src2 := reg a, dest := Register.blank }

/-- The parsed instruction `add r a, r b => r d`. -/
def iAdd (a b d : Int) : Instruction :=
  { op := Opcode.add, src1 := reg a, src2 := reg b, dest := reg d }

/-- The parsed instruction `sub r a, r b => r d`. -/
def iSub (a b d : Int) : Instruction :=
  { op := Opcode.sub, src1 := reg a, src2 := reg b, dest := reg d }

/-- The parsed instruction `output c`. -/
def iOutput (c : Int) : Instruction :=
  { op := Opcode.output, src1 := imm c, src2 := Register.blank, dest := Register.blank }

/-- A well-formed block whose sums are never read:
`loadI 1 => r1; add r1, r1 => r2; add r1, r1 => r3; add r1, r1 => r4;
add r1, r1 => r5`. -/
def deadDefBlock : List Instruction :=
  [iLoadI 1 1, iAdd 1 1 2, iAdd 1 1 3, iAdd 1 1 4, iAdd 1 1 5]

/-- A well-formed block without unused definitions, four values live at once:
`loadI 4 => r1; loadI 8 => r0; add r0, r0 => r3; sub r3, r3 => r2;
add r1, r0 => r4; store r4 => r0; store r3 => r2; output 8`. -/
def evictBlock : List Instruction :=
  [iLoadI 4 1, iLoadI 8 0, iAdd 0 0 3, iSub 3 3 2, iAdd 1 0 4, iStore 4 0, iStore 3 2,
   iOutput 8]

/-- A well-formed block whose sum is read:
`loadI 1024 => r0; loadI 4 => r1; add r0, r1 => r2; store r2 => r2`. -/
def pressureBlock : List Instruction :=
  [iLoadI 1024 0, iLoadI 4 1, iAdd 0 1 2, iStore 2 2]

/-- A well-formed block that stores to a computed address:
`loadI 1024 => r0; load r0 => r1; loadI 1020 => r2; loadI 4 => r3;
add r2, r3 => r4; store r3 => r4; add r1, r1 => r5`. -/
def storeAliasBlock : List Instruction :=
  [iLoadI 1024 0, iLoad 0 1, iLoadI 1020 2, iLoadI 4 3, iAdd 2 3 4, iStore 3 4, iAdd 1 1 5]

/-- The block of the clean-load scenario:
`loadI 1024 => r0; load r0 => r1; loadI 1024 => r2; add r1, r2 => r3;
output 1024`. -/
def cleanLoadBlock : List Instruction :=
  [iLoadI 1024 0, iLoad 0 1, iLoadI 1024 2, iAdd 1 2 3, iOutput 1024]

/-- A well-formed block in which two sources die in the same register:
`loadI 4 => r1; store r1 => r1; loadI 8 => r2; load r2 => r0;
add r2, r2 => r0; add r1, r2 => r3`. -/
def doubleFreeBlock : List Instruction :=
  [iLoadI 4 1, iStore 1 1, iLoadI 8 2, iLoad 2 0, iAdd 2 2 0, iAdd 1 2 3]

/-- A well-formed block with a clean load and sums that are never read:
`loadI 1024 => r0; load r0 => r1; add r1, r1 => r2; add r1, r1 => r3;
add r1, r1 => r4; add r1, r1 => r5`. -/
def cleanDirtyBlock : List Instruction :=
  [iLoadI 1024 0, iLoad 0 1, iAdd 1 1 2, iAdd 1 1 3, iAdd 1 1 4, iAdd 1 1 5]

/-- The class and the members of the run on `deadDefBlock` with three
registers requested, before the destination of the instruction of index `3`
is allocated: no register is free and the register `0` holds a `remat`
value. -/
def rematVictimState : Class × Mem :=
  ({ sz := 3, free := [false, false, false], name := [1, 4, 3],
     next := [3, INT_MAX, INT_MAX], cclean := [Clean.remat, Clean.dirty, Clean.dirty],
     stk := [] },
   { k := 3, nextMemAddr := SPILL, maxLive := 2, vr2mem := [-1, 1, -1, -1, -1],
     clean := [Clean.dirty, Clean.remat, Clean.dirty, Clean.dirty, Clean.dirty] })

/-- The class and the members of the same run before the first source of the
instruction of index `4` is ensured: no register is free and every register
holds a `dirty` value with `next = INT_MAX`. -/
def dirtyVictimState : Class × Mem :=
  ({ sz := 3, free := [false, false, false], name := [2, 4, 3],
     next := [INT_MAX, INT_MAX, INT_MAX], cclean := [Clean.dirty, Clean.dirty, Clean.dirty],
     stk := [] },
   { k := 3, nextMemAddr := SPILL, maxLive := 2, vr2mem := [-1, 1, -1, -1, -1],
     clean := [Clean.dirty, Clean.remat, Clean.dirty, Clean.dirty, Clean.dirty] })

/-- A class in which two `remat` registers share the largest `next` among the
`remat` registers. -/
def rematTieClass : Class :=
  { sz := 3, free := [false, false, false], name := [0, 1, 2], next := [7, 7, 9],
    cclean := [Clean.remat, Clean.remat, Clean.dirty], stk := [] }

/-- A block that reads and writes `r1` in one instruction:
`loadI 1 => r1; add r1, r1 => r1; add r1, r1 => r2`. -/
def redefBlock : List Instruction := [iLoadI 1 1, iAdd 1 1 1, iAdd 1 1 2]

/-- The memory that holds `0` everywhere. -/
def zeroMem : Int → Int := fun _ => 0

/-- The memory that holds `5` at the address `1024` and `0` elsewhere. -/
def fiveAt1024 : Int → Int := upd zeroMem 1024 5

/-- A well-formed block that stores to a computed address between a load and
the use of the loaded value: `loadI 1024 => r0; load r0 => r1;
loadI 512 => r2; loadI 2048 => r4; add r2, r2 => r3; store r2 => r3;
store r1 => r4; output 2048`. -/
def staleLoadBlock : List Instruction :=
  [iLoadI 1024 0, iLoad 0 1, iLoadI 512 2, iLoadI 2048 4, iAdd 2 2 3, iStore 2 3, iStore 1 4,
   iOutput 2048]

/-- A well-formed block whose stores take their address from a `loadI 1024`
placed before the `loadI 1024` of the load: `loadI 1024 => r5;
loadI 1024 => r0; load r0 => r1; loadI 7 => r2; add r2, r2 => r3;
store r3 => r5; store r2 => r5; loadI 2048 => r4; store r1 => r4;
output 2048`. -/
def staleOrderBlock : List Instruction :=
  [iLoadI 1024 5, iLoadI 1024 0, iLoad 0 1, iLoadI 7 2, iAdd 2 2 3, iStore 3 5, iStore 2 5,
   iLoadI 2048 4, iStore 1 4, iOutput 2048]

/-! ## Theorems -/

set_option maxRecDepth 100000


theorem getI_some {α : Type} {xs : List α} {i : Int} {v : α} (h : getI xs i = some v) :
    0 ≤ i ∧ i.toNat < xs.length ∧ xs[i.toNat]? = some v := by
  unfold getI at h
  split at h
  · refine ⟨by assumption, ?_, h⟩
    exact (List.getElem?_eq_some_iff.mp h).1
  · cases h

theorem setI_some {α : Type} {xs ys : List α} {i : Int} {v : α} (h : setI xs i v = some ys) :
    0 ≤ i ∧ i.toNat < xs.length ∧ ys = xs.set i.toNat v := by
  unfold setI at h
  split at h
  · rename_i hc
    exact ⟨hc.1, hc.2, (Option.some.inj h).symm⟩
  · cases h

theorem setI_length {α : Type} {xs ys : List α} {i : Int} {v : α} (h : setI xs i v = some ys) :
    ys.length = xs.length := by
  rw [(setI_some h).2.2, List.length_set]

theorem occupy_inv {pr vr : Int} {c c1 : Class} {m : Mem} (h : occupy pr vr c m = some c1) :
    0 ≤ pr ∧ pr.toNat < c.name.length ∧ ∃ cl, getI m.clean vr = some cl ∧
      setI c.cclean pr cl = some c1.cclean ∧
      c1.name = c.name.set pr.toNat vr ∧ c1.next = c.next.set pr.toNat INVALID ∧
      c1.free = c.free.set pr.toNat false ∧ c1.stk = c.stk ∧ c1.sz = c.sz := by
  unfold occupy at h
  simp only [Option.bind_eq_bind, Option.pure_def, Option.bind_eq_some, Option.some.injEq] at h
  obtain ⟨n1, hn, x1, hx, f1, hf, cl, hcl, cc, hcc, rfl⟩ := h
  have h1 := setI_some hn
  refine ⟨h1.1, h1.2.1, cl, hcl, hcc, h1.2.2, (setI_some hx).2.2, (setI_some hf).2.2, rfl, rfl⟩

theorem spill_inv {pr : Int} {c : Class} {m m1 : Mem} {ins : List Instruction}
    (h : spill pr c m = some (m1, ins)) :
    ∃ victim cl, getI c.name pr = some victim ∧ getI m.clean victim = some cl ∧
      ((cl ≠ Clean.dirty ∧ m1 = m ∧ ins = []) ∨
       (cl = Clean.dirty ∧ 0 ≤ victim ∧ victim.toNat < m.vr2mem.length ∧
        m1 = { m with vr2mem := m.vr2mem.set victim.toNat m.nextMemAddr,
                      nextMemAddr := m.nextMemAddr + 4,
                      clean := m.clean.set victim.toNat Clean.spilled } ∧
        ins = [mkLoadI m.nextMemAddr m.k, mkStore pr m.k])) := by
  unfold spill at h
  simp only [Option.bind_eq_bind, Option.pure_def, Option.bind_eq_some] at h
  obtain ⟨victim, hv, cl, hcl, h⟩ := h
  refine ⟨victim, cl, hv, hcl, ?_⟩
  split at h
  · rename_i hd
    simp only [Option.bind_eq_some, Option.some.injEq, Prod.mk.injEq] at h
    obtain ⟨v1, hv1, c1, hc1, rfl, rfl⟩ := h
    have a := setI_some hv1
    have b := setI_some hc1
    right
    refine ⟨hd, a.1, a.2.1, ?_, rfl⟩
    rw [a.2.2, b.2.2]
  · rename_i hd
    simp only [Option.some.injEq, Prod.mk.injEq] at h
    left
    exact ⟨hd, h.1.symm, h.2.symm⟩

theorem choose_inv {c c1 : Class} {m m1 : Mem} {pr : Int} {ins : List Instruction}
    (h : choose c m = some (pr, c1, m1, ins)) :
    (∃ rest, c.stk = pr :: rest ∧ c1 = { c with stk := rest } ∧ m1 = m ∧ ins = []) ∨
    (c.stk = [] ∧ c1 = c ∧ optimalPR c = some pr ∧ spill pr c m = some (m1, ins)) := by
  unfold choose at h
  split at h
  · rename_i top rest hs
    simp only [Option.some.injEq, Prod.mk.injEq] at h
    obtain ⟨rfl, rfl, rfl, rfl⟩ := h
    exact Or.inl ⟨rest, hs, rfl, rfl, rfl⟩
  · rename_i hs
    simp only [Option.bind_eq_bind, Option.pure_def, Option.bind_eq_some, Option.some.injEq,
      Prod.mk.injEq, Prod.exists] at h
    obtain ⟨pr1, hp, m2, ins2, hsp, rfl, rfl, rfl, rfl⟩ := h
    exact Or.inr ⟨hs, rfl, hp, hsp⟩

theorem allocate_inv {vr pr : Int} {c c2 : Class} {m m1 : Mem} {ins : List Instruction}
    (h : allocate vr c m = some (pr, c2, m1, ins)) :
    ∃ c1, choose c m = some (pr, c1, m1, ins) ∧ occupy pr vr c1 m1 = some c2 := by
  unfold allocate at h
  simp only [Option.bind_eq_bind, Option.pure_def, Option.bind_eq_some, Option.some.injEq,
    Prod.mk.injEq, Prod.exists] at h
  obtain ⟨pr1, c1, m2, ins2, hc, c3, ho, rfl, rfl, rfl, rfl⟩ := h
  exact ⟨c1, hc, ho⟩

theorem restore_inv {vr pr : Int} {m : Mem} {ins : List Instruction}
    (h : restore vr pr m = some ins) :
    ∃ cl a, getI m.clean vr = some cl ∧ getI m.vr2mem vr = some a ∧
      ((cl = Clean.remat ∧ ins = [mkLoadI a pr]) ∨
       (cl ≠ Clean.remat ∧ a ≠ INVALID ∧ ins = [mkLoadI a m.k, mkLoad m.k pr]) ∨
       (cl ≠ Clean.remat ∧ a = INVALID ∧ ins = [])) := by
  unfold restore at h
  simp only [Option.bind_eq_bind, Option.pure_def, Option.bind_eq_some] at h
  obtain ⟨cl, hcl, a, ha, h⟩ := h
  refine ⟨cl, a, hcl, ha, ?_⟩
  split at h
  · rename_i hr
    exact Or.inl ⟨hr, (Option.some.inj h).symm⟩
  · rename_i hr
    split at h
    · rename_i hne
      exact Or.inr (Or.inl ⟨hr, hne, (Option.some.inj h).symm⟩)
    · rename_i hne
      exact Or.inr (Or.inr ⟨hr, not_not.mp hne, (Option.some.inj h).symm⟩)

theorem ensure_inv {vr pr : Int} {c c1 : Class} {m m1 : Mem} {ins : List Instruction}
    (h : ensure vr c m = some (pr, c1, m1, ins)) :
    (c.name.indexOf vr < c.name.length ∧ pr = (c.name.indexOf vr : Int) ∧ c1 = c ∧ m1 = m ∧
      ins = []) ∨
    (¬ c.name.indexOf vr < c.name.length ∧ ∃ ins0 ins1,
      allocate vr c m = some (pr, c1, m1, ins0) ∧ restore vr pr m1 = some ins1 ∧
      ins = ins0 ++ ins1) := by
  unfold ensure at h
  split at h
  · rename_i hf
    simp only [Option.some.injEq, Prod.mk.injEq] at h
    obtain ⟨rfl, rfl, rfl, rfl⟩ := h
    exact Or.inl ⟨hf, rfl, rfl, rfl, rfl⟩
  · rename_i hf
    simp only [Option.bind_eq_bind, Option.pure_def, Option.bind_eq_some, Option.some.injEq,
      Prod.mk.injEq, Prod.exists] at h
    obtain ⟨pr1, c2, m2, ins2, ha, ins3, hr, rfl, rfl, rfl, rfl⟩ := h
    exact Or.inr ⟨hf, ins2, ins3, ha, hr, rfl⟩


theorem freeRegister_inv {pr : Int} {c c1 : Class} (h : freeRegister pr c = some c1) :
    0 ≤ pr ∧ pr.toNat < c.name.length ∧ c1.name = c.name.set pr.toNat INVALID ∧
    c1.next = c.next.set pr.toNat INT_MAX ∧ c1.free = c.free.set pr.toNat true ∧
    c1.cclean = c.cclean.set pr.toNat Clean.dirty ∧ c1.stk = pr :: c.stk ∧ c1.sz = c.sz := by
  unfold freeRegister at h
  simp only [Option.bind_eq_bind, Option.pure_def, Option.bind_eq_some, Option.some.injEq] at h
  obtain ⟨n1, hn, x1, hx, f1, hf, cc, hcc, rfl⟩ := h
  have h1 := setI_some hn
  exact ⟨h1.1, h1.2.1, h1.2.2, (setI_some hx).2.2, (setI_some hf).2.2, (setI_some hcc).2.2,
    rfl, rfl⟩

theorem freeIf_name_length {b : Bool} {pr : Int} {c c1 : Class} (h : freeIf b pr c = some c1) :
    c1.name.length = c.name.length := by
  unfold freeIf at h
  split at h
  · rw [(freeRegister_inv h).2.2.1, List.length_set]
  · rw [← Option.some.inj h]

theorem keepNext_name {r : Register} {c c1 : Class} (h : keepNext r c = some c1) :
    c1.name = c.name ∧ c1.stk = c.stk ∧ c1.free = c.free ∧ c1.cclean = c.cclean ∧
    c1.sz = c.sz := by
  unfold keepNext at h
  split at h
  · simp only [Option.bind_eq_bind, Option.pure_def, Option.bind_eq_some, Option.some.injEq] at h
    obtain ⟨n1, _, rfl⟩ := h
    exact ⟨rfl, rfl, rfl, rfl, rfl⟩
  · rw [← Option.some.inj h]
    exact ⟨rfl, rfl, rfl, rfl, rfl⟩

theorem spill_frame {pr : Int} {c : Class} {m m1 : Mem} {ins : List Instruction}
    (h : spill pr c m = some (m1, ins)) :
    m1.k = m.k ∧ m1.maxLive = m.maxLive ∧
    (ins = [] ∨ ins = [mkLoadI m.nextMemAddr m.k, mkStore pr m.k]) := by
  obtain ⟨victim, cl, _, _, h⟩ := spill_inv h
  rcases h with ⟨_, rfl, rfl⟩ | ⟨_, _, _, rfl, rfl⟩
  · exact ⟨rfl, rfl, Or.inl rfl⟩
  · exact ⟨rfl, rfl, Or.inr rfl⟩

theorem allocate_frame {vr pr : Int} {c c2 : Class} {m m1 : Mem} {ins : List Instruction}
    (h : allocate vr c m = some (pr, c2, m1, ins)) :
    0 ≤ pr ∧ pr.toNat < c.name.length ∧ c2.name.length = c.name.length ∧
    m1.k = m.k ∧ m1.maxLive = m.maxLive ∧
    (ins = [] ∨ ins = [mkLoadI m.nextMemAddr m.k, mkStore pr m.k]) := by
  obtain ⟨c1, hc, ho⟩ := allocate_inv h
  have o := occupy_inv ho
  obtain ⟨cl, _, _, hname, _⟩ := o.2.2
  rcases choose_inv hc with ⟨rest, _, rfl, rfl, rfl⟩ | ⟨_, rfl, _, hsp⟩
  · refine ⟨o.1, o.2.1, ?_, rfl, rfl, Or.inl rfl⟩
    rw [hname, List.length_set]
  · have f := spill_frame hsp
    refine ⟨o.1, o.2.1, ?_, f.1, f.2.1, f.2.2⟩
    rw [hname, List.length_set]

theorem lt_of_toNat_lt {pr k : Int} {n : Nat} (h0 : 0 ≤ pr) (h : pr.toNat < n)
    (hk : n = k.toNat) : pr < k := by
  omega

theorem isSplice_of_allocate {vr pr : Int} {c c2 : Class} {m m1 : Mem} {ins : List Instruction}
    (h : allocate vr c m = some (pr, c2, m1, ins)) (hlen : c.name.length = m.k.toNat) :
    ∀ s ∈ ins, IsSplice m.k s := by
  have f := allocate_frame h
  have hb := lt_of_toNat_lt f.1 f.2.1 hlen
  intro s hs
  rcases f.2.2.2.2.2 with e | e
  · rw [e] at hs; cases hs
  · rw [e] at hs
    simp only [List.mem_cons, List.mem_singleton, List.not_mem_nil, or_false] at hs
    rcases hs with rfl | rfl
    · exact ⟨_, pr, f.1, hb, Or.inl rfl⟩
    · exact ⟨0, pr, f.1, hb, Or.inr (Or.inr (Or.inr rfl))⟩

theorem ensure_frame {vr pr : Int} {c c1 : Class} {m m1 : Mem} {ins : List Instruction}
    (h : ensure vr c m = some (pr, c1, m1, ins)) (hlen : c.name.length = m.k.toNat) :
    0 ≤ pr ∧ pr < m.k ∧ c1.name.length = c.name.length ∧ m1.k = m.k ∧
    m1.maxLive = m.maxLive ∧ ∀ s ∈ ins, IsSplice m.k s := by
  rcases ensure_inv h with ⟨hf, rfl, rfl, rfl, rfl⟩ | ⟨_, ins0, ins1, ha, hr, rfl⟩
  · refine ⟨by omega, by omega, rfl, rfl, rfl, ?_⟩
    intro s hs; cases hs
  · have f := allocate_frame ha
    have hb := lt_of_toNat_lt f.1 f.2.1 hlen
    refine ⟨f.1, hb, f.2.2.1, f.2.2.2.1, f.2.2.2.2.1, ?_⟩
    intro s hs
    rcases List.mem_append.mp hs with hs | hs
    · exact isSplice_of_allocate ha hlen s hs
    · obtain ⟨cl, a, _, _, hc⟩ := restore_inv hr
      rw [f.2.2.2.1] at hc
      rcases hc with ⟨_, rfl⟩ | ⟨_, _, rfl⟩ | ⟨_, _, rfl⟩
      · simp only [List.mem_singleton] at hs
        exact ⟨a, pr, f.1, hb, Or.inr (Or.inl hs)⟩
      · simp only [List.mem_cons, List.mem_singleton, List.not_mem_nil, or_false] at hs
        rcases hs with rfl | rfl
        · exact ⟨a, pr, f.1, hb, Or.inl rfl⟩
        · exact ⟨0, pr, f.1, hb, Or.inr (Or.inr (Or.inl rfl))⟩
      · cases hs


theorem assignSrc_ok {r r1 : Register} {c c1 : Class} {m m1 : Mem} {ins : List Instruction}
    (h : assignSrc r c m = some (r1, c1, m1, ins)) (hlen : c.name.length = m.k.toNat) :
    OperandOK r r1 c c1 m m1 ins := by
  unfold assignSrc at h
  split at h
  · simp only [Option.bind_eq_bind, Option.pure_def, Option.bind_eq_some, Option.some.injEq,
      Prod.mk.injEq, Prod.exists] at h
    obtain ⟨pr, c2, m2, ins2, he, rfl, rfl, rfl, rfl⟩ := h
    have f := ensure_frame he hlen
    exact ⟨rfl, rfl, rfl, f.2.2.1, f.2.2.2.1, f.2.2.2.2.1, f.2.2.2.2.2, fun _ => ⟨f.1, f.2.1⟩⟩
  · rename_i hr
    simp only [Option.some.injEq, Prod.mk.injEq] at h
    obtain ⟨rfl, rfl, rfl, rfl⟩ := h
    refine ⟨rfl, rfl, rfl, rfl, rfl, rfl, ?_, fun hh => absurd hh hr⟩
    intro s hs; cases hs

theorem assignDest_ok {r r1 : Register} {c c1 : Class} {m m1 : Mem} {ins : List Instruction}
    (h : assignDest r c m = some (r1, c1, m1, ins)) (hlen : c.name.length = m.k.toNat) :
    OperandOK r r1 c c1 m m1 ins := by
  unfold assignDest at h
  split at h
  · simp only [Option.bind_eq_bind, Option.pure_def, Option.bind_eq_some, Option.some.injEq,
      Prod.mk.injEq, Prod.exists] at h
    obtain ⟨pr, c2, m2, ins2, he, n1, _, rfl, rfl, rfl, rfl⟩ := h
    have f := allocate_frame he
    exact ⟨rfl, rfl, rfl, f.2.2.1, f.2.2.2.1, f.2.2.2.2.1, isSplice_of_allocate he hlen,
      fun _ => ⟨f.1, lt_of_toNat_lt f.1 f.2.1 hlen⟩⟩
  · rename_i hr
    simp only [Option.some.injEq, Prod.mk.injEq] at h
    obtain ⟨rfl, rfl, rfl, rfl⟩ := h
    refine ⟨rfl, rfl, rfl, rfl, rfl, rfl, ?_, fun hh => absurd hh hr⟩
    intro s hs; cases hs

theorem assignStep_inv {it it1 : Instruction} {c c7 : Class} {m m3 : Mem}
    {ins : List Instruction} (h : assignStep it c m = some (ins, it1, c7, m3)) :
    ∃ s1 c1 m1 ins1 s2 c2 m2 ins2 c3 c4 c5 c6 d ins3,
      assignSrc it.src1 c m = some (s1, c1, m1, ins1) ∧
      assignSrc it.src2 c1 m1 = some (s2, c2, m2, ins2) ∧
      freeIf (decide (s1.nu = INT_MAX)) s1.pr c2 = some c3 ∧
      freeIf (s2.isReg && decide (s2.nu = INT_MAX)) s2.pr c3 = some c4 ∧
      keepNext s1 c4 = some c5 ∧ keepNext s2 c5 = some c6 ∧
      assignDest it.dest c6 m2 = some (d, c7, m3, ins3) ∧
      ins = ins1 ++ ins2 ++ ins3 ∧ it1 = { it with src1 := s1, src2 := s2, dest := d } := by
  unfold assignStep at h
  simp only [Option.bind_eq_bind, Option.pure_def, Option.bind_eq_some, Option.some.injEq,
    Prod.mk.injEq, Prod.exists] at h
  obtain ⟨s1, c1, m1, ins1, h1, s2, c2, m2, ins2, h2, c3, h3, c4, h4, c5, h5, c6, h6,
    d, c8, m4, ins3, h7, rfl, rfl, rfl, rfl⟩ := h
  exact ⟨s1, c1, m1, ins1, s2, c2, m2, ins2, c3, c4, c5, c6, d, ins3, h1, h2, h3, h4, h5, h6,
    h7, rfl, rfl⟩

theorem assignStep_ok {it it1 : Instruction} {c c1 : Class} {m m1 : Mem}
    {ins : List Instruction} (h : assignStep it c m = some (ins, it1, c1, m1))
    (hlen : c.name.length = m.k.toNat) :
    c1.name.length = m1.k.toNat ∧ m1.k = m.k ∧ m1.maxLive = m.maxLive ∧
    it1.shape = it.shape ∧ (∀ s ∈ ins, IsSplice m.k s) ∧
    (∀ o ∈ it1.operands, o.isReg = true → 0 ≤ o.pr ∧ o.pr < m.k) := by
  obtain ⟨s1, c1, m1, ins1, s2, c2, m2, ins2, c3, c4, c5, c6, d, ins3, h1, h2, h3, h4, h5, h6,
    h7, rfl, rfl⟩ := assignStep_inv h
  have a1 := assignSrc_ok h1 hlen
  have l1 : c1.name.length = m1.k.toNat := by rw [a1.len, a1.k, hlen]
  have a2 := assignSrc_ok h2 l1
  have l6 : c6.name.length = m2.k.toNat := by
    rw [(keepNext_name h6).1, (keepNext_name h5).1, freeIf_name_length h4,
      freeIf_name_length h3, a2.len, a2.k, l1]
  have a3 := assignDest_ok h7 l6
  have k2 : m2.k = m.k := by rw [a2.k, a1.k]
  refine ⟨by rw [a3.len, a3.k, l6], by rw [a3.k, k2], by rw [a3.maxLive, a2.maxLive, a1.maxLive],
    ?_, ?_, ?_⟩
  · simp only [Instruction.shape, a1.shape, a2.shape, a3.shape]
  · intro s hs
    rcases List.mem_append.mp hs with hs | hs
    · rcases List.mem_append.mp hs with hs | hs
      · exact a1.splice s hs
      · rw [← a1.k]; exact a2.splice s hs
    · rw [← k2]; exact a3.splice s hs
  · intro o ho
    simp only [Instruction.operands, List.mem_cons, List.mem_singleton, List.not_mem_nil,
      or_false] at ho
    rcases ho with rfl | rfl | rfl
    · exact a1.bound
    · rw [← a1.k]; exact a2.bound
    · rw [← k2]; exact a3.bound

theorem assignLoop_ok : ∀ (ir : List Instruction) (c c1 : Class) (m m1 : Mem)
    (gs : List (List Instruction × Instruction)),
    assignLoop ir c m = some (gs, c1, m1) → c.name.length = m.k.toNat →
    m1.k = m.k ∧ m1.maxLive = m.maxLive ∧
    gs.map (fun g => g.2.shape) = ir.map Instruction.shape ∧
    (∀ g ∈ gs, ∀ s ∈ g.1, IsSplice m.k s) ∧
    (∀ g ∈ gs, ∀ o ∈ g.2.operands, o.isReg = true → 0 ≤ o.pr ∧ o.pr < m.k)
  | [], c, c1, m, m1, gs, h, _ => by
    simp only [assignLoop, Option.some.injEq, Prod.mk.injEq] at h
    obtain ⟨rfl, rfl, rfl⟩ := h
    simp
  | it :: rest, c, c1, m, m1, gs, h, hlen => by
    simp only [assignLoop, Option.bind_eq_bind, Option.pure_def, Option.bind_eq_some,
      Option.some.injEq, Prod.mk.injEq, Prod.exists] at h
    obtain ⟨ins, it1, c2, m2, hs, gs1, c3, m3, hl, rfl, rfl, rfl⟩ := h
    have a := assignStep_ok hs hlen
    have b := assignLoop_ok rest c2 c3 m2 m3 gs1 hl a.1
    rw [a.2.1] at b
    refine ⟨b.1, by rw [b.2.1, a.2.2.1], ?_, ?_, ?_⟩
    · simp [b.2.2.1, a.2.2.2.1]
    · intro g hg
      rcases List.mem_cons.mp hg with rfl | hg
      · exact a.2.2.2.2.1
      · exact b.2.2.2.1 g hg
    · intro g hg
      rcases List.mem_cons.mp hg with rfl | hg
      · exact a.2.2.2.2.2
      · exact b.2.2.2.2 g hg

theorem Class.new_name_length (k : Int) : (Class.new k).name.length = k.toNat := by
  simp [Class.new]

theorem Allocator_inv {ir : List Instruction} {k : Int} {r : Result}
    (h : Allocator ir k = some r) :
    ∃ ir1 lu, computeLastUses ir = some (ir1, lu) ∧
      assignLoop ir1 (Class.new (if k < lu.maxLive then k - 1 else k))
        { k := if k < lu.maxLive then k - 1 else k, nextMemAddr := SPILL,
          maxLive := lu.maxLive, vr2mem := lu.vr2mem, clean := lu.clean }
        = some (r.groups, r.c, r.m) := by
  unfold Allocator at h
  simp only [Option.bind_eq_bind, Option.pure_def, Option.bind_eq_some, Option.some.injEq,
    Prod.exists] at h
  obtain ⟨ir1, lu, h1, gs, c, m, h2, rfl⟩ := h
  exact ⟨ir1, lu, h1, h2⟩

theorem update_shape {op r : Register} {i : Int} {s s1 : LU}
    (h : update op i s = some (r, s1)) : r.shape = op.shape ∧ r.pr = op.pr := by
  unfold update at h
  simp only [Option.bind_eq_bind, Option.pure_def, Option.bind_eq_some, Option.some.injEq,
    Prod.mk.injEq] at h
  obtain ⟨s2, _, v, _, nu, _, l, _, rfl, _⟩ := h
  exact ⟨rfl, rfl⟩

theorem luStep_shape {i : Int} {it it1 : Instruction} {s s1 : LU}
    (h : luStep i it s = some (it1, s1)) : it1.shape = it.shape := by
  unfold luStep at h
  simp only [Option.bind_eq_bind, Option.pure_def, Option.bind_eq_some, Option.some.injEq,
    Prod.mk.injEq, Prod.exists] at h
  obtain ⟨a1, t1, h1, a2, t2, h2, a3, t3, h3, _, _, _, _, rfl, _⟩ := h
  have e1 : a1.shape = it.shape := by
    unfold luDest at h1
    split at h1
    · simp only [Option.bind_eq_bind, Option.pure_def, Option.bind_eq_some, Option.some.injEq,
        Prod.mk.injEq, Prod.exists] at h1
      obtain ⟨d, a, hu, _, _, _, _, rfl, _⟩ := h1
      simp [Instruction.shape, (update_shape hu).1]
    · simp only [Option.some.injEq, Prod.mk.injEq] at h1
      rw [h1.1]
  have e2 : a2.shape = a1.shape := by
    unfold luSrc1 at h2
    split at h2
    · simp only [Option.bind_eq_bind, Option.pure_def, Option.bind_eq_some, Option.some.injEq,
        Prod.mk.injEq, Prod.exists] at h2
      obtain ⟨d, a, hu, rfl, _⟩ := h2
      simp [Instruction.shape, (update_shape hu).1]
    · simp only [Option.some.injEq, Prod.mk.injEq] at h2
      rw [h2.1]
  have e3 : a3.shape = a2.shape := by
    unfold luSrc2 at h3
    split at h3
    · simp only [Option.bind_eq_bind, Option.pure_def, Option.bind_eq_some, Option.some.injEq,
        Prod.mk.injEq, Prod.exists] at h3
      obtain ⟨d, a, hu, rfl, _⟩ := h3
      simp [Instruction.shape, (update_shape hu).1]
    · simp only [Option.some.injEq, Prod.mk.injEq] at h3
      rw [h3.1]
  rw [e3, e2, e1]

theorem luSweep_shape : ∀ (ir : List Instruction) (i : Nat) (s : LU) (ir1 : List Instruction)
    (s1 : LU), luSweep i ir s = some (ir1, s1) →
    ir1.map Instruction.shape = ir.map Instruction.shape
  | [], _, _, _, _, h => by
    simp only [luSweep, Option.some.injEq, Prod.mk.injEq] at h
    rw [← h.1]
  | it :: rest, i, s, ir1, s1, h => by
    simp only [luSweep, Option.bind_eq_bind, Option.pure_def, Option.bind_eq_some,
      Option.some.injEq, Prod.mk.injEq, Prod.exists] at h
    obtain ⟨rest1, t1, hr, it1, t2, hs, rfl, _⟩ := h
    simp [luSweep_shape rest (i + 1) s rest1 t1 hr, luStep_shape hs]

/-! ### The log stands for the inserted instructions -/

theorem spillLog_map (pr : Int) (c : Class) (m : Mem) :
    (spillLog pr c m).map (fun x => (x.1, expand x.2)) = spill pr c m := by
  unfold spillLog spill
  cases h1 : getI c.name pr with
  | none => rfl
  | some victim =>
    simp only [Option.bind_eq_bind, Option.pure_def, Option.some_bind]
    cases h2 : getI m.clean victim with
    | none => rfl
    | some cl =>
      simp only [Option.some_bind]
      by_cases hd : cl = Clean.dirty
      · simp only [hd, if_true]
        cases h3 : setI m.vr2mem victim m.nextMemAddr with
        | none => rfl
        | some v1 =>
          simp only [Option.some_bind]
          cases h4 : setI m.clean victim Clean.spilled with
          | none => rfl
          | some c1 => rfl
      · simp only [hd, if_false]
        rfl

theorem chooseLog_map (c : Class) (m : Mem) :
    (chooseLog c m).map (fun x => (x.1, x.2.1, x.2.2.1, expand x.2.2.2)) = choose c m := by
  unfold chooseLog choose
  split
  · rfl
  · cases optimalPR c with
    | none => rfl
    | some pr =>
      simp only [Option.bind_eq_bind, Option.pure_def, Option.some_bind]
      rw [← spillLog_map]
      cases spillLog pr c m with
      | none => rfl
      | some x => rfl

theorem allocateLog_map (vr : Int) (c : Class) (m : Mem) :
    (allocateLog vr c m).map (fun x => (x.1, x.2.1, x.2.2.1, expand x.2.2.2)) =
      allocate vr c m := by
  unfold allocateLog allocate
  rw [← chooseLog_map]
  cases chooseLog c m with
  | none => rfl
  | some x =>
    simp only [Option.bind_eq_bind, Option.pure_def, Option.some_bind, Option.map_some']
    cases occupy x.1 vr x.2.1 x.2.2.1 with
    | none => rfl
    | some c2 => rfl

theorem restoreLog_map (vr pr : Int) (m : Mem) :
    (restoreLog vr pr m).map expand = restore vr pr m := by
  unfold restoreLog restore
  cases h1 : getI m.clean vr with
  | none => rfl
  | some cl =>
    simp only [Option.bind_eq_bind, Option.pure_def, Option.some_bind]
    cases h2 : getI m.vr2mem vr with
    | none => rfl
    | some a =>
      simp only [Option.some_bind]
      by_cases hr : cl = Clean.remat
      · simp only [hr, if_true]
        rfl
      · simp only [hr, if_false]
        by_cases ha : a = INVALID
        · simp only [ha, ne_eq, not_true_eq_false, if_false]
          rfl
        · simp only [ha, ne_eq, not_false_eq_true, if_true]
          rfl

theorem expand_append (a b : List Item) : expand (a ++ b) = expand a ++ expand b := by
  simp [expand]

theorem ensureLog_map (vr : Int) (c : Class) (m : Mem) :
    (ensureLog vr c m).map (fun x => (x.1, x.2.1, x.2.2.1, expand x.2.2.2)) =
      ensure vr c m := by
  unfold ensureLog ensure
  split
  · rfl
  · rw [← allocateLog_map]
    cases allocateLog vr c m with
    | none => rfl
    | some x =>
      simp only [Option.bind_eq_bind, Option.pure_def, Option.some_bind, Option.map_some']
      rw [← restoreLog_map]
      cases restoreLog vr x.1 x.2.2.1 with
      | none => rfl
      | some y => simp [expand_append]

theorem assignSrcLog_map (r : Register) (c : Class) (m : Mem) :
    (assignSrcLog r c m).map (fun x => (x.1, x.2.1, x.2.2.1, expand x.2.2.2)) =
      assignSrc r c m := by
  unfold assignSrcLog assignSrc
  split
  · rw [← ensureLog_map]
    cases ensureLog r.vr c m with
    | none => rfl
    | some x => rfl
  · rfl

theorem assignDestLog_map (r : Register) (c : Class) (m : Mem) :
    (assignDestLog r c m).map (fun x => (x.1, x.2.1, x.2.2.1, expand x.2.2.2)) =
      assignDest r c m := by
  unfold assignDestLog assignDest
  split
  · rw [← allocateLog_map]
    cases allocateLog r.vr c m with
    | none => rfl
    | some x =>
      simp only [Option.bind_eq_bind, Option.pure_def, Option.some_bind, Option.map_some']
      cases setI x.2.1.next x.1 r.nu with
      | none => rfl
      | some y => rfl
  · rfl

theorem assignStepLog_map (it : Instruction) (c : Class) (m : Mem) :
    (assignStepLog it c m).map (fun x => (expand x.1, x.2.1, x.2.2.1, x.2.2.2)) =
      assignStep it c m := by
  unfold assignStepLog assignStep
  rw [← assignSrcLog_map]
  cases assignSrcLog it.src1 c m with
  | none => rfl
  | some x1 =>
    simp only [Option.bind_eq_bind, Option.pure_def, Option.some_bind, Option.map_some']
    rw [← assignSrcLog_map]
    cases assignSrcLog it.src2 x1.2.1 x1.2.2.1 with
    | none => rfl
    | some x2 =>
      simp only [Option.some_bind, Option.map_some']
      cases freeIf (decide (x1.1.nu = INT_MAX)) x1.1.pr x2.2.1 with
      | none => rfl
      | some c3 =>
        simp only [Option.some_bind]
        cases freeIf (x2.1.isReg && decide (x2.1.nu = INT_MAX)) x2.1.pr c3 with
        | none => rfl
        | some c4 =>
          simp only [Option.some_bind]
          cases keepNext x1.1 c4 with
          | none => rfl
          | some c5 =>
            simp only [Option.some_bind]
            cases keepNext x2.1 c5 with
            | none => rfl
            | some c6 =>
              simp only [Option.some_bind]
              rw [← assignDestLog_map]
              cases assignDestLog it.dest c6 x2.2.2.1 with
              | none => rfl
              | some x3 => simp [expand_append]

theorem assignLoopLog_instrs : ∀ (ir : List Instruction) (c : Class) (m : Mem),
    (assignLoopLog ir c m).map (fun x => (expand x.1, x.2.1, x.2.2)) =
      (assignLoop ir c m).map (fun x => (flatten x.1, x.2.1, x.2.2))
  | [], c, m => rfl
  | it :: rest, c, m => by
    simp only [assignLoopLog, assignLoop]
    rw [← assignStepLog_map]
    cases assignStepLog it c m with
    | none => rfl
    | some x =>
      simp only [Option.bind_eq_bind, Option.pure_def, Option.some_bind, Option.map_some']
      have ih := assignLoopLog_instrs rest x.2.2.1 x.2.2.2
      cases h1 : assignLoopLog rest x.2.2.1 x.2.2.2 with
      | none =>
        rw [h1] at ih
        cases h2 : assignLoop rest x.2.2.1 x.2.2.2 with
        | none => rfl
        | some y => rw [h2] at ih; cases ih
      | some t =>
        rw [h1] at ih
        cases h2 : assignLoop rest x.2.2.1 x.2.2.2 with
        | none => rw [h2] at ih; cases ih
        | some y =>
          rw [h2] at ih
          simp only [Option.map_some', Option.some.injEq, Prod.mk.injEq] at ih
          obtain ⟨e1, e2, e3⟩ := ih
          have e4 : t.2 = y.2 := Prod.ext e2 e3
          simp only [expand, flatten] at e1
          simp [expand_append, expand, Item.instrs, flatten, e1, e4]

/-! ### The analysis: inversion lemmas and the tagging of dirty registers -/

theorem getI_setI {α : Type} {xs ys : List α} {i : Int} {v : α} (h : setI xs i v = some ys)
    (j : Int) : getI ys j = if j = i then some v else getI xs j := by
  obtain ⟨h0, hlt, rfl⟩ := setI_some h
  unfold getI
  by_cases hj : 0 ≤ j
  · simp only [hj, if_true]
    by_cases e : j = i
    · subst e
      simp [hlt]
    · have : i.toNat ≠ j.toNat := by omega
      simp [e, List.getElem?_set_ne this]
  · have : j ≠ i := by omega
    simp [hj, this]

theorem getI_setI_same {α : Type} {xs ys : List α} {i : Int} {v : α}
    (h : setI xs i v = some ys) : getI ys i = some v := by
  rw [getI_setI h]; simp

theorem getI_setI_ne {α : Type} {xs ys : List α} {i j : Int} {v : α}
    (h : setI xs i v = some ys) (hne : j ≠ i) : getI ys j = getI xs j := by
  rw [getI_setI h]; simp [hne]

theorem getI_append_one {α : Type} (xs : List α) (a : α) (j : Int) :
    getI (xs ++ [a]) j = if j = (xs.length : Int) then some a else getI xs j := by
  unfold getI
  by_cases hj : 0 ≤ j
  · simp only [hj, if_true]
    by_cases e : j = (xs.length : Int)
    · have : j.toNat = xs.length := by omega
      simp [e]
    · simp only [e, if_false]
      by_cases hl : j.toNat < xs.length
      · rw [List.getElem?_append_left hl]
      · have h1 : xs.length < j.toNat := by omega
        rw [List.getElem?_eq_none (by simp; omega), List.getElem?_eq_none (by omega)]
  · have : j ≠ (xs.length : Int) := by omega
    simp [hj, this]

theorem getI_lt {α : Type} {xs : List α} {j : Int} {v : α} (h : getI xs j = some v) :
    0 ≤ j ∧ j < (xs.length : Int) := by
  have := getI_some h
  omega


theorem openRange_inv {sr : Int} {s s1 : LU} (h : openRange sr s = some s1) :
    ∃ cur, getI s.sr2vr sr = some cur ∧
      ((cur ≠ INVALID ∧ s1 = s) ∨
       (cur = INVALID ∧ ∃ t, setI s.sr2vr sr s.vrName = some t ∧
        s1 = { s with sr2vr := t, vrName := s.vrName + 1, numLive := s.numLive + 1,
                      maxLive := if s.numLive + 1 > s.maxLive then s.numLive + 1
                                 else s.maxLive,
                      vr2mem := s.vr2mem ++ [INVALID], clean := s.clean ++ [Clean.dirty] })) := by
  unfold openRange at h
  simp only [Option.bind_eq_bind, Option.pure_def, Option.bind_eq_some] at h
  obtain ⟨cur, hc, h⟩ := h
  refine ⟨cur, hc, ?_⟩
  split at h
  · rename_i he
    simp only [Option.bind_eq_some, Option.some.injEq] at h
    obtain ⟨t, ht, rfl⟩ := h
    exact Or.inr ⟨he, t, ht, rfl⟩
  · rename_i he
    exact Or.inl ⟨he, (Option.some.inj h).symm⟩

theorem update_inv {op r : Register} {i : Int} {s s2 : LU} (h : update op i s = some (r, s2)) :
    ∃ s1 v nu l, openRange op.sr s = some s1 ∧ getI s1.sr2vr op.sr = some v ∧
      getI s1.lastUse op.sr = some nu ∧ setI s1.lastUse op.sr i = some l ∧
      r = { op with vr := v, nu := nu } ∧ s2 = { s1 with lastUse := l } := by
  unfold update at h
  simp only [Option.bind_eq_bind, Option.pure_def, Option.bind_eq_some, Option.some.injEq,
    Prod.mk.injEq] at h
  obtain ⟨s1, h1, v, hv, nu, hn, l, hl, rfl, rfl⟩ := h
  exact ⟨s1, v, nu, l, h1, hv, hn, hl, rfl, rfl⟩

theorem luDest_inv {i : Int} {it it1 : Instruction} {s s1 : LU}
    (h : luDest i it s = some (it1, s1)) :
    (it.dest.isReg = false ∧ it1 = it ∧ s1 = s) ∨
    (it.dest.isReg = true ∧ ∃ d a t u, update it.dest i s = some (d, a) ∧
      setI a.sr2vr d.sr INVALID = some t ∧ setI a.lastUse d.sr INT_MAX = some u ∧
      it1 = { it with dest := d } ∧
      s1 = { a with sr2vr := t, lastUse := u, numLive := a.numLive - 1,
                    stores := reconcileStores d.vr it.op it.src1.sr a.stores }) := by
  unfold luDest at h
  split at h
  · rename_i hr
    simp only [Option.bind_eq_bind, Option.pure_def, Option.bind_eq_some, Option.some.injEq,
      Prod.mk.injEq, Prod.exists] at h
    obtain ⟨d, a, hu, t, ht, u, hu2, rfl, rfl⟩ := h
    exact Or.inr ⟨hr, d, a, t, u, hu, ht, hu2, rfl, rfl⟩
  · rename_i hr
    simp only [Option.some.injEq, Prod.mk.injEq] at h
    exact Or.inl ⟨by simpa using hr, h.1.symm, h.2.symm⟩

theorem luSrc1_inv {i : Int} {it it1 : Instruction} {s s1 : LU}
    (h : luSrc1 i it s = some (it1, s1)) :
    (it.src1.isReg = false ∧ it1 = it ∧ s1 = s) ∨
    (it.src1.isReg = true ∧ ∃ r, update it.src1 i s = some (r, s1) ∧
      it1 = { it with src1 := r }) := by
  unfold luSrc1 at h
  split at h
  · rename_i hr
    simp only [Option.bind_eq_bind, Option.pure_def, Option.bind_eq_some, Option.some.injEq,
      Prod.mk.injEq, Prod.exists] at h
    obtain ⟨r, a, hu, rfl, rfl⟩ := h
    exact Or.inr ⟨hr, r, hu, rfl⟩
  · rename_i hr
    simp only [Option.some.injEq, Prod.mk.injEq] at h
    exact Or.inl ⟨by simpa using hr, h.1.symm, h.2.symm⟩

theorem luSrc2_inv {i : Int} {it it1 : Instruction} {s s1 : LU}
    (h : luSrc2 i it s = some (it1, s1)) :
    (it.src2.isReg = false ∧ it1 = it ∧ s1 = s) ∨
    (it.src2.isReg = true ∧ ∃ r, update it.src2 i s = some (r, s1) ∧
      it1 = { it with src2 := r }) := by
  unfold luSrc2 at h
  split at h
  · rename_i hr
    simp only [Option.bind_eq_bind, Option.pure_def, Option.bind_eq_some, Option.some.injEq,
      Prod.mk.injEq, Prod.exists] at h
    obtain ⟨r, a, hu, rfl, rfl⟩ := h
    exact Or.inr ⟨hr, r, hu, rfl⟩
  · rename_i hr
    simp only [Option.some.injEq, Prod.mk.injEq] at h
    exact Or.inl ⟨by simpa using hr, h.1.symm, h.2.symm⟩

theorem luRemat_inv {it : Instruction} {s s1 : LU} (h : luRemat it s = some s1) :
    (it.op ≠ Opcode.loadI ∧ s1 = s) ∨
    (it.op = Opcode.loadI ∧ ∃ c v, setI s.clean it.dest.vr Clean.remat = some c ∧
      setI s.vr2mem it.dest.vr it.src1.sr = some v ∧ s1 = { s with clean := c, vr2mem := v }) := by
  unfold luRemat at h
  split at h
  · rename_i hr
    simp only [Option.bind_eq_bind, Option.pure_def, Option.bind_eq_some, Option.some.injEq] at h
    obtain ⟨c, hc, v, hv, rfl⟩ := h
    exact Or.inr ⟨hr, c, v, hc, hv, rfl⟩
  · rename_i hr
    exact Or.inl ⟨hr, (Option.some.inj h).symm⟩

theorem luClean_inv {it : Instruction} {s s1 : LU} (h : luClean it s = some s1) :
    (it.op ≠ Opcode.loadI ∧ s1 = s) ∨
    (it.op = Opcode.loadI ∧ ∃ l v c,
      cleanLoads s.stores it.dest.vr it.src1.sr s.loads s.vr2mem s.clean = some (l, v, c) ∧
      s1 = { s with loads := l, vr2mem := v, clean := c }) := by
  unfold luClean at h
  split at h
  · rename_i hr
    simp only [Option.bind_eq_bind, Option.pure_def, Option.bind_eq_some, Option.some.injEq,
      Prod.exists] at h
    obtain ⟨l, v, c, hc, rfl⟩ := h
    exact Or.inr ⟨hr, l, v, c, hc, rfl⟩
  · rename_i hr
    exact Or.inl ⟨hr, (Option.some.inj h).symm⟩

theorem luStep_inv {i : Int} {it it3 : Instruction} {s s5 : LU}
    (h : luStep i it s = some (it3, s5)) :
    ∃ it1 s1 it2 s2 s3 s4, luDest i it s = some (it1, s1) ∧ luSrc1 i it1 s1 = some (it2, s2) ∧
      luSrc2 i it2 s2 = some (it3, s3) ∧ luRemat it3 s3 = some s4 ∧
      luClean it3 (luLogs it3 s4) = some s5 := by
  unfold luStep at h
  simp only [Option.bind_eq_bind, Option.pure_def, Option.bind_eq_some, Option.some.injEq,
    Prod.mk.injEq, Prod.exists] at h
  obtain ⟨it1, s1, h1, it2, s2, h2, it3, s3, h3, s4, h4, s6, h5, rfl, rfl⟩ := h
  exact ⟨it1, s1, it2, s2, s3, s4, h1, h2, h3, h4, h5⟩

theorem cleanLoads_inv {stores : List (Int × Int)} {vr addr : Int} :
    ∀ {loads loads1 : List (Int × Int)} {vr2mem vr2mem1 : List Int} {clean clean1 : List Clean},
    cleanLoads stores vr addr loads vr2mem clean = some (loads1, vr2mem1, clean1) →
    (loads1 = loads ∧ vr2mem1 = vr2mem ∧ clean1 = clean) ∨
    (∃ l, l ∈ loads ∧ l.1 = vr ∧ (stores.find? (fun s => s.2 == addr)).isNone = true ∧
      setI clean l.2 Clean.cleanLoad = some clean1 ∧ setI vr2mem l.2 addr = some vr2mem1 ∧
      ∀ x ∈ loads1, x ∈ loads)
  | [], _, _, _, _, _, h => by
    simp only [cleanLoads, Option.some.injEq, Prod.mk.injEq] at h
    exact Or.inl ⟨h.1.symm, h.2.1.symm, h.2.2.symm⟩
  | l :: rest, loads1, vr2mem, vr2mem1, clean, clean1, h => by
    unfold cleanLoads at h
    split at h
    · rename_i hc
      simp only [Option.bind_eq_bind, Option.pure_def, Option.bind_eq_some, Option.some.injEq,
        Prod.mk.injEq] at h
      obtain ⟨c1, h1, v1, h2, rfl, rfl, rfl⟩ := h
      exact Or.inr ⟨l, List.mem_cons_self _ _, hc.1, hc.2, h1, h2,
        fun x hx => List.mem_cons_of_mem _ hx⟩
    · simp only [Option.bind_eq_bind, Option.pure_def, Option.bind_eq_some, Option.some.injEq,
        Prod.mk.injEq, Prod.exists] at h
      obtain ⟨r1, v1, c1, hr, rfl, rfl, rfl⟩ := h
      rcases cleanLoads_inv hr with ⟨rfl, rfl, rfl⟩ | ⟨l2, hl, h1, h2, h3, h4, h5⟩
      · exact Or.inl ⟨rfl, rfl, rfl⟩
      · refine Or.inr ⟨l2, List.mem_cons_of_mem _ hl, h1, h2, h3, h4, ?_⟩
        intro x hx
        rcases List.mem_cons.mp hx with rfl | hx
        · exact List.mem_cons_self _ _
        · exact List.mem_cons_of_mem _ (h5 x hx)


theorem tagOK_append {clean : List Clean} {vr2mem : List Int} (h : TagOK clean vr2mem) :
    TagOK (clean ++ [Clean.dirty]) (vr2mem ++ [INVALID]) := by
  refine ⟨by simp [h.1], ?_⟩
  intro v hv
  rw [getI_append_one] at hv ⊢
  rw [← h.1]
  split
  · rfl
  · rename_i hne
    rw [if_neg hne] at hv
    exact h.2 v hv

theorem tagOK_set {clean clean1 : List Clean} {vr2mem vr2mem1 : List Int} {i a : Int}
    {x : Clean} (h : TagOK clean vr2mem) (h1 : setI clean i x = some clean1)
    (h2 : setI vr2mem i a = some vr2mem1) (hx : x ≠ Clean.dirty) : TagOK clean1 vr2mem1 := by
  refine ⟨by rw [setI_length h1, setI_length h2, h.1], ?_⟩
  intro v hv
  rw [getI_setI h1] at hv
  rw [getI_setI h2]
  by_cases e : v = i
  · rw [if_pos e] at hv
    exact absurd (Option.some.inj hv) hx
  · rw [if_neg e] at hv ⊢
    exact h.2 v hv

theorem openRange_tagOK {sr : Int} {s s1 : LU} (h : openRange sr s = some s1)
    (ht : TagOK s.clean s.vr2mem) : TagOK s1.clean s1.vr2mem := by
  obtain ⟨cur, _, h⟩ := openRange_inv h
  rcases h with ⟨_, rfl⟩ | ⟨_, t, _, rfl⟩
  · exact ht
  · exact tagOK_append ht

theorem update_tagOK {op r : Register} {i : Int} {s s2 : LU} (h : update op i s = some (r, s2))
    (ht : TagOK s.clean s.vr2mem) : TagOK s2.clean s2.vr2mem := by
  obtain ⟨s1, v, nu, l, h1, _, _, _, _, rfl⟩ := update_inv h
  exact (openRange_tagOK h1 ht : TagOK s1.clean s1.vr2mem)

theorem luLogs_frame (it : Instruction) (s : LU) :
    (luLogs it s).clean = s.clean ∧ (luLogs it s).vr2mem = s.vr2mem ∧
    (luLogs it s).sr2vr = s.sr2vr ∧ (luLogs it s).lastUse = s.lastUse ∧
    (luLogs it s).vrName = s.vrName ∧ (luLogs it s).numLive = s.numLive ∧
    (luLogs it s).maxLive = s.maxLive := by
  unfold luLogs
  split <;> split <;> simp

theorem luStep_tagOK {i : Int} {it it3 : Instruction} {s s5 : LU}
    (h : luStep i it s = some (it3, s5)) (ht : TagOK s.clean s.vr2mem) :
    TagOK s5.clean s5.vr2mem := by
  obtain ⟨it1, s1, it2, s2, s3, s4, h1, h2, h3, h4, h5⟩ := luStep_inv h
  have t1 : TagOK s1.clean s1.vr2mem := by
    rcases luDest_inv h1 with ⟨_, _, rfl⟩ | ⟨_, d, a, t, u, hu, _, _, _, rfl⟩
    · exact ht
    · exact (update_tagOK hu ht : TagOK a.clean a.vr2mem)
  have t2 : TagOK s2.clean s2.vr2mem := by
    rcases luSrc1_inv h2 with ⟨_, _, rfl⟩ | ⟨_, r, hu, _⟩
    · exact t1
    · exact update_tagOK hu t1
  have t3 : TagOK s3.clean s3.vr2mem := by
    rcases luSrc2_inv h3 with ⟨_, _, rfl⟩ | ⟨_, r, hu, _⟩
    · exact t2
    · exact update_tagOK hu t2
  have t4 : TagOK s4.clean s4.vr2mem := by
    rcases luRemat_inv h4 with ⟨_, rfl⟩ | ⟨_, c, v, hc, hv, rfl⟩
    · exact t3
    · exact tagOK_set t3 hc hv (by decide)
  have t4b : TagOK (luLogs it3 s4).clean (luLogs it3 s4).vr2mem := by
    rw [(luLogs_frame it3 s4).1, (luLogs_frame it3 s4).2.1]; exact t4
  rcases luClean_inv h5 with ⟨_, rfl⟩ | ⟨_, l, v, c, hc, rfl⟩
  · exact t4b
  · rcases cleanLoads_inv hc with ⟨_, rfl, rfl⟩ | ⟨x, _, _, _, hc1, hv1, _⟩
    · exact t4b
    · exact tagOK_set t4b hc1 hv1 (by decide)

theorem luSweep_tagOK : ∀ (ir : List Instruction) (i : Nat) (s : LU) (ir1 : List Instruction)
    (s1 : LU), luSweep i ir s = some (ir1, s1) → TagOK s.clean s.vr2mem →
    TagOK s1.clean s1.vr2mem
  | [], _, _, _, _, h, ht => by
    simp only [luSweep, Option.some.injEq, Prod.mk.injEq] at h
    rw [← h.2]; exact ht
  | it :: rest, i, s, ir1, s1, h, ht => by
    simp only [luSweep, Option.bind_eq_bind, Option.pure_def, Option.bind_eq_some,
      Option.some.injEq, Prod.mk.injEq, Prod.exists] at h
    obtain ⟨rest1, t1, hr, it1, t2, hs, _, rfl⟩ := h
    exact luStep_tagOK hs (luSweep_tagOK rest (i + 1) s rest1 t1 hr ht)

theorem computeLastUses_tagOK {ir ir1 : List Instruction} {lu : LU}
    (h : computeLastUses ir = some (ir1, lu)) : TagOK lu.clean lu.vr2mem := by
  refine luSweep_tagOK ir 0 _ ir1 lu h ⟨rfl, ?_⟩
  intro v hv
  simp [LU.init, getI] at hv

/-! ### The bookkeeping of spills along the log -/

theorem snoc_eq_append_cons {α : Type} {tr t1 t2 : List α} {x y : α}
    (h : tr ++ [x] = t1 ++ y :: t2) :
    (t2 = [] ∧ t1 = tr ∧ y = x) ∨ ∃ t3, t2 = t3 ++ [x] ∧ tr = t1 ++ y :: t3 := by
  rcases List.eq_nil_or_concat t2 with rfl | ⟨t3, z, e⟩
  · have := List.append_inj' h rfl
    simp only [List.cons.injEq, and_true] at this
    exact Or.inl ⟨rfl, this.1.symm, this.2.symm⟩
  · rw [List.concat_eq_append] at e
    subst e
    have h2 : tr ++ [x] = (t1 ++ y :: t3) ++ [z] := by simpa using h
    have := List.append_inj' h2 rfl
    simp only [List.cons.injEq, and_true] at this
    exact Or.inr ⟨t3, by rw [this.2], this.1⟩

theorem spills_append (a b : List Item) : spills (a ++ b) = spills a ++ spills b := by
  simp [spills, List.filterMap_append]

theorem paired_snoc {clean0 : List Clean} {tr : List Item} {x : Item}
    (h : ∀ t1 t2 vr p a kk, tr = t1 ++ Item.restorePair vr p a kk :: t2 →
      getI clean0 vr = some Clean.dirty → ∃ q, Item.spillPair vr q a kk ∈ t1)
    (hx : ∀ vr p a kk, x = Item.restorePair vr p a kk →
      getI clean0 vr = some Clean.dirty → ∃ q, Item.spillPair vr q a kk ∈ tr) :
    ∀ t1 t2 vr p a kk, tr ++ [x] = t1 ++ Item.restorePair vr p a kk :: t2 →
      getI clean0 vr = some Clean.dirty → ∃ q, Item.spillPair vr q a kk ∈ t1 := by
  intro t1 t2 vr p a kk he hd
  rcases snoc_eq_append_cons he with ⟨_, rfl, e⟩ | ⟨t3, _, rfl⟩
  · exact hx vr p a kk e.symm hd
  · exact h t1 t3 vr p a kk rfl hd

theorem SpillInv.other {clean0 : List Clean} {k : Int} {m : Mem} {tr : List Item} {x : Item}
    (h : SpillInv clean0 k m tr) (hs : x.spillOf = none)
    (hx : ∀ vr p a kk, x ≠ Item.restorePair vr p a kk) : SpillInv clean0 k m (tr ++ [x]) := by
  have e : spills (tr ++ [x]) = spills tr := by
    rw [spills_append]; simp [spills, hs]
  refine ⟨h.k_eq, by rw [e]; exact h.addrs, by rw [e]; exact h.next, by rw [e]; exact h.spilled,
    by rw [e]; exact h.nodup, ?_, ?_⟩
  · intro v hv
    rcases h.dirty v hv with hd | ⟨hc, q, a, hm, ha⟩
    · exact Or.inl hd
    · exact Or.inr ⟨hc, q, a, List.mem_append_left _ hm, ha⟩
  · exact paired_snoc h.paired (fun vr p a kk e => absurd e (hx vr p a kk))

theorem SpillInv.restore {clean0 : List Clean} {k : Int} {m : Mem} {tr : List Item}
    {vr pr a : Int} (h : SpillInv clean0 k m tr) (ha : getI m.vr2mem vr = some a)
    (hne : a ≠ INVALID) : SpillInv clean0 k m (tr ++ [Item.restorePair vr pr a k]) := by
  have e : spills (tr ++ [Item.restorePair vr pr a k]) = spills tr := by
    rw [spills_append]; simp [spills, Item.spillOf]
  refine ⟨h.k_eq, by rw [e]; exact h.addrs, by rw [e]; exact h.next, by rw [e]; exact h.spilled,
    by rw [e]; exact h.nodup, ?_, ?_⟩
  · intro v hv
    rcases h.dirty v hv with hd | ⟨hc, q, a, hm, ha⟩
    · exact Or.inl hd
    · exact Or.inr ⟨hc, q, a, List.mem_append_left _ hm, ha⟩
  · refine paired_snoc h.paired ?_
    intro vr1 p1 a1 kk1 e hd
    simp only [Item.restorePair.injEq] at e
    obtain ⟨rfl, rfl, rfl, rfl⟩ := e
    rcases h.dirty vr hd with ⟨_, hi⟩ | ⟨_, q, a2, hm, ha2⟩
    · rw [ha] at hi
      exact absurd (Option.some.inj hi) hne
    · rw [ha] at ha2
      obtain rfl := Option.some.inj ha2
      exact ⟨q, hm⟩

theorem SpillInv.spill {clean0 : List Clean} {k : Int} {m : Mem} {tr : List Item}
    {victim pr : Int} {v1 : List Int} {c1 : List Clean} (h : SpillInv clean0 k m tr)
    (hd : getI m.clean victim = some Clean.dirty)
    (h1 : setI m.vr2mem victim m.nextMemAddr = some v1)
    (h2 : setI m.clean victim Clean.spilled = some c1) :
    SpillInv clean0 k
      { m with vr2mem := v1, nextMemAddr := m.nextMemAddr + 4, clean := c1 }
      (tr ++ [Item.spillPair victim pr m.nextMemAddr m.k]) := by
  have e : spills (tr ++ [Item.spillPair victim pr m.nextMemAddr m.k]) =
      spills tr ++ [(victim, m.nextMemAddr)] := by
    rw [spills_append]; simp [spills, Item.spillOf]
  have hnot : victim ∉ (spills tr).map Prod.fst := by
    intro hm
    obtain ⟨x, hx, rfl⟩ := List.mem_map.mp hm
    have := h.spilled x hx
    rw [hd] at this
    cases this
  refine ⟨h.k_eq, ?_, ?_, ?_, ?_, ?_, ?_⟩
  · rw [e]
    simp only [List.map_append, List.length_append, List.length_singleton, List.map_cons,
      List.map_nil, List.range_succ]
    rw [h.addrs, h.next]
  · rw [e]
    simp only [List.length_append, List.length_singleton, h.next]
    push_cast
    ring
  · intro x hx
    rw [e] at hx
    show getI c1 x.1 = some Clean.spilled
    rw [getI_setI h2]
    rcases List.mem_append.mp hx with hx | hx
    · split
      · rfl
      · exact h.spilled x hx
    · simp only [List.mem_singleton] at hx
      subst hx
      simp
  · rw [e]
    simp only [List.map_append, List.map_cons, List.map_nil]
    refine List.Nodup.append h.nodup (List.nodup_singleton _) ?_
    intro a ha hb
    rw [List.mem_singleton] at hb
    subst hb
    exact hnot ha
  · intro v hv
    show (getI c1 v = some Clean.dirty ∧ getI v1 v = some INVALID) ∨
      (getI c1 v = some Clean.spilled ∧ ∃ q a, Item.spillPair v q a k ∈
        tr ++ [Item.spillPair victim pr m.nextMemAddr m.k] ∧ getI v1 v = some a)
    rw [getI_setI h2, getI_setI h1]
    by_cases ev : v = victim
    · subst ev
      right
      refine ⟨by simp, pr, m.nextMemAddr, ?_, by simp⟩
      rw [h.k_eq]
      simp
    · simp only [ev, if_false]
      rcases h.dirty v hv with hh | ⟨hc, q, a, hm, ha⟩
      · exact Or.inl hh
      · exact Or.inr ⟨hc, q, a, List.mem_append_left _ hm, ha⟩
  · exact paired_snoc h.paired (fun vr p a kk e => by cases e)


theorem spillLog_inv {pr : Int} {c : Class} {m m1 : Mem} {items : List Item}
    (h : spillLog pr c m = some (m1, items)) :
    ∃ victim cl, getI c.name pr = some victim ∧ getI m.clean victim = some cl ∧
      ((cl ≠ Clean.dirty ∧ m1 = m ∧ items = []) ∨
       (cl = Clean.dirty ∧ ∃ v1 c1, setI m.vr2mem victim m.nextMemAddr = some v1 ∧
        setI m.clean victim Clean.spilled = some c1 ∧
        m1 = { m with vr2mem := v1, nextMemAddr := m.nextMemAddr + 4, clean := c1 } ∧
        items = [Item.spillPair victim pr m.nextMemAddr m.k])) := by
  unfold spillLog at h
  simp only [Option.bind_eq_bind, Option.pure_def, Option.bind_eq_some] at h
  obtain ⟨victim, hv, cl, hcl, h⟩ := h
  refine ⟨victim, cl, hv, hcl, ?_⟩
  split at h
  · rename_i hd
    simp only [Option.bind_eq_some, Option.some.injEq, Prod.mk.injEq] at h
    obtain ⟨v1, hv1, c1, hc1, rfl, rfl⟩ := h
    exact Or.inr ⟨hd, v1, c1, hv1, hc1, rfl, rfl⟩
  · rename_i hd
    simp only [Option.some.injEq, Prod.mk.injEq] at h
    exact Or.inl ⟨hd, h.1.symm, h.2.symm⟩

theorem spillLog_spillInv {clean0 : List Clean} {k pr : Int} {c : Class} {m m1 : Mem}
    {tr items : List Item} (h : spillLog pr c m = some (m1, items))
    (hi : SpillInv clean0 k m tr) : SpillInv clean0 k m1 (tr ++ items) := by
  obtain ⟨victim, cl, _, hcl, h⟩ := spillLog_inv h
  rcases h with ⟨_, rfl, rfl⟩ | ⟨rfl, v1, c1, h1, h2, rfl, rfl⟩
  · simpa using hi
  · exact hi.spill hcl h1 h2

theorem chooseLog_spillInv {clean0 : List Clean} {k pr : Int} {c c1 : Class} {m m1 : Mem}
    {tr items : List Item} (h : chooseLog c m = some (pr, c1, m1, items))
    (hi : SpillInv clean0 k m tr) : SpillInv clean0 k m1 (tr ++ items) := by
  unfold chooseLog at h
  split at h
  · simp only [Option.some.injEq, Prod.mk.injEq] at h
    obtain ⟨_, _, rfl, rfl⟩ := h
    simpa using hi
  · simp only [Option.bind_eq_bind, Option.pure_def, Option.bind_eq_some, Option.some.injEq,
      Prod.mk.injEq, Prod.exists] at h
    obtain ⟨pr1, _, m2, ins2, hsp, _, _, rfl, rfl⟩ := h
    exact spillLog_spillInv hsp hi

theorem allocateLog_spillInv {clean0 : List Clean} {k vr pr : Int} {c c1 : Class} {m m1 : Mem}
    {tr items : List Item} (h : allocateLog vr c m = some (pr, c1, m1, items))
    (hi : SpillInv clean0 k m tr) : SpillInv clean0 k m1 (tr ++ items) := by
  unfold allocateLog at h
  simp only [Option.bind_eq_bind, Option.pure_def, Option.bind_eq_some, Option.some.injEq,
    Prod.mk.injEq, Prod.exists] at h
  obtain ⟨pr1, c2, m2, ins2, hc, c3, _, _, _, rfl, rfl⟩ := h
  exact chooseLog_spillInv hc hi

theorem restoreLog_spillInv {clean0 : List Clean} {k vr pr : Int} {m : Mem}
    {tr items : List Item} (h : restoreLog vr pr m = some items)
    (hi : SpillInv clean0 k m tr) : SpillInv clean0 k m (tr ++ items) := by
  unfold restoreLog at h
  simp only [Option.bind_eq_bind, Option.pure_def, Option.bind_eq_some] at h
  obtain ⟨cl, hcl, a, ha, h⟩ := h
  split at h
  · obtain rfl := Option.some.inj h
    exact hi.other rfl (fun _ _ _ _ e => by cases e)
  · split at h
    · rename_i hne
      obtain rfl := Option.some.inj h
      rw [hi.k_eq]
      exact hi.restore ha hne
    · obtain rfl := Option.some.inj h
      simpa using hi

theorem ensureLog_spillInv {clean0 : List Clean} {k vr pr : Int} {c c1 : Class} {m m1 : Mem}
    {tr items : List Item} (h : ensureLog vr c m = some (pr, c1, m1, items))
    (hi : SpillInv clean0 k m tr) : SpillInv clean0 k m1 (tr ++ items) := by
  unfold ensureLog at h
  split at h
  · simp only [Option.some.injEq, Prod.mk.injEq] at h
    obtain ⟨_, _, rfl, rfl⟩ := h
    simpa using hi
  · simp only [Option.bind_eq_bind, Option.pure_def, Option.bind_eq_some, Option.some.injEq,
      Prod.mk.injEq, Prod.exists] at h
    obtain ⟨pr1, c2, m2, ins2, ha, ins3, hr, _, _, rfl, rfl⟩ := h
    rw [← List.append_assoc]
    exact restoreLog_spillInv hr (allocateLog_spillInv ha hi)

theorem assignSrcLog_spillInv {clean0 : List Clean} {k : Int} {r r1 : Register}
    {c c1 : Class} {m m1 : Mem} {tr items : List Item}
    (h : assignSrcLog r c m = some (r1, c1, m1, items))
    (hi : SpillInv clean0 k m tr) : SpillInv clean0 k m1 (tr ++ items) := by
  unfold assignSrcLog at h
  split at h
  · simp only [Option.bind_eq_bind, Option.pure_def, Option.bind_eq_some, Option.some.injEq,
      Prod.mk.injEq, Prod.exists] at h
    obtain ⟨pr, c2, m2, ins2, he, _, _, rfl, rfl⟩ := h
    exact ensureLog_spillInv he hi
  · simp only [Option.some.injEq, Prod.mk.injEq] at h
    obtain ⟨_, _, rfl, rfl⟩ := h
    simpa using hi

theorem assignDestLog_spillInv {clean0 : List Clean} {k : Int} {r r1 : Register}
    {c c1 : Class} {m m1 : Mem} {tr items : List Item}
    (h : assignDestLog r c m = some (r1, c1, m1, items))
    (hi : SpillInv clean0 k m tr) : SpillInv clean0 k m1 (tr ++ items) := by
  unfold assignDestLog at h
  split at h
  · simp only [Option.bind_eq_bind, Option.pure_def, Option.bind_eq_some, Option.some.injEq,
      Prod.mk.injEq, Prod.exists] at h
    obtain ⟨pr, c2, m2, ins2, he, n1, _, _, _, rfl, rfl⟩ := h
    exact allocateLog_spillInv he hi
  · simp only [Option.some.injEq, Prod.mk.injEq] at h
    obtain ⟨_, _, rfl, rfl⟩ := h
    simpa using hi

theorem assignStepLog_spillInv {clean0 : List Clean} {k : Int} {it it1 : Instruction}
    {c c1 : Class} {m m1 : Mem} {tr items : List Item}
    (h : assignStepLog it c m = some (items, it1, c1, m1))
    (hi : SpillInv clean0 k m tr) : SpillInv clean0 k m1 (tr ++ items) := by
  unfold assignStepLog at h
  simp only [Option.bind_eq_bind, Option.pure_def, Option.bind_eq_some, Option.some.injEq,
    Prod.mk.injEq, Prod.exists] at h
  obtain ⟨s1, c1, m1, ins1, h1, s2, c2, m2, ins2, h2, c3, _, c4, _, c5, _, c6, _,
    d, c8, m4, ins3, h7, rfl, _, _, rfl⟩ := h
  have a := assignDestLog_spillInv h7 (assignSrcLog_spillInv h2 (assignSrcLog_spillInv h1 hi))
  simpa [List.append_assoc] using a

theorem assignLoopLog_spillInv {clean0 : List Clean} {k : Int} :
    ∀ (ir : List Instruction) (c c1 : Class) (m m1 : Mem) (tr0 tr : List Item),
    assignLoopLog ir c m = some (tr, c1, m1) → SpillInv clean0 k m tr0 →
    SpillInv clean0 k m1 (tr0 ++ tr)
  | [], c, c1, m, m1, tr0, tr, h, hi => by
    simp only [assignLoopLog, Option.some.injEq, Prod.mk.injEq] at h
    obtain ⟨rfl, _, rfl⟩ := h
    simpa using hi
  | it :: rest, c, c1, m, m1, tr0, tr, h, hi => by
    simp only [assignLoopLog, Option.bind_eq_bind, Option.pure_def, Option.bind_eq_some,
      Option.some.injEq, Prod.mk.injEq, Prod.exists] at h
    obtain ⟨ins, it1, c2, m2, hs, tr1, c3, m3, hl, rfl, _, rfl⟩ := h
    have a := (assignStepLog_spillInv hs hi).other (x := Item.orig it1) rfl
      (fun _ _ _ _ e => by cases e)
    have b := assignLoopLog_spillInv rest c2 c3 m2 m3 _ tr1 hl a
    simpa [List.append_assoc] using b

theorem spillInv_init {clean0 : List Clean} {vr2mem : List Int} {k maxLive : Int}
    (h : TagOK clean0 vr2mem) :
    SpillInv clean0 k { k := k, nextMemAddr := SPILL, maxLive := maxLive, vr2mem := vr2mem,
                        clean := clean0 } [] := by
  refine ⟨rfl, rfl, by simp [spills], ?_, by simp [spills], ?_, ?_⟩
  · intro x hx
    simp [spills] at hx
  · intro v hv
    exact Or.inl ⟨hv, h.2 v hv⟩
  · intro t1 t2 vr p a kk e
    simp at e


theorem allocate_next_le {vr pr : Int} {c c2 : Class} {m m1 : Mem} {ins : List Instruction}
    (h : allocate vr c m = some (pr, c2, m1, ins)) : m.nextMemAddr ≤ m1.nextMemAddr := by
  obtain ⟨c1, hc, _⟩ := allocate_inv h
  rcases choose_inv hc with ⟨rest, _, _, rfl, _⟩ | ⟨_, _, _, hsp⟩
  · exact le_refl _
  · obtain ⟨victim, cl, _, _, h⟩ := spill_inv hsp
    rcases h with ⟨_, rfl, _⟩ | ⟨_, _, _, rfl, _⟩
    · exact le_refl _
    · show m.nextMemAddr ≤ m.nextMemAddr + 4
      omega

theorem assignSrc_next_le {r r1 : Register} {c c1 : Class} {m m1 : Mem}
    {ins : List Instruction} (h : assignSrc r c m = some (r1, c1, m1, ins)) :
    m.nextMemAddr ≤ m1.nextMemAddr := by
  unfold assignSrc at h
  split at h
  · simp only [Option.bind_eq_bind, Option.pure_def, Option.bind_eq_some, Option.some.injEq,
      Prod.mk.injEq, Prod.exists] at h
    obtain ⟨pr, c2, m2, ins2, he, _, _, rfl, _⟩ := h
    rcases ensure_inv he with ⟨_, _, _, rfl, _⟩ | ⟨_, ins0, ins1, ha, _, _⟩
    · exact le_refl _
    · exact allocate_next_le ha
  · simp only [Option.some.injEq, Prod.mk.injEq] at h
    obtain ⟨_, _, rfl, _⟩ := h
    exact le_refl _

theorem assignDest_next_le {r r1 : Register} {c c1 : Class} {m m1 : Mem}
    {ins : List Instruction} (h : assignDest r c m = some (r1, c1, m1, ins)) :
    m.nextMemAddr ≤ m1.nextMemAddr := by
  unfold assignDest at h
  split at h
  · simp only [Option.bind_eq_bind, Option.pure_def, Option.bind_eq_some, Option.some.injEq,
      Prod.mk.injEq, Prod.exists] at h
    obtain ⟨pr, c2, m2, ins2, he, n1, _, _, _, rfl, _⟩ := h
    exact allocate_next_le he
  · simp only [Option.some.injEq, Prod.mk.injEq] at h
    obtain ⟨_, _, rfl, _⟩ := h
    exact le_refl _

theorem assignLoop_next_le : ∀ (ir : List Instruction) (c c1 : Class) (m m1 : Mem)
    (gs : List (List Instruction × Instruction)),
    assignLoop ir c m = some (gs, c1, m1) → m.nextMemAddr ≤ m1.nextMemAddr
  | [], c, c1, m, m1, gs, h => by
    simp only [assignLoop, Option.some.injEq, Prod.mk.injEq] at h
    obtain ⟨_, _, rfl⟩ := h
    exact le_refl _
  | it :: rest, c, c1, m, m1, gs, h => by
    simp only [assignLoop, Option.bind_eq_bind, Option.pure_def, Option.bind_eq_some,
      Option.some.injEq, Prod.mk.injEq, Prod.exists] at h
    obtain ⟨ins, it1, c2, m2, hs, gs1, c3, m3, hl, _, _, rfl⟩ := h
    obtain ⟨s1, c1, m1, ins1, s2, c2, m2, ins2, c3, c4, c5, c6, d, ins3, h1, h2, _, _, _, _,
      h7, _, _⟩ := assignStep_inv hs
    have a := assignSrc_next_le h1
    have b := assignSrc_next_le h2
    have e := assignDest_next_le h7
    have f := assignLoop_next_le rest _ _ _ _ _ hl
    omega

theorem Allocator_log {ir : List Instruction} {k : Int} {r : Result}
    (h : Allocator ir k = some r) :
    ∃ ir1 lu tr, computeLastUses ir = some (ir1, lu) ∧
      assignLoopLog ir1 (Class.new (if k < lu.maxLive then k - 1 else k))
        { k := if k < lu.maxLive then k - 1 else k, nextMemAddr := SPILL,
          maxLive := lu.maxLive, vr2mem := lu.vr2mem, clean := lu.clean }
        = some (tr, r.c, r.m) ∧
      AllocatorLog ir k = some tr ∧ expand tr = r.intRep := by
  obtain ⟨ir1, lu, h1, h2⟩ := Allocator_inv h
  have e := assignLoopLog_instrs ir1 (Class.new (if k < lu.maxLive then k - 1 else k))
        { k := if k < lu.maxLive then k - 1 else k, nextMemAddr := SPILL,
          maxLive := lu.maxLive, vr2mem := lu.vr2mem, clean := lu.clean }
  rw [h2] at e
  simp only [Option.map_some', Option.map_eq_some', Prod.mk.injEq, Prod.exists] at e
  obtain ⟨tr, c, m, ht, e1, rfl, rfl⟩ := e
  refine ⟨ir1, lu, tr, h1, ht, ?_, e1⟩
  unfold AllocatorLog
  simp only [h1, Option.bind_eq_bind, Option.pure_def, Option.some_bind, ht]

/-! ### Liveness along the backward sweep -/

theorem countLive_succ (n : Nat) (p : Int → Bool) :
    countLive (n + 1) p = countLive n p + if p (n : Int) then 1 else 0 := by
  unfold countLive
  rw [List.range_succ, List.filter_append, List.length_append]
  by_cases h : p (n : Int) = true <;> simp [h]

theorem countLive_congr {n : Nat} {p q : Int → Bool}
    (h : ∀ j : Int, 0 ≤ j → j < n → p j = q j) : countLive n p = countLive n q := by
  induction n with
  | zero => rfl
  | succ n ih =>
    rw [countLive_succ, countLive_succ, ih (fun j h0 hj => h j h0 (by push_cast; omega)),
      h n (by omega) (by push_cast; omega)]

theorem countLive_mono {n : Nat} {p q : Int → Bool}
    (h : ∀ j : Int, 0 ≤ j → j < n → p j = true → q j = true) :
    countLive n p ≤ countLive n q := by
  induction n with
  | zero => exact le_refl _
  | succ n ih =>
    rw [countLive_succ, countLive_succ]
    have a := ih (fun j h0 hj => h j h0 (by push_cast; omega))
    have b := h n (by omega) (by push_cast; omega)
    by_cases hp : p (n : Int) = true
    · simp [hp, b hp]; exact a
    · simp [hp]
      split <;> omega

theorem countLive_or_eq {n : Nat} {p : Int → Bool} {a : Int} (h0 : 0 ≤ a) (hlt : a < n) :
    countLive n (fun j => p j || j == a) = countLive n p + if p a then 0 else 1 := by
  induction n with
  | zero => simp at hlt; omega
  | succ n ih =>
    rw [countLive_succ, countLive_succ]
    by_cases e : a = (n : Int)
    · subst e
      have : countLive n (fun j => p j || j == (n : Int)) = countLive n p := by
        refine countLive_congr (fun j _ hj => ?_)
        have : (j == (n : Int)) = false := by simp; omega
        simp [this]
      rw [this]
      by_cases hp : p (n : Int) = true <;> simp [hp]
    · have hlt2 : a < (n : Int) := by push_cast at hlt; omega
      rw [ih hlt2]
      have : (((n : Int)) == a) = false := by simp; omega
      simp only [this, Bool.or_false]
      omega

theorem countLive_and_ne {n : Nat} {p : Int → Bool} {a : Int} (h0 : 0 ≤ a) (hlt : a < n) :
    countLive n (fun j => p j && j != a) + (if p a then 1 else 0) = countLive n p := by
  induction n with
  | zero => simp at hlt; omega
  | succ n ih =>
    rw [countLive_succ, countLive_succ]
    by_cases e : a = (n : Int)
    · subst e
      have : countLive n (fun j => p j && j != (n : Int)) = countLive n p := by
        refine countLive_congr (fun j _ hj => ?_)
        have : (j != (n : Int)) = true := by simp; omega
        simp [this]
      rw [this]
      by_cases hp : p (n : Int) = true <;> simp [hp]
    · have hlt2 : a < (n : Int) := by push_cast at hlt; omega
      have := ih hlt2
      have hne : (((n : Int)) != a) = true := by simp; omega
      simp only [hne, Bool.and_true]
      omega

theorem LiveState.congr {n : Nat} {f g : Int → Bool} {s : LU} (h : LiveState n f s)
    (e : ∀ j : Int, 0 ≤ j → j < n → f j = g j) : LiveState n g s := by
  refine ⟨h.len, h.name, ?_, ?_, h.le⟩
  · intro j h0 hj
    obtain ⟨v, hv, hiff⟩ := h.valid j h0 hj
    exact ⟨v, hv, by rw [← e j h0 hj]; exact hiff⟩
  · rw [h.count, countLive_congr e]

theorem openRange_live {n : Nat} {f : Int → Bool} {sr : Int} {s s1 : LU}
    (h : LiveState n f s) (ho : openRange sr s = some s1) :
    LiveState n (fun j => f j || j == sr) s1 ∧ s1.maxLive = max s.maxLive s1.numLive ∧
    0 ≤ sr ∧ sr < n ∧ s1.lastUse = s.lastUse := by
  obtain ⟨cur, hc, hcase⟩ := openRange_inv ho
  have hb := getI_lt hc
  rw [h.len] at hb
  obtain ⟨v, hv, hiff⟩ := h.valid sr hb.1 hb.2
  rw [hc] at hv
  obtain rfl := Option.some.inj hv
  rcases hcase with ⟨hne, rfl⟩ | ⟨he, t, ht, rfl⟩
  · have hf : f sr = true := hiff.mp hne
    refine ⟨h.congr ?_, ?_, hb.1, hb.2, rfl⟩
    · intro j _ _
      by_cases e : j = sr
      · subst e; simp [hf]
      · simp [e]
    · have := h.le
      omega
  · have hf : f sr = false := by
      cases hfs : f sr
      · rfl
      · exact absurd he (hiff.mpr hfs)
    refine ⟨⟨?_, ?_, ?_, ?_, ?_⟩, ?_, hb.1, hb.2, rfl⟩
    · show t.length = n
      rw [setI_length ht, h.len]
    · show 0 ≤ s.vrName + 1
      have := h.name; omega
    · intro j h0 hj
      show ∃ v, getI t j = some v ∧ _
      rw [getI_setI ht]
      by_cases e : j = sr
      · subst e
        refine ⟨s.vrName, by simp, ?_⟩
        have := h.name
        simp [INVALID]
        omega
      · obtain ⟨v, hv, hiff2⟩ := h.valid j h0 hj
        refine ⟨v, by simp [e, hv], ?_⟩
        simp [e, hiff2]
    · show s.numLive + 1 = _
      rw [countLive_or_eq hb.1 hb.2, h.count, hf]
      simp
    · show s.numLive + 1 ≤ if s.numLive + 1 > s.maxLive then s.numLive + 1 else s.maxLive
      split <;> omega
    · show (if s.numLive + 1 > s.maxLive then s.numLive + 1 else s.maxLive) =
        max s.maxLive (s.numLive + 1)
      split <;> omega

theorem update_live {n : Nat} {f : Int → Bool} {op r : Register} {i : Int} {s s2 : LU}
    (h : LiveState n f s) (hu : update op i s = some (r, s2)) :
    LiveState n (fun j => f j || j == op.sr) s2 ∧ s2.maxLive = max s.maxLive s2.numLive ∧
    0 ≤ op.sr ∧ op.sr < n ∧ r.sr = op.sr ∧ r.isReg = op.isReg := by
  obtain ⟨s1, v, nu, l, h1, _, _, _, rfl, rfl⟩ := update_inv hu
  obtain ⟨a, b, c, d, _⟩ := openRange_live h h1
  exact ⟨⟨a.len, a.name, a.valid, a.count, a.le⟩, b, c, d, rfl, rfl⟩

theorem LiveState.frame {n : Nat} {f : Int → Bool} {s s1 : LU} (h : LiveState n f s)
    (e1 : s1.sr2vr = s.sr2vr) (e2 : s1.vrName = s.vrName) (e3 : s1.numLive = s.numLive)
    (e4 : s1.maxLive = s.maxLive) : LiveState n f s1 :=
  ⟨by rw [e1]; exact h.len, by rw [e2]; exact h.name, by rw [e1]; exact h.valid,
   by rw [e3]; exact h.count, by rw [e3, e4]; exact h.le⟩

theorem luDest_live {n : Nat} {f : Int → Bool} {i : Int} {it it1 : Instruction} {s s1 : LU}
    (h : LiveState n f s) (hd : luDest i it s = some (it1, s1)) :
    LiveState n (fun j => f j && !it.writes j) s1 ∧
    s1.maxLive = max s.maxLive (countLive n (fun j => f j || it.writes j)) ∧
    it1.src1 = it.src1 ∧ it1.src2 = it.src2 ∧ it1.op = it.op := by
  rcases luDest_inv hd with ⟨hr, h1, rfl⟩ | ⟨hr, d, a, t, u, hu, ht, _, rfl, rfl⟩
  · rw [h1]
    have hw : ∀ j, it.writes j = false := by intro j; simp [Instruction.writes, hr]
    refine ⟨h.congr (fun j _ _ => by simp [hw]), ?_, rfl, rfl, rfl⟩
    have e : countLive n (fun j => f j || it.writes j) = countLive n f :=
      countLive_congr (fun j _ _ => by simp [hw])
    rw [e, ← h.count]
    have := h.le
    omega
  · obtain ⟨la, hm, h0, hlt, hsr, _⟩ := update_live h hu
    have hw : ∀ j, it.writes j = (j == it.dest.sr) := by
      intro j; simp [Instruction.writes, hr, eq_comm]
    have hcnt : countLive n (fun j => f j || it.writes j) =
        countLive n (fun j => f j || j == it.dest.sr) :=
      countLive_congr (fun j _ _ => by rw [hw])
    refine ⟨⟨?_, la.name, ?_, ?_, ?_⟩, ?_, rfl, rfl, rfl⟩
    · show t.length = n
      rw [setI_length ht, la.len]
    · intro j hj0 hjn
      show ∃ v, getI t j = some v ∧ _
      rw [getI_setI ht, hsr]
      by_cases e : j = it.dest.sr
      · subst e
        exact ⟨INVALID, by simp, by simp [hw]⟩
      · obtain ⟨v, hv, hiff⟩ := la.valid j hj0 hjn
        refine ⟨v, by simp [e, hv], ?_⟩
        rw [hiff]
        simp [hw, e]
    · show a.numLive - 1 = _
      have c := countLive_and_ne (p := fun j => f j || j == it.dest.sr) h0 hlt
      simp only [beq_self_eq_true, Bool.or_true, if_true] at c
      have e : countLive n (fun j => f j && !it.writes j) =
          countLive n (fun j => (f j || j == it.dest.sr) && j != it.dest.sr) := by
        refine countLive_congr (fun j _ _ => ?_)
        rw [hw]
        show (f j && !(j == it.dest.sr)) = ((f j || j == it.dest.sr) && !(j == it.dest.sr))
        cases f j <;> cases (j == it.dest.sr) <;> rfl
      rw [e, la.count]
      omega
    · show a.numLive - 1 ≤ a.maxLive
      have := la.le
      omega
    · show a.maxLive = _
      rw [hm, hcnt, la.count]

theorem luSrc_live {n : Nat} {f : Int → Bool} {op r : Register} {i : Int} {s s1 : LU}
    (h : LiveState n f s)
    (hs : (op.isReg = false ∧ r = op ∧ s1 = s) ∨ (op.isReg = true ∧ update op i s = some (r, s1))) :
    LiveState n (fun j => f j || (op.isReg && op.sr == j)) s1 ∧
    s1.maxLive = max s.maxLive (countLive n (fun j => f j || (op.isReg && op.sr == j))) := by
  rcases hs with ⟨hr, _, rfl⟩ | ⟨hr, hu⟩
  · have e : ∀ j : Int, 0 ≤ j → j < n → f j = (f j || (op.isReg && op.sr == j)) := by
      intro j _ _; simp [hr]
    refine ⟨h.congr e, ?_⟩
    rw [← countLive_congr e, ← h.count]
    have := h.le
    omega
  · obtain ⟨la, hm, _, _, _, _⟩ := update_live h hu
    have e : ∀ j : Int, 0 ≤ j → j < n →
        (f j || j == op.sr) = (f j || (op.isReg && op.sr == j)) := by
      intro j _ _
      have : (op.sr == j) = (j == op.sr) := by
        by_cases e : j = op.sr
        · subst e; rfl
        · have e2 : ¬ op.sr = j := fun h => e h.symm
          simp [e, e2]
      rw [hr, this]
      simp
    refine ⟨la.congr e, ?_⟩
    rw [hm, la.count, countLive_congr e]

theorem luRemat_frame {it : Instruction} {s s1 : LU} (h : luRemat it s = some s1) :
    s1.sr2vr = s.sr2vr ∧ s1.vrName = s.vrName ∧ s1.numLive = s.numLive ∧
    s1.maxLive = s.maxLive ∧ s1.lastUse = s.lastUse ∧ s1.stores = s.stores ∧
    s1.loads = s.loads := by
  rcases luRemat_inv h with ⟨_, rfl⟩ | ⟨_, c, v, _, _, rfl⟩ <;> simp

theorem luClean_frame {it : Instruction} {s s1 : LU} (h : luClean it s = some s1) :
    s1.sr2vr = s.sr2vr ∧ s1.vrName = s.vrName ∧ s1.numLive = s.numLive ∧
    s1.maxLive = s.maxLive ∧ s1.lastUse = s.lastUse ∧ s1.stores = s.stores := by
  rcases luClean_inv h with ⟨_, rfl⟩ | ⟨_, l, v, c, _, rfl⟩ <;> simp

theorem luStep_live {n : Nat} {f : Int → Bool} {i : Int} {it it3 : Instruction} {s s5 : LU}
    (h : LiveState n f s) (hs : luStep i it s = some (it3, s5)) :
    LiveState n (fun j => it.reads j || (!it.writes j && f j)) s5 ∧
    s5.maxLive = max s.maxLive
      (max (countLive n (fun j => it.reads j || (!it.writes j && f j)))
           (countLive n (fun j => f j || it.writes j))) := by
  obtain ⟨it1, s1, it2, s2, s3, s4, h1, h2, h3, h4, h5⟩ := luStep_inv hs
  obtain ⟨l1, m1, e1, e2, _⟩ := luDest_live h h1
  have h2b : (it.src1.isReg = false ∧ it2.src1 = it.src1 ∧ s2 = s1) ∨
      (it.src1.isReg = true ∧ update it.src1 i s1 = some (it2.src1, s2)) := by
    rw [← e1]
    rcases luSrc1_inv h2 with ⟨a, b, c⟩ | ⟨a, r, b, c⟩
    · exact Or.inl ⟨a, by rw [b], c⟩
    · exact Or.inr ⟨a, by rw [c]; exact b⟩
  have e3 : it2.src2 = it.src2 := by
    rw [← e2]
    rcases luSrc1_inv h2 with ⟨_, b, _⟩ | ⟨_, r, _, c⟩
    · rw [b]
    · rw [c]
  obtain ⟨l2, m2⟩ := luSrc_live l1 h2b
  have h3b : (it.src2.isReg = false ∧ it3.src2 = it.src2 ∧ s3 = s2) ∨
      (it.src2.isReg = true ∧ update it.src2 i s2 = some (it3.src2, s3)) := by
    rw [← e3]
    rcases luSrc2_inv h3 with ⟨a, b, c⟩ | ⟨a, r, b, c⟩
    · exact Or.inl ⟨a, by rw [b], c⟩
    · exact Or.inr ⟨a, by rw [c]; exact b⟩
  obtain ⟨l3, m3⟩ := luSrc_live l2 h3b
  have f4 := luRemat_frame h4
  have f5 := luClean_frame h5
  have fl := luLogs_frame it3 s4
  have l5 : LiveState n _ s5 := l3.frame (by rw [f5.1, fl.2.2.1, f4.1])
    (by rw [f5.2.1, fl.2.2.2.2.1, f4.2.1]) (by rw [f5.2.2.1, fl.2.2.2.2.2.1, f4.2.2.1])
    (by rw [f5.2.2.2.1, fl.2.2.2.2.2.2, f4.2.2.2.1])
  have hm5 : s5.maxLive = s3.maxLive := by rw [f5.2.2.2.1, fl.2.2.2.2.2.2, f4.2.2.2.1]
  have eq3 : ∀ j : Int, 0 ≤ j → j < n →
      (((f j && !it.writes j) || (it.src1.isReg && it.src1.sr == j)) ||
        (it.src2.isReg && it.src2.sr == j)) = (it.reads j || (!it.writes j && f j)) := by
    intro j _ _
    simp only [Instruction.reads]
    cases f j <;> cases it.writes j <;> cases (it.src1.isReg && it.src1.sr == j) <;>
      cases (it.src2.isReg && it.src2.sr == j) <;> rfl
  refine ⟨l5.congr eq3, ?_⟩
  rw [hm5, m3, m2, m1, countLive_congr eq3]
  have mono : countLive n (fun j => (f j && !it.writes j) || (it.src1.isReg && it.src1.sr == j))
      ≤ countLive n (fun j => it.reads j || (!it.writes j && f j)) := by
    rw [← countLive_congr eq3]
    refine countLive_mono (fun j _ _ hj => ?_)
    simp only [Bool.or_eq_true] at hj ⊢
    exact Or.inl hj
  omega

theorem luSweep_live {n : Nat} : ∀ (ir : List Instruction) (i : Nat) (s : LU)
    (ir1 : List Instruction) (s1 : LU), luSweep i ir s = some (ir1, s1) →
    LiveState n (fun _ => false) s → s.maxLive = 0 →
    LiveState n (liveIn ir) s1 ∧ s1.maxLive = (peakFrom n ir : Int)
  | [], _, _, _, _, h, hl, hm => by
    simp only [luSweep, Option.some.injEq, Prod.mk.injEq] at h
    obtain ⟨_, rfl⟩ := h
    exact ⟨hl.congr (fun j _ _ => rfl), by rw [hm]; rfl⟩
  | it :: rest, i, s, ir1, s1, h, hl, hm => by
    simp only [luSweep, Option.bind_eq_bind, Option.pure_def, Option.bind_eq_some,
      Option.some.injEq, Prod.mk.injEq, Prod.exists] at h
    obtain ⟨rest1, t1, hr, it1, t2, hs, _, rfl⟩ := h
    obtain ⟨a, b⟩ := luSweep_live rest (i + 1) s rest1 t1 hr hl hm
    obtain ⟨c, d⟩ := luStep_live a hs
    refine ⟨c.congr (fun j _ _ => rfl), ?_⟩
    rw [d, b]
    simp only [peakFrom, liveIn]
    push_cast
    rfl

theorem pressureAt_cons_succ (n : Nat) (it : Instruction) (rest : List Instruction) (j : Nat) :
    pressureAt n (it :: rest) (j + 1) = pressureAt n rest j := by
  simp [pressureAt]

theorem peak_cons (n : Nat) (it : Instruction) (rest : List Instruction) :
    peak n (it :: rest) = max (pressureAt n (it :: rest) 0) (peak n rest) := by
  unfold peak
  rw [List.length_cons, List.range_succ_eq_map, List.map_cons, List.foldr_cons, List.map_map]
  congr 2
  refine List.map_congr_left (fun j _ => ?_)
  exact pressureAt_cons_succ n it rest j

theorem peakFrom_eq_peak (n : Nat) : ∀ ir : List Instruction, peakFrom n ir = peak n ir
  | [] => rfl
  | it :: rest => by
    rw [peak_cons, peakFrom, peakFrom_eq_peak n rest, max_comm]
    simp [pressureAt]

theorem liveState_init (ir : List Instruction) :
    LiveState (getNumSR ir).toNat (fun _ => false) (LU.init ir) := by
  refine ⟨by simp [LU.init], le_refl _, ?_, ?_, le_refl _⟩
  · intro j h0 hj
    refine ⟨INVALID, ?_, by simp⟩
    have : j.toNat < (getNumSR ir).toNat := by omega
    simp [LU.init, getI, h0, List.getElem?_replicate, this]
  · show (0 : Int) = _
    have : countLive (getNumSR ir).toNat (fun _ => false) = 0 := by
      simp [countLive]
    rw [this]
    rfl

/-! ### The clean-load analysis along the backward sweep -/

theorem openRange_name {K : Int → Prop} {sr : Int} {s s1 : LU} (h : NameInv K s)
    (ho : openRange sr s = some s1) :
    NameInv K s1 ∧ ∃ v, getI s1.sr2vr sr = some v ∧ v ≠ INVALID ∧ s1.stores = s.stores ∧
      s1.loads = s.loads := by
  obtain ⟨cur, hc, hcase⟩ := openRange_inv ho
  rcases hcase with ⟨hne, rfl⟩ | ⟨he, t, ht, rfl⟩
  · exact ⟨h, cur, hc, hne, rfl, rfl⟩
  · have hn := h.name
    refine ⟨⟨?_, ?_, ?_, ?_, ?_⟩, s.vrName, ?_, ?_, rfl, rfl⟩
    · show 0 ≤ s.vrName + 1
      omega
    · intro sr1 v hv hne
      show 0 ≤ v ∧ v < s.vrName + 1
      have hv2 : getI t sr1 = some v := hv
      rw [getI_setI ht] at hv2
      split at hv2
      · obtain rfl := Option.some.inj hv2
        omega
      · have := h.live_lt sr1 v hv2 hne
        omega
    · intro v hk
      show 0 ≤ v ∧ v < s.vrName + 1
      have := h.killed_lt v hk
      omega
    · intro v hk sr1 hv
      have hv2 : getI t sr1 = some v := hv
      rw [getI_setI ht] at hv2
      split at hv2
      · obtain rfl := Option.some.inj hv2
        have := h.killed_lt _ hk
        omega
      · exact h.killed_dead v hk sr1 hv2
    · intro a b v ha hb hne
      have ha2 : getI t a = some v := ha
      have hb2 : getI t b = some v := hb
      rw [getI_setI ht] at ha2 hb2
      by_cases ea : a = sr <;> by_cases eb : b = sr
      · rw [ea, eb]
      · rw [if_pos ea] at ha2
        rw [if_neg eb] at hb2
        obtain rfl := Option.some.inj ha2
        have := h.live_lt b _ hb2 hne
        omega
      · rw [if_neg ea] at ha2
        rw [if_pos eb] at hb2
        obtain rfl := Option.some.inj hb2
        have := h.live_lt a _ ha2 hne
        omega
      · rw [if_neg ea] at ha2
        rw [if_neg eb] at hb2
        exact h.inj a b v ha2 hb2 hne
    · show getI t sr = some s.vrName
      exact getI_setI_same ht
    · simp only [INVALID]
      omega

theorem update_name {K : Int → Prop} {op r : Register} {i : Int} {s s2 : LU}
    (h : NameInv K s) (hu : update op i s = some (r, s2)) :
    NameInv K s2 ∧ getI s2.sr2vr op.sr = some r.vr ∧ r.vr ≠ INVALID ∧ ¬ K r.vr ∧
    s2.stores = s.stores ∧ s2.loads = s.loads ∧ r.sr = op.sr ∧ r.isReg = op.isReg ∧
    r.pr = op.pr := by
  obtain ⟨s1, v, nu, l, h1, hv, _, _, rfl, rfl⟩ := update_inv hu
  obtain ⟨a, w, hw, hne, e1, e2⟩ := openRange_name h h1
  rw [hv] at hw
  obtain rfl := Option.some.inj hw
  refine ⟨⟨a.name, a.live_lt, a.killed_lt, a.killed_dead, a.inj⟩, hv, hne, ?_, e1, e2, rfl, rfl,
    rfl⟩
  intro hk
  exact a.killed_dead v hk op.sr hv

theorem kill_name {K : Int → Prop} {a : LU} {sr v : Int} {t : List Int} (h : NameInv K a)
    (hv : getI a.sr2vr sr = some v) (hne : v ≠ INVALID)
    (ht : setI a.sr2vr sr INVALID = some t) (s1 : LU) (e1 : s1.sr2vr = t)
    (e2 : s1.vrName = a.vrName) : NameInv (fun x => K x ∨ x = v) s1 := by
  refine ⟨by rw [e2]; exact h.name, ?_, ?_, ?_, ?_⟩
  · intro sr1 w hw hwne
    rw [e1, getI_setI ht] at hw
    rw [e2]
    split at hw
    · exact absurd (Option.some.inj hw).symm hwne
    · exact h.live_lt sr1 w hw hwne
  · intro w hk
    rw [e2]
    rcases hk with hk | rfl
    · exact h.killed_lt w hk
    · exact h.live_lt sr _ hv hne
  · intro w hk sr1 hw
    rw [e1, getI_setI ht] at hw
    split at hw
    · obtain rfl := Option.some.inj hw
      rcases hk with hk | e
      · have := h.killed_lt _ hk
        simp only [INVALID] at this
        omega
      · exact hne e.symm
    · rename_i hsr
      rcases hk with hk | rfl
      · exact h.killed_dead w hk sr1 hw
      · exact hsr (h.inj sr1 sr _ hw hv hne)
  · intro x y w hx hy hwne
    rw [e1, getI_setI ht] at hx hy
    split at hx
    · exact absurd (Option.some.inj hx).symm hwne
    · split at hy
      · exact absurd (Option.some.inj hy).symm hwne
      · exact h.inj x y w hx hy hwne

theorem keeps_refl (c : List Clean) (v : List Int) : Keeps c v c v :=
  fun _ h => ⟨h, rfl⟩

theorem keeps_trans {c c1 c2 : List Clean} {v v1 v2 : List Int} (h1 : Keeps c v c1 v1)
    (h2 : Keeps c1 v1 c2 v2) : Keeps c v c2 v2 := by
  intro x hx
  obtain ⟨a, b⟩ := h2 x hx
  obtain ⟨a1, b1⟩ := h1 x a
  exact ⟨a1, b.trans b1⟩

theorem update_keeps {op r : Register} {i : Int} {s s2 : LU} (hu : update op i s = some (r, s2))
    (ht : TagOK s.clean s.vr2mem) : Keeps s.clean s.vr2mem s2.clean s2.vr2mem := by
  obtain ⟨s1, v, nu, l, h1, _, _, _, _, rfl⟩ := update_inv hu
  obtain ⟨cur, _, hcase⟩ := openRange_inv h1
  rcases hcase with ⟨_, rfl⟩ | ⟨_, t, _, rfl⟩
  · exact keeps_refl _ _
  · intro x hx
    have hx2 : getI (s.clean ++ [Clean.dirty]) x = some Clean.cleanLoad := hx
    show getI s.clean x = some Clean.cleanLoad ∧ getI (s.vr2mem ++ [INVALID]) x = getI s.vr2mem x
    rw [getI_append_one] at hx2 ⊢
    split at hx2
    · cases hx2
    · rename_i hne
      rw [ht.1] at hne
      rw [if_neg hne]
      exact ⟨hx2, rfl⟩

theorem luRemat_keeps {it : Instruction} {s s1 : LU} (h : luRemat it s = some s1) :
    Keeps s.clean s.vr2mem s1.clean s1.vr2mem := by
  rcases luRemat_inv h with ⟨_, rfl⟩ | ⟨_, c, v, hc, hv, rfl⟩
  · exact keeps_refl _ _
  · intro x hx
    have hx2 : getI c x = some Clean.cleanLoad := hx
    show getI s.clean x = some Clean.cleanLoad ∧ getI v x = getI s.vr2mem x
    rw [getI_setI hc] at hx2
    rw [getI_setI hv]
    split at hx2
    · cases hx2
    · rename_i hne
      rw [if_neg hne]
      exact ⟨hx2, rfl⟩

theorem luLogs_stores (it : Instruction) (s : LU) :
    (luLogs it s).stores =
      (if it.op = Opcode.store then s.stores ++ [(it.src2.vr, INVALID)] else s.stores) ∧
    (luLogs it s).loads =
      (if it.op = Opcode.load then s.loads ++ [(it.src1.vr, it.dest.vr)] else s.loads) := by
  unfold luLogs
  split <;> split <;> simp

theorem killedIn_cons (it : Instruction) (done : List Instruction) (v : Int) :
    killedIn (it :: done) v ↔ (killedIn done v ∨ (it.dest.isReg = true ∧ v = it.dest.vr)) := by
  unfold killedIn
  constructor
  · rintro ⟨D, hD, h1, h2⟩
    rcases List.mem_cons.mp hD with rfl | hD
    · exact Or.inr ⟨h1, h2.symm⟩
    · exact Or.inl ⟨D, hD, h1, h2⟩
  · rintro (⟨D, hD, h1, h2⟩ | ⟨h1, h2⟩)
    · exact ⟨D, List.mem_cons_of_mem _ hD, h1, h2⟩
    · exact ⟨it, List.mem_cons_self _ _, h1, h2.symm⟩

theorem NameInv.weaken {K K1 : Int → Prop} {s : LU} (h : NameInv K s) (e : ∀ v, K1 v → K v) :
    NameInv K1 s :=
  ⟨h.name, h.live_lt, fun v hk => h.killed_lt v (e v hk),
   fun v hk => h.killed_dead v (e v hk), h.inj⟩

theorem NameInv.carry {K : Int → Prop} {s s1 : LU} (h : NameInv K s)
    (e1 : s1.sr2vr = s.sr2vr) (e2 : s1.vrName = s.vrName) : NameInv K s1 :=
  ⟨by rw [e2]; exact h.name, by rw [e1, e2]; exact h.live_lt, by rw [e2]; exact h.killed_lt,
   by rw [e1]; exact h.killed_dead, by rw [e1]; exact h.inj⟩

theorem luDest_names {K : Int → Prop} {i : Int} {it it1 : Instruction} {s s1 : LU}
    (hn : NameInv K s) (ht : TagOK s.clean s.vr2mem) (hd : luDest i it s = some (it1, s1)) :
    NameInv (fun v => K v ∨ (it1.dest.isReg = true ∧ v = it1.dest.vr)) s1 ∧
    it1.op = it.op ∧ it1.src1 = it.src1 ∧ it1.src2 = it.src2 ∧
    (it1.dest.isReg = true → ¬ K it1.dest.vr) ∧
    s1.stores = killStore it1 s.stores ∧ s1.loads = s.loads ∧
    Keeps s.clean s.vr2mem s1.clean s1.vr2mem ∧ TagOK s1.clean s1.vr2mem := by
  rcases luDest_inv hd with ⟨hr, h1, rfl⟩ | ⟨hr, d, a, t, u, hu, ht2, _, rfl, rfl⟩
  · subst h1
    refine ⟨hn.weaken ?_, rfl, rfl, rfl, ?_, ?_, rfl, keeps_refl _ _, ht⟩
    · rintro v (hk | ⟨h1, _⟩)
      · exact hk
      · rw [hr] at h1; cases h1
    · intro h1; rw [hr] at h1; cases h1
    · simp [killStore, hr]
  · obtain ⟨na, hv, hne, hnk, e1, e2, e3, e4, _⟩ := update_name hn hu
    rw [← e3] at hv
    have nk := kill_name na hv hne ht2
      { a with sr2vr := t, lastUse := u, numLive := a.numLive - 1,
               stores := reconcileStores d.vr it.op it.src1.sr a.stores } rfl rfl
    have kp : Keeps s.clean s.vr2mem a.clean a.vr2mem := update_keeps hu ht
    have ta : TagOK a.clean a.vr2mem := update_tagOK hu ht
    refine ⟨nk.weaken ?_, rfl, rfl, rfl, fun _ => hnk, ?_, e2, kp, ta⟩
    · rintro v (hk | ⟨_, h2⟩)
      · exact Or.inl hk
      · exact Or.inr h2
    · show reconcileStores d.vr it.op it.src1.sr a.stores = _
      rw [e1]
      simp [killStore, e4, hr]

theorem luSrc_names {K : Int → Prop} {op r : Register} {i : Int} {s s1 : LU}
    (hn : NameInv K s) (ht : TagOK s.clean s.vr2mem)
    (hs : (op.isReg = false ∧ r = op ∧ s1 = s) ∨
      (op.isReg = true ∧ update op i s = some (r, s1))) :
    NameInv K s1 ∧ r.sr = op.sr ∧ s1.stores = s.stores ∧ s1.loads = s.loads ∧
    Keeps s.clean s.vr2mem s1.clean s1.vr2mem ∧ TagOK s1.clean s1.vr2mem := by
  rcases hs with ⟨_, rfl, rfl⟩ | ⟨_, hu⟩
  · exact ⟨hn, rfl, rfl, rfl, keeps_refl _ _, ht⟩
  · obtain ⟨na, _, _, _, e1, e2, e3, _, _⟩ := update_name hn hu
    exact ⟨na, e3, e1, e2, update_keeps hu ht, update_tagOK hu ht⟩

theorem luStep_names {done : List Instruction} {i : Int} {it it3 : Instruction} {s s5 : LU}
    (hn : NameInv (killedIn done) s) (ht : TagOK s.clean s.vr2mem)
    (hs : luStep i it s = some (it3, s5)) :
    NameInv (killedIn (it3 :: done)) s5 ∧ it3.op = it.op ∧ it3.src1.sr = it.src1.sr ∧
    (it3.dest.isReg = true → ¬ killedIn done it3.dest.vr) ∧
    ∃ s4, luClean it3 s4 = some s5 ∧
      s4.stores = logStore it3 (killStore it3 s.stores) ∧
      s4.loads = (if it3.op = Opcode.load then s.loads ++ [(it3.src1.vr, it3.dest.vr)]
                  else s.loads) ∧
      Keeps s.clean s.vr2mem s4.clean s4.vr2mem ∧ TagOK s4.clean s4.vr2mem := by
  obtain ⟨it1, s1, it2, s2, s3, s4, h1, h2, h3, h4, h5⟩ := luStep_inv hs
  obtain ⟨n1, o1, a1, b1, k1, st1, ld1, kp1, t1⟩ := luDest_names hn ht h1
  have h2b : (it1.src1.isReg = false ∧ it2.src1 = it1.src1 ∧ s2 = s1) ∨
      (it1.src1.isReg = true ∧ update it1.src1 i s1 = some (it2.src1, s2)) := by
    rcases luSrc1_inv h2 with ⟨a, b, c⟩ | ⟨a, r, b, c⟩
    · exact Or.inl ⟨a, by rw [b], c⟩
    · exact Or.inr ⟨a, by rw [c]; exact b⟩
  have e2 : it2.op = it1.op ∧ it2.src2 = it1.src2 ∧ it2.dest = it1.dest := by
    rcases luSrc1_inv h2 with ⟨_, b, _⟩ | ⟨_, r, _, c⟩
    · rw [b]; exact ⟨rfl, rfl, rfl⟩
    · rw [c]; exact ⟨rfl, rfl, rfl⟩
  obtain ⟨n2, sr2, st2, ld2, kp2, t2⟩ := luSrc_names n1 t1 h2b
  have h3b : (it2.src2.isReg = false ∧ it3.src2 = it2.src2 ∧ s3 = s2) ∨
      (it2.src2.isReg = true ∧ update it2.src2 i s2 = some (it3.src2, s3)) := by
    rcases luSrc2_inv h3 with ⟨a, b, c⟩ | ⟨a, r, b, c⟩
    · exact Or.inl ⟨a, by rw [b], c⟩
    · exact Or.inr ⟨a, by rw [c]; exact b⟩
  have e3 : it3.op = it2.op ∧ it3.src1 = it2.src1 ∧ it3.dest = it2.dest := by
    rcases luSrc2_inv h3 with ⟨_, b, _⟩ | ⟨_, r, _, c⟩
    · rw [b]; exact ⟨rfl, rfl, rfl⟩
    · rw [c]; exact ⟨rfl, rfl, rfl⟩
  obtain ⟨n3, _, st3, ld3, kp3, t3⟩ := luSrc_names n2 t2 h3b
  have f4 := luRemat_frame h4
  have f5 := luClean_frame h5
  have fl := luLogs_frame it3 s4
  have ed : it3.dest = it1.dest := by rw [e3.2.2, e2.2.2]
  have eo : it3.op = it.op := by rw [e3.1, e2.1, o1]
  have es : it3.src1.sr = it.src1.sr := by rw [e3.2.1, sr2, a1]
  have n5 : NameInv (fun v => killedIn done v ∨ (it1.dest.isReg = true ∧ v = it1.dest.vr)) s5 :=
    n3.carry (by rw [f5.1, fl.2.2.1, f4.1]) (by rw [f5.2.1, fl.2.2.2.2.1, f4.2.1])
  have t4 : TagOK s4.clean s4.vr2mem := by
    rcases luRemat_inv h4 with ⟨_, rfl⟩ | ⟨_, c, v, hc, hv, rfl⟩
    · exact t3
    · exact tagOK_set t3 hc hv (by decide)
  refine ⟨n5.weaken ?_, eo, es, ?_, luLogs it3 s4, h5, ?_, ?_, ?_, ?_⟩
  · intro v hv
    rw [killedIn_cons, ed] at hv
    exact hv
  · rw [ed]; exact k1
  · rw [(luLogs_stores it3 s4).1, f4.2.2.2.2.2.1, st3, st2, st1]
    have : killStore it3 s.stores = killStore it1 s.stores := by
      simp only [killStore, ed, eo, es, o1, a1]
    rw [this]
    rfl
  · rw [(luLogs_stores it3 s4).2, f4.2.2.2.2.2.2, ld3, ld2, ld1]
  · rw [fl.1, fl.2.1]
    exact keeps_trans (keeps_trans (keeps_trans kp1 kp2) kp3) (luRemat_keeps h4)
  · rw [fl.1, fl.2.1]
    exact t4

theorem mem_reconcileStores_of_ne {vr : Int} {op : Opcode} {imm : Int} {e : Int × Int} :
    ∀ {st : List (Int × Int)}, e ∈ st → e.1 ≠ vr → e ∈ reconcileStores vr op imm st
  | [], h, _ => by cases h
  | s :: rest, h, hne => by
    unfold reconcileStores
    rcases List.mem_cons.mp h with rfl | h
    · rw [if_neg hne]
      exact List.mem_cons_self _ _
    · split
      · split
        · split
          · exact List.mem_cons_of_mem _ h
          · exact h
        · exact List.mem_cons_of_mem _ h
      · exact List.mem_cons_of_mem _ (mem_reconcileStores_of_ne h hne)

theorem mem_of_mem_reconcileStores {vr : Int} {op : Opcode} {imm : Int} {e : Int × Int} :
    ∀ {st : List (Int × Int)}, e ∈ reconcileStores vr op imm st → e ∈ st ∨ e.1 = vr
  | [], h => by cases h
  | s :: rest, h => by
    unfold reconcileStores at h
    split at h
    · rename_i hs
      split at h
      · split at h
        · rcases List.mem_cons.mp h with rfl | h
          · exact Or.inr hs
          · exact Or.inl (List.mem_cons_of_mem _ h)
        · exact Or.inl (List.mem_cons_of_mem _ h)
      · exact Or.inl h
    · rcases List.mem_cons.mp h with rfl | h
      · exact Or.inl (List.mem_cons_self _ _)
      · rcases mem_of_mem_reconcileStores h with h | h
        · exact Or.inl (List.mem_cons_of_mem _ h)
        · exact Or.inr h

theorem mem_reconcileStores_loadI {vr imm : Int} :
    ∀ {st : List (Int × Int)}, (vr, INVALID) ∈ st → (∀ e ∈ st, e.1 = vr → e.2 = INVALID) →
      (vr, imm) ∈ reconcileStores vr Opcode.loadI imm st
  | [], h, _ => by cases h
  | s :: rest, h, hall => by
    unfold reconcileStores
    by_cases hs : s.1 = vr
    · rw [if_pos hs, if_pos (hall s (List.mem_cons_self _ _) hs), if_pos rfl, hs]
      exact List.mem_cons_self _ _
    · rw [if_neg hs]
      rcases List.mem_cons.mp h with e | h
      · rw [← e] at hs
        exact absurd rfl hs
      · exact List.mem_cons_of_mem _ (mem_reconcileStores_loadI h
          (fun e he => hall e (List.mem_cons_of_mem _ he)))

theorem mem_logStore {it : Instruction} {st : List (Int × Int)} {e : Int × Int}
    (h : e ∈ st) : e ∈ logStore it st := by
  unfold logStore
  split
  · exact List.mem_append_left _ h
  · exact h

theorem mem_killStore_of_ne {it : Instruction} {st : List (Int × Int)} {e : Int × Int}
    (h : e ∈ st) (hne : it.dest.isReg = true → e.1 ≠ it.dest.vr) : e ∈ killStore it st := by
  unfold killStore
  split
  · rename_i hr
    exact mem_reconcileStores_of_ne h (hne hr)
  · exact h

theorem storeInv_step {done : List Instruction} {st : List (Int × Int)} {it : Instruction}
    (h : StoreInv done st) (hk : it.dest.isReg = true → ¬ killedIn done it.dest.vr) :
    StoreInv (it :: done) (logStore it (killStore it st)) := by
  refine ⟨?_, ?_, ?_⟩
  · intro j S hj hop hnk
    cases j with
    | zero =>
      simp only [List.getElem?_cons_zero, Option.some.injEq] at hj
      subst hj
      simp [logStore, hop]
    | succ j =>
      simp only [List.getElem?_cons_succ] at hj
      rw [killedIn_cons] at hnk
      have hnk1 : ¬ killedIn done S.src2.vr := fun hh => hnk (Or.inl hh)
      refine mem_logStore (mem_killStore_of_ne (h.pending j S hj hop hnk1) ?_)
      intro hr he
      exact hnk (Or.inr ⟨hr, he⟩)
  · intro e he hnk
    rw [killedIn_cons] at hnk
    have hnk1 : ¬ killedIn done e.1 := fun hh => hnk (Or.inl hh)
    have he1 : e ∈ killStore it st ∨ e.2 = INVALID := by
      unfold logStore at he
      split at he
      · rcases List.mem_append.mp he with he | he
        · exact Or.inl he
        · simp only [List.mem_singleton] at he
          rw [he]
          exact Or.inr rfl
      · exact Or.inl he
    rcases he1 with he1 | he1
    · unfold killStore at he1
      split at he1
      · rename_i hr
        rcases mem_of_mem_reconcileStores he1 with hm | hm
        · exact h.unknown e hm hnk1
        · exact absurd (Or.inr ⟨hr, hm⟩) hnk
      · exact h.unknown e he1 hnk1
    · exact he1
  · intro js jq S Q hS hQ hlt hop hqop hqr hqv
    cases js with
    | zero => omega
    | succ js =>
      simp only [List.getElem?_cons_succ] at hS
      cases jq with
      | zero =>
        simp only [List.getElem?_cons_zero, Option.some.injEq] at hQ
        subst hQ
        have hnk := hk hqr
        rw [hqv] at hnk
        have hp := h.pending js S hS hop hnk
        refine mem_logStore ?_
        unfold killStore
        rw [if_pos hqr, hqop, hqv]
        exact mem_reconcileStores_loadI hp (fun e he he1 => h.unknown e he (by rw [he1]; exact hnk))
      | succ jq =>
        simp only [List.getElem?_cons_succ] at hQ
        have hm := h.known js jq S Q hS hQ (by omega) hop hqop hqr hqv
        refine mem_logStore (mem_killStore_of_ne hm ?_)
        intro hr he
        refine hk hr ?_
        rw [← he, ← hqv]
        exact ⟨Q, List.getElem?_mem hQ, hqr, rfl⟩

theorem cleanLoadOK_cons {done : List Instruction} {vr2mem vr2mem1 : List Int} {v : Int}
    (it : Instruction) (h : CleanLoadOK done vr2mem v) (e : getI vr2mem1 v = getI vr2mem v) :
    CleanLoadOK (it :: done) vr2mem1 v := by
  obtain ⟨p, l, P, L, hpl, hP, hL, h1, h2, h3, h4, h5, h6⟩ := h
  refine ⟨p + 1, l + 1, P, L, by omega, by simpa using hP, by simpa using hL, h1, h2, h3, h4,
    by rw [e]; exact h5, ?_⟩
  intro s q S Q hls hpq hqs hS hQ
  cases s with
  | zero => omega
  | succ s =>
    cases q with
    | zero => omega
    | succ q =>
      simp only [List.getElem?_cons_succ] at hS hQ
      exact h6 s q S Q (by omega) (by omega) (by omega) hS hQ

theorem loadInv_step {done : List Instruction} {loads : List (Int × Int)} (it : Instruction)
    (h : LoadInv done loads) :
    LoadInv (it :: done)
      (if it.op = Opcode.load then loads ++ [(it.src1.vr, it.dest.vr)] else loads) := by
  have hold : ∀ e ∈ loads, ∃ (j : Nat) (L : Instruction), (it :: done)[j]? = some L ∧
      L.op = Opcode.load ∧ e = (L.src1.vr, L.dest.vr) := by
    intro e he
    obtain ⟨j, L, hj, h1, h2⟩ := h e he
    exact ⟨j + 1, L, by simpa using hj, h1, h2⟩
  intro e he
  split at he
  · rename_i hop
    rcases List.mem_append.mp he with he | he
    · exact hold e he
    · simp only [List.mem_singleton] at he
      exact ⟨0, it, by simp, hop, he⟩
  · exact hold e he

theorem luStep_analysis {done : List Instruction} {i : Int} {it it3 : Instruction}
    {s s5 : LU} (h : AnalysisInv done s) (hs : luStep i it s = some (it3, s5)) :
    AnalysisInv (it3 :: done) s5 := by
  obtain ⟨n5, _, _, hk, s4, h5, est, eld, kp, t4⟩ := luStep_names h.names h.tag hs
  have st4 : StoreInv (it3 :: done) s4.stores := by
    rw [est]; exact storeInv_step h.stores hk
  have ld4 : LoadInv (it3 :: done) s4.loads := by
    rw [eld]; exact loadInv_step it3 h.loads
  have cl4 : ∀ v, getI s4.clean v = some Clean.cleanLoad →
      CleanLoadOK (it3 :: done) s4.vr2mem v := by
    intro v hv
    obtain ⟨a, b⟩ := kp v hv
    exact cleanLoadOK_cons it3 (h.clean v a) b
  have f5 := luClean_frame h5
  rcases luClean_inv h5 with ⟨_, rfl⟩ | ⟨hop, l, v, c, hc, rfl⟩
  · exact ⟨t4, n5, st4, ld4, cl4⟩
  · rcases cleanLoads_inv hc with ⟨rfl, rfl, rfl⟩ | ⟨x, hx, hx1, hnone, hc1, hv1, hsub⟩
    · exact ⟨t4, n5, st4, ld4, cl4⟩
    · refine ⟨tagOK_set t4 hc1 hv1 (by decide), n5, st4, fun e he => ld4 e (hsub e he), ?_⟩
      intro w hw
      have hw2 : getI c w = some Clean.cleanLoad := hw
      show CleanLoadOK (it3 :: done) v w
      by_cases e : w = x.2
      · subst e
        obtain ⟨j, L, hj, hL, hxe⟩ := ld4 x hx
        have hj0 : 0 < j := by
          cases j with
          | zero =>
            simp only [List.getElem?_cons_zero, Option.some.injEq] at hj
            rw [← hj, hop] at hL
            cases hL
          | succ j => omega
        refine ⟨0, j, it3, L, hj0, by simp, hj, hop, hL, ?_, ?_, getI_setI_same hv1, ?_⟩
        · rw [hxe]
        · rw [← hx1, hxe]
        · intro s q S Q hls _ hqs hS hQ hSop hQop hQr hQv he
          have hm := st4.known s q S Q hS hQ hqs hSop hQop hQr hQv
          rw [he] at hm
          have : (s4.stores.find? (fun s => s.2 == it3.src1.sr)).isSome = true := by
            rw [List.find?_isSome]
            exact ⟨_, hm, by simp⟩
          rw [Option.isNone_iff_eq_none] at hnone
          rw [hnone] at this
          cases this
      · rw [getI_setI hc1, if_neg e] at hw2
        refine cleanLoadOK_cons it3 ?_ (getI_setI_ne hv1 e)
        obtain ⟨a, b⟩ := kp w hw2
        obtain ⟨p, l, P, L, hpl, hP, hL, h1, h2, h3, h4, h5, h6⟩ := h.clean w a
        exact ⟨p, l, P, L, hpl, hP, hL, h1, h2, h3, h4, by rw [b]; exact h5, h6⟩

theorem luSweep_analysis : ∀ (ir : List Instruction) (i : Nat) (s : LU)
    (ir1 : List Instruction) (s1 : LU), luSweep i ir s = some (ir1, s1) →
    AnalysisInv [] s → AnalysisInv ir1 s1
  | [], _, _, _, _, h, hi => by
    simp only [luSweep, Option.some.injEq, Prod.mk.injEq] at h
    obtain ⟨rfl, rfl⟩ := h
    exact hi
  | it :: rest, i, s, ir1, s1, h, hi => by
    simp only [luSweep, Option.bind_eq_bind, Option.pure_def, Option.bind_eq_some,
      Option.some.injEq, Prod.mk.injEq, Prod.exists] at h
    obtain ⟨rest1, t1, hr, it1, t2, hs, rfl, rfl⟩ := h
    exact luStep_analysis (luSweep_analysis rest (i + 1) s rest1 t1 hr hi) hs

theorem analysisInv_init (ir : List Instruction) : AnalysisInv [] (LU.init ir) := by
  refine ⟨⟨rfl, ?_⟩, ⟨le_refl _, ?_, ?_, ?_, ?_⟩, ⟨?_, ?_, ?_⟩, ?_, ?_⟩
  · intro v hv
    simp [LU.init, getI] at hv
  · intro sr v hv hne
    have := getI_some hv
    simp only [LU.init, List.getElem?_replicate] at this
    split at this
    · exact absurd (Option.some.inj this.2.2).symm hne
    · cases this.2.2
  · rintro v ⟨D, hD, _⟩
    cases hD
  · rintro v ⟨D, hD, _⟩
    cases hD
  · intro a b v ha _ hne
    have := getI_some ha
    simp only [LU.init, List.getElem?_replicate] at this
    split at this
    · exact absurd (Option.some.inj this.2.2).symm hne
    · cases this.2.2
  · intro j S hj
    simp at hj
  · intro e he
    simp [LU.init] at he
  · intro js jq S Q hS
    simp at hS
  · intro e he
    simp [LU.init] at he
  · intro v hv
    simp [LU.init, getI] at hv

theorem isSplice_confined {k : Int} {s : Instruction} (h : IsSplice k s) :
    (s.src1.isReg = true → s.src1.pr = k → s.op = Opcode.load) ∧
    (s.src2.isReg = true → s.src2.pr = k → s.op = Opcode.store) ∧
    (s.dest.isReg = true → s.dest.pr = k → s.op = Opcode.loadI) := by
  obtain ⟨x, pr, h0, hlt, e⟩ := h
  rcases e with rfl | rfl | rfl | rfl
  · simp [mkLoadI, Register.blank, Instruction.mk0]
  · simp [mkLoadI, Register.blank, Instruction.mk0]
  · simp only [mkLoad, Register.blank, Instruction.mk0, Bool.false_eq_true, false_implies,
      true_implies, implies_true, true_and, reduceCtorEq, imp_false]
    omega
  · simp only [mkStore, Register.blank, Instruction.mk0, Bool.false_eq_true, false_implies,
      true_implies, implies_true, true_and, and_true, reduceCtorEq, imp_false]
    omega

/-! ### The allocator returns on every parsed block -/

theorem getI_total {α : Type} (xs : List α) {i : Int} (h0 : 0 ≤ i) (hlt : i < (xs.length : Int)) :
    ∃ v, getI xs i = some v := by
  have : i.toNat < xs.length := by omega
  exact ⟨xs[i.toNat], by simp [getI, h0, this]⟩

theorem setI_total {α : Type} (xs : List α) {i : Int} (v : α) (h0 : 0 ≤ i)
    (hlt : i < (xs.length : Int)) : ∃ ys, setI xs i v = some ys := by
  have : i.toNat < xs.length := by omega
  exact ⟨xs.set i.toNat v, by simp [setI, h0, this]⟩

theorem openRange_total {N : Nat} {sr : Int} {s : LU} (hs : SweepOK N s) (h0 : 0 ≤ sr)
    (hlt : sr < N) :
    ∃ s1, openRange sr s = some s1 ∧ SweepOK N s1 ∧ s.vrName ≤ s1.vrName ∧
      ∃ v, getI s1.sr2vr sr = some v ∧ 0 ≤ v ∧ v < s1.vrName := by
  obtain ⟨cur, hc⟩ := getI_total s.sr2vr h0 (by rw [hs.len1]; exact hlt)
  by_cases he : cur = INVALID
  · obtain ⟨t, ht⟩ := setI_total s.sr2vr s.vrName h0 (by rw [hs.len1]; exact hlt)
    have hn : 0 ≤ s.vrName := by rw [← hs.name]; omega
    refine ⟨{ s with sr2vr := t, vrName := s.vrName + 1, numLive := s.numLive + 1,
                     maxLive := if s.numLive + 1 > s.maxLive then s.numLive + 1 else s.maxLive,
                     vr2mem := s.vr2mem ++ [INVALID], clean := s.clean ++ [Clean.dirty] },
      by simp [openRange, hc, he, ht], ⟨?_, hs.len2, ?_, ?_, ?_, ?_, hs.last⟩, ?_,
      s.vrName, ?_, hn, ?_⟩
    · show t.length = N
      rw [setI_length ht, hs.len1]
    · show ((s.clean ++ [Clean.dirty]).length : Int) = s.vrName + 1
      rw [List.length_append, List.length_singleton]
      push_cast
      rw [hs.name]
    · show (s.clean ++ [Clean.dirty]).length = (s.vr2mem ++ [INVALID]).length
      simp [hs.tag]
    · intro sr1 v hv hne
      have hv2 : getI t sr1 = some v := hv
      show 0 ≤ v ∧ v < s.vrName + 1
      rw [getI_setI ht] at hv2
      split at hv2
      · obtain rfl := Option.some.inj hv2
        omega
      · have := hs.live sr1 v hv2 hne
        omega
    · intro e hm
      have := hs.loads e hm
      show 0 ≤ e.2 ∧ e.2 < s.vrName + 1
      omega
    · show s.vrName ≤ s.vrName + 1
      omega
    · exact getI_setI_same ht
    · show s.vrName < s.vrName + 1
      omega
  · have := hs.live sr cur hc he
    exact ⟨s, by simp [openRange, hc, he], hs, le_refl _, cur, hc, this.1, this.2⟩

theorem update_total {N : Nat} {op : Register} {i : Int} {s : LU} (hs : SweepOK N s)
    (h0 : 0 ≤ op.sr) (hlt : op.sr < N) (hi : 0 ≤ i) :
    ∃ r s2, update op i s = some (r, s2) ∧ SweepOK N s2 ∧ s.vrName ≤ s2.vrName ∧
      0 ≤ r.vr ∧ r.vr < s2.vrName ∧ -1 ≤ r.nu ∧ r.isReg = op.isReg ∧ r.sr = op.sr ∧
      getI s2.sr2vr op.sr = some r.vr := by
  obtain ⟨s1, h1, ok1, hle, v, hv, hv0, hv1⟩ := openRange_total hs h0 hlt
  obtain ⟨nu, hn⟩ := getI_total s1.lastUse h0 (by rw [ok1.len2]; exact hlt)
  obtain ⟨l, hl⟩ := setI_total s1.lastUse i h0 (by rw [ok1.len2]; exact hlt)
  refine ⟨{ op with vr := v, nu := nu }, { s1 with lastUse := l },
    by simp [update, h1, hv, hn, hl], ⟨ok1.len1, ?_, ok1.name, ok1.tag, ok1.live, ok1.loads, ?_⟩,
    hle, hv0, hv1, ok1.last _ _ hn, rfl, rfl, hv⟩
  · show l.length = N
    rw [setI_length hl, ok1.len2]
  · intro sr x hx
    have hx2 : getI l sr = some x := hx
    rw [getI_setI hl] at hx2
    split at hx2
    · obtain rfl := Option.some.inj hx2
      omega
    · exact ok1.last sr x hx2

theorem luDest_total {N : Nat} {i : Int} (it : Instruction) {s : LU} (hs : SweepOK N s)
    (hb : it.dest.isReg = true → 0 ≤ it.dest.sr ∧ it.dest.sr < N) (hi : 0 ≤ i) :
    ∃ it1 s1, luDest i it s = some (it1, s1) ∧ SweepOK N s1 ∧ s.vrName ≤ s1.vrName ∧
      it1.op = it.op ∧ it1.src1 = it.src1 ∧ it1.src2 = it.src2 ∧
      it1.dest.isReg = it.dest.isReg ∧
      (it.dest.isReg = true → 0 ≤ it1.dest.vr ∧ it1.dest.vr < s1.vrName ∧ -1 ≤ it1.dest.nu) ∧
      (it.dest.isReg = false → it1.dest = it.dest) := by
  by_cases hr : it.dest.isReg = true
  · obtain ⟨h0, hlt⟩ := hb hr
    obtain ⟨d, a, hu, ok, hle, v0, v1, n0, e1, e2, _⟩ := update_total hs h0 hlt hi
    obtain ⟨t, ht⟩ := setI_total a.sr2vr INVALID h0 (by rw [ok.len1]; exact hlt)
    obtain ⟨u, hu2⟩ := setI_total a.lastUse INT_MAX h0 (by rw [ok.len2]; exact hlt)
    refine ⟨{ it with dest := d },
      { a with sr2vr := t, lastUse := u, numLive := a.numLive - 1,
               stores := reconcileStores d.vr it.op it.src1.sr a.stores },
      by simp [luDest, hr, hu, e2, ht, hu2], ⟨?_, ?_, ok.name, ok.tag, ?_, ok.loads, ?_⟩, hle,
      rfl, rfl, rfl, e1, fun _ => ⟨v0, v1, n0⟩, fun h => by rw [hr] at h; cases h⟩
    · show t.length = N
      rw [setI_length ht, ok.len1]
    · show u.length = N
      rw [setI_length hu2, ok.len2]
    · intro sr v hv hne
      have hv2 : getI t sr = some v := hv
      rw [getI_setI ht] at hv2
      split at hv2
      · exact absurd (Option.some.inj hv2).symm hne
      · exact ok.live sr v hv2 hne
    · intro sr x hx
      have hx2 : getI u sr = some x := hx
      rw [getI_setI hu2] at hx2
      split at hx2
      · obtain rfl := Option.some.inj hx2
        simp [INT_MAX]
      · exact ok.last sr x hx2
  · have hr2 : it.dest.isReg = false := by simpa using hr
    exact ⟨it, s, by simp [luDest, hr2], hs, le_refl _, rfl, rfl, rfl, rfl,
      fun h => absurd h hr, fun _ => rfl⟩

theorem luSrc1_total {N : Nat} {i : Int} (it : Instruction) {s : LU} (hs : SweepOK N s)
    (hb : it.src1.isReg = true → 0 ≤ it.src1.sr ∧ it.src1.sr < N) (hi : 0 ≤ i) :
    ∃ it1 s1, luSrc1 i it s = some (it1, s1) ∧ SweepOK N s1 ∧ s.vrName ≤ s1.vrName ∧
      it1.op = it.op ∧ it1.dest = it.dest ∧ it1.src2 = it.src2 ∧
      it1.src1.isReg = it.src1.isReg ∧
      (it.src1.isReg = true → 0 ≤ it1.src1.vr ∧ it1.src1.vr < s1.vrName ∧ -1 ≤ it1.src1.nu) ∧
      (it.src1.isReg = false → it1.src1 = it.src1) := by
  by_cases hr : it.src1.isReg = true
  · obtain ⟨h0, hlt⟩ := hb hr
    obtain ⟨d, a, hu, ok, hle, v0, v1, n0, e1, e2, _⟩ := update_total hs h0 hlt hi
    exact ⟨{ it with src1 := d }, a, by simp [luSrc1, hr, hu], ok, hle, rfl, rfl, rfl, e1,
      fun _ => ⟨v0, v1, n0⟩, fun h => by rw [hr] at h; cases h⟩
  · have hr2 : it.src1.isReg = false := by simpa using hr
    exact ⟨it, s, by simp [luSrc1, hr2], hs, le_refl _, rfl, rfl, rfl, rfl,
      fun h => absurd h hr, fun _ => rfl⟩

theorem luSrc2_total {N : Nat} {i : Int} (it : Instruction) {s : LU} (hs : SweepOK N s)
    (hb : it.src2.isReg = true → 0 ≤ it.src2.sr ∧ it.src2.sr < N) (hi : 0 ≤ i) :
    ∃ it1 s1, luSrc2 i it s = some (it1, s1) ∧ SweepOK N s1 ∧ s.vrName ≤ s1.vrName ∧
      it1.op = it.op ∧ it1.dest = it.dest ∧ it1.src1 = it.src1 ∧
      it1.src2.isReg = it.src2.isReg ∧
      (it.src2.isReg = true → 0 ≤ it1.src2.vr ∧ it1.src2.vr < s1.vrName ∧ -1 ≤ it1.src2.nu) ∧
      (it.src2.isReg = false → it1.src2 = it.src2) := by
  by_cases hr : it.src2.isReg = true
  · obtain ⟨h0, hlt⟩ := hb hr
    obtain ⟨d, a, hu, ok, hle, v0, v1, n0, e1, e2, _⟩ := update_total hs h0 hlt hi
    exact ⟨{ it with src2 := d }, a, by simp [luSrc2, hr, hu], ok, hle, rfl, rfl, rfl, e1,
      fun _ => ⟨v0, v1, n0⟩, fun h => by rw [hr] at h; cases h⟩
  · have hr2 : it.src2.isReg = false := by simpa using hr
    exact ⟨it, s, by simp [luSrc2, hr2], hs, le_refl _, rfl, rfl, rfl, rfl,
      fun h => absurd h hr, fun _ => rfl⟩

theorem luRemat_total {N : Nat} (it : Instruction) {s : LU} (hs : SweepOK N s)
    (hb : it.op = Opcode.loadI → 0 ≤ it.dest.vr ∧ it.dest.vr < s.vrName) :
    ∃ s1, luRemat it s = some s1 ∧ SweepOK N s1 ∧ s1.vrName = s.vrName := by
  by_cases hop : it.op = Opcode.loadI
  · obtain ⟨h0, hlt⟩ := hb hop
    obtain ⟨c, hc⟩ := setI_total s.clean Clean.remat h0 (by rw [hs.name]; exact hlt)
    obtain ⟨v, hv⟩ := setI_total s.vr2mem it.src1.sr h0
      (by rw [← hs.tag, hs.name]; exact hlt)
    refine ⟨{ s with clean := c, vr2mem := v }, by simp [luRemat, hop, hc, hv],
      ⟨hs.len1, hs.len2, ?_, ?_, hs.live, hs.loads, hs.last⟩, rfl⟩
    · show (c.length : Int) = s.vrName
      rw [setI_length hc, hs.name]
    · show c.length = v.length
      rw [setI_length hc, setI_length hv, hs.tag]
  · exact ⟨s, by simp [luRemat, hop], hs, rfl⟩

theorem luLogs_ok {N : Nat} (it : Instruction) {s : LU} (hs : SweepOK N s)
    (hb : it.op = Opcode.load → 0 ≤ it.dest.vr ∧ it.dest.vr < s.vrName) :
    SweepOK N (luLogs it s) ∧ (luLogs it s).vrName = s.vrName := by
  have fl := luLogs_frame it s
  refine ⟨⟨by rw [fl.2.2.1]; exact hs.len1, by rw [fl.2.2.2.1]; exact hs.len2,
    by rw [fl.1, fl.2.2.2.2.1]; exact hs.name, by rw [fl.1, fl.2.1]; exact hs.tag,
    by rw [fl.2.2.1, fl.2.2.2.2.1]; exact hs.live, ?_, by rw [fl.2.2.2.1]; exact hs.last⟩,
    fl.2.2.2.2.1⟩
  intro e he
  rw [(luLogs_stores it s).2] at he
  rw [fl.2.2.2.2.1]
  split at he
  · rename_i hop
    rcases List.mem_append.mp he with he | he
    · exact hs.loads e he
    · simp only [List.mem_singleton] at he
      rw [he]
      exact hb hop
  · exact hs.loads e he

theorem cleanLoads_total (stores : List (Int × Int)) (vr addr : Int) :
    ∀ (loads : List (Int × Int)) (vr2mem : List Int) (clean : List Clean),
    (∀ e ∈ loads, 0 ≤ e.2 ∧ e.2 < (clean.length : Int)) → clean.length = vr2mem.length →
    ∃ l v c, cleanLoads stores vr addr loads vr2mem clean = some (l, v, c) ∧
      c.length = clean.length ∧ v.length = vr2mem.length ∧ ∀ x ∈ l, x ∈ loads
  | [], vr2mem, clean, _, _ => ⟨[], vr2mem, clean, rfl, rfl, rfl, fun _ h => h⟩
  | e :: rest, vr2mem, clean, hb, hl => by
    by_cases hc : e.1 = vr ∧ (stores.find? (fun s => s.2 == addr)).isNone
    · obtain ⟨h0, hlt⟩ := hb e (List.mem_cons_self _ _)
      obtain ⟨c, hcs⟩ := setI_total clean Clean.cleanLoad h0 hlt
      obtain ⟨v, hvs⟩ := setI_total vr2mem addr h0 (by rw [← hl]; exact hlt)
      refine ⟨rest, v, c, ?_, setI_length hcs, setI_length hvs,
        fun x hx => List.mem_cons_of_mem _ hx⟩
      unfold cleanLoads
      rw [if_pos hc]
      simp [hcs, hvs]
    · obtain ⟨l, v, c, h1, h2, h3, h4⟩ := cleanLoads_total stores vr addr rest vr2mem clean
        (fun x hx => hb x (List.mem_cons_of_mem _ hx)) hl
      refine ⟨e :: l, v, c, ?_, h2, h3, ?_⟩
      · unfold cleanLoads
        rw [if_neg hc]
        simp [h1]
      · intro x hx
        rcases List.mem_cons.mp hx with rfl | hx
        · exact List.mem_cons_self _ _
        · exact List.mem_cons_of_mem _ (h4 x hx)

theorem luClean_total {N : Nat} (it : Instruction) {s : LU} (hs : SweepOK N s) :
    ∃ s1, luClean it s = some s1 ∧ SweepOK N s1 ∧ s1.vrName = s.vrName := by
  by_cases hop : it.op = Opcode.loadI
  · obtain ⟨l, v, c, h1, h2, h3, h4⟩ := cleanLoads_total s.stores it.dest.vr it.src1.sr
      s.loads s.vr2mem s.clean (by rw [hs.name]; exact hs.loads) hs.tag
    refine ⟨{ s with loads := l, vr2mem := v, clean := c }, by simp [luClean, hop, h1],
      ⟨hs.len1, hs.len2, ?_, ?_, hs.live, fun e he => hs.loads e (h4 e he), hs.last⟩, rfl⟩
    · show (c.length : Int) = s.vrName
      rw [h2, hs.name]
    · show c.length = v.length
      rw [h2, h3, hs.tag]
  · exact ⟨s, by simp [luClean, hop], hs, rfl⟩

theorem luStep_total {N : Nat} {i : Int} {it : Instruction} {s : LU} (hs : SweepOK N s)
    (hp : it.parsed = true) (hb : it.srBound N) (hi : 0 ≤ i) :
    ∃ it3 s5, luStep i it s = some (it3, s5) ∧ SweepOK N s5 ∧ s.vrName ≤ s5.vrName ∧
      ∀ o ∈ it3.operands, o.ready s5.vrName := by
  simp only [Instruction.parsed, Register.parsed, Bool.and_eq_true, Bool.or_eq_true,
    Bool.not_eq_true', decide_eq_true_eq, bne_iff_ne, ne_eq, beq_iff_eq] at hp
  obtain ⟨⟨⟨⟨⟨p1a, p1b⟩, ⟨p2a, p2b⟩⟩, ⟨p3a, p3b⟩⟩, pli⟩, pl⟩ := hp
  have b1 : it.src1.isReg = true → it.src1.sr < N := hb _ (by simp [Instruction.operands])
  have b2 : it.src2.isReg = true → it.src2.sr < N := hb _ (by simp [Instruction.operands])
  have b3 : it.dest.isReg = true → it.dest.sr < N := hb _ (by simp [Instruction.operands])
  obtain ⟨it1, s1, e1, ok1, le1, o1, a1, a2, r1, v1, n1⟩ := luDest_total it hs
    (fun h => ⟨by rcases p3a with h2 | h2; · rw [h] at h2; cases h2
                  · exact h2, b3 h⟩) hi
  obtain ⟨it2, s2, e2, ok2, le2, o2, c1, c2, r2, v2, n2⟩ := luSrc1_total it1 ok1
    (fun h => by
      rw [a1] at h ⊢
      exact ⟨by rcases p1a with h2 | h2; · rw [h] at h2; cases h2
                · exact h2, b1 h⟩) hi
  obtain ⟨it3, s3, e3, ok3, le3, o3, d1, d2, r3, v3, n3⟩ := luSrc2_total it2 ok2
    (fun h => by
      rw [c2, a2] at h ⊢
      exact ⟨by rcases p2a with h2 | h2; · rw [h] at h2; cases h2
                · exact h2, b2 h⟩) hi
  have hdr : it.dest.isReg = true → 0 ≤ it3.dest.vr ∧ it3.dest.vr < s3.vrName ∧
      -1 ≤ it3.dest.nu := by
    intro h
    rw [d1, c1]
    obtain ⟨x, y, z⟩ := v1 h
    exact ⟨x, by omega, z⟩
  have hop : it3.op = it.op := by rw [o3, o2, o1]
  obtain ⟨s4, e4, ok4, q4⟩ := luRemat_total it3 ok3 (fun h => by
    rw [hop] at h
    have hr : it.dest.isReg = true := by
      rcases pli with h2 | h2
      · exact absurd h h2
      · exact h2
    exact ⟨(hdr hr).1, (hdr hr).2.1⟩)
  obtain ⟨ok5, q5⟩ := luLogs_ok it3 ok4 (fun h => by
    rw [hop] at h
    have hr : it.dest.isReg = true := by
      rcases pl with h2 | h2
      · exact absurd h h2
      · exact h2
    rw [q4]
    exact ⟨(hdr hr).1, (hdr hr).2.1⟩)
  obtain ⟨s6, e6, ok6, q6⟩ := luClean_total it3 ok5
  have hv : s6.vrName = s3.vrName := by rw [q6, q5, q4]
  refine ⟨it3, s6, by simp [luStep, e1, e2, e3, e4, e6], ok6, by omega, ?_⟩
  intro o ho
  simp only [Instruction.operands, List.mem_cons, List.mem_singleton, List.mem_nil_iff,
    or_false] at ho
  rw [hv]
  rcases ho with rfl | rfl | rfl
  · constructor
    · intro h
      rw [d2, r2, a1] at h
      rw [d2]
      obtain ⟨x, y, z⟩ := v2 (by rw [a1]; exact h)
      exact ⟨x, by omega, z⟩
    · intro h
      rw [d2, r2, a1] at h
      rw [d2, n2 (by rw [a1]; exact h), a1]
      rcases p1b with h2 | h2
      · rw [h] at h2; cases h2
      · exact h2
  · constructor
    · intro h
      rw [r3, c2, a2] at h
      exact v3 (by rw [c2, a2]; exact h)
    · intro h
      rw [r3, c2, a2] at h
      rw [n3 (by rw [c2, a2]; exact h), c2, a2]
      rcases p2b with h2 | h2
      · rw [h] at h2; cases h2
      · exact h2
  · constructor
    · intro h
      rw [d1, c1, r1] at h
      exact hdr h
    · intro h
      rw [d1, c1, r1] at h
      rw [d1, c1, n1 h]
      rcases p3b with h2 | h2
      · rw [h] at h2; cases h2
      · exact h2

theorem luSweep_total {N : Nat} : ∀ (ir : List Instruction) (i : Nat) (s : LU),
    SweepOK N s → (∀ it ∈ ir, it.parsed = true ∧ it.srBound N) →
    ∃ ir1 s1, luSweep i ir s = some (ir1, s1) ∧ SweepOK N s1 ∧ s.vrName ≤ s1.vrName ∧
      ∀ it ∈ ir1, ∀ o ∈ it.operands, o.ready s1.vrName
  | [], _, s, hs, _ => ⟨[], s, rfl, hs, le_refl _, fun _ h => by cases h⟩
  | it :: rest, i, s, hs, hp => by
    obtain ⟨r1, s1, e1, ok1, le1, rd1⟩ := luSweep_total rest (i + 1) s hs
      (fun x hx => hp x (List.mem_cons_of_mem _ hx))
    obtain ⟨hpa, hpb⟩ := hp it (List.mem_cons_self _ _)
    obtain ⟨it3, s5, e5, ok5, le5, rd5⟩ := luStep_total (i := (i : Int)) ok1 hpa hpb
      (Int.ofNat_nonneg i)
    refine ⟨it3 :: r1, s5, by simp [luSweep, e1, e5], ok5, by omega, ?_⟩
    intro x hx o ho
    rcases List.mem_cons.mp hx with rfl | hx
    · exact rd5 o ho
    · obtain ⟨q1, q2⟩ := rd1 x hx o ho
      exact ⟨fun h => by obtain ⟨a, b, c⟩ := q1 h; exact ⟨a, by omega, c⟩, q2⟩

theorem srStep_ge (h : Int) (it : Instruction) :
    h ≤ srStep h it ∧ ∀ o ∈ it.operands, o.isReg = true → o.sr ≤ srStep h it := by
  unfold srStep
  simp only [Instruction.operands, List.mem_cons, List.mem_singleton, List.mem_nil_iff,
    or_false, forall_eq_or_imp, forall_eq, Bool.and_eq_true, decide_eq_true_eq]
  refine ⟨?_, ?_, ?_, ?_⟩ <;> intros <;> split_ifs <;> simp_all <;> omega

theorem foldl_srStep_ge : ∀ (ir : List Instruction) (h : Int),
    h ≤ ir.foldl srStep h ∧
      ∀ it ∈ ir, ∀ o ∈ it.operands, o.isReg = true → o.sr ≤ ir.foldl srStep h
  | [], h => ⟨le_refl _, fun _ hx => by cases hx⟩
  | it :: rest, h => by
    obtain ⟨a, b⟩ := foldl_srStep_ge rest (srStep h it)
    obtain ⟨c, d⟩ := srStep_ge h it
    refine ⟨by simp only [List.foldl_cons]; omega, ?_⟩
    intro x hx o ho hr
    simp only [List.foldl_cons]
    rcases List.mem_cons.mp hx with rfl | hx
    · have := d o ho hr
      omega
    · exact b x hx o ho hr

theorem getNumSR_bound (ir : List Instruction) :
    0 ≤ getNumSR ir ∧ ∀ it ∈ ir, it.srBound (getNumSR ir) := by
  have e : getNumSR ir = ir.foldl srStep INVALID + 1 := rfl
  obtain ⟨a, b⟩ := foldl_srStep_ge ir INVALID
  rw [e]
  refine ⟨by simp only [INVALID] at a ⊢; omega, ?_⟩
  intro it hit o ho hr
  have := b it hit o ho hr
  omega

theorem sweepOK_init (ir : List Instruction) : SweepOK (getNumSR ir).toNat (LU.init ir) := by
  refine ⟨by simp [LU.init], by simp [LU.init], by simp [LU.init], by simp [LU.init], ?_,
    ?_, ?_⟩
  · intro sr v hv hne
    obtain ⟨_, _, h3⟩ := getI_some hv
    simp only [LU.init] at h3
    have := List.getElem?_mem h3
    simp only [List.mem_replicate] at this
    exact absurd this.2 hne
  · intro e he
    simp [LU.init] at he
  · intro sr x hx
    obtain ⟨_, _, h3⟩ := getI_some hx
    simp only [LU.init] at h3
    have := List.getElem?_mem h3
    simp only [List.mem_replicate] at this
    rw [this.2]
    simp [INT_MAX]

theorem computeLastUses_total (ir : List Instruction) (hp : ∀ it ∈ ir, it.parsed = true) :
    ∃ ir1 s, computeLastUses ir = some (ir1, s) ∧ (s.clean.length : Int) = s.vrName ∧
      s.clean.length = s.vr2mem.length ∧ ∀ it ∈ ir1, ∀ o ∈ it.operands, o.ready s.vrName := by
  obtain ⟨h0, hb⟩ := getNumSR_bound ir
  obtain ⟨ir1, s, e, ok, _, rd⟩ := luSweep_total (N := (getNumSR ir).toNat) ir 0 (LU.init ir)
    (sweepOK_init ir) (fun it hit => ⟨hp it hit, by
      have := hb it hit
      intro o ho hr
      have := this o ho hr
      rw [Int.toNat_of_nonneg h0]
      exact this⟩)
  exact ⟨ir1, s, e, ok.name, ok.tag, rd⟩

theorem classOK_nm {K : Nat} {n : Int} {c : Class} (h : ClassOK K n c) (p v : Int)
    (hv : getI c.name p = some v) :
    (v = INVALID → p ∈ c.stk) ∧ (v ≠ INVALID → 0 ≤ v ∧ v < n) := by
  by_cases hp : p = INVALID
  · subst hp
    have := (getI_some hv).1
    simp [INVALID] at this
  · exact h.nm p v hp hv

theorem classOK_of {K : Nat} {n : Int} {q : Int} {c : Class} (h : ClassPre K n q c)
    (hq : ∀ v, getI c.name q = some v →
      (v = INVALID → q ∈ c.stk) ∧ (v ≠ INVALID → 0 ≤ v ∧ v < n)) : ClassOK K n c := by
  refine ⟨h.pos, h.sz, h.lname, h.lnext, h.lfree, h.lclean, h.stk, ?_, h.nx⟩
  intro p v _ hv
  by_cases hp : p = q
  · subst hp
    exact hq v hv
  · exact h.nm p v hp hv

theorem classOK_pre {K : Nat} {n : Int} {c : Class} (h : ClassOK K n c) (q : Int) :
    ClassPre K n q c :=
  ⟨h.pos, h.sz, h.lname, h.lnext, h.lfree, h.lclean, h.stk,
    fun p v _ hv => classOK_nm h p v hv, h.nx⟩

theorem freeRegister_total {K : Nat} {n : Int} {pr : Int} {c : Class} (h : ClassOK K n c)
    (h0 : 0 ≤ pr) (hlt : pr < K) : ∃ c1, freeRegister pr c = some c1 ∧ ClassOK K n c1 := by
  obtain ⟨a, ha⟩ := setI_total c.name INVALID h0 (by rw [h.lname]; exact hlt)
  obtain ⟨b, hb⟩ := setI_total c.next INT_MAX h0 (by rw [h.lnext]; exact hlt)
  obtain ⟨f, hf⟩ := setI_total c.free true h0 (by rw [h.lfree]; exact hlt)
  obtain ⟨g, hg⟩ := setI_total c.cclean Clean.dirty h0 (by rw [h.lclean]; exact hlt)
  refine ⟨{ c with name := a, next := b, free := f, cclean := g, stk := pr :: c.stk },
    by simp [freeRegister, ha, hb, hf, hg], classOK_of (q := pr) ⟨h.pos, h.sz, ?_, ?_, ?_, ?_,
      ?_, ?_, ?_⟩ ?_⟩
  · show a.length = K
    rw [setI_length ha, h.lname]
  · show b.length = K
    rw [setI_length hb, h.lnext]
  · show f.length = K
    rw [setI_length hf, h.lfree]
  · show g.length = K
    rw [setI_length hg, h.lclean]
  · intro p hp
    rcases List.mem_cons.mp hp with rfl | hp
    · exact ⟨h0, hlt⟩
    · exact h.stk p hp
  · intro p v hne hv
    have hv2 : getI a p = some v := hv
    rw [getI_setI_ne ha hne] at hv2
    obtain ⟨x, y⟩ := classOK_nm h p v hv2
    exact ⟨fun e => List.mem_cons_of_mem _ (x e), y⟩
  · intro p x hx
    have hx2 : getI b p = some x := hx
    rw [getI_setI hb] at hx2
    split at hx2
    · obtain rfl := Option.some.inj hx2
      simp [INT_MAX]
    · exact h.nx p x hx2
  · intro v hv
    have hv2 : getI a pr = some v := hv
    rw [getI_setI_same ha] at hv2
    obtain rfl := Option.some.inj hv2
    exact ⟨fun _ => List.mem_cons_self _ _, fun e => absurd rfl e⟩

theorem bestOfTypeLoop_total {K : Nat} {c : Class} {cln : Clean} {n : Bool}
    (hc : c.cclean.length = K) (hn : c.next.length = K)
    (hx : ∀ p x, getI c.next p = some x → -1 ≤ x) :
    ∀ (fuel : Nat) (i pr opt : Int), 0 ≤ i → i + fuel = K →
      ((0 ≤ pr ∧ pr < K) ∨ (opt ≤ -1 ∧ ∃ j cc, i ≤ j ∧ getI c.cclean j = some cc ∧
          ((n && cc != cln) || cc == cln) = true)) →
      ∃ r, bestOfTypeLoop c cln n fuel i pr opt = some r ∧ 0 ≤ r ∧ r < K
  | 0, i, pr, opt, h0, hf, hq => by
    rcases hq with hq | ⟨_, j, cc, hj, hcc, _⟩
    · exact ⟨pr, rfl, hq⟩
    · have := getI_lt hcc
      omega
  | fuel + 1, i, pr, opt, h0, hf, hq => by
    obtain ⟨cc, hcc⟩ := getI_total c.cclean h0 (by rw [hc]; omega)
    obtain ⟨nx, hnx⟩ := getI_total c.next h0 (by rw [hn]; omega)
    have hge := hx i nx hnx
    unfold bestOfTypeLoop
    simp only [hcc, hnx, Option.bind_eq_bind, Option.some_bind]
    by_cases hqual : ((n && cc != cln) || cc == cln) = true
    · rw [if_pos hqual]
      by_cases hcmp : nx ≥ opt
      · rw [if_pos hcmp]
        exact bestOfTypeLoop_total hc hn hx fuel (i + 1) i nx (by omega)
          (by push_cast at hf ⊢; omega) (Or.inl ⟨h0, by omega⟩)
      · rw [if_neg hcmp]
        refine bestOfTypeLoop_total hc hn hx fuel (i + 1) pr opt (by omega)
          (by push_cast at hf ⊢; omega) ?_
        rcases hq with hq | ⟨ho, _⟩
        · exact Or.inl hq
        · omega
    · rw [if_neg hqual]
      refine bestOfTypeLoop_total hc hn hx fuel (i + 1) pr opt (by omega)
        (by push_cast at hf ⊢; omega) ?_
      rcases hq with hq | ⟨ho, j, cj, hj, hcj, hqj⟩
      · exact Or.inl hq
      · refine Or.inr ⟨ho, j, cj, ?_, hcj, hqj⟩
        by_cases e : j = i
        · subst e
          rw [hcc] at hcj
          obtain rfl := Option.some.inj hcj
          exact absurd hqj hqual
        · omega

theorem maxElementFrom_lt : ∀ (xs : List Int) (i best : Nat) (bv : Int), best < i →
    maxElementFrom xs i best bv < i + xs.length
  | [], i, best, bv, h => by simpa [maxElementFrom] using h
  | x :: xs, i, best, bv, h => by
    unfold maxElementFrom
    split
    · have := maxElementFrom_lt xs (i + 1) i x (by omega)
      simp only [List.length_cons]
      omega
    · have := maxElementFrom_lt xs (i + 1) best bv (by omega)
      simp only [List.length_cons]
      omega

theorem maxElement_lt (xs : List Int) (h : 0 < xs.length) : maxElement xs < xs.length := by
  cases xs with
  | nil => cases h
  | cons x xs =>
    have := maxElementFrom_lt xs 1 0 x (by omega)
    simp only [maxElement, List.length_cons]
    omega

theorem optimalPR_total {K : Nat} {n : Int} {c : Class} (h : ClassOK K n c) :
    ∃ pr, optimalPR c = some pr ∧ 0 ≤ pr ∧ pr < K := by
  have hK := h.pos
  unfold optimalPR
  by_cases h1 : c.cclean.contains Clean.remat = true
  · rw [if_pos h1]
    have hm : Clean.remat ∈ c.cclean := by simpa using h1
    obtain ⟨j, hj⟩ := List.getElem?_of_mem hm
    have hjl := (List.getElem?_eq_some_iff.mp hj).1
    refine bestOfTypeLoop_total h.lclean h.lnext h.nx c.sz.toNat 0 INVALID INVALID
      (le_refl _) (by rw [h.sz]; simp) (Or.inr ⟨by simp [INVALID], (j : Int), Clean.remat,
        by omega, ?_, by simp⟩)
    unfold getI
    simp [hj]
  · rw [if_neg h1]
    by_cases h2 : c.cclean.any (fun x => x != Clean.dirty) = true
    · rw [if_pos h2]
      obtain ⟨cc, hcc⟩ := getI_total c.cclean (i := 0) (le_refl _)
        (by rw [h.lclean]; omega)
      refine bestOfTypeLoop_total h.lclean h.lnext h.nx c.sz.toNat 0 INVALID INVALID
        (le_refl _) (by rw [h.sz]; simp) (Or.inr ⟨by simp [INVALID], 0, cc,
          le_refl _, hcc, ?_⟩)
      cases cc <;> rfl
    · rw [if_neg h2]
      have := maxElement_lt c.next (by rw [h.lnext]; omega)
      rw [h.lnext] at this
      exact ⟨_, rfl, by omega, by omega⟩

theorem spill_total {K : Nat} {n : Int} {pr : Int} {c : Class} {m : Mem} (h : ClassOK K n c)
    (hm : MemOK n m) (h0 : 0 ≤ pr) (hlt : pr < K) (he : c.stk = []) :
    ∃ m1 ins, spill pr c m = some (m1, ins) ∧ MemOK n m1 := by
  obtain ⟨victim, hv⟩ := getI_total c.name h0 (by rw [h.lname]; exact hlt)
  obtain ⟨x, y⟩ := classOK_nm h pr victim hv
  have hne : victim ≠ INVALID := by
    intro e
    have := x e
    rw [he] at this
    cases this
  obtain ⟨v0, v1⟩ := y hne
  obtain ⟨cl, hcl⟩ := getI_total m.clean v0 (by rw [hm.lclean]; exact v1)
  obtain ⟨a, ha⟩ := setI_total m.vr2mem m.nextMemAddr v0
    (by rw [hm.lmem, hm.lclean]; exact v1)
  obtain ⟨b, hb⟩ := setI_total m.clean Clean.spilled v0 (by rw [hm.lclean]; exact v1)
  by_cases hd : cl = Clean.dirty
  · refine ⟨{ m with vr2mem := a, nextMemAddr := m.nextMemAddr + 4, clean := b },
      [mkLoadI m.nextMemAddr m.k, mkStore pr m.k],
      by simp only [spill, hv, hcl, hd, ha, hb, Option.bind_eq_bind,
        Option.some_bind, if_true, Option.pure_def], ?_, ?_⟩
    · show (b.length : Int) = n
      rw [setI_length hb, hm.lclean]
    · show a.length = b.length
      rw [setI_length ha, setI_length hb, hm.lmem]
  · exact ⟨m, [], by simp only [spill, hv, hcl, hd, Option.bind_eq_bind,
      Option.some_bind, if_false, Option.pure_def], hm⟩

theorem choose_total {K : Nat} {n : Int} {c : Class} {m : Mem} (h : ClassOK K n c)
    (hm : MemOK n m) :
    ∃ pr c1 m1 ins, choose c m = some (pr, c1, m1, ins) ∧ 0 ≤ pr ∧ pr < K ∧
      ClassPre K n pr c1 ∧ MemOK n m1 := by
  cases hs : c.stk with
  | nil =>
    obtain ⟨pr, hp, p0, p1⟩ := optimalPR_total h
    obtain ⟨m1, ins, hsp, hm1⟩ := spill_total h hm p0 p1 hs
    exact ⟨pr, c, m1, ins, by simp [choose, hs, hp, hsp], p0, p1, classOK_pre h pr, hm1⟩
  | cons top rest =>
    obtain ⟨t0, t1⟩ := h.stk top (by rw [hs]; exact List.mem_cons_self _ _)
    refine ⟨top, { c with stk := rest }, m, [], by simp [choose, hs], t0, t1,
      ⟨h.pos, h.sz, h.lname, h.lnext, h.lfree, h.lclean, ?_, ?_, h.nx⟩, hm⟩
    · intro p hp
      exact h.stk p (by rw [hs]; exact List.mem_cons_of_mem _ hp)
    · intro p v hne hv
      obtain ⟨x, y⟩ := classOK_nm h p v hv
      refine ⟨fun e => ?_, y⟩
      have := x e
      rw [hs] at this
      rcases List.mem_cons.mp this with e2 | e2
      · exact absurd e2 hne
      · exact e2

theorem occupy_total {K : Nat} {n : Int} {pr vr : Int} {c : Class} {m : Mem}
    (h : ClassPre K n pr c) (hm : MemOK n m) (h0 : 0 ≤ pr) (hlt : pr < K)
    (v0 : 0 ≤ vr) (v1 : vr < n) : ∃ c1, occupy pr vr c m = some c1 ∧ ClassOK K n c1 := by
  obtain ⟨a, ha⟩ := setI_total c.name vr h0 (by rw [h.lname]; exact hlt)
  obtain ⟨b, hb⟩ := setI_total c.next INVALID h0 (by rw [h.lnext]; exact hlt)
  obtain ⟨f, hf⟩ := setI_total c.free false h0 (by rw [h.lfree]; exact hlt)
  obtain ⟨cl, hcl⟩ := getI_total m.clean v0 (by rw [hm.lclean]; exact v1)
  obtain ⟨g, hg⟩ := setI_total c.cclean cl h0 (by rw [h.lclean]; exact hlt)
  refine ⟨{ c with name := a, next := b, free := f, cclean := g },
    by simp [occupy, ha, hb, hf, hcl, hg], classOK_of (q := pr) ⟨h.pos, h.sz, ?_, ?_, ?_, ?_,
      h.stk, ?_, ?_⟩ ?_⟩
  · show a.length = K
    rw [setI_length ha, h.lname]
  · show b.length = K
    rw [setI_length hb, h.lnext]
  · show f.length = K
    rw [setI_length hf, h.lfree]
  · show g.length = K
    rw [setI_length hg, h.lclean]
  · intro p v hne hv
    have hv2 : getI a p = some v := hv
    rw [getI_setI_ne ha hne] at hv2
    exact h.nm p v hne hv2
  · intro p x hx
    have hx2 : getI b p = some x := hx
    rw [getI_setI hb] at hx2
    split at hx2
    · obtain rfl := Option.some.inj hx2
      simp [INVALID]
    · exact h.nx p x hx2
  · intro v hv
    have hv2 : getI a pr = some v := hv
    rw [getI_setI_same ha] at hv2
    obtain rfl := Option.some.inj hv2
    exact ⟨fun e => by simp only [INVALID] at e; omega, fun _ => ⟨v0, v1⟩⟩

theorem allocate_total {K : Nat} {n : Int} {vr : Int} {c : Class} {m : Mem}
    (h : ClassOK K n c) (hm : MemOK n m) (v0 : 0 ≤ vr) (v1 : vr < n) :
    ∃ pr c1 m1 ins, allocate vr c m = some (pr, c1, m1, ins) ∧ 0 ≤ pr ∧ pr < K ∧
      ClassOK K n c1 ∧ MemOK n m1 := by
  obtain ⟨pr, c1, m1, ins, e1, p0, p1, pre, hm1⟩ := choose_total h hm
  obtain ⟨c2, e2, ok⟩ := occupy_total pre hm1 p0 p1 v0 v1
  exact ⟨pr, c2, m1, ins, by simp [allocate, e1, e2], p0, p1, ok, hm1⟩

theorem restore_total {n : Int} {vr : Int} (pr : Int) {m : Mem} (hm : MemOK n m)
    (v0 : 0 ≤ vr) (v1 : vr < n) : ∃ ins, restore vr pr m = some ins := by
  obtain ⟨cl, hcl⟩ := getI_total m.clean v0 (by rw [hm.lclean]; exact v1)
  obtain ⟨a, ha⟩ := getI_total m.vr2mem v0 (by rw [hm.lmem, hm.lclean]; exact v1)
  simp only [restore, hcl, ha, Option.bind_eq_bind, Option.some_bind, Option.pure_def]
  split_ifs <;> exact ⟨_, rfl⟩

theorem ensure_total {K : Nat} {n : Int} {vr : Int} {c : Class} {m : Mem}
    (h : ClassOK K n c) (hm : MemOK n m) (v0 : 0 ≤ vr) (v1 : vr < n) :
    ∃ pr c1 m1 ins, ensure vr c m = some (pr, c1, m1, ins) ∧ 0 ≤ pr ∧ pr < K ∧
      ClassOK K n c1 ∧ MemOK n m1 := by
  unfold ensure
  by_cases hf : c.name.indexOf vr < c.name.length
  · rw [if_pos hf]
    rw [h.lname] at hf
    exact ⟨_, c, m, [], rfl, by omega, by omega, h, hm⟩
  · rw [if_neg hf]
    obtain ⟨pr, c1, m1, ins, e1, p0, p1, ok, hm1⟩ := allocate_total h hm v0 v1
    obtain ⟨ins1, e2⟩ := restore_total pr hm1 v0 v1
    exact ⟨pr, c1, m1, ins ++ ins1, by simp [e1, e2], p0, p1, ok, hm1⟩

theorem assignSrc_total {K : Nat} {n : Int} {r : Register} {c : Class} {m : Mem}
    (h : ClassOK K n c) (hm : MemOK n m) (hr : r.ready n) :
    ∃ r1 c1 m1 ins, assignSrc r c m = some (r1, c1, m1, ins) ∧ ClassOK K n c1 ∧ MemOK n m1 ∧
      r1.nu = r.nu ∧ r1.isReg = r.isReg ∧ -1 ≤ r1.nu ∧
      (r.isReg = true → 0 ≤ r1.pr ∧ r1.pr < K) ∧
      (r.isReg = false → r1.pr = INVALID ∧ r1.nu = INVALID) := by
  unfold assignSrc
  by_cases e : r.isReg = true
  · rw [if_pos e]
    obtain ⟨v0, v1, n0⟩ := hr.1 e
    obtain ⟨pr, c1, m1, ins, e1, p0, p1, ok, hm1⟩ := ensure_total h hm v0 v1
    exact ⟨{ r with pr := pr }, c1, m1, ins, by simp [e1], ok, hm1, rfl, rfl, n0,
      fun _ => ⟨p0, p1⟩, fun x => by rw [e] at x; cases x⟩
  · rw [if_neg e]
    have e2 : r.isReg = false := by simpa using e
    obtain ⟨x, y⟩ := hr.2 e2
    exact ⟨r, c, m, [], rfl, h, hm, rfl, rfl, by rw [y]; simp [INVALID],
      fun x => absurd x e, fun _ => ⟨x, y⟩⟩

theorem freeIf_total {K : Nat} {n : Int} {b : Bool} (pr : Int) {c : Class}
    (h : ClassOK K n c) (hb : b = true → 0 ≤ pr ∧ pr < K) :
    ∃ c1, freeIf b pr c = some c1 ∧ ClassOK K n c1 := by
  unfold freeIf
  cases b with
  | true => exact freeRegister_total h (hb rfl).1 (hb rfl).2
  | false => exact ⟨c, rfl, h⟩

theorem setNext_ok {K : Nat} {n : Int} {pr x : Int} {c : Class} (h : ClassOK K n c)
    (h0 : 0 ≤ pr) (hlt : pr < K) (hx : -1 ≤ x) :
    ∃ b, setI c.next pr x = some b ∧ ClassOK K n { c with next := b } := by
  obtain ⟨b, hb⟩ := setI_total c.next x h0 (by rw [h.lnext]; exact hlt)
  refine ⟨b, hb, ⟨h.pos, h.sz, h.lname, ?_, h.lfree, h.lclean, h.stk, h.nm, ?_⟩⟩
  · show b.length = K
    rw [setI_length hb, h.lnext]
  · intro p y hy
    have hy2 : getI b p = some y := hy
    rw [getI_setI hb] at hy2
    split at hy2
    · obtain rfl := Option.some.inj hy2
      exact hx
    · exact h.nx p y hy2

theorem keepNext_total {K : Nat} {n : Int} {r : Register} {c : Class} (h : ClassOK K n c)
    (hp : r.pr ≠ INVALID → 0 ≤ r.pr ∧ r.pr < K) (hx : -1 ≤ r.nu) :
    ∃ c1, keepNext r c = some c1 ∧ ClassOK K n c1 := by
  unfold keepNext
  by_cases e : r.pr ≠ INVALID
  · rw [if_pos e]
    obtain ⟨b, hb, ok⟩ := setNext_ok h (hp e).1 (hp e).2 hx
    exact ⟨_, by simp [hb], ok⟩
  · rw [if_neg e]
    exact ⟨c, rfl, h⟩

theorem assignDest_total {K : Nat} {n : Int} {r : Register} {c : Class} {m : Mem}
    (h : ClassOK K n c) (hm : MemOK n m) (hr : r.ready n) :
    ∃ r1 c1 m1 ins, assignDest r c m = some (r1, c1, m1, ins) ∧ ClassOK K n c1 ∧
      MemOK n m1 := by
  unfold assignDest
  by_cases e : r.isReg = true
  · rw [if_pos e]
    obtain ⟨v0, v1, n0⟩ := hr.1 e
    obtain ⟨pr, c1, m1, ins, e1, p0, p1, ok, hm1⟩ := allocate_total h hm v0 v1
    obtain ⟨b, hb, ok2⟩ := setNext_ok ok p0 p1 n0
    exact ⟨{ r with pr := pr }, { c1 with next := b }, m1, ins, by simp [e1, hb], ok2, hm1⟩
  · rw [if_neg e]
    exact ⟨r, c, m, [], rfl, h, hm⟩

theorem assignStep_total {K : Nat} {n : Int} {it : Instruction} {c : Class} {m : Mem}
    (h : ClassOK K n c) (hm : MemOK n m) (hr : ∀ o ∈ it.operands, o.ready n) :
    ∃ ins it1 c1 m1, assignStep it c m = some (ins, it1, c1, m1) ∧ ClassOK K n c1 ∧
      MemOK n m1 := by
  have r1 := hr it.src1 (by simp [Instruction.operands])
  have r2 := hr it.src2 (by simp [Instruction.operands])
  have r3 := hr it.dest (by simp [Instruction.operands])
  obtain ⟨s1, c1, m1, i1, e1, ok1, hm1, a1, a2, a3, a4, a5⟩ := assignSrc_total h hm r1
  obtain ⟨s2, c2, m2, i2, e2, ok2, hm2, b1, b2, b3, b4, b5⟩ := assignSrc_total ok1 hm1 r2
  have pr1 : s1.pr ≠ INVALID → 0 ≤ s1.pr ∧ s1.pr < K := by
    intro hne
    cases hreg : it.src1.isReg with
    | true => exact a4 hreg
    | false => exact absurd (a5 hreg).1 hne
  have pr2 : s2.pr ≠ INVALID → 0 ≤ s2.pr ∧ s2.pr < K := by
    intro hne
    cases hreg : it.src2.isReg with
    | true => exact b4 hreg
    | false => exact absurd (b5 hreg).1 hne
  obtain ⟨c3, e3, ok3⟩ := freeIf_total (b := decide (s1.nu = INT_MAX)) s1.pr ok2
    (fun hb => by
      apply pr1
      intro hne
      cases hreg : it.src1.isReg with
      | true =>
        have := (a4 hreg).1
        rw [hne] at this
        simp [INVALID] at this
      | false =>
        have := (a5 hreg).2
        simp only [decide_eq_true_eq] at hb
        rw [this] at hb
        simp [INVALID, INT_MAX] at hb)
  obtain ⟨c4, e4, ok4⟩ := freeIf_total (b := s2.isReg && decide (s2.nu = INT_MAX))
    s2.pr ok3 (fun hb => by
      simp only [Bool.and_eq_true] at hb
      exact b4 (by rw [← b2]; exact hb.1))
  obtain ⟨c5, e5, ok5⟩ := keepNext_total ok4 pr1 a3
  obtain ⟨c6, e6, ok6⟩ := keepNext_total ok5 pr2 b3
  obtain ⟨d, c7, m3, i3, e7, ok7, hm3⟩ := assignDest_total ok6 hm2 r3
  exact ⟨i1 ++ i2 ++ i3, { it with src1 := s1, src2 := s2, dest := d }, c7, m3,
    by simp [assignStep, e1, e2, e3, e4, e5, e6, e7], ok7, hm3⟩

theorem assignLoop_total {K : Nat} {n : Int} : ∀ (ir : List Instruction) (c : Class) (m : Mem),
    ClassOK K n c → MemOK n m → (∀ it ∈ ir, ∀ o ∈ it.operands, o.ready n) →
    ∃ gs c1 m1, assignLoop ir c m = some (gs, c1, m1)
  | [], c, m, _, _, _ => ⟨[], c, m, rfl⟩
  | it :: rest, c, m, h, hm, hr => by
    obtain ⟨ins, it1, c1, m1, e1, ok1, hm1⟩ := assignStep_total h hm
      (hr it (List.mem_cons_self _ _))
    obtain ⟨gs, c2, m2, e2⟩ := assignLoop_total rest c1 m1 ok1 hm1
      (fun x hx => hr x (List.mem_cons_of_mem _ hx))
    exact ⟨(ins, it1) :: gs, c2, m2, by simp [assignLoop, e1, e2]⟩

theorem classOK_new (k : Int) (n : Int) (hk : 1 ≤ k) : ClassOK k.toNat n (Class.new k) := by
  refine ⟨by omega, by simp [Class.new]; omega, by simp [Class.new], by simp [Class.new],
    by simp [Class.new], by simp [Class.new], ?_, ?_, ?_⟩
  · intro p hp
    simp only [Class.new, List.mem_map, List.mem_range] at hp
    obtain ⟨a, ha, rfl⟩ := hp
    exact ⟨Int.ofNat_nonneg a, by
      show (a : Int) < (k.toNat : Int)
      exact_mod_cast ha⟩
  · intro p v _ hv
    obtain ⟨h0, h1, h3⟩ := getI_some hv
    have := List.getElem?_mem h3
    simp only [Class.new, List.mem_replicate] at this
    simp only [Class.new, List.length_replicate] at h1
    refine ⟨fun _ => ?_, fun e => absurd this.2 e⟩
    simp only [Class.new, List.mem_map, List.mem_range]
    exact ⟨p.toNat, h1, by simp [Int.toNat_of_nonneg h0]⟩
  · intro p x hx
    obtain ⟨_, _, h3⟩ := getI_some hx
    have := List.getElem?_mem h3
    simp only [Class.new, List.mem_replicate] at this
    rw [this.2]
    simp [INT_MAX]

theorem Allocator_total (ir : List Instruction) (numRegs : Int) (hk : 2 ≤ numRegs)
    (hp : ∀ it ∈ ir, it.parsed = true) : ∃ r, Allocator ir numRegs = some r := by
  obtain ⟨ir1, s, e1, l1, l2, rd⟩ := computeLastUses_total ir hp
  obtain ⟨gs, c, m1, e2⟩ := assignLoop_total (K := (if numRegs < s.maxLive then numRegs - 1
      else numRegs).toNat) (n := s.vrName) ir1
    (Class.new (if numRegs < s.maxLive then numRegs - 1 else numRegs))
    { k := if numRegs < s.maxLive then numRegs - 1 else numRegs, nextMemAddr := SPILL,
      maxLive := s.maxLive, vr2mem := s.vr2mem, clean := s.clean }
    (classOK_new _ _ (by split_ifs <;> omega)) ⟨l1, l2.symm⟩ rd
  exact ⟨{ groups := gs, c := c, m := m1 }, by simp [Allocator, e1, e2]⟩

/-! ### The inserted instructions by their fields, and the scratch register of the log -/

theorem spillLog_scratch {pr : Int} {c : Class} {m m1 : Mem} {items : List Item}
    (h : spillLog pr c m = some (m1, items)) :
    m1.k = m.k ∧ ∀ x ∈ items, x.usesScratch m.k := by
  obtain ⟨victim, cl, _, _, h⟩ := spillLog_inv h
  rcases h with ⟨_, rfl, rfl⟩ | ⟨_, v1, c1, _, _, rfl, rfl⟩
  · exact ⟨rfl, fun x hx => by cases hx⟩
  · refine ⟨rfl, fun x hx => ?_⟩
    simp only [List.mem_singleton] at hx
    subst hx
    exact rfl

theorem chooseLog_scratch {pr : Int} {c c1 : Class} {m m1 : Mem} {items : List Item}
    (h : chooseLog c m = some (pr, c1, m1, items)) :
    m1.k = m.k ∧ ∀ x ∈ items, x.usesScratch m.k := by
  unfold chooseLog at h
  split at h
  · simp only [Option.some.injEq, Prod.mk.injEq] at h
    obtain ⟨_, _, rfl, rfl⟩ := h
    exact ⟨rfl, fun x hx => by cases hx⟩
  · simp only [Option.bind_eq_bind, Option.pure_def, Option.bind_eq_some, Option.some.injEq,
      Prod.mk.injEq, Prod.exists] at h
    obtain ⟨pr1, _, m2, ins2, hsp, _, _, rfl, rfl⟩ := h
    exact spillLog_scratch hsp

theorem allocateLog_scratch {vr pr : Int} {c c1 : Class} {m m1 : Mem} {items : List Item}
    (h : allocateLog vr c m = some (pr, c1, m1, items)) :
    m1.k = m.k ∧ ∀ x ∈ items, x.usesScratch m.k := by
  unfold allocateLog at h
  simp only [Option.bind_eq_bind, Option.pure_def, Option.bind_eq_some, Option.some.injEq,
    Prod.mk.injEq, Prod.exists] at h
  obtain ⟨pr1, c2, m2, ins2, hc, c3, _, _, _, rfl, rfl⟩ := h
  exact chooseLog_scratch hc

theorem restoreLog_scratch {vr pr : Int} {m : Mem} {items : List Item}
    (h : restoreLog vr pr m = some items) : ∀ x ∈ items, x.usesScratch m.k := by
  unfold restoreLog at h
  simp only [Option.bind_eq_bind, Option.pure_def, Option.bind_eq_some] at h
  obtain ⟨cl, _, a, _, h⟩ := h
  split at h
  · obtain rfl := Option.some.inj h
    intro x hx
    simp only [List.mem_singleton] at hx
    subst hx
    trivial
  · split at h
    · obtain rfl := Option.some.inj h
      intro x hx
      simp only [List.mem_singleton] at hx
      subst hx
      exact rfl
    · obtain rfl := Option.some.inj h
      exact fun x hx => by cases hx

theorem ensureLog_scratch {vr pr : Int} {c c1 : Class} {m m1 : Mem} {items : List Item}
    (h : ensureLog vr c m = some (pr, c1, m1, items)) :
    m1.k = m.k ∧ ∀ x ∈ items, x.usesScratch m.k := by
  unfold ensureLog at h
  split at h
  · simp only [Option.some.injEq, Prod.mk.injEq] at h
    obtain ⟨_, _, rfl, rfl⟩ := h
    exact ⟨rfl, fun x hx => by cases hx⟩
  · simp only [Option.bind_eq_bind, Option.pure_def, Option.bind_eq_some, Option.some.injEq,
      Prod.mk.injEq, Prod.exists] at h
    obtain ⟨pr1, c2, m2, ins2, ha, ins3, hr, _, _, rfl, rfl⟩ := h
    obtain ⟨a, b⟩ := allocateLog_scratch ha
    refine ⟨a, fun x hx => ?_⟩
    rcases List.mem_append.mp hx with hx | hx
    · exact b x hx
    · have := restoreLog_scratch hr x hx
      rw [a] at this
      exact this

theorem assignSrcLog_scratch {r r1 : Register} {c c1 : Class} {m m1 : Mem}
    {items : List Item} (h : assignSrcLog r c m = some (r1, c1, m1, items)) :
    m1.k = m.k ∧ ∀ x ∈ items, x.usesScratch m.k := by
  unfold assignSrcLog at h
  split at h
  · simp only [Option.bind_eq_bind, Option.pure_def, Option.bind_eq_some, Option.some.injEq,
      Prod.mk.injEq, Prod.exists] at h
    obtain ⟨pr, c2, m2, ins2, he, _, _, rfl, rfl⟩ := h
    exact ensureLog_scratch he
  · simp only [Option.some.injEq, Prod.mk.injEq] at h
    obtain ⟨_, _, rfl, rfl⟩ := h
    exact ⟨rfl, fun x hx => by cases hx⟩

theorem assignDestLog_scratch {r r1 : Register} {c c1 : Class} {m m1 : Mem}
    {items : List Item} (h : assignDestLog r c m = some (r1, c1, m1, items)) :
    m1.k = m.k ∧ ∀ x ∈ items, x.usesScratch m.k := by
  unfold assignDestLog at h
  split at h
  · simp only [Option.bind_eq_bind, Option.pure_def, Option.bind_eq_some, Option.some.injEq,
      Prod.mk.injEq, Prod.exists] at h
    obtain ⟨pr, c2, m2, ins2, he, n1, _, _, _, rfl, rfl⟩ := h
    exact allocateLog_scratch he
  · simp only [Option.some.injEq, Prod.mk.injEq] at h
    obtain ⟨_, _, rfl, rfl⟩ := h
    exact ⟨rfl, fun x hx => by cases hx⟩

theorem assignStepLog_scratch {it it1 : Instruction} {c c1 : Class} {m m1 : Mem}
    {items : List Item} (h : assignStepLog it c m = some (items, it1, c1, m1)) :
    m1.k = m.k ∧ ∀ x ∈ items, x.usesScratch m.k := by
  unfold assignStepLog at h
  simp only [Option.bind_eq_bind, Option.pure_def, Option.bind_eq_some, Option.some.injEq,
    Prod.mk.injEq, Prod.exists] at h
  obtain ⟨s1, c1, m1, ins1, h1, s2, c2, m2, ins2, h2, c3, _, c4, _, c5, _, c6, _,
    d, c8, m4, ins3, h7, rfl, _, _, rfl⟩ := h
  obtain ⟨a1, b1⟩ := assignSrcLog_scratch h1
  obtain ⟨a2, b2⟩ := assignSrcLog_scratch h2
  obtain ⟨a3, b3⟩ := assignDestLog_scratch h7
  refine ⟨by rw [a3, a2, a1], fun x hx => ?_⟩
  rcases List.mem_append.mp hx with hx | hx
  · rcases List.mem_append.mp hx with hx | hx
    · exact b1 x hx
    · have := b2 x hx
      rw [a1] at this
      exact this
  · have := b3 x hx
    rw [a2, a1] at this
    exact this

theorem assignLoopLog_scratch : ∀ (ir : List Instruction) (c c1 : Class) (m m1 : Mem)
    (tr : List Item), assignLoopLog ir c m = some (tr, c1, m1) →
    m1.k = m.k ∧ ∀ x ∈ tr, x.usesScratch m.k
  | [], c, c1, m, m1, tr, h => by
    simp only [assignLoopLog, Option.some.injEq, Prod.mk.injEq] at h
    obtain ⟨rfl, _, rfl⟩ := h
    exact ⟨rfl, fun x hx => by cases hx⟩
  | it :: rest, c, c1, m, m1, tr, h => by
    simp only [assignLoopLog, Option.bind_eq_bind, Option.pure_def, Option.bind_eq_some,
      Option.some.injEq, Prod.mk.injEq, Prod.exists] at h
    obtain ⟨ins, it1, c2, m2, hs, tr1, c3, m3, hl, rfl, _, rfl⟩ := h
    obtain ⟨a, b⟩ := assignStepLog_scratch hs
    obtain ⟨a2, b2⟩ := assignLoopLog_scratch rest c2 c3 m2 m3 tr1 hl
    refine ⟨by rw [a2, a], fun x hx => ?_⟩
    rcases List.mem_append.mp hx with hx | hx
    · exact b x hx
    · rcases List.mem_cons.mp hx with rfl | hx
      · trivial
      · have := b2 x hx
        rw [a] at this
        exact this

/-- The scratch register of every entry of the log of a run is the member `k`
the run ends with. -/
theorem Allocator_scratch {ir : List Instruction} {k : Int} {r : Result} {tr : List Item}
    (h : Allocator ir k = some r) (ht : AllocatorLog ir k = some tr) :
    ∀ x ∈ tr, x.usesScratch r.m.k := by
  obtain ⟨ir1, lu, tr2, _, h2, h3, _⟩ := Allocator_log h
  rw [ht] at h3
  obtain rfl := Option.some.inj h3
  obtain ⟨a, b⟩ := assignLoopLog_scratch ir1 _ _ _ _ tr h2
  intro x hx
  rw [a]
  exact b x hx

theorem expand_split (t1 t2 : List Item) (x : Item) :
    expand (t1 ++ x :: t2) = expand t1 ++ (x.instrs ++ expand t2) := by
  rw [expand_append]
  rfl

/-- The address of a dirty spill of a log whose spill addresses are counted
from `SPILL` is given by the number of dirty spills before it. -/
theorem spill_address_at {tr t1 t2 : List Item} {vr p a kk : Int}
    (h : (spills tr).map Prod.snd =
      (List.range (spills tr).length).map (fun (j : Nat) => SPILL + 4 * (j : Int)))
    (e : tr = t1 ++ Item.spillPair vr p a kk :: t2) :
    a = SPILL + 4 * ((spills t1).length : Int) := by
  have hs : spills tr = spills t1 ++ (vr, a) :: spills t2 := by
    rw [e, spills_append]
    rfl
  have hlt : (spills t1).length < (spills tr).length := by
    rw [hs]
    simp
  have h1 : ((spills tr).map Prod.snd)[(spills t1).length]? = some a := by
    rw [hs, List.map_append, List.getElem?_append_right (by simp)]
    simp
  rw [h] at h1
  rw [List.getElem?_map, List.getElem?_range hlt] at h1
  simpa using h1.symm

/-! ### The claims on the whole run -/

/-- C1 (the code departs from the claim): on the well-formed block
`deadDefBlock` with three registers requested, `computeLastUses` finds
`maxLive = 2`, no register is reserved, and yet the output holds the inserted
instructions `loadI 32768 => r3` and `store r0 => r3`, whose register operand
`r3` is not one of the three registers `r0`, `r1`, `r2` that were requested. -/
theorem requested_registers_exceeded :
    wellFormed deadDefBlock = true ∧ (∀ it ∈ deadDefBlock, it.parsed = true) ∧
    (Allocator deadDefBlock 3).map
        (fun r => (r.m.maxLive, r.m.k, (r.intRep.drop 4).take 2)) =
      some (2, 3, [mkLoadI 32768 3, mkStore 0 3]) ∧
    (mkLoadI 32768 3).dest.isReg = true ∧ (mkLoadI 32768 3).dest.pr = 3 := by
  decide

/-- C2 (the code departs from the claim): the well-formed block `evictBlock`
only addresses memory at `8` and `0` and prints `12` when run over its source
registers, but the block allocated for three registers prints `8`. -/
theorem semantic_preservation_fails :
    wellFormed evictBlock = true ∧ (∀ it ∈ evictBlock, it.parsed = true) ∧
    addresses (fun o => o.sr) zeroMem evictBlock = [8, 0, 8] ∧
    outputs (fun o => o.sr) zeroMem evictBlock = [12] ∧
    (Allocator evictBlock 3).map (fun r => outputs (fun o => o.pr) zeroMem r.intRep) =
      some [8] := by
  decide

/-- C3 (the code departs from the claim): on the well-formed block
`deadDefBlock`, which has no `store`, with `3 ≥ maxLive = 2` registers
requested, the output holds the inserted instruction `store r0 => r3`. -/
theorem store_inserted_without_pressure :
    wellFormed deadDefBlock = true ∧ (∀ it ∈ deadDefBlock, it.parsed = true) ∧
    (computeLastUses deadDefBlock).map (fun a => a.2.maxLive) = some 2 ∧
    deadDefBlock.filter (fun i => i.op == Opcode.store) = [] ∧
    (Allocator deadDefBlock 3).map
        (fun r => r.intRep.filter (fun i => i.op == Opcode.store)) =
      some [mkStore 0 3] := by
  decide

/-- C4: insert-only rewriting. On every parsed block, with at least two
registers requested, the allocator returns, and its output is the input
instructions, each preceded by the instructions inserted while it was under
the cursor; the input instructions come in the same order with the same
opcode and, for every operand, the same `isReg` and `sr`; every inserted
instruction is a `loadI`, a `load` or a `store`. -/
theorem insert_only_rewriting (ir : List Instruction) (k : Int) (hk : 2 ≤ k)
    (hp : ∀ it ∈ ir, it.parsed = true) :
    ∃ r, Allocator ir k = some r ∧
      r.intRep = r.groups.flatMap (fun g => g.1 ++ [g.2]) ∧
      r.groups.map (fun g => g.2.shape) = ir.map Instruction.shape ∧
      ∀ g ∈ r.groups, ∀ s ∈ g.1,
        s.op = Opcode.loadI ∨ s.op = Opcode.load ∨ s.op = Opcode.store := by
  obtain ⟨r, h⟩ := Allocator_total ir k hk hp
  obtain ⟨ir1, lu, h1, h2⟩ := Allocator_inv h
  have a := assignLoop_ok ir1 _ _ _ _ _ h2 (Class.new_name_length _)
  refine ⟨r, h, rfl, ?_, ?_⟩
  · rw [a.2.2.1]
    exact luSweep_shape ir 0 _ ir1 lu h1
  · intro g hg s hs
    obtain ⟨x, pr, _, _, e⟩ := a.2.2.2.1 g hg s hs
    rcases e with rfl | rfl | rfl | rfl
    · exact Or.inl rfl
    · exact Or.inl rfl
    · exact Or.inr (Or.inl rfl)
    · exact Or.inr (Or.inr rfl)

/-- Witness of C4 on `evictBlock` with three registers requested. -/
theorem insert_only_rewriting_witness :
    (2 : Int) ≤ 3 ∧ (∀ it ∈ evictBlock, it.parsed = true) ∧
    ∃ r, Allocator evictBlock 3 = some r ∧
      r.intRep = r.groups.flatMap (fun g => g.1 ++ [g.2]) ∧
      r.groups.map (fun g => g.2.shape) = evictBlock.map Instruction.shape ∧
      ∀ g ∈ r.groups, ∀ s ∈ g.1,
        s.op = Opcode.loadI ∨ s.op = Opcode.load ∨ s.op = Opcode.store :=
  ⟨by decide, by decide, insert_only_rewriting evictBlock 3 (by decide) (by decide)⟩

/-- C5 (the code departs from the claim): in the output for the well-formed
block `evictBlock` with three registers requested, the original instruction
`add r1, r0 => r4` reads the virtual registers `4` and `3` from the same
physical register `1`, and so does `store r4 => r0` with `2` and `3`. -/
theorem sources_share_register :
    wellFormed evictBlock = true ∧ (∀ it ∈ evictBlock, it.parsed = true) ∧
    (Allocator evictBlock 3).map (fun r =>
        ((r.groups.map (fun g => g.2)).filter (fun i =>
            i.src1.isReg && i.src2.isReg && i.src1.vr != i.src2.vr &&
              i.src1.pr == i.src2.pr)).map
          (fun i => (i.op, i.src1.vr, i.src2.vr, i.src1.pr, i.src2.pr))) =
      some [(Opcode.add, 4, 3, 1, 1), (Opcode.store, 2, 3, 1, 1)] := by
  decide

/-- C6: scratch confinement. On every parsed block, with at least two
registers requested, the allocator returns, and the member `k` is the
requested number less one when that is below `maxLive` and the requested
number otherwise, at least `1`; every register operand of an original
instruction has `0 ≤ pr < k`; and an inserted instruction has the index `k`
as a register operand only as the `src1` of a `load`, the `src2` of a `store`
or the `dest` of a `loadI`. -/
theorem scratch_confinement (ir : List Instruction) (k : Int) (hk : 2 ≤ k)
    (hp : ∀ it ∈ ir, it.parsed = true) :
    ∃ r, Allocator ir k = some r ∧
      (∃ ir1 lu, computeLastUses ir = some (ir1, lu) ∧
        r.m.k = if k < lu.maxLive then k - 1 else k) ∧
      1 ≤ r.m.k ∧
      (∀ g ∈ r.groups, ∀ o ∈ g.2.operands, o.isReg = true → 0 ≤ o.pr ∧ o.pr < r.m.k) ∧
      (∀ g ∈ r.groups, ∀ s ∈ g.1,
        (s.src1.isReg = true → s.src1.pr = r.m.k → s.op = Opcode.load) ∧
        (s.src2.isReg = true → s.src2.pr = r.m.k → s.op = Opcode.store) ∧
        (s.dest.isReg = true → s.dest.pr = r.m.k → s.op = Opcode.loadI)) := by
  obtain ⟨r, h⟩ := Allocator_total ir k hk hp
  obtain ⟨ir1, lu, h1, h2⟩ := Allocator_inv h
  have a := assignLoop_ok ir1 _ _ _ _ _ h2 (Class.new_name_length _)
  have he : r.m.k = if k < lu.maxLive then k - 1 else k := a.1
  refine ⟨r, h, ⟨ir1, lu, h1, he⟩, ?_, ?_, ?_⟩
  · rw [he]
    split_ifs <;> omega
  · intro g hg o ho hr
    rw [he]
    exact a.2.2.2.2 g hg o ho hr
  · intro g hg s hs
    have e := isSplice_confined (a.2.2.2.1 g hg s hs)
    rw [he]
    exact e

/-- Witness of C6 on `evictBlock` with three registers requested. -/
theorem scratch_confinement_witness :
    (2 : Int) ≤ 3 ∧ (∀ it ∈ evictBlock, it.parsed = true) ∧
    ∃ r, Allocator evictBlock 3 = some r ∧
      (∃ ir1 lu, computeLastUses evictBlock = some (ir1, lu) ∧
        r.m.k = if (3 : Int) < lu.maxLive then 3 - 1 else 3) ∧
      1 ≤ r.m.k ∧
      (∀ g ∈ r.groups, ∀ o ∈ g.2.operands, o.isReg = true → 0 ≤ o.pr ∧ o.pr < r.m.k) ∧
      (∀ g ∈ r.groups, ∀ s ∈ g.1,
        (s.src1.isReg = true → s.src1.pr = r.m.k → s.op = Opcode.load) ∧
        (s.src2.isReg = true → s.src2.pr = r.m.k → s.op = Opcode.store) ∧
        (s.dest.isReg = true → s.dest.pr = r.m.k → s.op = Opcode.loadI)) :=
  ⟨by decide, by decide, scratch_confinement evictBlock 3 (by decide) (by decide)⟩

/-- C7: spill and restore are paired. On every parsed block, with at least
two registers requested, the allocator returns, and in the log of the run
every restore pair `loadI a => k; load k => p` made for a virtual register
that the analysis tagged `dirty` comes after a spill pair
`loadI a => k; store q => k` with the same address `a` and the same scratch
register, logged when that virtual register was evicted from `q`; the log
expands to the output. The scratch register is the member `k`, and in the
output the restore pair is an instruction with opcode `loadI`, immediate `a`
and destination `k` followed by one with opcode `load`, source `k` and
destination `p`, and the spill pair before it is an instruction with opcode
`loadI`, immediate `a` and destination `k` followed by one with opcode
`store`, source `q` and address register `k`. -/
theorem spill_restore_pairing (ir : List Instruction) (k : Int) (hk : 2 ≤ k)
    (hp : ∀ it ∈ ir, it.parsed = true) :
    ∃ r, Allocator ir k = some r ∧
      ∃ ir1 lu tr, computeLastUses ir = some (ir1, lu) ∧ AllocatorLog ir k = some tr ∧
        expand tr = r.intRep ∧
        (∀ t1 t2 vr p a kk, tr = t1 ++ Item.restorePair vr p a kk :: t2 →
          getI lu.clean vr = some Clean.dirty → ∃ q, Item.spillPair vr q a kk ∈ t1) ∧
        ∀ t1 t2 vr p a kk, tr = t1 ++ Item.restorePair vr p a kk :: t2 →
          getI lu.clean vr = some Clean.dirty →
          kk = r.m.k ∧
          (∃ x y, r.intRep = expand t1 ++ x :: y :: expand t2 ∧
            x.isLoadI a r.m.k ∧ y.isLoad r.m.k p) ∧
          ∃ q s1 s2 u w, t1 = s1 ++ Item.spillPair vr q a kk :: s2 ∧
            expand t1 = expand s1 ++ u :: w :: expand s2 ∧
            u.isLoadI a r.m.k ∧ w.isStore q r.m.k := by
  obtain ⟨r, h⟩ := Allocator_total ir k hk hp
  obtain ⟨ir1, lu, tr, h1, h2, h3, h4⟩ := Allocator_log h
  have inv := assignLoopLog_spillInv ir1 _ _ _ _ [] tr h2
    (spillInv_init (computeLastUses_tagOK h1))
  rw [List.nil_append] at inv
  refine ⟨r, h, ir1, lu, tr, h1, h3, h4, inv.paired, ?_⟩
  intro t1 t2 vr p a kk e hd
  have hkk : kk = r.m.k :=
    Allocator_scratch h h3 (Item.restorePair vr p a kk) (by rw [e]; simp)
  obtain ⟨q, hq⟩ := inv.paired t1 t2 vr p a kk e hd
  obtain ⟨s1, s2, es⟩ := List.append_of_mem hq
  refine ⟨hkk,
    ⟨mkLoadI a r.m.k, mkLoad r.m.k p, ?_, (by exact ⟨rfl, rfl, rfl, rfl, rfl, rfl, rfl⟩),
      (by exact ⟨rfl, rfl, rfl, rfl, rfl, rfl, rfl⟩)⟩,
    q, s1, s2, mkLoadI a r.m.k, mkStore q r.m.k, es, ?_,
    (by exact ⟨rfl, rfl, rfl, rfl, rfl, rfl, rfl⟩),
    (by exact ⟨rfl, rfl, rfl, rfl, rfl, rfl, rfl⟩)⟩
  · rw [← h4, e, expand_split, hkk]
    rfl
  · rw [es, expand_split, hkk]
    rfl

/-- Witness of C7 on `evictBlock` with three registers requested. -/
theorem spill_restore_pairing_witness :
    (2 : Int) ≤ 3 ∧ (∀ it ∈ evictBlock, it.parsed = true) ∧
    ∃ r, Allocator evictBlock 3 = some r ∧
      ∃ ir1 lu tr, computeLastUses evictBlock = some (ir1, lu) ∧ AllocatorLog evictBlock 3 = some tr ∧
        expand tr = r.intRep ∧
        (∀ t1 t2 vr p a kk, tr = t1 ++ Item.restorePair vr p a kk :: t2 →
          getI lu.clean vr = some Clean.dirty → ∃ q, Item.spillPair vr q a kk ∈ t1) ∧
        ∀ t1 t2 vr p a kk, tr = t1 ++ Item.restorePair vr p a kk :: t2 →
          getI lu.clean vr = some Clean.dirty →
          kk = r.m.k ∧
          (∃ x y, r.intRep = expand t1 ++ x :: y :: expand t2 ∧
            x.isLoadI a r.m.k ∧ y.isLoad r.m.k p) ∧
          ∃ q s1 s2 u w, t1 = s1 ++ Item.spillPair vr q a kk :: s2 ∧
            expand t1 = expand s1 ++ u :: w :: expand s2 ∧
            u.isLoadI a r.m.k ∧ w.isStore q r.m.k :=
  ⟨by decide, by decide, spill_restore_pairing evictBlock 3 (by decide) (by decide)⟩

/-- C8: spill addresses. On every parsed block, with at least two registers
requested, the allocator returns, and in the log of the run the `j`-th dirty
spill stores to `32768 + 4 * j`; no virtual register is spilled twice; two
spills of distinct virtual registers have distinct addresses; `nextMemAddr`
ends at `32768` plus four times the number of spills, and neither `allocate`
nor any stretch of the sweep ever decreases it. Every dirty spill, with `j`
the number of dirty spills before it, is in the output an instruction with
opcode `loadI`, immediate `32768 + 4 * j` and destination the scratch
register (the member `k`), followed by an instruction with opcode `store`,
source the register spilled and address register the scratch register.
Integers are unbounded here, so overflow of `nextMemAddr` is left out, as in
the claim. -/
theorem spill_addresses (ir : List Instruction) (k : Int) (hk : 2 ≤ k)
    (hp : ∀ it ∈ ir, it.parsed = true) :
    ∃ r, Allocator ir k = some r ∧
      ∃ tr, AllocatorLog ir k = some tr ∧ expand tr = r.intRep ∧
        (spills tr).map Prod.snd =
          (List.range (spills tr).length).map (fun (j : Nat) => SPILL + 4 * (j : Int)) ∧
        ((spills tr).map Prod.fst).Nodup ∧
        (∀ x ∈ spills tr, ∀ y ∈ spills tr, x.1 ≠ y.1 → x.2 ≠ y.2) ∧
        r.m.nextMemAddr = SPILL + 4 * ((spills tr).length : Int) ∧
        (∀ vr c m pr c1 m1 ins, allocate vr c m = some (pr, c1, m1, ins) →
          m.nextMemAddr ≤ m1.nextMemAddr) ∧
        (∀ l c m gs c1 m1, assignLoop l c m = some (gs, c1, m1) →
          m.nextMemAddr ≤ m1.nextMemAddr) ∧
        ∀ t1 t2 vr p a kk, tr = t1 ++ Item.spillPair vr p a kk :: t2 →
          a = SPILL + 4 * ((spills t1).length : Int) ∧ kk = r.m.k ∧
          ∃ x y, r.intRep = expand t1 ++ x :: y :: expand t2 ∧
            x.isLoadI (SPILL + 4 * ((spills t1).length : Int)) r.m.k ∧
            y.isStore p r.m.k := by
  obtain ⟨r, h⟩ := Allocator_total ir k hk hp
  obtain ⟨ir1, lu, tr, h1, h2, h3, h4⟩ := Allocator_log h
  have inv := assignLoopLog_spillInv ir1 _ _ _ _ [] tr h2
    (spillInv_init (computeLastUses_tagOK h1))
  rw [List.nil_append] at inv
  have hnd : ((spills tr).map Prod.snd).Nodup := by
    rw [inv.addrs]
    refine List.Nodup.map ?_ (List.nodup_range _)
    intro a b hab
    simp only at hab
    omega
  refine ⟨r, h, tr, h3, h4, inv.addrs, inv.nodup, ?_, inv.next, ?_, ?_, ?_⟩
  · intro x hx y hy hne he
    exact hne (congrArg Prod.fst (List.inj_on_of_nodup_map hnd hx hy he))
  · intro vr c m pr c1 m1 ins ha
    exact allocate_next_le ha
  · intro l c m gs c1 m1 ha
    exact assignLoop_next_le l c c1 m m1 gs ha
  · intro t1 t2 vr p a kk e
    have hkk : kk = r.m.k :=
      Allocator_scratch h h3 (Item.spillPair vr p a kk) (by rw [e]; simp)
    have ha := spill_address_at inv.addrs e
    refine ⟨ha, hkk, mkLoadI a r.m.k, mkStore p r.m.k, ?_, by rw [← ha]; exact ⟨rfl, rfl, rfl, rfl, rfl, rfl, rfl⟩,
      (by exact ⟨rfl, rfl, rfl, rfl, rfl, rfl, rfl⟩)⟩
    rw [← h4, e, expand_split, hkk]
    rfl

/-- Witness of C8 on `evictBlock` with three registers requested. -/
theorem spill_addresses_witness :
    (2 : Int) ≤ 3 ∧ (∀ it ∈ evictBlock, it.parsed = true) ∧
    ∃ r, Allocator evictBlock 3 = some r ∧
      ∃ tr, AllocatorLog evictBlock 3 = some tr ∧ expand tr = r.intRep ∧
        (spills tr).map Prod.snd =
          (List.range (spills tr).length).map (fun (j : Nat) => SPILL + 4 * (j : Int)) ∧
        ((spills tr).map Prod.fst).Nodup ∧
        (∀ x ∈ spills tr, ∀ y ∈ spills tr, x.1 ≠ y.1 → x.2 ≠ y.2) ∧
        r.m.nextMemAddr = SPILL + 4 * ((spills tr).length : Int) ∧
        (∀ vr c m pr c1 m1 ins, allocate vr c m = some (pr, c1, m1, ins) →
          m.nextMemAddr ≤ m1.nextMemAddr) ∧
        (∀ l c m gs c1 m1, assignLoop l c m = some (gs, c1, m1) →
          m.nextMemAddr ≤ m1.nextMemAddr) ∧
        ∀ t1 t2 vr p a kk, tr = t1 ++ Item.spillPair vr p a kk :: t2 →
          a = SPILL + 4 * ((spills t1).length : Int) ∧ kk = r.m.k ∧
          ∃ x y, r.intRep = expand t1 ++ x :: y :: expand t2 ∧
            x.isLoadI (SPILL + 4 * ((spills t1).length : Int)) r.m.k ∧
            y.isStore p r.m.k :=
  ⟨by decide, by decide, spill_addresses evictBlock 3 (by decide) (by decide)⟩

/-- The insertions logged for `evictBlock` with three registers requested:
two dirty spills, then the restore of the first one. -/
theorem AllocatorLog_evictBlock :
    (AllocatorLog evictBlock 3).map (fun tr => tr.filter (fun x => x.instrs.length != 1)) =
      some [Item.spillPair 1 1 32768 2, Item.spillPair 2 1 32772 2,
            Item.restorePair 1 1 32768 2] := by
  decide

/-- What the analysis does establish of a `cleanLoad` tag: on every parsed
block `computeLastUses` returns, and after it a virtual register `v` is
tagged `cleanLoad` only if it is the destination of a `load` whose address
register is defined by an earlier `loadI imm`, with `vr2mem[v] = imm`, and no
`store` located after that `load` has an address register defined by a
`loadI` of the same immediate located at or after that `loadI imm`. Stores
whose address is computed, or comes from an earlier `loadI`, are not seen. -/
theorem cleanLoad_sound (ir : List Instruction) (hp : ∀ it ∈ ir, it.parsed = true) :
    ∃ ir1 lu, computeLastUses ir = some (ir1, lu) ∧
      ∀ v, getI lu.clean v = some Clean.cleanLoad →
        ∃ (p l : Nat) (P L : Instruction), p < l ∧ ir1[p]? = some P ∧ ir1[l]? = some L ∧
          P.op = Opcode.loadI ∧ L.op = Opcode.load ∧ L.dest.vr = v ∧
          L.src1.vr = P.dest.vr ∧ getI lu.vr2mem v = some P.src1.sr ∧
          ∀ (s q : Nat) (S Q : Instruction), l < s → p ≤ q → q < s → ir1[s]? = some S →
            ir1[q]? = some Q → S.op = Opcode.store → Q.op = Opcode.loadI →
            Q.dest.isReg = true → Q.dest.vr = S.src2.vr → Q.src1.sr ≠ P.src1.sr := by
  obtain ⟨ir1, lu, h, _⟩ := computeLastUses_total ir hp
  exact ⟨ir1, lu, h, fun v hv =>
    (luSweep_analysis ir 0 _ ir1 lu h (analysisInv_init ir)).clean v hv⟩

/-- C9 (the code departs from the claim): the tag `cleanLoad` is given
although a `store` after the `load` writes to the address loaded from. In the
well-formed block `storeAliasBlock` the destination of `load r0 => r1`
(virtual register `1`, address register defined by `loadI 1024`) is tagged
`cleanLoad` with `vr2mem = 1024`, although the `store` at index `5` writes to
the address `1024`; its address register is defined by an `add`. In
`staleLoadBlock` the same happens (virtual register `0`, store at index `5`),
and with three registers requested the value is evicted without a store and
loaded again from `1024` after that store: run from a memory holding `5` at
`1024` the block prints `5`, the allocated block prints `512`, and no
instruction of it reads two values from one register. In `staleOrderBlock`
the stores at the indices `5` and `6` take their address from a `loadI 1024`
placed before the `loadI 1024` of the load; the tag is given all the same,
and the block prints `5` while the allocated block prints `7`. -/
theorem cleanLoad_ignores_computed_store :
    wellFormed storeAliasBlock = true ∧ (∀ it ∈ storeAliasBlock, it.parsed = true) ∧
    (computeLastUses storeAliasBlock).map (fun a =>
        (a.1.take 2).map (fun i => (i.op, i.src1.sr, i.src1.vr, i.dest.vr))) =
      some [(Opcode.loadI, 1024, -1, 5), (Opcode.load, 0, 5, 1)] ∧
    (computeLastUses storeAliasBlock).map (fun a => (getI a.2.clean 1, getI a.2.vr2mem 1)) =
      some (some Clean.cleanLoad, some 1024) ∧
    storeTargets (fun o => o.sr) zeroMem storeAliasBlock = [(5, 1024)] ∧
    wellFormed staleLoadBlock = true ∧ (∀ it ∈ staleLoadBlock, it.parsed = true) ∧
    (computeLastUses staleLoadBlock).map (fun a =>
        (a.1.take 2).map (fun i => (i.op, i.src1.sr, i.src1.vr, i.dest.vr))) =
      some [(Opcode.loadI, 1024, -1, 4), (Opcode.load, 0, 4, 0)] ∧
    (computeLastUses staleLoadBlock).map (fun a => (getI a.2.clean 0, getI a.2.vr2mem 0)) =
      some (some Clean.cleanLoad, some 1024) ∧
    storeTargets (fun o => o.sr) fiveAt1024 staleLoadBlock = [(5, 1024), (6, 2048)] ∧
    outputs (fun o => o.sr) fiveAt1024 staleLoadBlock = [5] ∧
    (Allocator staleLoadBlock 3).map (fun r => outputs (fun o => o.pr) fiveAt1024 r.intRep) =
      some [512] ∧
    (Allocator staleLoadBlock 3).map (fun r => (r.groups.map (fun g => g.2)).filter (fun i =>
        i.src1.isReg && i.src2.isReg && i.src1.vr != i.src2.vr && i.src1.pr == i.src2.pr)) =
      some [] ∧
    wellFormed staleOrderBlock = true ∧ (∀ it ∈ staleOrderBlock, it.parsed = true) ∧
    (computeLastUses staleOrderBlock).map (fun a =>
        ((a.1.drop 1).take 2).map (fun i => (i.op, i.src1.sr, i.src1.vr, i.dest.vr))) =
      some [(Opcode.loadI, 1024, -1, 5), (Opcode.load, 0, 5, 0)] ∧
    (computeLastUses staleOrderBlock).map (fun a => (getI a.2.clean 0, getI a.2.vr2mem 0)) =
      some (some Clean.cleanLoad, some 1024) ∧
    storeTargets (fun o => o.sr) fiveAt1024 staleOrderBlock =
      [(5, 1024), (6, 1024), (8, 2048)] ∧
    outputs (fun o => o.sr) fiveAt1024 staleOrderBlock = [5] ∧
    (Allocator staleOrderBlock 3).map (fun r => outputs (fun o => o.pr) fiveAt1024 r.intRep) =
      some [7] ∧
    (Allocator staleOrderBlock 3).map (fun r => (r.groups.map (fun g => g.2)).filter (fun i =>
        i.src1.isReg && i.src2.isReg && i.src1.vr != i.src2.vr && i.src1.pr == i.src2.pr)) =
      some [] := by
  constructorm* _ ∧ _
  all_goals decide

/-- The statement above on `cleanLoadBlock`, whose virtual register `1` is
tagged `cleanLoad`. -/
theorem cleanLoad_sound_witness :
    (∀ it ∈ cleanLoadBlock, it.parsed = true) ∧
    ∃ ir1 lu, computeLastUses cleanLoadBlock = some (ir1, lu) ∧
      getI lu.clean 1 = some Clean.cleanLoad ∧
      ∃ (p l : Nat) (P L : Instruction), p < l ∧ ir1[p]? = some P ∧ ir1[l]? = some L ∧
        P.op = Opcode.loadI ∧ L.op = Opcode.load ∧ L.dest.vr = 1 ∧ L.src1.vr = P.dest.vr ∧
        getI lu.vr2mem 1 = some P.src1.sr ∧
        ∀ (s q : Nat) (S Q : Instruction), l < s → p ≤ q → q < s → ir1[s]? = some S →
          ir1[q]? = some Q → S.op = Opcode.store → Q.op = Opcode.loadI →
          Q.dest.isReg = true → Q.dest.vr = S.src2.vr → Q.src1.sr ≠ P.src1.sr := by
  have hc : (computeLastUses cleanLoadBlock).map (fun a => getI a.2.clean 1) =
      some (some Clean.cleanLoad) := by decide
  obtain ⟨ir1, lu, h, hall⟩ := cleanLoad_sound cleanLoadBlock (by decide)
  rw [h] at hc
  have hv : getI lu.clean 1 = some Clean.cleanLoad := Option.some.inj hc
  exact ⟨by decide, ir1, lu, h, hv, hall 1 hv⟩

/-- C10, as amended: on every parsed block `computeLastUses` returns, and
`maxLive` is the largest register pressure of the block, the maximum over the
instruction indices `i` of the larger of the number of source registers live
on entry to `i` and the number of source registers live on exit from `i` or
written by `i`. -/
theorem maxLive_is_peak_pressure (ir : List Instruction)
    (hp : ∀ it ∈ ir, it.parsed = true) :
    ∃ ir1 lu, computeLastUses ir = some (ir1, lu) ∧
      lu.maxLive = (peak (getNumSR ir).toNat ir : Int) := by
  obtain ⟨ir1, lu, h, _⟩ := computeLastUses_total ir hp
  obtain ⟨_, b⟩ := luSweep_live ir 0 _ ir1 lu h (liveState_init ir) rfl
  exact ⟨ir1, lu, h, by rw [b, peakFrom_eq_peak]⟩

/-- C10 fails as stated: on the well-formed block `pressureBlock`, at the
`add` three virtual registers have `def(v) ≤ 2 ≤ last_use(v)` (the two
operands and the sum), but `computeLastUses` finds `maxLive = 2`, which is
the largest register pressure. -/
theorem maxLive_not_span_count :
    wellFormed pressureBlock = true ∧ (∀ it ∈ pressureBlock, it.parsed = true) ∧
    (computeLastUses pressureBlock).map
        (fun a => (a.2.maxLive, claimedMaxLive a.1 a.2.clean.length)) = some (2, 3) ∧
    peak (getNumSR pressureBlock).toNat pressureBlock = 2 := by
  decide

/-- Witness of C10, as amended, on `pressureBlock`. -/
theorem maxLive_is_peak_pressure_witness :
    (∀ it ∈ pressureBlock, it.parsed = true) ∧
    ∃ ir1 lu, computeLastUses pressureBlock = some (ir1, lu) ∧
      lu.maxLive = (peak (getNumSR pressureBlock).toNat pressureBlock : Int) :=
  ⟨by decide, maxLive_is_peak_pressure pressureBlock (by decide)⟩

/-! ### The claims on the analysis and on the choice of a victim -/

/-- C11 (the code departs from the claim): in the well-formed block
`deadDefBlock` every `add r1, r1 => ..` reads `r1` through both sources; at
the index `i` the analysis gives the second source `nu = i`, the index of the
instruction itself, where the claim gives the next read of `r1` after `i`
(`i + 1`, or `INT_MAX` at the last instruction). -/
theorem next_use_not_after_index :
    wellFormed deadDefBlock = true ∧ (∀ it ∈ deadDefBlock, it.parsed = true) ∧
    (computeLastUses deadDefBlock).map (fun a =>
        (a.1.drop 1).map (fun i => (i.src2.isReg, i.src2.sr, i.src2.nu))) =
      some [(true, 1, 1), (true, 1, 2), (true, 1, 3), (true, 1, 4)] ∧
    (List.range 4).map (fun (i : Nat) => claimedNextUse deadDefBlock (i + 1) 1) =
      [2, 3, 4, INT_MAX] := by
  decide

/-- C13 (the code departs from the claim): on the well-formed block
`doubleFreeBlock` with three registers requested, at the last instruction
`add r1, r2 => r3` both sources are in the register `0` and both die, so
`freeRegister` is applied to `0` twice: after the statements 4, 5 and 6 of
that iteration the free stack is `[0, 0]`, and after the statement 7 the
register `0` is on the stack while `name[0] = 0` and `free[0]` is false. -/
theorem free_stack_holds_register_twice :
    wellFormed doubleFreeBlock = true ∧ (∀ it ∈ doubleFreeBlock, it.parsed = true) ∧
    (AllocatorPts doubleFreeBlock 3).map (fun pts =>
        ((pts.drop 39).take 4).map (fun x => (x.1.free, x.1.name, x.1.stk, freeListOK x.1))) =
      some [([true, false, false], [-1, 3, 4], [0, 0], false),
            ([true, false, false], [-1, 3, 4], [0, 0], false),
            ([true, false, false], [-1, 3, 4], [0, 0], false),
            ([false, false, false], [0, 3, 4], [0], false)] := by
  decide

/-- C15 (the code departs from the claim): on the well-formed block
`cleanDirtyBlock` with three registers requested, before the destination of
the instruction of index `4` is allocated no register is free, no occupant is
`remat` and the register `0` holds a `cleanLoad` value; `optimalPR` returns
the register `2`, whose value is `dirty`, and the run stores it. -/
theorem nondirty_preference_fails :
    wellFormed cleanDirtyBlock = true ∧ (∀ it ∈ cleanDirtyBlock, it.parsed = true) ∧
    (AllocatorPts cleanDirtyBlock 3).map (fun pts =>
        (pts.drop 34).head?.map (fun x => (x.1.stk, x.1.cclean, x.1.next, optimalPR x.1))) =
      some (some ([], [Clean.cleanLoad, Clean.dirty, Clean.dirty], [4, INT_MAX, INT_MAX],
        some 2)) ∧
    (Allocator cleanDirtyBlock 3).map
        (fun r => r.intRep.filter (fun i => i.op == Opcode.store)) =
      some [mkStore 2 3] := by
  decide

theorem bestOfTypeLoop_best {K : Nat} {c : Class} (cln : Clean) (n : Bool)
    (hc : c.cclean.length = K) (hn : c.next.length = K)
    (hx : ∀ p x, getI c.next p = some x → INVALID ≤ x) :
    ∀ (fuel : Nat) (i pr opt : Int), 0 ≤ i → i + fuel = K →
      ((pr = INVALID ∧ opt = INVALID ∧ ∀ j cj, 0 ≤ j → j < i → getI c.cclean j = some cj →
          ((n && cj != cln) || cj == cln) = false) ∨
        (LastBest c (fun cc => (n && cc != cln) || cc == cln) i pr ∧
          getI c.next pr = some opt)) →
      ∃ r, bestOfTypeLoop c cln n fuel i pr opt = some r ∧
        ((r = INVALID ∧ ∀ (j : Int) cj, 0 ≤ j → j < K → getI c.cclean j = some cj →
            ((n && cj != cln) || cj == cln) = false) ∨
          LastBest c (fun cc => (n && cc != cln) || cc == cln) K r)
  | 0, i, pr, opt, h0, hf, hq => by
    have e : i = K := by omega
    subst e
    refine ⟨pr, rfl, ?_⟩
    rcases hq with ⟨a, _, b⟩ | ⟨a, _⟩
    · exact Or.inl ⟨a, b⟩
    · exact Or.inr a
  | fuel + 1, i, pr, opt, h0, hf, hq => by
    obtain ⟨cc, hcc⟩ := getI_total c.cclean h0 (by rw [hc]; omega)
    obtain ⟨nx, hnx⟩ := getI_total c.next h0 (by rw [hn]; omega)
    have hge := hx i nx hnx
    unfold bestOfTypeLoop
    simp only [hcc, hnx, Option.bind_eq_bind, Option.some_bind]
    by_cases hqual : ((n && cc != cln) || cc == cln) = true
    · rw [if_pos hqual]
      by_cases hcmp : nx ≥ opt
      · rw [if_pos hcmp]
        refine bestOfTypeLoop_best cln n hc hn hx fuel (i + 1) i nx (by omega)
          (by push_cast at hf ⊢; omega) (Or.inr ⟨⟨h0, by omega, cc, nx, hcc, hqual, hnx, ?_⟩, hnx⟩)
        intro j cj xj j0 j1 hcj hqj hxj
        replace hqj : ((n && cj != cln) || cj == cln) = true := hqj
        by_cases e : j = i
        · subst e
          rw [hnx] at hxj
          obtain rfl := Option.some.inj hxj
          exact ⟨le_refl _, fun _ => le_refl _⟩
        · rcases hq with ⟨_, _, hno⟩ | ⟨⟨_, _, cp, xp, _, _, hxp, hmax⟩, hopt⟩
          · have := hno j cj j0 (by omega) hcj
            rw [this] at hqj
            cases hqj
          · rw [hxp] at hopt
            obtain rfl := Option.some.inj hopt
            obtain ⟨a, _⟩ := hmax j cj xj j0 (by omega) hcj hqj hxj
            exact ⟨by omega, fun _ => by omega⟩
      · rw [if_neg hcmp]
        refine bestOfTypeLoop_best cln n hc hn hx fuel (i + 1) pr opt (by omega)
          (by push_cast at hf ⊢; omega) ?_
        rcases hq with ⟨_, ho, _⟩ | ⟨⟨p0, p1, cp, xp, hcp, hqp, hxp, hmax⟩, hopt⟩
        · rw [ho] at hcmp
          exact absurd hge hcmp
        · rw [hxp] at hopt
          obtain rfl := Option.some.inj hopt
          refine Or.inr ⟨⟨p0, by omega, cp, xp, hcp, hqp, hxp, ?_⟩, hxp⟩
          intro j cj xj j0 j1 hcj hqj hxj
          replace hqj : ((n && cj != cln) || cj == cln) = true := hqj
          by_cases e : j = i
          · subst e
            rw [hnx] at hxj
            obtain rfl := Option.some.inj hxj
            exact ⟨by omega, fun h => by omega⟩
          · exact hmax j cj xj j0 (by omega) hcj hqj hxj
    · rw [if_neg hqual]
      have hqf : ((n && cc != cln) || cc == cln) = false := by simpa using hqual
      refine bestOfTypeLoop_best cln n hc hn hx fuel (i + 1) pr opt (by omega)
        (by push_cast at hf ⊢; omega) ?_
      rcases hq with ⟨a, b, hno⟩ | ⟨⟨p0, p1, cp, xp, hcp, hqp, hxp, hmax⟩, hopt⟩
      · refine Or.inl ⟨a, b, ?_⟩
        intro j cj j0 j1 hcj
        by_cases e : j = i
        · subst e
          rw [hcc] at hcj
          obtain rfl := Option.some.inj hcj
          exact hqf
        · exact hno j cj j0 (by omega) hcj
      · refine Or.inr ⟨⟨p0, by omega, cp, xp, hcp, hqp, hxp, ?_⟩, hopt⟩
        intro j cj xj j0 j1 hcj hqj hxj
        replace hqj : ((n && cj != cln) || cj == cln) = true := hqj
        by_cases e : j = i
        · subst e
          rw [hcc] at hcj
          obtain rfl := Option.some.inj hcj
          rw [hqf] at hqj
          cases hqj
        · exact hmax j cj xj j0 (by omega) hcj hqj hxj

theorem bestOfType_best {c : Class} (cln : Clean) (n : Bool)
    (hc : c.cclean.length = c.sz.toNat) (hn : c.next.length = c.sz.toNat)
    (hx : ∀ p x, getI c.next p = some x → INVALID ≤ x)
    (he : ∃ j cj, getI c.cclean j = some cj ∧ ((n && cj != cln) || cj == cln) = true) :
    ∃ r, bestOfType c cln n = some r ∧
      LastBest c (fun cc => (n && cc != cln) || cc == cln) c.sz.toNat r := by
  obtain ⟨r, h1, h2⟩ := bestOfTypeLoop_best cln n hc hn hx c.sz.toNat 0 INVALID
    INVALID (le_refl _) (by simp) (Or.inl ⟨rfl, rfl, fun j cj j0 j1 => by omega⟩)
  refine ⟨r, h1, ?_⟩
  rcases h2 with ⟨_, hno⟩ | h2
  · obtain ⟨j, cj, hj, hq⟩ := he
    have := getI_lt hj
    rw [hno j cj this.1 (by rw [← hc]; exact this.2) hj] at hq
    cases hq
  · exact h2

theorem maxElementFrom_first (pre : List Int) : ∀ (xs : List Int) (best : Nat) (bv : Int),
    pre[best]? = some bv →
    (∀ (j : Nat) (y : Int), pre[j]? = some y → y ≤ bv ∧ (y = bv → best ≤ j)) →
    FirstMax (pre ++ xs) (maxElementFrom xs pre.length best bv)
  | [], best, bv, hb, hm => by
    simp only [maxElementFrom, List.append_nil]
    exact ⟨bv, hb, hm⟩
  | x :: xs, best, bv, hb, hm => by
    have hlt : best < pre.length := (List.getElem?_eq_some_iff.mp hb).1
    unfold maxElementFrom
    have e : pre ++ x :: xs = (pre ++ [x]) ++ xs := by simp
    have hl : (pre ++ [x]).length = pre.length + 1 := by simp
    split
    · rename_i hlt2
      rw [e, ← hl]
      refine maxElementFrom_first (pre ++ [x]) xs pre.length x (by simp) ?_
      intro j y hj
      by_cases hjl : j < pre.length
      · rw [List.getElem?_append_left hjl] at hj
        have := hm j y hj
        exact ⟨by omega, fun h => by omega⟩
      · have hj2 : j = pre.length := by
          have := (List.getElem?_eq_some_iff.mp hj).1
          simp at this
          omega
        subst hj2
        simp at hj
        exact ⟨by omega, fun _ => le_refl _⟩
    · rename_i hge
      rw [e, ← hl]
      refine maxElementFrom_first (pre ++ [x]) xs best bv
        (by rw [List.getElem?_append_left hlt]; exact hb) ?_
      intro j y hj
      by_cases hjl : j < pre.length
      · rw [List.getElem?_append_left hjl] at hj
        exact hm j y hj
      · have hj2 : j = pre.length := by
          have := (List.getElem?_eq_some_iff.mp hj).1
          simp at this
          omega
        subst hj2
        simp at hj
        subst hj
        exact ⟨by omega, fun h => by omega⟩

theorem maxElement_first (xs : List Int) (h : 0 < xs.length) : FirstMax xs (maxElement xs) := by
  cases xs with
  | nil => cases h
  | cons x xs =>
    have := maxElementFrom_first [x] xs 0 x (by simp) (by
      intro j y hj
      cases j with
      | zero =>
        simp at hj
        exact ⟨by omega, fun _ => le_refl _⟩
      | succ j => simp at hj)
    simpa [maxElement] using this

/-- The two states above are states of the run on `deadDefBlock`. -/
theorem states_of_deadDefBlock :
    (AllocatorPts deadDefBlock 3).map (fun pts => (pts[27]?, pts[28]?)) =
      some (some rematVictimState, some dirtyVictimState) := by
  decide

theorem getI_of_nat {α : Type} {xs : List α} {q : Int} {v : α} (h : getI xs q = some v) :
    ∃ j : Nat, q = (j : Int) ∧ j < xs.length ∧ getI xs (j : Int) = some v := by
  obtain ⟨h0, h1, _⟩ := getI_some h
  exact ⟨q.toNat, (Int.toNat_of_nonneg h0).symm, h1, by rw [Int.toNat_of_nonneg h0]; exact h⟩

theorem occupy_named (pr vr : Int) (c : Class) (m : Mem) (h0 : 0 ≤ pr)
    (h1 : pr < (c.name.length : Int)) (h2 : c.next.length = c.name.length)
    (h3 : c.free.length = c.name.length) (h4 : c.cclean.length = c.name.length)
    (hv : (getI m.clean vr).isSome = true) :
    ∃ c1, occupy pr vr c m = some c1 ∧ getI c1.name pr = some vr := by
  obtain ⟨a, ha⟩ := setI_total c.name vr h0 h1
  obtain ⟨b, hb⟩ := setI_total c.next INVALID h0 (by rw [h2]; exact h1)
  obtain ⟨f, hf⟩ := setI_total c.free false h0 (by rw [h3]; exact h1)
  obtain ⟨cl, hcl⟩ := Option.isSome_iff_exists.mp hv
  obtain ⟨g, hg⟩ := setI_total c.cclean cl h0 (by rw [h4]; exact h1)
  exact ⟨{ c with name := a, next := b, free := f, cclean := g },
    by simp [occupy, ha, hb, hf, hcl, hg], getI_setI_same ha⟩

/-- C16: remat victim preference. For every class whose vectors have `sz`
entries, with every `next` at least `INVALID`, an empty free stack and a
`remat` occupant, `optimalPR` returns a register `p` with `cclean[p] = remat`
whose `next` is the largest among the `remat` registers; and `allocate`, for
any virtual register and any members in which the name of every `remat`
register is tagged `remat`, returns `p`, inserts nothing and leaves the
members unchanged. -/
theorem remat_victim_preferred (c : Class)
    (hc : c.cclean.length = c.sz.toNat) (hn : c.next.length = c.sz.toNat)
    (hm : c.name.length = c.sz.toNat) (hf : c.free.length = c.sz.toNat)
    (hx : ∀ x ∈ c.next, INVALID ≤ x) (hs : c.stk = []) (hr : Clean.remat ∈ c.cclean) :
    ∃ p x, optimalPR c = some p ∧ getI c.cclean p = some Clean.remat ∧
      getI c.next p = some x ∧
      (∀ q y, getI c.cclean q = some Clean.remat → getI c.next q = some y → y ≤ x) ∧
      ∀ (vr : Int) (m : Mem),
        (∀ q : Nat, q < c.sz.toNat → getI c.cclean q = some Clean.remat →
          (getI c.name q).bind (getI m.clean) = some Clean.remat) →
        (getI m.clean vr).isSome = true →
        ∃ c1, allocate vr c m = some (p, c1, m, []) ∧ getI c1.name p = some vr := by
  have hx2 : ∀ p x, getI c.next p = some x → INVALID ≤ x := fun p x h =>
    hx x (List.getElem?_mem (getI_some h).2.2)
  obtain ⟨j, hj⟩ := List.getElem?_of_mem hr
  have hjl := (List.getElem?_eq_some_iff.mp hj).1
  have hjg : getI c.cclean (j : Int) = some Clean.remat := by
    unfold getI
    simp [hj]
  obtain ⟨p, hp, p0, p1, cc, x, hcc, hq, hxp, hmax⟩ := bestOfType_best Clean.remat false
    hc hn hx2 ⟨j, Clean.remat, hjg, by simp⟩
  have hcr : cc = Clean.remat := by simpa using hq
  subst hcr
  have hopt : optimalPR c = some p := by
    unfold optimalPR
    rw [if_pos (by simpa using hr)]
    exact hp
  refine ⟨p, x, hopt, hcc, hxp, ?_, ?_⟩
  · intro q y hq2 hy
    have := getI_lt hq2
    exact (hmax q Clean.remat y this.1 (by rw [← hc]; exact this.2) hq2 (by simp) hy).1
  · intro vr m hcoh hv
    have hpn : p = ((p.toNat : Nat) : Int) := (Int.toNat_of_nonneg p0).symm
    have hco := hcoh p.toNat (by omega) (by rw [← hpn]; exact hcc)
    rw [← hpn] at hco
    obtain ⟨v, hv1, hv2⟩ := Option.bind_eq_some.mp hco
    have hsp : spill p c m = some (m, []) := by
      simp [spill, hv1, hv2]
    obtain ⟨c1, ho, hnm⟩ := occupy_named p vr c m p0
      (by rw [hm]; exact p1) (by rw [hn, hm]) (by rw [hf, hm]) (by rw [hc, hm]) hv
    exact ⟨c1, by simp [allocate, choose, hs, hopt, hsp, ho], hnm⟩

/-- Witness of C16 on a state of the run on `deadDefBlock`. -/
theorem remat_victim_preferred_witness :
    Clean.remat ∈ rematVictimState.1.cclean ∧ rematVictimState.1.stk = [] ∧
    ∃ p x c1, optimalPR rematVictimState.1 = some p ∧
      getI rematVictimState.1.cclean p = some Clean.remat ∧
      getI rematVictimState.1.next p = some x ∧
      (∀ q y, getI rematVictimState.1.cclean q = some Clean.remat →
        getI rematVictimState.1.next q = some y → y ≤ x) ∧
      allocate 2 rematVictimState.1 rematVictimState.2 =
        some (p, c1, rematVictimState.2, []) ∧ getI c1.name p = some 2 := by
  obtain ⟨p, x, h1, h2, h3, h4, h5⟩ := remat_victim_preferred rematVictimState.1
    (by decide) (by decide) (by decide) (by decide) (by decide) (by decide) (by decide)
  obtain ⟨c1, h6, h7⟩ := h5 2 rematVictimState.2 (by decide) (by decide)
  exact ⟨by decide, by decide, p, x, c1, h1, h2, h3, h4, h6, h7⟩

/-- C17, as amended: for every class with `sz > 0` whose vectors have `sz`
entries and every `next` at least `INVALID`: when there is a `remat`
occupant, `optimalPR` returns, among the `remat` registers with the largest
`next`, the one of highest index; when every occupant is `dirty`, it returns,
among the registers with the largest `next`, the one of lowest index. -/
theorem victim_tie_break (c : Class)
    (hc : c.cclean.length = c.sz.toNat) (hn : c.next.length = c.sz.toNat)
    (hx : ∀ x ∈ c.next, INVALID ≤ x) (hz : 0 < c.sz) :
    (Clean.remat ∈ c.cclean →
      ∃ p x, optimalPR c = some p ∧ getI c.cclean p = some Clean.remat ∧
        getI c.next p = some x ∧
        ∀ q y, getI c.cclean q = some Clean.remat → getI c.next q = some y →
          y ≤ x ∧ (y = x → q ≤ p)) ∧
    ((∀ cc ∈ c.cclean, cc = Clean.dirty) →
      ∃ p x, optimalPR c = some p ∧ getI c.next p = some x ∧
        ∀ q y, getI c.next q = some y → y ≤ x ∧ (y = x → p ≤ q)) := by
  have hx2 : ∀ p x, getI c.next p = some x → INVALID ≤ x := fun p x h =>
    hx x (List.getElem?_mem (getI_some h).2.2)
  constructor
  · intro hr
    obtain ⟨j, hj⟩ := List.getElem?_of_mem hr
    have hjg : getI c.cclean (j : Int) = some Clean.remat := by
      unfold getI
      simp [hj]
    obtain ⟨p, hp, p0, p1, cc, x, hcc, hq, hxp, hmax⟩ := bestOfType_best Clean.remat false
      hc hn hx2 ⟨j, Clean.remat, hjg, by simp⟩
    have hcr : cc = Clean.remat := by simpa using hq
    subst hcr
    refine ⟨p, x, ?_, hcc, hxp, ?_⟩
    · unfold optimalPR
      rw [if_pos (by simpa using hr)]
      exact hp
    · intro q y hq2 hy
      have := getI_lt hq2
      exact hmax q Clean.remat y this.1 (by rw [← hc]; exact this.2) hq2 (by simp) hy
  · intro hd
    have h1 : ¬ (c.cclean.contains Clean.remat = true) := by
      intro h
      have := hd Clean.remat (by simpa using h)
      cases this
    have h2 : ¬ (c.cclean.any (fun x => x != Clean.dirty) = true) := by
      intro h
      obtain ⟨cc, hcc, hne⟩ := List.any_eq_true.mp h
      rw [hd cc hcc] at hne
      simp at hne
    have hlen : 0 < c.next.length := by rw [hn]; omega
    obtain ⟨x, hxr, hmax⟩ := maxElement_first c.next hlen
    refine ⟨(maxElement c.next : Int), x, ?_, ?_, ?_⟩
    · unfold optimalPR
      rw [if_neg h1, if_neg h2]
    · unfold getI
      simpa using hxr
    · intro q y hy
      obtain ⟨j, rfl, _, hj⟩ := getI_of_nat hy
      have hj2 : c.next[j]? = some y := by
        unfold getI at hj
        simpa using hj
      obtain ⟨a, b⟩ := hmax j y hj2
      exact ⟨a, fun e => by exact_mod_cast b e⟩

/-- Witness of C17, as amended: a tie between two `remat` registers, and the
tie between three `dirty` registers of the run on `deadDefBlock`. -/
theorem victim_tie_break_witness :
    (Clean.remat ∈ rematTieClass.cclean ∧
      ∃ p x, optimalPR rematTieClass = some p ∧ getI rematTieClass.cclean p = some Clean.remat ∧
        getI rematTieClass.next p = some x ∧
        ∀ q y, getI rematTieClass.cclean q = some Clean.remat →
          getI rematTieClass.next q = some y → y ≤ x ∧ (y = x → q ≤ p)) ∧
    ((∀ cc ∈ dirtyVictimState.1.cclean, cc = Clean.dirty) ∧
      ∃ p x, optimalPR dirtyVictimState.1 = some p ∧ getI dirtyVictimState.1.next p = some x ∧
        ∀ q y, getI dirtyVictimState.1.next q = some y → y ≤ x ∧ (y = x → p ≤ q)) :=
  ⟨⟨by decide, (victim_tie_break rematTieClass (by decide) (by decide) (by decide)
      (by decide)).1 (by decide)⟩,
   ⟨by decide, (victim_tie_break dirtyVictimState.1 (by decide) (by decide) (by decide)
      (by decide)).2 (by decide)⟩⟩

/-- C17 fails as stated: in the run on the well-formed block `deadDefBlock`
with three registers requested, before the first source of the instruction
of index `4` is ensured no register is free, the three occupants are `dirty`
and share `next = INT_MAX`; `optimalPR` returns the register `0`, the lowest
index among them. -/
theorem all_dirty_tie_lowest_index :
    wellFormed deadDefBlock = true ∧ (∀ it ∈ deadDefBlock, it.parsed = true) ∧
    (AllocatorPts deadDefBlock 3).map (fun pts =>
        (pts.drop 28).head?.map (fun x => (x.1.stk, x.1.cclean, x.1.next, optimalPR x.1))) =
      some (some ([], [Clean.dirty, Clean.dirty, Clean.dirty], [INT_MAX, INT_MAX, INT_MAX],
        some 0)) := by
  decide

/-- The step of `allocate` on an empty free stack, with the inserted
instructions given by the builders of the code. -/
theorem dirty_spill_built (vr : Int) (c : Class) (m : Mem) (p v : Int) (cl : Clean)
    (hs : c.stk = []) (ho : optimalPR c = some p) (hv : getI c.name p = some v)
    (hcl : getI m.clean v = some cl)
    (h2 : c.next.length = c.name.length) (h3 : c.free.length = c.name.length)
    (h4 : c.cclean.length = c.name.length) (h5 : m.vr2mem.length = m.clean.length)
    (hvr : (getI m.clean vr).isSome = true) :
    ∃ c1 m1 ins, allocate vr c m = some (p, c1, m1, ins) ∧ getI c1.name p = some vr ∧
      (cl = Clean.dirty →
        ins = [mkLoadI m.nextMemAddr m.k, mkStore p m.k] ∧
        getI m1.vr2mem v = some m.nextMemAddr ∧ getI m1.clean v = some Clean.spilled ∧
        m1.nextMemAddr = m.nextMemAddr + 4 ∧ m1.k = m.k ∧
        ∀ w, w ≠ v → getI m1.vr2mem w = getI m.vr2mem w ∧ getI m1.clean w = getI m.clean w) ∧
      (cl ≠ Clean.dirty → ins = [] ∧ m1 = m) := by
  obtain ⟨p0, p1⟩ := getI_lt hv
  obtain ⟨v0, v1⟩ := getI_lt hcl
  by_cases hd : cl = Clean.dirty
  · obtain ⟨a, ha⟩ := setI_total m.vr2mem m.nextMemAddr v0 (by rw [h5]; exact v1)
    obtain ⟨b, hb⟩ := setI_total m.clean Clean.spilled v0 v1
    obtain ⟨m1, hm1⟩ : ∃ m1 : Mem,
        m1 = { m with vr2mem := a, nextMemAddr := m.nextMemAddr + 4, clean := b } := ⟨_, rfl⟩
    have hsp : spill p c m = some (m1, [mkLoadI m.nextMemAddr m.k, mkStore p m.k]) := by
      simp only [spill, hv, hcl, hd, ha, hb, Option.bind_eq_bind, Option.some_bind, if_true,
        Option.pure_def, hm1]
    have hvr2 : (getI m1.clean vr).isSome = true := by
      rw [hm1]
      show (getI b vr).isSome = true
      rw [getI_setI hb]
      split
      · rfl
      · exact hvr
    obtain ⟨c1, hoc, hnm⟩ := occupy_named p vr c m1
      p0 p1 h2 h3 h4 hvr2
    refine ⟨c1, m1, [mkLoadI m.nextMemAddr m.k, mkStore p m.k],
      by simp [allocate, choose, hs, ho, hsp, hoc], hnm, fun _ => ?_, fun h => absurd hd h⟩
    rw [hm1]
    exact ⟨rfl, getI_setI_same ha, getI_setI_same hb, rfl, rfl,
      fun w hw => ⟨getI_setI_ne ha hw, getI_setI_ne hb hw⟩⟩
  · have hsp : spill p c m = some (m, []) := by
      simp only [spill, hv, hcl, hd, Option.bind_eq_bind, Option.some_bind, if_false,
        Option.pure_def]
    obtain ⟨c1, hoc, hnm⟩ := occupy_named p vr c m
      p0 p1 h2 h3 h4 hvr
    exact ⟨c1, m, [], by simp [allocate, choose, hs, ho, hsp, hoc], hnm,
      fun h => absurd h hd, fun _ => ⟨rfl, rfl⟩⟩

/-- C18: the dirty spill step. When `allocate` is called with an empty free
stack, `optimalPR` chooses `p`, and `p` holds the virtual register `v`, it
returns `p` with `name[p]` the new virtual register; when `clean[v]` is
`dirty` it inserts exactly `loadI a => k; store p => k` for `a` the
`nextMemAddr` on entry (an instruction with opcode `loadI`, immediate `a` and
destination `k`, then one with opcode `store`, source `p` and address
register `k`), sets `vr2mem[v] = a`, `clean[v] = spilled` and
`nextMemAddr = a + 4` and changes no other entry; otherwise it inserts
nothing and leaves the members unchanged. -/
theorem dirty_spill_step (vr : Int) (c : Class) (m : Mem) (p v : Int) (cl : Clean)
    (hs : c.stk = []) (ho : optimalPR c = some p) (hv : getI c.name p = some v)
    (hcl : getI m.clean v = some cl)
    (h2 : c.next.length = c.name.length) (h3 : c.free.length = c.name.length)
    (h4 : c.cclean.length = c.name.length) (h5 : m.vr2mem.length = m.clean.length)
    (hvr : (getI m.clean vr).isSome = true) :
    ∃ c1 m1 ins, allocate vr c m = some (p, c1, m1, ins) ∧ getI c1.name p = some vr ∧
      (cl = Clean.dirty →
        ins = [mkLoadI m.nextMemAddr m.k, mkStore p m.k] ∧
        getI m1.vr2mem v = some m.nextMemAddr ∧ getI m1.clean v = some Clean.spilled ∧
        m1.nextMemAddr = m.nextMemAddr + 4 ∧ m1.k = m.k ∧
        (∀ w, w ≠ v → getI m1.vr2mem w = getI m.vr2mem w ∧
          getI m1.clean w = getI m.clean w) ∧
        ∃ x y, ins = [x, y] ∧ x.isLoadI m.nextMemAddr m.k ∧ y.isStore p m.k) ∧
      (cl ≠ Clean.dirty → ins = [] ∧ m1 = m) := by
  obtain ⟨c1, m1, ins, a1, a2, a3, a4⟩ := dirty_spill_built vr c m p v cl hs ho hv hcl h2 h3 h4
    h5 hvr
  refine ⟨c1, m1, ins, a1, a2, fun hd => ?_, a4⟩
  obtain ⟨b1, b2, b3, b4, b5, b6⟩ := a3 hd
  exact ⟨b1, b2, b3, b4, b5, b6, mkLoadI m.nextMemAddr m.k, mkStore p m.k, b1,
    (by exact ⟨rfl, rfl, rfl, rfl, rfl, rfl, rfl⟩), (by exact ⟨rfl, rfl, rfl, rfl, rfl, rfl, rfl⟩)⟩

/-- Witness of C18 on a state of the run on `deadDefBlock`, where the victim
is `dirty`. -/
theorem dirty_spill_step_witness :
    dirtyVictimState.1.stk = [] ∧ optimalPR dirtyVictimState.1 = some 0 ∧
    getI dirtyVictimState.1.name 0 = some 2 ∧
    getI dirtyVictimState.2.clean 2 = some Clean.dirty ∧
    (allocate 1 dirtyVictimState.1 dirtyVictimState.2).map (fun a => a.2.2.2.map
        (fun s => (s.op, s.src1.isReg, s.src1.sr, s.src1.pr))) =
      some [(Opcode.loadI, false, 32768, -1), (Opcode.store, true, -1, 0)] ∧
    (allocate 1 dirtyVictimState.1 dirtyVictimState.2).map (fun a => a.2.2.2.map
        (fun s => (s.src2.isReg, s.src2.pr, s.dest.isReg, s.dest.pr))) =
      some [(false, -1, true, 3), (true, 3, false, -1)] ∧
    ∃ c1 m1, allocate 1 dirtyVictimState.1 dirtyVictimState.2 =
        some (0, c1, m1, [mkLoadI 32768 3, mkStore 0 3]) ∧
      getI c1.name 0 = some 1 ∧ getI m1.vr2mem 2 = some 32768 ∧
      getI m1.clean 2 = some Clean.spilled ∧ m1.nextMemAddr = 32768 + 4 ∧
      ∃ x y, [mkLoadI 32768 3, mkStore 0 3] = [x, y] ∧ x.isLoadI 32768 3 ∧
        y.isStore 0 3 := by
  obtain ⟨c1, m1, ins, h1, h2, h3, _⟩ := dirty_spill_step 1 dirtyVictimState.1
    dirtyVictimState.2 0 2 Clean.dirty (by decide) (by decide) (by decide) (by decide)
    (by decide) (by decide) (by decide) (by decide) (by decide)
  obtain ⟨e, h4, h5, h6, _, _, h7⟩ := h3 rfl
  subst e
  exact ⟨by decide, by decide, by decide, by decide, by decide, by decide, c1, m1, h1, h2,
    h4, h5, h6, h7⟩

/-! ### Names and tags along the analysis and along a run -/

theorem luStep_fresh {done : List Instruction} {i : Int} {it it3 : Instruction} {s s5 : LU}
    (hn : NameInv (killedIn done) s) (ht : TagOK s.clean s.vr2mem)
    (hs : luStep i it s = some (it3, s5)) :
    (∀ o ∈ it3.operands, o.isReg = true → ¬ killedIn done o.vr) ∧
    (it3.dest.isReg = true →
      (it3.src1.isReg = true → it3.src1.vr ≠ it3.dest.vr) ∧
      (it3.src2.isReg = true → it3.src2.vr ≠ it3.dest.vr)) := by
  obtain ⟨it1, s1, it2, s2, s3, s4, h1, h2, h3, h4, h5⟩ := luStep_inv hs
  obtain ⟨n1, o1, a1, b1, k1, st1, ld1, kp1, t1⟩ := luDest_names hn ht h1
  have q2 : ∃ n2 : NameInv (fun v => killedIn done v ∨
        (it1.dest.isReg = true ∧ v = it1.dest.vr)) s2,
      TagOK s2.clean s2.vr2mem ∧ it2.dest = it1.dest ∧ it2.src2 = it1.src2 ∧
      (it2.src1.isReg = true → ¬ (killedIn done it2.src1.vr ∨
        (it1.dest.isReg = true ∧ it2.src1.vr = it1.dest.vr))) := by
    rcases luSrc1_inv h2 with ⟨a, b, c⟩ | ⟨a, r, b, c⟩
    · subst b c
      exact ⟨n1, t1, rfl, rfl, fun h => by rw [a] at h; cases h⟩
    · subst c
      obtain ⟨x1, _, _, x4, _⟩ := update_name n1 b
      exact ⟨x1, update_tagOK b t1, rfl, rfl, fun _ => x4⟩
  obtain ⟨n2, t2, d2, e2, f2⟩ := q2
  have q3 : it3.dest = it2.dest ∧ it3.src1 = it2.src1 ∧
      (it3.src2.isReg = true → ¬ (killedIn done it3.src2.vr ∨
        (it1.dest.isReg = true ∧ it3.src2.vr = it1.dest.vr))) := by
    rcases luSrc2_inv h3 with ⟨a, b, c⟩ | ⟨a, r, b, c⟩
    · subst b c
      exact ⟨rfl, rfl, fun h => by rw [a] at h; cases h⟩
    · subst c
      obtain ⟨_, _, _, x4, _⟩ := update_name n2 b
      exact ⟨rfl, rfl, fun _ => x4⟩
  obtain ⟨d3, e3, f3⟩ := q3
  have ed : it3.dest = it1.dest := by rw [d3, d2]
  constructor
  · intro o ho hr
    simp only [Instruction.operands, List.mem_cons, List.mem_singleton, List.mem_nil_iff,
      or_false] at ho
    rcases ho with rfl | rfl | rfl
    · rw [e3] at hr ⊢
      exact fun h => f2 hr (Or.inl h)
    · exact fun h => f3 hr (Or.inl h)
    · rw [ed] at hr ⊢
      exact k1 hr
  · intro hd
    rw [ed] at hd
    constructor
    · intro hr
      rw [e3] at hr ⊢
      rw [ed]
      exact fun h => f2 hr (Or.inr ⟨hd, h⟩)
    · intro hr
      rw [ed]
      exact fun h => f3 hr (Or.inr ⟨hd, h⟩)

theorem luSweep_fresh : ∀ (ir : List Instruction) (i : Nat) (s : LU)
    (ir1 : List Instruction) (s1 : LU), luSweep i ir s = some (ir1, s1) →
    AnalysisInv [] s → DefsFresh ir1
  | [], _, _, _, _, h, _ => by
    simp only [luSweep, Option.some.injEq, Prod.mk.injEq] at h
    rw [← h.1]
    trivial
  | it :: rest, i, s, ir1, s1, h, hi => by
    simp only [luSweep, Option.bind_eq_bind, Option.pure_def, Option.bind_eq_some,
      Option.some.injEq, Prod.mk.injEq, Prod.exists] at h
    obtain ⟨rest1, t1, hr, it1, t2, hs, rfl, rfl⟩ := h
    have ha := luSweep_analysis rest (i + 1) s rest1 t1 hr hi
    obtain ⟨a, b⟩ := luStep_fresh ha.names ha.tag hs
    exact ⟨a, b, luSweep_fresh rest (i + 1) s rest1 t1 hr hi⟩

theorem openRange_ext {sr : Int} {s s1 : LU} (h : openRange sr s = some s1) :
    (∀ x y, getI s.clean x = some y → getI s1.clean x = some y) ∧
    (∀ x y, getI s.vr2mem x = some y → getI s1.vr2mem x = some y) := by
  obtain ⟨cur, _, h2⟩ := openRange_inv h
  rcases h2 with ⟨_, rfl⟩ | ⟨_, t, _, rfl⟩
  · exact ⟨fun _ _ h => h, fun _ _ h => h⟩
  · constructor
    · intro x y hx
      show getI (s.clean ++ [Clean.dirty]) x = some y
      rw [getI_append_one, if_neg (by have := getI_lt hx; omega)]
      exact hx
    · intro x y hx
      show getI (s.vr2mem ++ [INVALID]) x = some y
      rw [getI_append_one, if_neg (by have := getI_lt hx; omega)]
      exact hx

theorem update_ext {op r : Register} {i : Int} {s s2 : LU} (h : update op i s = some (r, s2)) :
    (∀ x y, getI s.clean x = some y → getI s2.clean x = some y) ∧
    (∀ x y, getI s.vr2mem x = some y → getI s2.vr2mem x = some y) := by
  obtain ⟨s1, v, nu, l, ho, _, _, _, _, e⟩ := update_inv h
  have hh := openRange_ext ho
  rw [e]
  exact hh

theorem luDest_ext {i : Int} {it it1 : Instruction} {s s1 : LU}
    (h : luDest i it s = some (it1, s1)) :
    (∀ x y, getI s.clean x = some y → getI s1.clean x = some y) ∧
    (∀ x y, getI s.vr2mem x = some y → getI s1.vr2mem x = some y) := by
  rcases luDest_inv h with ⟨_, _, rfl⟩ | ⟨_, d, a, t, u, hu, _, _, _, e⟩
  · exact ⟨fun _ _ h => h, fun _ _ h => h⟩
  · have hh := update_ext hu
    rw [e]
    exact hh

theorem luSrc1_ext {i : Int} {it it1 : Instruction} {s s1 : LU}
    (h : luSrc1 i it s = some (it1, s1)) :
    (∀ x y, getI s.clean x = some y → getI s1.clean x = some y) ∧
    (∀ x y, getI s.vr2mem x = some y → getI s1.vr2mem x = some y) := by
  rcases luSrc1_inv h with ⟨_, _, rfl⟩ | ⟨_, r, hu, _⟩
  · exact ⟨fun _ _ h => h, fun _ _ h => h⟩
  · exact update_ext hu

theorem luSrc2_ext {i : Int} {it it1 : Instruction} {s s1 : LU}
    (h : luSrc2 i it s = some (it1, s1)) :
    (∀ x y, getI s.clean x = some y → getI s1.clean x = some y) ∧
    (∀ x y, getI s.vr2mem x = some y → getI s1.vr2mem x = some y) := by
  rcases luSrc2_inv h with ⟨_, _, rfl⟩ | ⟨_, r, hu, _⟩
  · exact ⟨fun _ _ h => h, fun _ _ h => h⟩
  · exact update_ext hu

theorem parsed_dest {it : Instruction} (hp : it.parsed = true)
    (ho : it.op = Opcode.loadI ∨ it.op = Opcode.load) : it.dest.isReg = true := by
  simp only [Instruction.parsed, Bool.and_eq_true, Bool.or_eq_true, bne_iff_ne, ne_eq] at hp
  obtain ⟨⟨_, a⟩, b⟩ := hp
  rcases ho with ho | ho
  · rcases a with a | a
    · exact absurd ho a
    · exact a
  · rcases b with b | b
    · exact absurd ho b
    · exact b

theorem luStep_remat {done : List Instruction} {i : Int} {it it3 : Instruction} {s s5 : LU}
    (ha : AnalysisInv done s) (hr : RematInv done s) (hp : it.parsed = true)
    (hs : luStep i it s = some (it3, s5)) : RematInv (it3 :: done) s5 := by
  obtain ⟨_, eo, _, hk, sl, hcl, _, hld, _, _⟩ := luStep_names ha.names ha.tag hs
  have hsh := luStep_shape hs
  have hreg : it3.op = Opcode.loadI ∨ it3.op = Opcode.load → it3.dest.isReg = true := by
    intro h
    rw [eo] at h
    have e : it3.dest.isReg = it.dest.isReg := by
      have := congrArg (fun x => x.2.2.2.1) hsh
      exact this
    rw [e]
    exact parsed_dest hp h
  have hregs : ∀ P ∈ it3 :: done, P.op = Opcode.loadI ∨ P.op = Opcode.load →
      P.dest.isReg = true := by
    intro P hP h
    rcases List.mem_cons.mp hP with rfl | hP
    · exact hreg h
    · exact hr.regs P hP h
  have hap : ∀ L ∈ it3 :: done, ∀ P ∈ it3 :: done, L.op = Opcode.load → P.op = Opcode.loadI →
      L.dest.vr ≠ P.dest.vr := by
    intro L hL P hP h1 h2
    rcases List.mem_cons.mp hL with eL | hL1
    · rcases List.mem_cons.mp hP with eP | hP1
      · rw [eL, ← eP, h2] at h1
        cases h1
      · intro e
        rw [eL] at h1 e
        exact hk (hreg (Or.inr h1)) ⟨P, hP1, hr.regs P hP1 (Or.inl h2), e.symm⟩
    · rcases List.mem_cons.mp hP with eP | hP1
      · intro e
        rw [eP] at h2 e
        exact hk (hreg (Or.inl h2)) ⟨L, hL1, hr.regs L hL1 (Or.inr h1), e⟩
      · exact hr.apart L hL1 P hP1 h1 h2
  obtain ⟨it1, s1, it2, s2, s3, s4, h1, h2, h3, h4, h5⟩ := luStep_inv hs
  have x1 := luDest_ext h1
  have x2 := luSrc1_ext h2
  have x3 := luSrc2_ext h3
  have hli := loadInv_step it3 ha.loads
  have t4 : ∀ P ∈ it3 :: done, P.op = Opcode.loadI →
      getI s4.clean P.dest.vr = some Clean.remat ∧
      getI s4.vr2mem P.dest.vr = some P.src1.sr := by
    intro P hP hop
    rcases luRemat_inv h4 with ⟨hne, rfl⟩ | ⟨hl, c, v, hc, hv, rfl⟩
    · rcases List.mem_cons.mp hP with rfl | hP
      · exact absurd hop hne
      · obtain ⟨a, b⟩ := hr.tag P hP hop
        exact ⟨x3.1 _ _ (x2.1 _ _ (x1.1 _ _ a)), x3.2 _ _ (x2.2 _ _ (x1.2 _ _ b))⟩
    · rcases List.mem_cons.mp hP with rfl | hP
      · exact ⟨getI_setI_same hc, getI_setI_same hv⟩
      · obtain ⟨a, b⟩ := hr.tag P hP hop
        have hne : P.dest.vr ≠ it3.dest.vr := by
          intro e
          exact hk (hreg (Or.inl hl)) ⟨P, hP, hr.regs P hP (Or.inl hop), e⟩
        exact ⟨by
          show getI c P.dest.vr = some Clean.remat
          rw [getI_setI_ne hc hne]
          exact x3.1 _ _ (x2.1 _ _ (x1.1 _ _ a)), by
          show getI v P.dest.vr = some P.src1.sr
          rw [getI_setI_ne hv hne]
          exact x3.2 _ _ (x2.2 _ _ (x1.2 _ _ b))⟩
  have fl := luLogs_frame it3 s4
  have hl4 : (luLogs it3 s4).loads =
      (if it3.op = Opcode.load then s.loads ++ [(it3.src1.vr, it3.dest.vr)] else s.loads) := by
    rw [(luLogs_stores it3 s4).2, (luRemat_frame h4).2.2.2.2.2.2]
    have e3 : s3.loads = s.loads := by
      have a1 : s1.loads = s.loads := by
        rcases luDest_inv h1 with ⟨_, _, rfl⟩ | ⟨_, d, a, t, u, hu, _, _, _, rfl⟩
        · rfl
        · exact (update_name ha.names hu).2.2.2.2.2.1
      have a2 : s2.loads = s1.loads := by
        rcases luSrc1_inv h2 with ⟨_, _, rfl⟩ | ⟨_, r, hu, _⟩
        · rfl
        · obtain ⟨s', v, nu, l, ho, _, _, _, _, rfl⟩ := update_inv hu
          obtain ⟨cur, _, hh⟩ := openRange_inv ho
          rcases hh with ⟨_, rfl⟩ | ⟨_, t, _, rfl⟩ <;> rfl
      have a3 : s3.loads = s2.loads := by
        rcases luSrc2_inv h3 with ⟨_, _, rfl⟩ | ⟨_, r, hu, _⟩
        · rfl
        · obtain ⟨s', v, nu, l, ho, _, _, _, _, rfl⟩ := update_inv hu
          obtain ⟨cur, _, hh⟩ := openRange_inv ho
          rcases hh with ⟨_, rfl⟩ | ⟨_, t, _, rfl⟩ <;> rfl
      rw [a3, a2, a1]
    rw [e3]
  refine ⟨hregs, ?_, hap⟩
  intro P hP hop
  obtain ⟨a, b⟩ := t4 P hP hop
  rcases luClean_inv h5 with ⟨_, rfl⟩ | ⟨_, l, v, c, hc, rfl⟩
  · rw [fl.1, fl.2.1]
    exact ⟨a, b⟩
  · rcases cleanLoads_inv hc with ⟨_, rfl, rfl⟩ | ⟨e, he, _, _, hsc, hsv, _⟩
    · rw [fl.1, fl.2.1]
      exact ⟨a, b⟩
    · rw [hl4] at he
      obtain ⟨j, L, hj, hLo, rfl⟩ := hli e he
      have hne : P.dest.vr ≠ L.dest.vr :=
        fun x => hap L (List.getElem?_mem hj) P hP hLo hop x.symm
      rw [fl.1] at hsc
      rw [fl.2.1] at hsv
      exact ⟨by
        show getI c P.dest.vr = some Clean.remat
        rw [getI_setI_ne hsc hne]
        exact a, by
        show getI v P.dest.vr = some P.src1.sr
        rw [getI_setI_ne hsv hne]
        exact b⟩

theorem luSweep_remat : ∀ (ir : List Instruction) (i : Nat) (s : LU)
    (ir1 : List Instruction) (s1 : LU), luSweep i ir s = some (ir1, s1) →
    (∀ it ∈ ir, it.parsed = true) → AnalysisInv [] s → RematInv [] s → RematInv ir1 s1
  | [], _, _, _, _, h, _, _, hr => by
    simp only [luSweep, Option.some.injEq, Prod.mk.injEq] at h
    obtain ⟨rfl, rfl⟩ := h
    exact hr
  | it :: rest, i, s, ir1, s1, h, hp, hi, hr => by
    simp only [luSweep, Option.bind_eq_bind, Option.pure_def, Option.bind_eq_some,
      Option.some.injEq, Prod.mk.injEq, Prod.exists] at h
    obtain ⟨rest1, t1, hr1, it1, t2, hs, rfl, rfl⟩ := h
    exact luStep_remat (luSweep_analysis rest (i + 1) s rest1 t1 hr1 hi)
      (luSweep_remat rest (i + 1) s rest1 t1 hr1 (fun x hx => hp x (List.mem_cons_of_mem _ hx))
        hi hr) (hp it (List.mem_cons_self _ _)) hs

theorem setI_of_set {α : Type} (xs : List α) {i : Int} (v : α) (h0 : 0 ≤ i)
    (h1 : i.toNat < xs.length) : setI xs i v = some (xs.set i.toNat v) := by
  unfold setI
  rw [if_pos ⟨h0, h1⟩]

theorem RunInv.mono {clean0 : List Clean} {vr2mem0 : List Int} {rest rest1 : List Instruction}
    {c : Class} {m : Mem} (h : RunInv clean0 vr2mem0 rest c m) (hs : ∀ D ∈ rest1, D ∈ rest) :
    RunInv clean0 vr2mem0 rest1 c m :=
  ⟨h.uniq, fun D hD => h.fresh D (hs D hD), h.coh, h.remat⟩

theorem RunInv.names {clean0 : List Clean} {vr2mem0 : List Int} {rest : List Instruction}
    {c c1 : Class} {m : Mem} (h : RunInv clean0 vr2mem0 rest c m) (hn : c1.name = c.name)
    (hc : c1.cclean = c.cclean) : RunInv clean0 vr2mem0 rest c1 m :=
  ⟨by rw [hn]; exact h.uniq, by rw [hn]; exact h.fresh, by rw [hn, hc]; exact h.coh, h.remat⟩

theorem spill_run {clean0 : List Clean} {vr2mem0 : List Int} {rest : List Instruction}
    {pr : Int} {c : Class} {m m1 : Mem} {ins : List Instruction}
    (h : RunInv clean0 vr2mem0 rest c m) (hs : spill pr c m = some (m1, ins)) :
    RunInv clean0 vr2mem0 rest c m1 := by
  obtain ⟨victim, cl, hv, hcl, hh⟩ := spill_inv hs
  rcases hh with ⟨_, rfl, _⟩ | ⟨hd, v0, v1, rfl, _⟩
  · exact h
  · subst hd
    have e1 := setI_of_set m.vr2mem m.nextMemAddr v0 v1
    have v2 : victim.toNat < m.clean.length := (getI_some hcl).2.1
    have e2 := setI_of_set m.clean Clean.spilled v0 v2
    have key : ∀ v, getI m.clean v = some Clean.remat → v ≠ victim := by
      intro v hr e
      rw [e, hcl] at hr
      cases hr
    refine ⟨h.uniq, h.fresh, ?_, ?_⟩
    · intro q hq
      obtain ⟨v, a, b⟩ := h.coh q hq
      refine ⟨v, a, ?_⟩
      show getI (m.clean.set victim.toNat Clean.spilled) v = some Clean.remat
      rw [getI_setI_ne e2 (key v b)]
      exact b
    · intro v hv0
      obtain ⟨a, b⟩ := h.remat v hv0
      constructor
      · show getI (m.clean.set victim.toNat Clean.spilled) v = some Clean.remat
        rw [getI_setI_ne e2 (key v a)]
        exact a
      · show getI (m.vr2mem.set victim.toNat m.nextMemAddr) v = getI vr2mem0 v
        rw [getI_setI_ne e1 (key v a)]
        exact b

theorem choose_run {clean0 : List Clean} {vr2mem0 : List Int} {rest : List Instruction}
    {pr : Int} {c c1 : Class} {m m1 : Mem} {ins : List Instruction}
    (h : RunInv clean0 vr2mem0 rest c m) (hs : choose c m = some (pr, c1, m1, ins)) :
    RunInv clean0 vr2mem0 rest c1 m1 ∧ c1.name = c.name := by
  rcases choose_inv hs with ⟨r, _, rfl, rfl, _⟩ | ⟨_, rfl, _, hsp⟩
  · exact ⟨h.names rfl rfl, rfl⟩
  · exact ⟨spill_run h hsp, rfl⟩

theorem occupy_run {clean0 : List Clean} {vr2mem0 : List Int} {rest : List Instruction}
    {pr vr : Int} {c c2 : Class} {m : Mem}
    (h : RunInv clean0 vr2mem0 rest c m) (ho : occupy pr vr c m = some c2)
    (hn : ∀ p, getI c.name p = some vr → vr = INVALID)
    (hf : ∀ D ∈ rest, D.dest.isReg = true → D.dest.vr = vr → vr = INVALID) :
    RunInv clean0 vr2mem0 rest c2 m := by
  obtain ⟨p0, p1, cl, hcl, hcc, en, _⟩ := occupy_inv ho
  have e1 := setI_of_set c.name vr p0 p1
  rw [← en] at e1
  refine ⟨?_, ?_, ?_, h.remat⟩
  · intro p q v hp hq hne
    rw [getI_setI e1] at hp hq
    by_cases ep : p = pr <;> by_cases eq : q = pr
    · rw [ep, eq]
    · rw [if_pos ep] at hp
      rw [if_neg eq] at hq
      obtain rfl := Option.some.inj hp
      exact absurd (hn q hq) hne
    · rw [if_neg ep] at hp
      rw [if_pos eq] at hq
      obtain rfl := Option.some.inj hq
      exact absurd (hn p hp) hne
    · rw [if_neg ep] at hp
      rw [if_neg eq] at hq
      exact h.uniq p q v hp hq hne
  · intro D hD hr p hp
    rw [getI_setI e1] at hp
    by_cases ep : p = pr
    · rw [if_pos ep] at hp
      have e := Option.some.inj hp
      rw [← e]
      exact hf D hD hr e.symm
    · rw [if_neg ep] at hp
      exact h.fresh D hD hr p hp
  · intro q hq
    rw [getI_setI hcc] at hq
    rw [getI_setI e1]
    by_cases eq : q = pr
    · rw [if_pos eq] at hq ⊢
      obtain rfl := Option.some.inj hq
      exact ⟨vr, rfl, hcl⟩
    · rw [if_neg eq] at hq ⊢
      exact h.coh q hq

theorem allocate_run {clean0 : List Clean} {vr2mem0 : List Int} {rest : List Instruction}
    {pr vr : Int} {c c2 : Class} {m m1 : Mem} {ins : List Instruction}
    (h : RunInv clean0 vr2mem0 rest c m) (ha : allocate vr c m = some (pr, c2, m1, ins))
    (hn : ∀ p, getI c.name p = some vr → vr = INVALID)
    (hf : ∀ D ∈ rest, D.dest.isReg = true → D.dest.vr = vr → vr = INVALID) :
    RunInv clean0 vr2mem0 rest c2 m1 := by
  obtain ⟨c1, hc, ho⟩ := allocate_inv ha
  obtain ⟨a, b⟩ := choose_run h hc
  exact occupy_run a ho (by rw [b]; exact hn) hf

theorem ensure_run {clean0 : List Clean} {vr2mem0 : List Int} {rest : List Instruction}
    {pr vr : Int} {c c1 : Class} {m m1 : Mem} {ins : List Instruction}
    (h : RunInv clean0 vr2mem0 rest c m) (he : ensure vr c m = some (pr, c1, m1, ins))
    (hf : ∀ D ∈ rest, D.dest.isReg = true → D.dest.vr = vr → vr = INVALID) :
    RunInv clean0 vr2mem0 rest c1 m1 := by
  rcases ensure_inv he with ⟨_, _, rfl, rfl, _⟩ | ⟨hnf, i0, i1, ha, _, _⟩
  · exact h
  · refine allocate_run h ha ?_ hf
    intro p hp
    exfalso
    apply hnf
    exact List.indexOf_lt_length.mpr (List.getElem?_mem (getI_some hp).2.2)

theorem freeRegister_run {clean0 : List Clean} {vr2mem0 : List Int} {rest : List Instruction}
    {pr : Int} {c c1 : Class} {m : Mem}
    (h : RunInv clean0 vr2mem0 rest c m) (hf : freeRegister pr c = some c1) :
    RunInv clean0 vr2mem0 rest c1 m := by
  obtain ⟨p0, p1, en, _, _, ec, _⟩ := freeRegister_inv hf
  have e1 := setI_of_set c.name INVALID p0 p1
  rw [← en] at e1
  refine ⟨?_, ?_, ?_, h.remat⟩
  · intro p q v hp hq hne
    rw [getI_setI e1] at hp hq
    by_cases ep : p = pr
    · rw [if_pos ep] at hp
      exact absurd (Option.some.inj hp).symm hne
    · by_cases eq : q = pr
      · rw [if_pos eq] at hq
        exact absurd (Option.some.inj hq).symm hne
      · rw [if_neg ep] at hp
        rw [if_neg eq] at hq
        exact h.uniq p q v hp hq hne
  · intro D hD hr p hp
    rw [getI_setI e1] at hp
    by_cases ep : p = pr
    · rw [if_pos ep] at hp
      exact (Option.some.inj hp).symm
    · rw [if_neg ep] at hp
      exact h.fresh D hD hr p hp
  · intro q hq
    rw [ec] at hq
    by_cases eq : q = pr
    · exfalso
      subst eq
      obtain ⟨_, q1, hq2⟩ := getI_some hq
      rw [List.getElem?_set_self (by simpa using q1)] at hq2
      cases hq2
    · obtain ⟨q0, q1, hq2⟩ := getI_some hq
      have hq3 : getI c.cclean q = some Clean.remat := by
        unfold getI
        rw [if_pos q0]
        rw [List.getElem?_set_ne (by omega)] at hq2
        exact hq2
      obtain ⟨v, a, b⟩ := h.coh q hq3
      exact ⟨v, by rw [getI_setI e1, if_neg eq]; exact a, b⟩

theorem assignSrc_inv {r r1 : Register} {c c1 : Class} {m m1 : Mem} {ins : List Instruction}
    (h : assignSrc r c m = some (r1, c1, m1, ins)) :
    (r.isReg = false ∧ r1 = r ∧ c1 = c ∧ m1 = m ∧ ins = []) ∨
    (r.isReg = true ∧ ∃ pr, ensure r.vr c m = some (pr, c1, m1, ins) ∧
      r1 = { r with pr := pr }) := by
  unfold assignSrc at h
  by_cases hr : r.isReg = true
  · rw [if_pos hr] at h
    simp only [Option.bind_eq_bind, Option.pure_def, Option.bind_eq_some, Option.some.injEq,
      Prod.mk.injEq, Prod.exists] at h
    obtain ⟨pr, c2, m2, ins2, he, rfl, rfl, rfl, rfl⟩ := h
    exact Or.inr ⟨hr, pr, he, rfl⟩
  · rw [if_neg hr] at h
    simp only [Option.some.injEq, Prod.mk.injEq] at h
    obtain ⟨rfl, rfl, rfl, rfl⟩ := h
    exact Or.inl ⟨by simpa using hr, rfl, rfl, rfl, rfl⟩

theorem assignDest_inv {r r1 : Register} {c c1 : Class} {m m1 : Mem} {ins : List Instruction}
    (h : assignDest r c m = some (r1, c1, m1, ins)) :
    (r.isReg = false ∧ r1 = r ∧ c1 = c ∧ m1 = m ∧ ins = []) ∨
    (r.isReg = true ∧ ∃ pr c2 nx, allocate r.vr c m = some (pr, c2, m1, ins) ∧
      setI c2.next pr r.nu = some nx ∧ c1 = { c2 with next := nx } ∧
      r1 = { r with pr := pr }) := by
  unfold assignDest at h
  by_cases hr : r.isReg = true
  · rw [if_pos hr] at h
    simp only [Option.bind_eq_bind, Option.pure_def, Option.bind_eq_some, Option.some.injEq,
      Prod.mk.injEq, Prod.exists] at h
    obtain ⟨pr, c2, m2, ins2, ha, nx, hn, rfl, rfl, rfl, rfl⟩ := h
    exact Or.inr ⟨hr, pr, c2, nx, ha, hn, rfl, rfl⟩
  · rw [if_neg hr] at h
    simp only [Option.some.injEq, Prod.mk.injEq] at h
    obtain ⟨rfl, rfl, rfl, rfl⟩ := h
    exact Or.inl ⟨by simpa using hr, rfl, rfl, rfl, rfl⟩

theorem assignSrc_run {clean0 : List Clean} {vr2mem0 : List Int} {rest : List Instruction}
    {r r1 : Register} {c c1 : Class} {m m1 : Mem} {ins : List Instruction}
    (h : RunInv clean0 vr2mem0 rest c m) (hs : assignSrc r c m = some (r1, c1, m1, ins))
    (hf : r.isReg = true → ∀ D ∈ rest, D.dest.isReg = true → D.dest.vr = r.vr →
      r.vr = INVALID) :
    RunInv clean0 vr2mem0 rest c1 m1 := by
  rcases assignSrc_inv hs with ⟨_, _, rfl, rfl, _⟩ | ⟨hr, pr, he, _⟩
  · exact h
  · exact ensure_run h he (hf hr)

theorem freeIf_run {clean0 : List Clean} {vr2mem0 : List Int} {rest : List Instruction}
    {b : Bool} {pr : Int} {c c1 : Class} {m : Mem}
    (h : RunInv clean0 vr2mem0 rest c m) (hf : freeIf b pr c = some c1) :
    RunInv clean0 vr2mem0 rest c1 m := by
  unfold freeIf at hf
  cases b with
  | true => exact freeRegister_run h hf
  | false =>
    simp only [Bool.false_eq_true, if_false, Option.some.injEq] at hf
    rw [← hf]
    exact h

theorem keepNext_run {clean0 : List Clean} {vr2mem0 : List Int} {rest : List Instruction}
    {r : Register} {c c1 : Class} {m : Mem}
    (h : RunInv clean0 vr2mem0 rest c m) (hk : keepNext r c = some c1) :
    RunInv clean0 vr2mem0 rest c1 m := by
  obtain ⟨a, _, _, b, _⟩ := keepNext_name hk
  exact h.names a b

theorem assignDest_run {clean0 : List Clean} {vr2mem0 : List Int} {rest : List Instruction}
    {r r1 : Register} {c c1 : Class} {m m1 : Mem} {ins : List Instruction}
    (h : RunInv clean0 vr2mem0 rest c m) (hs : assignDest r c m = some (r1, c1, m1, ins))
    (hn : r.isReg = true → ∀ p, getI c.name p = some r.vr → r.vr = INVALID)
    (hf : r.isReg = true → ∀ D ∈ rest, D.dest.isReg = true → D.dest.vr = r.vr →
      r.vr = INVALID) :
    RunInv clean0 vr2mem0 rest c1 m1 := by
  rcases assignDest_inv hs with ⟨_, _, rfl, rfl, _⟩ | ⟨hr, pr, c2, nx, ha, _, e, _⟩
  · exact h
  · have := allocate_run h ha (hn hr) (hf hr)
    rw [e]
    exact this.names rfl rfl

theorem assignStepPts_inv {it : Instruction} {c c7 : Class} {m m3 : Mem}
    {pts : List (Class × Mem)} (h : assignStepPts it c m = some (pts, c7, m3)) :
    ∃ s1 c1 m1 ins1 s2 c2 m2 ins2 c3 c4 c5 c6 d ins3,
      assignSrc it.src1 c m = some (s1, c1, m1, ins1) ∧
      assignSrc it.src2 c1 m1 = some (s2, c2, m2, ins2) ∧
      freeIf (decide (s1.nu = INT_MAX)) s1.pr c2 = some c3 ∧
      freeIf (s2.isReg && decide (s2.nu = INT_MAX)) s2.pr c3 = some c4 ∧
      keepNext s1 c4 = some c5 ∧ keepNext s2 c5 = some c6 ∧
      assignDest it.dest c6 m2 = some (d, c7, m3, ins3) ∧
      pts = [(c1, m1), (c2, m2), (c3, m2), (c4, m2), (c5, m2), (c6, m2), (c7, m3)] := by
  unfold assignStepPts at h
  simp only [Option.bind_eq_bind, Option.pure_def, Option.bind_eq_some, Option.some.injEq,
    Prod.mk.injEq, Prod.exists] at h
  obtain ⟨s1, c1, m1, ins1, h1, s2, c2, m2, ins2, h2, c3, h3, c4, h4, c5, h5, c6, h6,
    d, c8, m4, ins3, h7, rfl, rfl, rfl⟩ := h
  exact ⟨s1, c1, m1, ins1, s2, c2, m2, ins2, c3, c4, c5, c6, d, ins3, h1, h2, h3, h4, h5, h6,
    h7, rfl⟩

theorem assignStepPts_of {it it1 : Instruction} {c c7 : Class} {m m3 : Mem}
    {ins : List Instruction} (h : assignStep it c m = some (ins, it1, c7, m3)) :
    ∃ pts, assignStepPts it c m = some (pts, c7, m3) := by
  obtain ⟨s1, c1, m1, ins1, s2, c2, m2, ins2, c3, c4, c5, c6, d, ins3, h1, h2, h3, h4, h5, h6,
    h7, _, _⟩ := assignStep_inv h
  exact ⟨[(c1, m1), (c2, m2), (c3, m2), (c4, m2), (c5, m2), (c6, m2), (c7, m3)],
    by simp [assignStepPts, h1, h2, h3, h4, h5, h6, h7]⟩

theorem assignLoopPts_of : ∀ (ir : List Instruction) (c c1 : Class) (m m1 : Mem)
    (gs : List (List Instruction × Instruction)),
    assignLoop ir c m = some (gs, c1, m1) → ∃ pts, assignLoopPts ir c m = some pts
  | [], _, _, _, _, _, _ => ⟨[], rfl⟩
  | it :: rest, c, c1, m, m1, gs, h => by
    simp only [assignLoop, Option.bind_eq_bind, Option.pure_def, Option.bind_eq_some,
      Option.some.injEq, Prod.mk.injEq, Prod.exists] at h
    obtain ⟨ins, it1, c2, m2, hs, gs1, c3, m3, hl, _⟩ := h
    obtain ⟨pts, hp⟩ := assignStepPts_of hs
    obtain ⟨more, hm⟩ := assignLoopPts_of rest c2 c3 m2 m3 gs1 hl
    exact ⟨pts ++ more, by simp [assignLoopPts, hp, hm]⟩

theorem assignStepPts_run {clean0 : List Clean} {vr2mem0 : List Int} {rest : List Instruction}
    {it : Instruction} {c c7 : Class} {m m3 : Mem} {pts : List (Class × Mem)}
    (h : RunInv clean0 vr2mem0 (it :: rest) c m) (hd : DefsFresh (it :: rest))
    (hs : assignStepPts it c m = some (pts, c7, m3)) :
    (∀ x ∈ pts, RunInv clean0 vr2mem0 rest x.1 x.2) ∧ RunInv clean0 vr2mem0 rest c7 m3 ∧
    pts.length = 7 ∧
    ∃ x, pts[5]? = some x ∧
      (it.dest.isReg = true → ∀ p, getI x.1.name p = some it.dest.vr →
        it.dest.vr = INVALID) := by
  obtain ⟨s1, c1, m1, ins1, s2, c2, m2, ins2, c3, c4, c5, c6, d, ins3, h1, h2, h3, h4, h5, h6,
    h7, rfl⟩ := assignStepPts_inv hs
  obtain ⟨f1, f2, _⟩ := hd
  have src : ∀ o ∈ it.operands, o.isReg = true → o.vr ≠ it.dest.vr ∨ it.dest.isReg = false →
      ∀ D ∈ it :: rest, D.dest.isReg = true → D.dest.vr = o.vr → o.vr = INVALID := by
    intro o ho hr hne D hD hDr e
    exfalso
    rcases List.mem_cons.mp hD with rfl | hD
    · rcases hne with hne | hne
      · exact hne e.symm
      · rw [hne] at hDr
        cases hDr
    · exact f1 o ho hr ⟨D, hD, hDr, e⟩
  have g1 : it.src1.isReg = true → it.src1.vr ≠ it.dest.vr ∨ it.dest.isReg = false := by
    intro hr
    cases hdr : it.dest.isReg with
    | true => exact Or.inl ((f2 hdr).1 hr)
    | false => exact Or.inr rfl
  have g2 : it.src2.isReg = true → it.src2.vr ≠ it.dest.vr ∨ it.dest.isReg = false := by
    intro hr
    cases hdr : it.dest.isReg with
    | true => exact Or.inl ((f2 hdr).2 hr)
    | false => exact Or.inr rfl
  have r1 := assignSrc_run h h1 (fun hr => src it.src1 (by simp [Instruction.operands]) hr
    (g1 hr))
  have r2 := assignSrc_run r1 h2 (fun hr => src it.src2 (by simp [Instruction.operands]) hr
    (g2 hr))
  have r3 := freeIf_run r2 h3
  have r4 := freeIf_run r3 h4
  have r5 := keepNext_run r4 h5
  have r6 := keepNext_run r5 h6
  have sub : ∀ D ∈ rest, D ∈ it :: rest := fun D hD => List.mem_cons_of_mem _ hD
  have r7 := assignDest_run (r6.mono sub) h7
    (fun hr p hp => r6.fresh it (List.mem_cons_self _ _) hr p hp)
    (fun hr D hD hDr e => by
      exfalso
      exact f1 it.dest (by simp [Instruction.operands]) hr ⟨D, hD, hDr, e⟩)
  refine ⟨?_, r7, rfl, (c6, m2), rfl, fun hr p hp => r6.fresh it (List.mem_cons_self _ _)
    hr p hp⟩
  intro x hx
  simp only [List.mem_cons, List.mem_singleton, List.mem_nil_iff, or_false] at hx
  rcases hx with rfl | rfl | rfl | rfl | rfl | rfl | rfl
  · exact r1.mono sub
  · exact r2.mono sub
  · exact r3.mono sub
  · exact r4.mono sub
  · exact r5.mono sub
  · exact r6.mono sub
  · exact r7

theorem assignLoopPts_run {clean0 : List Clean} {vr2mem0 : List Int} :
    ∀ (ir : List Instruction) (c : Class) (m : Mem) (pts : List (Class × Mem)),
    RunInv clean0 vr2mem0 ir c m → DefsFresh ir → assignLoopPts ir c m = some pts →
    (∀ x ∈ pts, RunInv clean0 vr2mem0 [] x.1 x.2) ∧ pts.length = 7 * ir.length ∧
    ∀ (i : Nat) (it : Instruction), ir[i]? = some it → it.dest.isReg = true →
      ∃ x, pts[7 * i + 5]? = some x ∧
        ∀ p, getI x.1.name p = some it.dest.vr → it.dest.vr = INVALID
  | [], _, _, pts, _, _, h => by
    simp only [assignLoopPts, Option.some.injEq] at h
    subst h
    exact ⟨fun x hx => (by cases hx), rfl, fun i it hi => (by simp at hi)⟩
  | it :: rest, c, m, pts, hr, hd, h => by
    simp only [assignLoopPts, Option.bind_eq_bind, Option.pure_def, Option.bind_eq_some,
      Option.some.injEq, Prod.exists] at h
    obtain ⟨p1, c1, m1, hs, more, hm, rfl⟩ := h
    obtain ⟨a1, a2, a3, x, a4, a5⟩ := assignStepPts_run hr hd hs
    obtain ⟨b1, b2, b3⟩ := assignLoopPts_run rest c1 m1 more a2 hd.2.2 hm
    refine ⟨?_, ?_, ?_⟩
    · intro y hy
      rcases List.mem_append.mp hy with hy | hy
      · exact (a1 y hy).mono (fun D hD => by cases hD)
      · exact b1 y hy
    · simp only [List.length_append, List.length_cons, a3, b2]
      omega
    · intro i it1 hi hreg
      cases i with
      | zero =>
        simp only [List.getElem?_cons_zero, Option.some.injEq] at hi
        subst hi
        refine ⟨x, ?_, a5 hreg⟩
        rw [List.getElem?_append_left (by omega)]
        exact a4
      | succ j =>
        simp only [List.getElem?_cons_succ] at hi
        obtain ⟨y, hy, hy2⟩ := b3 j it1 hi hreg
        refine ⟨y, ?_, hy2⟩
        rw [List.getElem?_append_right (by omega)]
        have e : 7 * (j + 1) + 5 - p1.length = 7 * j + 5 := by omega
        rw [e]
        exact hy

theorem spillLog_remat {clean0 : List Clean} {vr2mem0 : List Int} {pr : Int} {c : Class}
    {m m1 : Mem} {items : List Item} (h : spillLog pr c m = some (m1, items))
    (hi : RematKept clean0 vr2mem0 m) :
    RematKept clean0 vr2mem0 m1 ∧ ∀ x ∈ items, x.rematOK clean0 vr2mem0 := by
  obtain ⟨victim, cl, _, hcl, h⟩ := spillLog_inv h
  rcases h with ⟨_, rfl, rfl⟩ | ⟨rfl, v1, c1, h1, h2, rfl, rfl⟩
  · exact ⟨hi, fun x hx => by cases hx⟩
  · have key : ∀ v, getI clean0 v = some Clean.remat → v ≠ victim := by
      intro v hv e
      rw [e] at hv
      rw [(hi victim hv).1] at hcl
      cases hcl
    constructor
    · intro v hv
      obtain ⟨a, b⟩ := hi v hv
      exact ⟨by
        show getI c1 v = some Clean.remat
        rw [getI_setI_ne h2 (key v hv)]
        exact a, by
        show getI v1 v = getI vr2mem0 v
        rw [getI_setI_ne h1 (key v hv)]
        exact b⟩
    · intro x hx
      simp only [List.mem_singleton] at hx
      subst hx
      exact fun e => key victim e rfl

theorem chooseLog_remat {clean0 : List Clean} {vr2mem0 : List Int} {pr : Int} {c c1 : Class}
    {m m1 : Mem} {items : List Item} (h : chooseLog c m = some (pr, c1, m1, items))
    (hi : RematKept clean0 vr2mem0 m) :
    RematKept clean0 vr2mem0 m1 ∧ ∀ x ∈ items, x.rematOK clean0 vr2mem0 := by
  unfold chooseLog at h
  split at h
  · simp only [Option.some.injEq, Prod.mk.injEq] at h
    obtain ⟨_, _, rfl, rfl⟩ := h
    exact ⟨hi, fun x hx => by cases hx⟩
  · simp only [Option.bind_eq_bind, Option.pure_def, Option.bind_eq_some, Option.some.injEq,
      Prod.mk.injEq, Prod.exists] at h
    obtain ⟨pr1, _, m2, ins2, hsp, _, _, rfl, rfl⟩ := h
    exact spillLog_remat hsp hi

theorem allocateLog_remat {clean0 : List Clean} {vr2mem0 : List Int} {vr pr : Int}
    {c c1 : Class} {m m1 : Mem} {items : List Item}
    (h : allocateLog vr c m = some (pr, c1, m1, items)) (hi : RematKept clean0 vr2mem0 m) :
    RematKept clean0 vr2mem0 m1 ∧ ∀ x ∈ items, x.rematOK clean0 vr2mem0 := by
  unfold allocateLog at h
  simp only [Option.bind_eq_bind, Option.pure_def, Option.bind_eq_some, Option.some.injEq,
    Prod.mk.injEq, Prod.exists] at h
  obtain ⟨pr1, c2, m2, ins2, hc, c3, _, _, _, rfl, rfl⟩ := h
  exact chooseLog_remat hc hi

theorem restoreLog_remat {clean0 : List Clean} {vr2mem0 : List Int} {vr pr : Int} {m : Mem}
    {items : List Item} (h : restoreLog vr pr m = some items)
    (hi : RematKept clean0 vr2mem0 m) : ∀ x ∈ items, x.rematOK clean0 vr2mem0 := by
  unfold restoreLog at h
  simp only [Option.bind_eq_bind, Option.pure_def, Option.bind_eq_some] at h
  obtain ⟨cl, hcl, a, ha, h⟩ := h
  split at h
  · obtain rfl := Option.some.inj h
    intro x hx
    simp only [List.mem_singleton] at hx
    subst hx
    intro e
    rw [← (hi vr e).2]
    exact ha
  · rename_i hne
    split at h
    · obtain rfl := Option.some.inj h
      intro x hx
      simp only [List.mem_singleton] at hx
      subst hx
      intro e
      rw [(hi vr e).1] at hcl
      exact hne (Option.some.inj hcl).symm
    · obtain rfl := Option.some.inj h
      exact fun x hx => by cases hx

theorem ensureLog_remat {clean0 : List Clean} {vr2mem0 : List Int} {vr pr : Int}
    {c c1 : Class} {m m1 : Mem} {items : List Item}
    (h : ensureLog vr c m = some (pr, c1, m1, items)) (hi : RematKept clean0 vr2mem0 m) :
    RematKept clean0 vr2mem0 m1 ∧ ∀ x ∈ items, x.rematOK clean0 vr2mem0 := by
  unfold ensureLog at h
  split at h
  · simp only [Option.some.injEq, Prod.mk.injEq] at h
    obtain ⟨_, _, rfl, rfl⟩ := h
    exact ⟨hi, fun x hx => by cases hx⟩
  · simp only [Option.bind_eq_bind, Option.pure_def, Option.bind_eq_some, Option.some.injEq,
      Prod.mk.injEq, Prod.exists] at h
    obtain ⟨pr1, c2, m2, ins2, ha, ins3, hr, _, _, rfl, rfl⟩ := h
    obtain ⟨a, b⟩ := allocateLog_remat ha hi
    refine ⟨a, fun x hx => ?_⟩
    rcases List.mem_append.mp hx with hx | hx
    · exact b x hx
    · exact restoreLog_remat hr a x hx

theorem assignSrcLog_remat {clean0 : List Clean} {vr2mem0 : List Int} {r r1 : Register}
    {c c1 : Class} {m m1 : Mem} {items : List Item}
    (h : assignSrcLog r c m = some (r1, c1, m1, items)) (hi : RematKept clean0 vr2mem0 m) :
    RematKept clean0 vr2mem0 m1 ∧ ∀ x ∈ items, x.rematOK clean0 vr2mem0 := by
  unfold assignSrcLog at h
  split at h
  · simp only [Option.bind_eq_bind, Option.pure_def, Option.bind_eq_some, Option.some.injEq,
      Prod.mk.injEq, Prod.exists] at h
    obtain ⟨pr, c2, m2, ins2, he, _, _, rfl, rfl⟩ := h
    exact ensureLog_remat he hi
  · simp only [Option.some.injEq, Prod.mk.injEq] at h
    obtain ⟨_, _, rfl, rfl⟩ := h
    exact ⟨hi, fun x hx => by cases hx⟩

theorem assignDestLog_remat {clean0 : List Clean} {vr2mem0 : List Int} {r r1 : Register}
    {c c1 : Class} {m m1 : Mem} {items : List Item}
    (h : assignDestLog r c m = some (r1, c1, m1, items)) (hi : RematKept clean0 vr2mem0 m) :
    RematKept clean0 vr2mem0 m1 ∧ ∀ x ∈ items, x.rematOK clean0 vr2mem0 := by
  unfold assignDestLog at h
  split at h
  · simp only [Option.bind_eq_bind, Option.pure_def, Option.bind_eq_some, Option.some.injEq,
      Prod.mk.injEq, Prod.exists] at h
    obtain ⟨pr, c2, m2, ins2, he, n1, _, _, _, rfl, rfl⟩ := h
    exact allocateLog_remat he hi
  · simp only [Option.some.injEq, Prod.mk.injEq] at h
    obtain ⟨_, _, rfl, rfl⟩ := h
    exact ⟨hi, fun x hx => by cases hx⟩

theorem assignStepLog_remat {clean0 : List Clean} {vr2mem0 : List Int} {it it1 : Instruction}
    {c c1 : Class} {m m1 : Mem} {items : List Item}
    (h : assignStepLog it c m = some (items, it1, c1, m1)) (hi : RematKept clean0 vr2mem0 m) :
    RematKept clean0 vr2mem0 m1 ∧ ∀ x ∈ items, x.rematOK clean0 vr2mem0 := by
  unfold assignStepLog at h
  simp only [Option.bind_eq_bind, Option.pure_def, Option.bind_eq_some, Option.some.injEq,
    Prod.mk.injEq, Prod.exists] at h
  obtain ⟨s1, c1, m1, ins1, h1, s2, c2, m2, ins2, h2, c3, _, c4, _, c5, _, c6, _,
    d, c8, m4, ins3, h7, rfl, _, _, rfl⟩ := h
  obtain ⟨a1, b1⟩ := assignSrcLog_remat h1 hi
  obtain ⟨a2, b2⟩ := assignSrcLog_remat h2 a1
  obtain ⟨a3, b3⟩ := assignDestLog_remat h7 a2
  refine ⟨a3, fun x hx => ?_⟩
  rcases List.mem_append.mp hx with hx | hx
  · rcases List.mem_append.mp hx with hx | hx
    · exact b1 x hx
    · exact b2 x hx
  · exact b3 x hx

theorem assignLoopLog_remat (clean0 : List Clean) (vr2mem0 : List Int) :
    ∀ (ir : List Instruction) (c c1 : Class) (m m1 : Mem) (tr : List Item),
    assignLoopLog ir c m = some (tr, c1, m1) → RematKept clean0 vr2mem0 m →
    ∀ x ∈ tr, x.rematOK clean0 vr2mem0
  | [], c, c1, m, m1, tr, h, _ => by
    simp only [assignLoopLog, Option.some.injEq, Prod.mk.injEq] at h
    obtain ⟨rfl, _, _⟩ := h
    exact fun x hx => by cases hx
  | it :: rest, c, c1, m, m1, tr, h, hi => by
    simp only [assignLoopLog, Option.bind_eq_bind, Option.pure_def, Option.bind_eq_some,
      Option.some.injEq, Prod.mk.injEq, Prod.exists] at h
    obtain ⟨ins, it1, c2, m2, hs, tr1, c3, m3, hl, rfl, _, _⟩ := h
    obtain ⟨a, b⟩ := assignStepLog_remat hs hi
    intro x hx
    rcases List.mem_append.mp hx with hx | hx
    · exact b x hx
    · rcases List.mem_cons.mp hx with rfl | hx
      · trivial
      · exact assignLoopLog_remat clean0 vr2mem0 rest c2 c3 m2 m3 tr1 hl a x hx

theorem getI_replicate {α : Type} {n : Nat} {a v : α} {p : Int}
    (h : getI (List.replicate n a) p = some v) : v = a := by
  have := List.getElem?_mem (getI_some h).2.2
  simp only [List.mem_replicate] at this
  exact this.2

theorem runInv_init (k : Int) (m : Mem) (rest : List Instruction) (clean0 : List Clean)
    (vr2mem0 : List Int) (h1 : m.clean = clean0) (h2 : m.vr2mem = vr2mem0) :
    RunInv clean0 vr2mem0 rest (Class.new k) m := by
  subst h1 h2
  refine ⟨?_, ?_, ?_, fun v hv => ⟨hv, rfl⟩⟩
  · intro p q v hp _ hne
    exact absurd (getI_replicate hp) hne
  · intro D _ _ p hp
    exact getI_replicate hp
  · intro q hq
    have := getI_replicate hq
    cases this

theorem rematInv_init (ir : List Instruction) : RematInv [] (LU.init ir) :=
  ⟨fun P hP => (by cases hP), fun P hP => (by cases hP), fun L hL => (by cases hL)⟩

/-- What the proofs on a whole run start from: on a parsed block, with at
least two registers requested, the constructor returns, the traced run
returns the states of that run, and the analysed block and the first state
satisfy the invariants above. -/
theorem run_start (ir : List Instruction) (k : Int) (hk : 2 ≤ k)
    (hp : ∀ it ∈ ir, it.parsed = true) :
    ∃ r ir1 lu c0 m0 pts, Allocator ir k = some r ∧ computeLastUses ir = some (ir1, lu) ∧
      m0.clean = lu.clean ∧ m0.vr2mem = lu.vr2mem ∧
      assignLoopPts ir1 c0 m0 = some pts ∧ AllocatorPts ir k = some ((c0, m0) :: pts) ∧
      RunInv lu.clean lu.vr2mem ir1 c0 m0 ∧ DefsFresh ir1 ∧ RematInv ir1 lu ∧
      ir1.length = ir.length ∧ (∀ it ∈ ir1, ∀ o ∈ it.operands, o.ready lu.vrName) := by
  obtain ⟨r, h⟩ := Allocator_total ir k hk hp
  obtain ⟨ir1, lu, h1, h2⟩ := Allocator_inv h
  obtain ⟨pts, h3⟩ := assignLoopPts_of _ _ _ _ _ _ h2
  obtain ⟨ir2, lu2, e1, _, _, rd⟩ := computeLastUses_total ir hp
  rw [h1] at e1
  simp only [Option.some.injEq, Prod.mk.injEq] at e1
  obtain ⟨rfl, rfl⟩ := e1
  have hlen : ir1.length = ir.length := by
    have := congrArg List.length (luSweep_shape ir 0 _ ir1 lu h1)
    simpa using this
  exact ⟨r, ir1, lu, _, _, pts, h, h1, rfl, rfl, h3, by simp [AllocatorPts, h1, h3],
    runInv_init _ _ _ _ _ rfl rfl, luSweep_fresh ir 0 _ ir1 lu h1 (analysisInv_init ir),
    luSweep_remat ir 0 _ ir1 lu h1 hp (analysisInv_init ir) (rematInv_init ir), hlen, rd⟩

/-- C14: unique residence. On every parsed block, with at least two registers
requested, the run returns, and in the class after every statement of
`assignRegisters` no virtual register is the name of two physical registers;
and when the destination of the instruction of index `i` is about to be
allocated (after the statement 6 of its iteration), its virtual register is
the name of no physical register. -/
theorem unique_residence (ir : List Instruction) (k : Int) (hk : 2 ≤ k)
    (hp : ∀ it ∈ ir, it.parsed = true) :
    ∃ ir1 lu pts, computeLastUses ir = some (ir1, lu) ∧ AllocatorPts ir k = some pts ∧
      pts.length = 7 * ir.length + 1 ∧
      (∀ x ∈ pts, ∀ p q v, getI x.1.name p = some v → getI x.1.name q = some v →
        v ≠ INVALID → p = q) ∧
      ∀ (i : Nat) (it : Instruction), ir1[i]? = some it → it.dest.isReg = true →
        ∃ x, pts[7 * i + 6]? = some x ∧ ∀ p, getI x.1.name p ≠ some it.dest.vr := by
  obtain ⟨r, ir1, lu, c0, m0, pts, _, h1, _, _, h3, h4, h5, h6, _, h8, h9⟩ :=
    run_start ir k hk hp
  obtain ⟨a, b, c⟩ := assignLoopPts_run ir1 c0 m0 pts h5 h6 h3
  refine ⟨ir1, lu, (c0, m0) :: pts, h1, h4, by simp [b, h8], ?_, ?_⟩
  · intro x hx
    rcases List.mem_cons.mp hx with rfl | hx
    · exact h5.uniq
    · exact (a x hx).uniq
  · intro i it hi hr
    obtain ⟨x, hx, hx2⟩ := c i it hi hr
    refine ⟨x, by simpa using hx, fun p hp2 => ?_⟩
    have e := hx2 p hp2
    have := ((h9 it (List.getElem?_mem hi) it.dest (by simp [Instruction.operands])).1 hr).1
    rw [e] at this
    simp [INVALID] at this

/-- C19: remat tagging is stable. On every parsed block, with at least two
registers requested, the run returns, and every virtual register `v` written
by a `loadI imm` has `clean[v] = remat` and `vr2mem[v] = imm` after
`computeLastUses` and after every statement of `assignRegisters`. The log of
the run holds no spill of `v` and no two-instruction restore of `v`, and
every rematerialization of `v` in it is, in the output, one instruction with
opcode `loadI`, immediate `imm` and destination the register `pr` that `v` is
restored into. In every state of the run the spill of `allocate` for a
register named `v` inserts nothing and leaves the members unchanged, and the
restore of `ensure` for `v` into any `pr` is that one `loadI imm => pr`. -/
theorem remat_tags_stable (ir : List Instruction) (k : Int) (hk : 2 ≤ k)
    (hp : ∀ it ∈ ir, it.parsed = true) :
    ∃ r ir1 lu tr pts, Allocator ir k = some r ∧ computeLastUses ir = some (ir1, lu) ∧
      AllocatorLog ir k = some tr ∧ expand tr = r.intRep ∧ AllocatorPts ir k = some pts ∧
      ∀ P ∈ ir1, P.op = Opcode.loadI →
        (getI lu.clean P.dest.vr = some Clean.remat ∧
          getI lu.vr2mem P.dest.vr = some P.src1.sr) ∧
        (∀ x ∈ pts, getI x.2.clean P.dest.vr = some Clean.remat ∧
          getI x.2.vr2mem P.dest.vr = some P.src1.sr) ∧
        (∀ q a kk, Item.spillPair P.dest.vr q a kk ∉ tr) ∧
        (∀ p a kk, Item.restorePair P.dest.vr p a kk ∉ tr) ∧
        (∀ p a, Item.rematLoad P.dest.vr p a ∈ tr → a = P.src1.sr) ∧
        (∀ t1 t2 p a, tr = t1 ++ Item.rematLoad P.dest.vr p a :: t2 →
          ∃ y, r.intRep = expand t1 ++ y :: expand t2 ∧ y.isLoadI P.src1.sr p) ∧
        (∀ x ∈ pts,
          (∀ p, getI x.1.name p = some P.dest.vr → spill p x.1 x.2 = some (x.2, [])) ∧
          (∀ pr, ∃ y, restore P.dest.vr pr x.2 = some [y] ∧ y.isLoadI P.src1.sr pr)) := by
  obtain ⟨r, ir1, lu, c0, m0, pts, h0, h1, e1, e2, h3, h4, h5, h6, h7, _, _⟩ :=
    run_start ir k hk hp
  obtain ⟨ir2, lu2, tr, g1, g2, g3, g4⟩ := Allocator_log h0
  rw [h1] at g1
  simp only [Option.some.injEq, Prod.mk.injEq] at g1
  obtain ⟨rfl, rfl⟩ := g1
  obtain ⟨a, _, _⟩ := assignLoopPts_run ir1 c0 m0 pts h5 h6 h3
  have hlog := assignLoopLog_remat lu.clean lu.vr2mem ir1 _ _ _ _ tr g2
    (fun v hv => ⟨hv, rfl⟩)
  refine ⟨r, ir1, lu, tr, (c0, m0) :: pts, h0, h1, g3, g4, h4, ?_⟩
  intro P hP hop
  obtain ⟨t1, t2⟩ := h7.tag P hP hop
  have tags : ∀ x ∈ (c0, m0) :: pts, getI x.2.clean P.dest.vr = some Clean.remat ∧
      getI x.2.vr2mem P.dest.vr = some P.src1.sr := by
    intro x hx
    rcases List.mem_cons.mp hx with rfl | hx
    · rw [e1, e2]
      exact ⟨t1, t2⟩
    · obtain ⟨u1, u2⟩ := (a x hx).remat P.dest.vr t1
      exact ⟨u1, by rw [u2]; exact t2⟩
  have hrem : ∀ p a, Item.rematLoad P.dest.vr p a ∈ tr → a = P.src1.sr := by
    intro p a hm
    have := hlog _ hm t1
    rw [t2] at this
    exact (Option.some.inj this).symm
  refine ⟨⟨t1, t2⟩, tags, ?_, ?_, hrem, ?_, ?_⟩
  · intro q a kk hm
    exact hlog _ hm t1
  · intro p a kk hm
    exact hlog _ hm t1
  · intro s1 s2 p a e
    have ha := hrem p a (by rw [e]; simp)
    refine ⟨mkLoadI P.src1.sr p, ?_, (by exact ⟨rfl, rfl, rfl, rfl, rfl, rfl, rfl⟩)⟩
    rw [← g4, e, expand_split, ha]
    rfl
  · intro x hx
    obtain ⟨u1, u2⟩ := tags x hx
    refine ⟨fun p hn => ?_, fun pr => ⟨mkLoadI P.src1.sr pr, ?_,
      (by exact ⟨rfl, rfl, rfl, rfl, rfl, rfl, rfl⟩)⟩⟩
    · simp [spill, hn, u1]
    · simp [restore, u1, u2]

/-- The name of a register tagged `remat` in the class is tagged `remat` in
`clean`, at every state of a run on a parsed block. -/
theorem run_states_coherent (ir : List Instruction) (k : Int) (hk : 2 ≤ k)
    (hp : ∀ it ∈ ir, it.parsed = true) :
    ∃ pts, AllocatorPts ir k = some pts ∧
      ∀ x ∈ pts, ∀ q, getI x.1.cclean q = some Clean.remat →
        ∃ v, getI x.1.name q = some v ∧ getI x.2.clean v = some Clean.remat := by
  obtain ⟨r, ir1, lu, c0, m0, pts, _, h1, _, _, h3, h4, h5, h6, _, _, _⟩ :=
    run_start ir k hk hp
  obtain ⟨a, _, _⟩ := assignLoopPts_run ir1 c0 m0 pts h5 h6 h3
  refine ⟨(c0, m0) :: pts, h4, fun x hx => ?_⟩
  rcases List.mem_cons.mp hx with rfl | hx
  · exact h5.coh
  · exact (a x hx).coh

/-- Witness of C14 on `evictBlock` with three registers requested. -/
theorem unique_residence_witness :
    (2 : Int) ≤ 3 ∧ (∀ it ∈ evictBlock, it.parsed = true) ∧
    ∃ ir1 lu pts, computeLastUses evictBlock = some (ir1, lu) ∧
      AllocatorPts evictBlock 3 = some pts ∧ pts.length = 7 * evictBlock.length + 1 ∧
      (∀ x ∈ pts, ∀ p q v, getI x.1.name p = some v → getI x.1.name q = some v →
        v ≠ INVALID → p = q) ∧
      ∀ (i : Nat) (it : Instruction), ir1[i]? = some it → it.dest.isReg = true →
        ∃ x, pts[7 * i + 6]? = some x ∧ ∀ p, getI x.1.name p ≠ some it.dest.vr :=
  ⟨by decide, by decide, unique_residence evictBlock 3 (by decide) (by decide)⟩

/-- Witness of C19 on `evictBlock` with three registers requested. -/
theorem remat_tags_stable_witness :
    (2 : Int) ≤ 3 ∧ (∀ it ∈ evictBlock, it.parsed = true) ∧
    ∃ r ir1 lu tr pts, Allocator evictBlock 3 = some r ∧ computeLastUses evictBlock = some (ir1, lu) ∧
      AllocatorLog evictBlock 3 = some tr ∧ expand tr = r.intRep ∧ AllocatorPts evictBlock 3 = some pts ∧
      ∀ P ∈ ir1, P.op = Opcode.loadI →
        (getI lu.clean P.dest.vr = some Clean.remat ∧
          getI lu.vr2mem P.dest.vr = some P.src1.sr) ∧
        (∀ x ∈ pts, getI x.2.clean P.dest.vr = some Clean.remat ∧
          getI x.2.vr2mem P.dest.vr = some P.src1.sr) ∧
        (∀ q a kk, Item.spillPair P.dest.vr q a kk ∉ tr) ∧
        (∀ p a kk, Item.restorePair P.dest.vr p a kk ∉ tr) ∧
        (∀ p a, Item.rematLoad P.dest.vr p a ∈ tr → a = P.src1.sr) ∧
        (∀ t1 t2 p a, tr = t1 ++ Item.rematLoad P.dest.vr p a :: t2 →
          ∃ y, r.intRep = expand t1 ++ y :: expand t2 ∧ y.isLoadI P.src1.sr p) ∧
        (∀ x ∈ pts,
          (∀ p, getI x.1.name p = some P.dest.vr → spill p x.1 x.2 = some (x.2, [])) ∧
          (∀ pr, ∃ y, restore P.dest.vr pr x.2 = some [y] ∧ y.isLoadI P.src1.sr pr)) :=
  ⟨by decide, by decide, remat_tags_stable evictBlock 3 (by decide) (by decide)⟩

/-! ### The naming of live ranges by the analysis -/

theorem shiftKey_inj (w : Bool) (a b : Option Nat) : shiftKey w a = shiftKey w b ↔ a = b := by
  cases a <;> cases b <;> cases w <;> simp [shiftKey]

theorem shiftKey_none (w : Bool) (a : Option Nat) : shiftKey w a = none ↔ (a = none ∧ w = false) := by
  cases a <;> cases w <;> simp [shiftKey]

theorem occInv_read {O : List (Int × Option Nat × Int)} {op r : Register} {i : Int}
    {s s2 : LU} (h : OccInv O s) (hu : update op i s = some (r, s2)) :
    OccInv ((op.sr, none, r.vr) :: O) s2 := by
  obtain ⟨s1, v, nu, l, ho, hv, _, _, rfl, rfl⟩ := update_inv hu
  obtain ⟨cur, hcur, hh⟩ := openRange_inv ho
  rcases hh with ⟨hne, rfl⟩ | ⟨he, t, ht, rfl⟩
  · rw [hcur] at hv
    obtain rfl := Option.some.inj hv
    obtain ⟨hb, hl⟩ := h.live op.sr cur hcur hne
    refine ⟨h.name, ?_, ?_, ?_, ?_, ?_⟩
    · intro e he
      rcases List.mem_cons.mp he with rfl | he
      · exact hb
      · exact h.lt e he
    · intro e he f hf
      rcases List.mem_cons.mp he with rfl | he <;> rcases List.mem_cons.mp hf with rfl | hf
      · simp
      · have := hl f hf
        constructor
        · intro x
          obtain ⟨a, b⟩ := this.mp x.symm
          exact ⟨a.symm, b.symm⟩
        · intro x
          exact (this.mpr ⟨x.1.symm, x.2.symm⟩).symm
      · exact hl e he
      · exact h.same e he f hf
    · intro sr v hsr hv2
      obtain ⟨hb2, hl2⟩ := h.live sr v hsr hv2
      refine ⟨hb2, ?_⟩
      intro e he
      rcases List.mem_cons.mp he with rfl | he
      · constructor
        · intro x
          refine ⟨?_, rfl⟩
          obtain ⟨f, hf, hfv⟩ := h.all cur hb.1 hb.2
          have a1 := (hl f hf).mp hfv
          have a2 := (hl2 f hf).mp (by rw [hfv]; exact x)
          rw [← a1.1, a2.1]
        · intro x
          have e1 : op.sr = sr := x.1
          rw [e1] at hcur
          rw [hcur] at hsr
          exact Option.some.inj hsr
      · exact hl2 e he
    · intro sr hsr e he
      rcases List.mem_cons.mp he with rfl | he
      · intro x
        have e1 : op.sr = sr := x.1
        rw [e1] at hcur
        rw [hcur] at hsr
        exact hne (Option.some.inj hsr)
      · exact h.dead sr hsr e he
    · intro v hv0 hv1
      obtain ⟨e, he, hev⟩ := h.all v hv0 hv1
      exact ⟨e, List.mem_cons_of_mem _ he, hev⟩
  · subst he
    have hv3 : getI t op.sr = some s.vrName := getI_setI_same ht
    have hv4 : v = s.vrName := by
      have : getI t op.sr = some v := hv
      rw [hv3] at this
      exact (Option.some.inj this).symm
    subst hv4
    have hname := h.name
    have hfresh : ∀ e ∈ O, e.2.2 ≠ s.vrName := fun e he x => by
      have := (h.lt e he).2
      omega
    have hdead := h.dead op.sr hcur
    refine ⟨?_, ?_, ?_, ?_, ?_, ?_⟩
    · show 0 ≤ s.vrName + 1
      omega
    · intro e he
      show 0 ≤ e.2.2 ∧ e.2.2 < s.vrName + 1
      rcases List.mem_cons.mp he with rfl | he
      · exact ⟨hname, by simp⟩
      · have := h.lt e he
        exact ⟨this.1, by omega⟩
    · intro e he f hf
      rcases List.mem_cons.mp he with rfl | he <;> rcases List.mem_cons.mp hf with rfl | hf
      · simp
      · constructor
        · intro x
          exact absurd x.symm (hfresh f hf)
        · intro x
          exact absurd ⟨x.1.symm, x.2.symm⟩ (hdead f hf)
      · constructor
        · intro x
          exact absurd x (hfresh e he)
        · intro x
          exact absurd x (hdead e he)
      · exact h.same e he f hf
    · intro sr v hsr hv2
      have hsr2 : getI t sr = some v := hsr
      rw [getI_setI ht] at hsr2
      by_cases e1 : sr = op.sr
      · rw [if_pos e1] at hsr2
        obtain rfl := Option.some.inj hsr2
        refine ⟨⟨hname, by show s.vrName < s.vrName + 1; omega⟩, ?_⟩
        intro e he
        rcases List.mem_cons.mp he with rfl | he
        · simp [e1]
        · constructor
          · intro x
            exact absurd x (hfresh e he)
          · intro x
            rw [e1] at x
            exact absurd x (hdead e he)
      · rw [if_neg e1] at hsr2
        obtain ⟨hb2, hl2⟩ := h.live sr v hsr2 hv2
        refine ⟨⟨hb2.1, by show v < s.vrName + 1; omega⟩, ?_⟩
        intro e he
        rcases List.mem_cons.mp he with rfl | he
        · constructor
          · intro x
            have : s.vrName = v := x
            omega
          · intro x
            exact absurd x.1.symm e1
        · exact hl2 e he
    · intro sr hsr e he
      have hsr2 : getI t sr = some INVALID := hsr
      rw [getI_setI ht] at hsr2
      by_cases e1 : sr = op.sr
      · rw [if_pos e1] at hsr2
        have := Option.some.inj hsr2
        simp only [INVALID] at this
        omega
      · rw [if_neg e1] at hsr2
        rcases List.mem_cons.mp he with rfl | he
        · intro x
          exact e1 x.1.symm
        · exact h.dead sr hsr2 e he
    · intro v hv0 hv1
      have hv1b : v < s.vrName + 1 := hv1
      by_cases e1 : v = s.vrName
      · exact ⟨_, List.mem_cons_self _ _, e1.symm⟩
      · obtain ⟨e, he, hev⟩ := h.all v hv0 (by omega)
        exact ⟨e, List.mem_cons_of_mem _ he, hev⟩


theorem occInv_shift {O : List (Int × Option Nat × Int)} (it : Instruction) {a s1 : LU}
    (h : OccInv O a) (hn : s1.vrName = a.vrName)
    (h1 : ∀ sr v, getI s1.sr2vr sr = some v → v ≠ INVALID →
      it.writes sr = false ∧ getI a.sr2vr sr = some v)
    (h2 : ∀ sr, getI s1.sr2vr sr = some INVALID →
      it.writes sr = true ∨ getI a.sr2vr sr = some INVALID) :
    OccInv (O.map (shiftOcc it)) s1 := by
  refine ⟨by rw [hn]; exact h.name, ?_, ?_, ?_, ?_, ?_⟩
  · intro e he
    obtain ⟨e0, he0, rfl⟩ := List.mem_map.mp he
    rw [hn]
    exact h.lt e0 he0
  · intro e he f hf
    obtain ⟨e0, he0, rfl⟩ := List.mem_map.mp he
    obtain ⟨f0, hf0, rfl⟩ := List.mem_map.mp hf
    show e0.2.2 = f0.2.2 ↔ (e0.1 = f0.1 ∧
      shiftKey (it.writes e0.1) e0.2.1 = shiftKey (it.writes f0.1) f0.2.1)
    rw [h.same e0 he0 f0 hf0]
    constructor
    · intro x
      exact ⟨x.1, by rw [x.1, x.2]⟩
    · intro x
      refine ⟨x.1, ?_⟩
      have := x.2
      rw [x.1] at this
      exact (shiftKey_inj _ _ _).mp this
  · intro sr v hsr hv
    obtain ⟨w, ha⟩ := h1 sr v hsr hv
    obtain ⟨hb, hl⟩ := h.live sr v ha hv
    refine ⟨by rw [hn]; exact hb, ?_⟩
    intro e he
    obtain ⟨e0, he0, rfl⟩ := List.mem_map.mp he
    show e0.2.2 = v ↔ (e0.1 = sr ∧ shiftKey (it.writes e0.1) e0.2.1 = none)
    rw [hl e0 he0, shiftKey_none]
    constructor
    · intro x
      exact ⟨x.1, x.2, by rw [x.1]; exact w⟩
    · intro x
      exact ⟨x.1, x.2.1⟩
  · intro sr hsr e he
    obtain ⟨e0, he0, rfl⟩ := List.mem_map.mp he
    show ¬ (e0.1 = sr ∧ shiftKey (it.writes e0.1) e0.2.1 = none)
    rw [shiftKey_none]
    intro x
    rcases h2 sr hsr with w | ha
    · rw [x.1, w] at x
      cases x.2.2
    · exact h.dead sr ha e0 he0 ⟨x.1, x.2.1⟩
  · intro v hv0 hv1
    rw [hn] at hv1
    obtain ⟨e, he, hev⟩ := h.all v hv0 hv1
    exact ⟨shiftOcc it e, List.mem_map.mpr ⟨e, he, rfl⟩, hev⟩

theorem luDest_occ {O : List (Int × Option Nat × Int)} {i : Int} {it it1 : Instruction}
    {s s1 : LU} (h : OccInv O s) (hd : luDest i it s = some (it1, s1)) :
    OccInv ((if it1.dest.isReg then [(it1.dest.sr, some 0, it1.dest.vr)] else []) ++
      O.map (shiftOcc it1)) s1 ∧
    it1.src1 = it.src1 ∧ it1.src2 = it.src2 := by
  rcases luDest_inv hd with ⟨hr, e1, e2⟩ | ⟨hr, d, a, t, u, hu, ht, _, hit, hs1⟩
  · rw [e1, e2]
    refine ⟨?_, rfl, rfl⟩
    rw [hr]
    simp only [Bool.false_eq_true, if_false, List.nil_append]
    have hw : ∀ sr, it.writes sr = false := fun sr => by simp [Instruction.writes, hr]
    exact occInv_shift it h rfl (fun sr v hsr _ => ⟨hw sr, hsr⟩) (fun sr hsr => Or.inr hsr)
  · obtain ⟨e1, e2⟩ := update_shape hu
    have esr : d.sr = it.dest.sr := congrArg Prod.snd e1
    have ereg : d.isReg = true := by
      have := congrArg Prod.fst e1
      rw [← hr]
      exact this
    have hread := occInv_read h hu
    rw [← esr] at hread
    have ed : it1.dest = d := by rw [hit]
    have hw : ∀ sr, it1.writes sr = (d.sr == sr) := fun sr => by
      simp [Instruction.writes, ed, ereg]
    have hsr2vr : s1.sr2vr = t := by rw [hs1]
    have hvn : s1.vrName = a.vrName := by rw [hs1]
    have hsh := occInv_shift it1 hread hvn
      (fun sr v hsr hv => by
        rw [hsr2vr, getI_setI ht] at hsr
        by_cases e : sr = d.sr
        · rw [if_pos e] at hsr
          exact absurd (Option.some.inj hsr).symm hv
        · rw [if_neg e] at hsr
          exact ⟨by rw [hw]; simpa using fun x => e x.symm, hsr⟩)
      (fun sr hsr => by
        rw [hsr2vr, getI_setI ht] at hsr
        by_cases e : sr = d.sr
        · exact Or.inl (by rw [hw]; simpa using e.symm)
        · rw [if_neg e] at hsr
          exact Or.inr hsr)
    refine ⟨?_, by rw [hit], by rw [hit]⟩
    rw [ed, ereg]
    simp only [if_true, List.singleton_append]
    have e4 : shiftOcc it1 (d.sr, none, d.vr) = (d.sr, some 0, d.vr) := by
      simp [shiftOcc, shiftKey, hw]
    rw [List.map_cons, e4] at hsh
    exact hsh


theorem occInv_state {O : List (Int × Option Nat × Int)} {s s1 : LU} (h : OccInv O s)
    (h1 : s1.sr2vr = s.sr2vr) (h2 : s1.vrName = s.vrName) : OccInv O s1 :=
  ⟨by rw [h2]; exact h.name, by rw [h2]; exact h.lt, h.same, by rw [h1, h2]; exact h.live,
    by rw [h1]; exact h.dead, by rw [h2]; exact h.all⟩

theorem luStep_occ {O : List (Int × Option Nat × Int)} {i : Int} {it it3 : Instruction}
    {s s5 : LU} (h : OccInv O s) (hs : luStep i it s = some (it3, s5)) :
    OccInv (ownOccs it3 ++ O.map (shiftOcc it3)) s5 := by
  obtain ⟨it1, s1, it2, s2, s3, s4, h1, h2, h3, h4, h5⟩ := luStep_inv hs
  obtain ⟨o1, _, _⟩ := luDest_occ h h1
  have q2 : it2.dest = it1.dest ∧ it2.src2 = it1.src2 ∧
      OccInv ((if it2.src1.isReg then [(it2.src1.sr, none, it2.src1.vr)] else []) ++
        ((if it1.dest.isReg then [(it1.dest.sr, some 0, it1.dest.vr)] else []) ++
          O.map (shiftOcc it1))) s2 := by
    rcases luSrc1_inv h2 with ⟨a, b, c⟩ | ⟨a, r, b, c⟩
    · rw [b, c, a]
      exact ⟨rfl, rfl, o1⟩
    · have e := (update_shape b).1
      have esr : r.sr = it1.src1.sr := congrArg Prod.snd e
      have ereg : r.isReg = true := by
        have := congrArg Prod.fst e
        rw [← a]
        exact this
      have x := occInv_read o1 b
      rw [c]
      refine ⟨rfl, rfl, ?_⟩
      show OccInv ((if r.isReg then [(r.sr, none, r.vr)] else []) ++ _) s2
      rw [ereg, esr]
      exact x
  obtain ⟨d2, e2, o2⟩ := q2
  have q3 : it3.dest = it2.dest ∧ it3.src1 = it2.src1 ∧
      OccInv ((if it3.src2.isReg then [(it3.src2.sr, none, it3.src2.vr)] else []) ++
        ((if it2.src1.isReg then [(it2.src1.sr, none, it2.src1.vr)] else []) ++
          ((if it1.dest.isReg then [(it1.dest.sr, some 0, it1.dest.vr)] else []) ++
            O.map (shiftOcc it1)))) s3 := by
    rcases luSrc2_inv h3 with ⟨a, b, c⟩ | ⟨a, r, b, c⟩
    · rw [b, c, a]
      exact ⟨rfl, rfl, o2⟩
    · have e := (update_shape b).1
      have esr : r.sr = it2.src2.sr := congrArg Prod.snd e
      have ereg : r.isReg = true := by
        have := congrArg Prod.fst e
        rw [← a]
        exact this
      have x := occInv_read o2 b
      rw [c]
      refine ⟨rfl, rfl, ?_⟩
      show OccInv ((if r.isReg then [(r.sr, none, r.vr)] else []) ++ _) s3
      rw [ereg, esr]
      exact x
  obtain ⟨d3, e3, o3⟩ := q3
  have ed : it3.dest = it1.dest := by rw [d3, d2]
  have esh : shiftOcc it3 = shiftOcc it1 := by
    funext e
    simp [shiftOcc, Instruction.writes, ed]
  have f4 := luRemat_frame h4
  have f5 := luClean_frame h5
  have fl := luLogs_frame it3 s4
  have o5 : OccInv ((if it3.src2.isReg then [(it3.src2.sr, none, it3.src2.vr)] else []) ++
        ((if it2.src1.isReg then [(it2.src1.sr, none, it2.src1.vr)] else []) ++
          ((if it1.dest.isReg then [(it1.dest.sr, some 0, it1.dest.vr)] else []) ++
            O.map (shiftOcc it1)))) s5 :=
    occInv_state o3 (by rw [f5.1, fl.2.2.1, f4.1]) (by rw [f5.2.1, fl.2.2.2.2.1, f4.2.1])
  unfold ownOccs
  rw [esh, e3, ed]
  simpa [List.append_assoc] using o5

theorem occInv_init (ir : List Instruction) : OccInv [] (LU.init ir) := by
  refine ⟨le_refl _, fun e he => (by cases he), fun e he => (by cases he), ?_,
    fun sr _ e he => (by cases he), ?_⟩
  · intro sr v hsr hv
    exact absurd (getI_replicate hsr) hv
  · intro v h0 h1
    have : v < 0 := h1
    omega

theorem luSweep_occ : ∀ (ir : List Instruction) (i : Nat) (s : LU)
    (ir1 : List Instruction) (s1 : LU), luSweep i ir s = some (ir1, s1) →
    OccInv [] s → OccInv (occsOf ir1) s1
  | [], _, _, _, _, h, hi => by
    simp only [luSweep, Option.some.injEq, Prod.mk.injEq] at h
    obtain ⟨rfl, rfl⟩ := h
    exact hi
  | it :: rest, i, s, ir1, s1, h, hi => by
    simp only [luSweep, Option.bind_eq_bind, Option.pure_def, Option.bind_eq_some,
      Option.some.injEq, Prod.mk.injEq, Prod.exists] at h
    obtain ⟨rest1, t1, hr, it1, t2, hs, rfl, rfl⟩ := h
    exact luStep_occ (luSweep_occ rest (i + 1) s rest1 t1 hr hi) hs


theorem lastDef_cons (it : Instruction) (rest : List Instruction) (s : Int) : ∀ i : Nat,
    lastDef (it :: rest) s (i + 1) = shiftKey (it.writes s) (lastDef rest s i)
  | 0 => by
    simp only [lastDef, List.getElem?_cons_zero, shiftKey]
  | i + 1 => by
    have ih := lastDef_cons it rest s i
    rw [lastDef, List.getElem?_cons_succ, ih]
    conv_rhs => rw [lastDef]
    split
    · simp [shiftKey]
    · rfl

/-- The claim-worded `lastDef` is the last definition below the index: it is
a definition of the source register, and no instruction between it and the
index writes that register. -/
theorem lastDef_some (ir : List Instruction) (s : Int) : ∀ (i d : Nat),
    lastDef ir s i = some d ↔
      (d < i ∧ (∃ D, ir[d]? = some D ∧ D.writes s = true) ∧
        ∀ e, d < e → e < i → ∀ E, ir[e]? = some E → E.writes s = false)
  | 0, d => by simp [lastDef]
  | i + 1, d => by
    have ih := lastDef_some ir s i d
    unfold lastDef
    by_cases hw : (match ir[i]? with | some D => D.writes s | none => false) = true
    · rw [if_pos hw]
      constructor
      · intro h
        have hd : i = d := by simpa using h
        subst hd
        refine ⟨Nat.lt_succ_self _, ?_, fun e h1 h2 => by omega⟩
        cases hi : ir[i]? with
        | none => rw [hi] at hw; simp at hw
        | some D => rw [hi] at hw; exact ⟨D, rfl, hw⟩
      · rintro ⟨h1, ⟨D, hD, hDw⟩, h3⟩
        by_cases hdi : d = i
        · rw [hdi]
        · exfalso
          cases hi : ir[i]? with
          | none => rw [hi] at hw; simp at hw
          | some E =>
            rw [hi] at hw
            have := h3 i (by omega) (Nat.lt_succ_self _) E hi
            simp at hw
            rw [hw] at this
            cases this
    · rw [if_neg hw, ih]
      constructor
      · rintro ⟨h1, h2, h3⟩
        refine ⟨by omega, h2, fun e he1 he2 E hE => ?_⟩
        by_cases hei : e = i
        · subst hei
          rw [hE] at hw
          simpa using hw
        · exact h3 e he1 (by omega) E hE
      · rintro ⟨h1, ⟨D, hD, hDw⟩, h3⟩
        have hdi : d ≠ i := by
          intro h
          subst h
          rw [hD] at hw
          exact hw hDw
        exact ⟨by omega, ⟨D, hD, hDw⟩, fun e he1 he2 E hE => h3 e he1 (by omega) E hE⟩

theorem rangeOf_cons (it : Instruction) (rest : List Instruction) (s : Int) (i : Nat)
    (sl : Slot) :
    rangeOf (it :: rest) (i + 1) sl s = shiftKey (it.writes s) (rangeOf rest i sl s) := by
  cases sl with
  | dest => rfl
  | src1 => exact lastDef_cons it rest s i
  | src2 => exact lastDef_cons it rest s i

theorem mem_ownOccs (it : Instruction) (e : Int × Option Nat × Int) :
    e ∈ ownOccs it ↔ ∃ sl, (it.slot sl).isReg = true ∧ (it.slot sl).sr = e.1 ∧
      (it.slot sl).vr = e.2.2 ∧ rangeOf [it] 0 sl e.1 = e.2.1 := by
  obtain ⟨s, k, v⟩ := e
  constructor
  · intro h
    simp only [ownOccs, List.mem_append] at h
    rcases h with h | h | h
    · split at h
      · rename_i hr
        simp only [List.mem_singleton, Prod.mk.injEq] at h
        obtain ⟨rfl, rfl, rfl⟩ := h
        exact ⟨Slot.src2, hr, rfl, rfl, rfl⟩
      · cases h
    · split at h
      · rename_i hr
        simp only [List.mem_singleton, Prod.mk.injEq] at h
        obtain ⟨rfl, rfl, rfl⟩ := h
        exact ⟨Slot.src1, hr, rfl, rfl, rfl⟩
      · cases h
    · split at h
      · rename_i hr
        simp only [List.mem_singleton, Prod.mk.injEq] at h
        obtain ⟨rfl, rfl, rfl⟩ := h
        exact ⟨Slot.dest, hr, rfl, rfl, rfl⟩
      · cases h
  · rintro ⟨sl, hr, h1, h2, h3⟩
    simp only at h1 h2 h3
    subst h1 h2 h3
    simp only [ownOccs, List.mem_append]
    cases sl with
    | src2 =>
      left
      simp only [Instruction.slot] at hr ⊢
      rw [if_pos hr]
      exact List.mem_singleton.mpr rfl
    | src1 =>
      right; left
      simp only [Instruction.slot] at hr ⊢
      rw [if_pos hr]
      exact List.mem_singleton.mpr rfl
    | dest =>
      right; right
      simp only [Instruction.slot] at hr ⊢
      rw [if_pos hr]
      exact List.mem_singleton.mpr rfl

theorem rangeOf_zero (it : Instruction) (rest : List Instruction) (sl : Slot) (s : Int) :
    rangeOf (it :: rest) 0 sl s = rangeOf [it] 0 sl s := by
  cases sl <;> rfl

theorem mem_occsOf : ∀ (done : List Instruction) (e : Int × Option Nat × Int),
    e ∈ occsOf done ↔ IsOcc done e
  | [], e => by
    constructor
    · intro h
      cases h
    · rintro ⟨i, A, sl, h, _⟩
      simp at h
  | it :: rest, e => by
    simp only [occsOf, List.mem_append, List.mem_map]
    constructor
    · rintro (h | ⟨e0, h0, rfl⟩)
      · obtain ⟨sl, hr, h1, h2, h3⟩ := (mem_ownOccs it e).mp h
        exact ⟨0, it, sl, by simp, hr, h1, h2, by rw [rangeOf_zero]; exact h3⟩
      · obtain ⟨i, A, sl, hi, hr, h1, h2, h3⟩ := (mem_occsOf rest e0).mp h0
        refine ⟨i + 1, A, sl, by simpa using hi, hr, h1, h2, ?_⟩
        show rangeOf (it :: rest) (i + 1) sl e0.1 = shiftKey (it.writes e0.1) e0.2.1
        rw [rangeOf_cons, h3]
    · rintro ⟨i, A, sl, hi, hr, h1, h2, h3⟩
      cases i with
      | zero =>
        simp only [List.getElem?_cons_zero, Option.some.injEq] at hi
        rw [← hi] at hr h1 h2
        left
        exact (mem_ownOccs it e).mpr ⟨sl, hr, h1, h2, by rw [← rangeOf_zero it rest]; exact h3⟩
      | succ j =>
        simp only [List.getElem?_cons_succ] at hi
        right
        refine ⟨(e.1, rangeOf rest j sl e.1, e.2.2),
          (mem_occsOf rest _).mpr ⟨j, A, sl, hi, hr, h1, h2, rfl⟩, ?_⟩
        rw [rangeOf_cons] at h3
        simp only [shiftOcc, h3]

theorem lastDef_shape {ir1 ir : List Instruction}
    (h : ir1.map Instruction.shape = ir.map Instruction.shape) (s : Int) :
    ∀ i : Nat, lastDef ir1 s i = lastDef ir s i
  | 0 => rfl
  | i + 1 => by
    have e : (ir1[i]?).map Instruction.shape = (ir[i]?).map Instruction.shape := by
      rw [← List.getElem?_map, ← List.getElem?_map, h]
    have w : (match ir1[i]? with
        | some D => D.writes s
        | none => false) = (match ir[i]? with
        | some D => D.writes s
        | none => false) := by
      cases h1 : ir1[i]? with
      | none =>
        rw [h1] at e
        cases h2 : ir[i]? with
        | none => rfl
        | some B =>
          rw [h2] at e
          cases e
      | some A =>
        rw [h1] at e
        cases h2 : ir[i]? with
        | none =>
          rw [h2] at e
          cases e
        | some B =>
          rw [h2] at e
          have e2 : A.shape = B.shape := Option.some.inj e
          have e3 : A.dest.shape = B.dest.shape := congrArg (fun x => x.2.2.2) e2
          have e4 : A.dest.isReg = B.dest.isReg := congrArg Prod.fst e3
          have e5 : A.dest.sr = B.dest.sr := congrArg Prod.snd e3
          simp only [Instruction.writes, e4, e5]
    rw [lastDef, lastDef, w, lastDef_shape h s i]

theorem rangeOf_shape {ir1 ir : List Instruction}
    (h : ir1.map Instruction.shape = ir.map Instruction.shape) (i : Nat) (sl : Slot) (s : Int) :
    rangeOf ir1 i sl s = rangeOf ir i sl s := by
  cases sl with
  | dest => rfl
  | src1 => exact lastDef_shape h s i
  | src2 => exact lastDef_shape h s i

/-- C12: live-range naming. On every parsed block `computeLastUses` returns
and keeps the opcodes, source registers and constants. In the block it
returns, two register operands carry the same `vr` exactly when they name
the same source register and belong to the same live range, that is, they
have the same opening definition (`rangeOf`: a destination opens its own
range, a source belongs to the range of the last definition of its source
register above it, the reads of the definition's own instruction included in
the older range, or to the range of the reads before any definition). Every
`vr` of a register operand is in `0 .. n-1`, where `n` is the common length
of `clean` and `vr2mem`, and every value of `0 .. n-1` is carried by an
operand. -/
theorem live_range_naming (ir : List Instruction) (hp : ∀ it ∈ ir, it.parsed = true) :
    ∃ ir1 lu, computeLastUses ir = some (ir1, lu) ∧
      ir1.map Instruction.shape = ir.map Instruction.shape ∧
      lu.clean.length = lu.vr2mem.length ∧
      (∀ (i j : Nat) (A B : Instruction) (sl tl : Slot), ir1[i]? = some A →
        ir1[j]? = some B → (A.slot sl).isReg = true → (B.slot tl).isReg = true →
        ((A.slot sl).vr = (B.slot tl).vr ↔
          ((A.slot sl).sr = (B.slot tl).sr ∧
            rangeOf ir i sl (A.slot sl).sr = rangeOf ir j tl (B.slot tl).sr))) ∧
      (∀ (i : Nat) (A : Instruction) (sl : Slot), ir1[i]? = some A →
        (A.slot sl).isReg = true →
        0 ≤ (A.slot sl).vr ∧ (A.slot sl).vr < (lu.clean.length : Int)) ∧
      ∀ v : Nat, v < lu.clean.length →
        ∃ (i : Nat) (A : Instruction) (sl : Slot), ir1[i]? = some A ∧
          (A.slot sl).isReg = true ∧ (A.slot sl).vr = (v : Int) := by
  obtain ⟨ir1, lu, h1, hn, ht, _⟩ := computeLastUses_total ir hp
  have hsh := luSweep_shape ir 0 _ ir1 lu h1
  have inv := luSweep_occ ir 0 _ ir1 lu h1 (occInv_init ir)
  refine ⟨ir1, lu, h1, hsh, ht, ?_, ?_, ?_⟩
  · intro i j A B sl tl hi hj hA hB
    have mA : ((A.slot sl).sr, rangeOf ir1 i sl (A.slot sl).sr, (A.slot sl).vr) ∈ occsOf ir1 :=
      (mem_occsOf ir1 _).mpr ⟨i, A, sl, hi, hA, rfl, rfl, rfl⟩
    have mB : ((B.slot tl).sr, rangeOf ir1 j tl (B.slot tl).sr, (B.slot tl).vr) ∈ occsOf ir1 :=
      (mem_occsOf ir1 _).mpr ⟨j, B, tl, hj, hB, rfl, rfl, rfl⟩
    have := inv.same _ mA _ mB
    simp only at this
    rw [rangeOf_shape hsh, rangeOf_shape hsh] at this
    exact this
  · intro i A sl hi hA
    have mA : ((A.slot sl).sr, rangeOf ir1 i sl (A.slot sl).sr, (A.slot sl).vr) ∈ occsOf ir1 :=
      (mem_occsOf ir1 _).mpr ⟨i, A, sl, hi, hA, rfl, rfl, rfl⟩
    have := inv.lt _ mA
    rw [hn]
    exact this
  · intro v hv
    obtain ⟨e, he, hev⟩ := inv.all (v : Int) (Int.ofNat_nonneg v) (by rw [← hn]; exact_mod_cast hv)
    obtain ⟨i, A, sl, hi, hA, _, h2, _⟩ := (mem_occsOf ir1 e).mp he
    exact ⟨i, A, sl, hi, hA, by rw [h2]; exact hev⟩


/-- Witness of C12 on `redefBlock`, where `r1` is read and written again by
the instruction of index `1`: the destination at `0` and the sources at `1`
carry one virtual register, the destination at `1` and the sources at `2`
another one. -/
theorem live_range_naming_witness :
    (∀ it ∈ redefBlock, it.parsed = true) ∧
    (computeLastUses redefBlock).map (fun a => a.1.map (fun i => (i.src1.vr, i.dest.vr))) =
      some [(-1, 2), (2, 1), (1, 0)] ∧
    (List.range 3).map (fun (i : Nat) => rangeOf redefBlock i Slot.src1 1) =
      [none, some 0, some 1] ∧
    ∃ ir1 lu, computeLastUses redefBlock = some (ir1, lu) ∧
      ir1.map Instruction.shape = redefBlock.map Instruction.shape ∧
      lu.clean.length = lu.vr2mem.length ∧
      (∀ (i j : Nat) (A B : Instruction) (sl tl : Slot), ir1[i]? = some A →
        ir1[j]? = some B → (A.slot sl).isReg = true → (B.slot tl).isReg = true →
        ((A.slot sl).vr = (B.slot tl).vr ↔
          ((A.slot sl).sr = (B.slot tl).sr ∧
            rangeOf redefBlock i sl (A.slot sl).sr = rangeOf redefBlock j tl (B.slot tl).sr))) ∧
      (∀ (i : Nat) (A : Instruction) (sl : Slot), ir1[i]? = some A →
        (A.slot sl).isReg = true →
        0 ≤ (A.slot sl).vr ∧ (A.slot sl).vr < (lu.clean.length : Int)) ∧
      ∀ v : Nat, v < lu.clean.length →
        ∃ (i : Nat) (A : Instruction) (sl : Slot), ir1[i]? = some A ∧
          (A.slot sl).isReg = true ∧ (A.slot sl).vr = (v : Int) :=
  ⟨by decide, by decide, by decide, live_range_naming redefBlock (by decide)⟩

/-! ### The free stack of a fresh class -/

theorem allocateAll_stack : ∀ (vrs : List Int) (a : Nat) (c : Class) (m : Mem),
    c.stk = (List.range' a vrs.length).map Int.ofNat → a + vrs.length ≤ c.name.length →
    c.next.length = c.name.length → c.free.length = c.name.length →
    c.cclean.length = c.name.length → (∀ v ∈ vrs, (getI m.clean v).isSome = true) →
    ∃ c1, allocateAll vrs c m =
        some ((List.range' a vrs.length).map Int.ofNat, c1, m, []) ∧ c1.stk = []
  | [], a, c, m, hs, _, _, _, _, _ => ⟨c, rfl, by simpa using hs⟩
  | vr :: rest, a, c, m, hs, hl, h2, h3, h4, hv => by
    simp only [List.length_cons, List.range'_succ, List.map_cons] at hs hl ⊢
    obtain ⟨tl, htl⟩ : ∃ tl, tl = (List.range' (a + 1) rest.length).map Int.ofNat := ⟨_, rfl⟩
    rw [← htl] at hs ⊢
    have hch : choose c m = some ((a : Int), { c with stk := tl }, m, []) := by
      unfold choose
      rw [hs]
      rfl
    obtain ⟨c2, ho, _⟩ := occupy_named (a : Int) vr { c with stk := tl } m (Int.ofNat_nonneg a)
      (by show (a : Int) < (c.name.length : Int); omega) h2 h3 h4
      (hv vr (List.mem_cons_self _ _))
    obtain ⟨_, _, cl, _, hcc, hn, hx, hf, hst, _⟩ := occupy_inv ho
    have hal : allocate vr c m = some ((a : Int), c2, m, []) := by
      simp [allocate, hch, ho]
    have l1 : c2.name.length = c.name.length := by rw [hn]; simp
    obtain ⟨c3, h5, h6⟩ := allocateAll_stack rest (a + 1) c2 m (by rw [hst, htl])
      (by rw [l1]; omega) (by rw [hx, l1]; simpa using h2) (by rw [hf, l1]; simpa using h3)
      (by rw [setI_length hcc, l1]; exact h4)
      (fun v hv1 => hv v (List.mem_cons_of_mem _ hv1))
    refine ⟨c3, ?_, h6⟩
    simp only [allocateAll, hal, h5, Option.bind_eq_bind, Option.some_bind, Option.pure_def,
      List.nil_append]
    rw [htl]
    rfl

/-- C23: free-stack order. A freshly constructed class of size `k ≥ 1` has
`sz = k`, and every physical register `p` of `0 .. k-1` has `free[p]` set,
`name[p] = INVALID`, `next[p] = INT_MAX`, `cclean[p] = dirty` and is on the
free stack; `k` successive calls of `allocate` on it, for any virtual
registers that `clean` has an entry for, with no call of `freeRegister` in
between, return the physical registers `0, 1, ..., k-1` in that order, insert
no instruction, leave the members unchanged and empty the stack. -/
theorem free_stack_order (k : Int) (hk : 1 ≤ k) (m : Mem) (vrs : List Int)
    (hl : vrs.length = k.toNat) (hv : ∀ v ∈ vrs, (getI m.clean v).isSome = true) :
    (Class.new k).sz = k ∧
    (∀ p : Int, 0 ≤ p → p < k →
      getI (Class.new k).free p = some true ∧ getI (Class.new k).name p = some INVALID ∧
      getI (Class.new k).next p = some INT_MAX ∧
      getI (Class.new k).cclean p = some Clean.dirty ∧ p ∈ (Class.new k).stk) ∧
    ∃ c1, allocateAll vrs (Class.new k) m =
        some ((List.range k.toNat).map Int.ofNat, c1, m, []) ∧ c1.stk = [] := by
  refine ⟨rfl, ?_, ?_⟩
  · intro p h0 h1
    have hp : p.toNat < k.toNat := by omega
    refine ⟨?_, ?_, ?_, ?_, ?_⟩
    · simp [getI, Class.new, h0, hp]
    · simp [getI, Class.new, h0, hp]
    · simp [getI, Class.new, h0, hp]
    · simp [getI, Class.new, h0, hp]
    · simp only [Class.new, List.mem_map, List.mem_range]
      exact ⟨p.toNat, hp, by simp [Int.toNat_of_nonneg h0]⟩
  · have := allocateAll_stack vrs 0 (Class.new k) m
      (by simp [Class.new, hl, List.range_eq_range'])
      (by simp [Class.new, hl]) (by simp [Class.new]) (by simp [Class.new])
      (by simp [Class.new]) hv
    rw [hl, ← List.range_eq_range'] at this
    exact this

/-! ### The release of a source before the destination is allocated -/

theorem assignLoop_at : ∀ (ir : List Instruction) (c : Class) (m : Mem)
    (gs : List (List Instruction × Instruction)) (c9 : Class) (m9 : Mem)
    (pts : List (Class × Mem)),
    assignLoop ir c m = some (gs, c9, m9) → assignLoopPts ir c m = some pts →
    ∀ (i : Nat) (A : Instruction), ir[i]? = some A →
      ∃ ci mi ins B cj mj sp, ((c, m) :: pts)[7 * i]? = some (ci, mi) ∧
        assignStep A ci mi = some (ins, B, cj, mj) ∧
        assignStepPts A ci mi = some (sp, cj, mj) ∧ gs[i]? = some (ins, B) ∧
        ∀ j, j < 7 → pts[7 * i + j]? = sp[j]?
  | [], _, _, _, _, _, _, _, _, i, A, hi => by simp at hi
  | it :: rest, c, m, gs, c9, m9, pts, h, hp, i, A, hi => by
    simp only [assignLoop, Option.bind_eq_bind, Option.pure_def, Option.bind_eq_some,
      Option.some.injEq, Prod.mk.injEq, Prod.exists] at h
    obtain ⟨ins, it1, c1, m1, hs, gs1, c3, m3, hl, rfl, rfl, rfl⟩ := h
    simp only [assignLoopPts, Option.bind_eq_bind, Option.pure_def, Option.bind_eq_some,
      Option.some.injEq, Prod.exists] at hp
    obtain ⟨sp, c1b, m1b, hsp, more, hm, rfl⟩ := hp
    obtain ⟨sp2, hsp2⟩ := assignStepPts_of hs
    rw [hsp] at hsp2
    simp only [Option.some.injEq, Prod.mk.injEq] at hsp2
    obtain ⟨rfl, rfl, rfl⟩ := hsp2
    obtain ⟨s1, d1, n1, ins1, s2, d2, n2, ins2, d3, d4, d5, d6, d, ins3, _, _, _, _, _, _,
      _, esp⟩ := assignStepPts_inv hsp
    have hlen : sp.length = 7 := by rw [esp]; rfl
    have hlast : sp[6]? = some (c1b, m1b) := by rw [esp]; rfl
    cases i with
    | zero =>
      simp only [List.getElem?_cons_zero, Option.some.injEq] at hi
      subst hi
      refine ⟨c, m, ins, it1, c1b, m1b, sp, by simp, hs, hsp, by simp, fun j hj => ?_⟩
      rw [List.getElem?_append_left (by omega)]
      simp
    | succ j =>
      simp only [List.getElem?_cons_succ] at hi
      obtain ⟨ci, mi, insi, B, cj, mj, spi, a1, a2, a3, a4, a5⟩ :=
        assignLoop_at rest c1b m1b gs1 c3 m3 more hl hm j A hi
      refine ⟨ci, mi, insi, B, cj, mj, spi, ?_, a2, a3, by simpa using a4, fun t ht => ?_⟩
      · have e : 7 * (j + 1) = (7 * j + 6) + 1 := by omega
        rw [e, List.getElem?_cons_succ]
        cases j with
        | zero =>
          simp only [Nat.mul_zero, List.getElem?_cons_zero, Option.some.injEq] at a1
          rw [← a1]
          rw [List.getElem?_append_left (by omega)]
          exact hlast
        | succ t =>
          have e2 : 7 * (t + 1) = (7 * t + 6) + 1 := by omega
          rw [e2, List.getElem?_cons_succ] at a1
          rw [List.getElem?_append_right (by omega)]
          have e3 : 7 * (t + 1) + 6 - sp.length = 7 * t + 6 := by omega
          rw [e3]
          exact a1
      · rw [List.getElem?_append_right (by omega)]
        have e3 : 7 * (j + 1) + t - sp.length = 7 * j + t := by omega
        rw [e3]
        exact a5 t ht

theorem assignSrc_keeps {r r1 : Register} {c c1 : Class} {m m1 : Mem} {ins : List Instruction}
    (h : assignSrc r c m = some (r1, c1, m1, ins)) : r1.nu = r.nu ∧ r1.isReg = r.isReg := by
  rcases assignSrc_inv h with ⟨_, e, _⟩ | ⟨_, pr, _, e⟩
  · rw [e]
    exact ⟨rfl, rfl⟩
  · rw [e]
    exact ⟨rfl, rfl⟩

theorem freeIf_stack {b : Bool} {pr : Int} {c c1 : Class} (h : freeIf b pr c = some c1) :
    c1.stk = if b = true then pr :: c.stk else c.stk := by
  unfold freeIf at h
  cases b with
  | true =>
    simp only [if_true] at h ⊢
    exact (freeRegister_inv h).2.2.2.2.2.2.1
  | false =>
    simp only [Bool.false_eq_true, if_false, Option.some.injEq] at h ⊢
    rw [← h]

theorem freeIf_released {pr : Int} {c c1 : Class} (h : freeIf true pr c = some c1) :
    getI c1.name pr = some INVALID := by
  unfold freeIf at h
  simp only [if_true] at h
  obtain ⟨p0, p1, en, _⟩ := freeRegister_inv h
  rw [en]
  unfold getI
  rw [if_pos p0]
  exact List.getElem?_set_self p1

theorem assignDest_top {r d : Register} {c c1 : Class} {m m1 : Mem} {ins : List Instruction}
    {top : Int} {rest : List Int} (h : assignDest r c m = some (d, c1, m1, ins))
    (hr : r.isReg = true) (hs : c.stk = top :: rest) :
    d.pr = top ∧ ins = [] ∧ m1 = m ∧ c1.stk = rest := by
  rcases assignDest_inv h with ⟨hf, _⟩ | ⟨_, pr, c2, nx, ha, _, e, ed⟩
  · rw [hr] at hf
    cases hf
  · obtain ⟨c0, hc, ho⟩ := allocate_inv ha
    rcases choose_inv hc with ⟨rest1, e1, e2, e3, e4⟩ | ⟨e1, _⟩
    · rw [hs] at e1
      simp only [List.cons.injEq] at e1
      obtain ⟨rfl, rfl⟩ := e1
      obtain ⟨_, _, cl, _, _, _, _, _, hst, _⟩ := occupy_inv ho
      refine ⟨by rw [ed], e4, e3, ?_⟩
      rw [e]
      show c2.stk = rest
      rw [hst, e2]
    · rw [hs] at e1
      cases e1

/-- The step of `assignRegisters` at an instruction with a register
destination and a register source that is not used again. -/
theorem assignStep_lastUse {A B : Instruction} {c c7 : Class} {m m3 : Mem}
    {ins : List Instruction} {sp : List (Class × Mem)}
    (h : assignStep A c m = some (ins, B, c7, m3))
    (hp : assignStepPts A c m = some (sp, c7, m3)) (hd : A.dest.isReg = true)
    (hu : (A.src1.isReg = true ∧ A.src1.nu = INT_MAX) ∨
      (A.src2.isReg = true ∧ A.src2.nu = INT_MAX)) :
    ∃ x rest, sp[5]? = some x ∧ sp[6]? = some (c7, m3) ∧
      x.1.stk = (if A.src2.isReg = true ∧ A.src2.nu = INT_MAX then B.src2.pr
        else B.src1.pr) :: rest ∧
      getI x.1.name (if A.src2.isReg = true ∧ A.src2.nu = INT_MAX then B.src2.pr
        else B.src1.pr) = some INVALID ∧
      assignDest A.dest x.1 x.2 = some (B.dest, c7, m3, []) ∧ m3 = x.2 ∧ c7.stk = rest ∧
      B.dest.pr = (if A.src2.isReg = true ∧ A.src2.nu = INT_MAX then B.src2.pr
        else B.src1.pr) := by
  obtain ⟨s1, c1, m1, ins1, s2, c2, m2, ins2, c3, c4, c5, c6, d, ins3, h1, h2, h3, h4, h5, h6,
    h7, _, eB⟩ := assignStep_inv h
  have esp : sp = [(c1, m1), (c2, m2), (c3, m2), (c4, m2), (c5, m2), (c6, m2), (c7, m3)] := by
    simp only [assignStepPts, h1, h2, h3, h4, h5, h6, h7, Option.bind_eq_bind,
      Option.some_bind, Option.pure_def, Option.some.injEq, Prod.mk.injEq, and_true] at hp
    exact hp.symm
  obtain ⟨n1, r1⟩ := assignSrc_keeps h1
  obtain ⟨n2, r2⟩ := assignSrc_keeps h2
  have k3 := freeIf_stack h3
  have k4 := freeIf_stack h4
  have k5 := (keepNext_name h5).2.1
  have k6 := (keepNext_name h6).2.1
  have e1 : B.src1 = s1 := by rw [eB]
  have e2 : B.src2 = s2 := by rw [eB]
  have e3 : B.dest = d := by rw [eB]
  rw [n1] at k3
  rw [n2, r2] at k4
  have g5 := (keepNext_name h5).1
  have g6 := (keepNext_name h6).1
  rw [n1] at h3
  rw [n2, r2] at h4
  have hstk : ∃ rest, c6.stk = (if A.src2.isReg = true ∧ A.src2.nu = INT_MAX then B.src2.pr
      else B.src1.pr) :: rest ∧
      getI c6.name (if A.src2.isReg = true ∧ A.src2.nu = INT_MAX then B.src2.pr
        else B.src1.pr) = some INVALID := by
    rw [k6, k5, k4, g6, g5, e1, e2]
    by_cases q2 : A.src2.isReg = true ∧ A.src2.nu = INT_MAX
    · rw [if_pos q2]
      have hb : (A.src2.isReg && decide (A.src2.nu = INT_MAX)) = true := by simp [q2.1, q2.2]
      rw [hb] at h4 ⊢
      exact ⟨c3.stk, by simp, freeIf_released h4⟩
    · rw [if_neg q2]
      have q1 : A.src1.isReg = true ∧ A.src1.nu = INT_MAX := by
        rcases hu with hu | hu
        · exact hu
        · exact absurd hu q2
      have hb : (A.src2.isReg && decide (A.src2.nu = INT_MAX)) = false := by
        cases hreg : A.src2.isReg with
        | false => rfl
        | true =>
          simp only [Bool.true_and, decide_eq_false_iff_not]
          exact fun hn => q2 ⟨hreg, hn⟩
      have hb1 : decide (A.src1.nu = INT_MAX) = true := by simp [q1.2]
      rw [hb] at h4 ⊢
      rw [hb1] at h3 k3
      have e43 : c4 = c3 := by
        simp only [freeIf, Bool.false_eq_true, if_false, Option.some.injEq] at h4
        exact h4.symm
      rw [e43]
      refine ⟨c2.stk, ?_, freeIf_released h3⟩
      simp only [Bool.false_eq_true, if_false]
      rw [k3]
      simp
  obtain ⟨rest, hrest, hname⟩ := hstk
  obtain ⟨t1, t2, t3, t4⟩ := assignDest_top h7 hd hrest
  subst t2
  refine ⟨(c6, m2), rest, by rw [esp]; rfl, by rw [esp]; rfl, hrest, hname, by rw [e3]; exact h7,
    t3, t4, by rw [e3]; exact t1⟩

/-- C21: the last use frees before the destination is allocated. On every
parsed block, with at least two registers requested, the run returns; and at
every instruction of the analysed block whose destination is a register and
one of whose register sources has `nu = INT_MAX`, when the destination is
about to be allocated (after the statement 6 of the iteration) the top of the
free stack is the physical register of the released source (that of `src2`
if `src2` was released, otherwise that of `src1`), which has no name any
more; the allocation of the destination inserts no instruction, leaves the
members unchanged, pops that register, and `dest.pr` is that register. -/
theorem last_use_frees_first (ir : List Instruction) (k : Int) (hk : 2 ≤ k)
    (hp : ∀ it ∈ ir, it.parsed = true) :
    ∃ r ir1 lu pts, Allocator ir k = some r ∧ computeLastUses ir = some (ir1, lu) ∧
      AllocatorPts ir k = some pts ∧
      ∀ (i : Nat) (A : Instruction), ir1[i]? = some A → A.dest.isReg = true →
        ((A.src1.isReg = true ∧ A.src1.nu = INT_MAX) ∨
          (A.src2.isReg = true ∧ A.src2.nu = INT_MAX)) →
        ∃ g x y rest, r.groups[i]? = some g ∧ pts[7 * i + 6]? = some x ∧
          pts[7 * i + 7]? = some y ∧
          x.1.stk = (if A.src2.isReg = true ∧ A.src2.nu = INT_MAX then g.2.src2.pr
            else g.2.src1.pr) :: rest ∧
          getI x.1.name (if A.src2.isReg = true ∧ A.src2.nu = INT_MAX then g.2.src2.pr
            else g.2.src1.pr) = some INVALID ∧
          assignDest A.dest x.1 x.2 = some (g.2.dest, y.1, y.2, []) ∧
          y.2 = x.2 ∧ y.1.stk = rest ∧
          g.2.dest.pr = (if A.src2.isReg = true ∧ A.src2.nu = INT_MAX then g.2.src2.pr
            else g.2.src1.pr) := by
  obtain ⟨r, ir1, lu, c0, m0, pts, h0, h1, _, _, h3, h4, _⟩ := run_start ir k hk hp
  obtain ⟨ir2, lu2, e1, e2⟩ := Allocator_inv h0
  rw [h1] at e1
  simp only [Option.some.injEq, Prod.mk.injEq] at e1
  obtain ⟨rfl, rfl⟩ := e1
  have e4 := h4
  simp only [AllocatorPts, h1, Option.bind_eq_bind, Option.some_bind, Option.pure_def,
    Option.bind_eq_some, Option.some.injEq, List.cons.injEq, Prod.mk.injEq] at e4
  obtain ⟨pts2, e5, ⟨rfl, rfl⟩, rfl⟩ := e4
  refine ⟨r, ir1, lu, _, h0, h1, h4, ?_⟩
  intro i A hi hd hu
  obtain ⟨ci, mi, ins, B, cj, mj, sp, a1, a2, a3, a4, a5⟩ :=
    assignLoop_at ir1 _ _ _ _ _ _ e2 e5 i A hi
  obtain ⟨x, rest, b1, b2, b3, b8, b4, b5, b6, b7⟩ := assignStep_lastUse a2 a3 hd hu
  refine ⟨(ins, B), x, (cj, mj), rest, a4, ?_, ?_, b3, b8, b4, b5, b6, b7⟩
  · rw [List.getElem?_cons_succ, a5 5 (by omega)]
    exact b1
  · rw [List.getElem?_cons_succ, a5 6 (by omega)]
    exact b2

/-! ### The restore of `ensure` -/

theorem allocate_mem {vr pr : Int} {c c1 : Class} {m m1 : Mem} {ins : List Instruction}
    (h : allocate vr c m = some (pr, c1, m1, ins)) (hn : vr ∉ c.name) :
    getI m1.clean vr = getI m.clean vr ∧ getI m1.vr2mem vr = getI m.vr2mem vr ∧
    m1.k = m.k ∧ m1.clean.length = m.clean.length ∧ m1.vr2mem.length = m.vr2mem.length ∧
    (getI m1.clean vr).isSome = true := by
  obtain ⟨c0, hc, ho⟩ := allocate_inv h
  obtain ⟨_, _, cl, hcl, _⟩ := occupy_inv ho
  have last : (getI m1.clean vr).isSome = true := by rw [hcl]; rfl
  rcases choose_inv hc with ⟨rest, _, _, e3, _⟩ | ⟨_, _, _, hsp⟩
  · rw [e3]
    rw [e3] at last
    exact ⟨rfl, rfl, rfl, rfl, rfl, last⟩
  · obtain ⟨victim, cv, hv, hcv, hh⟩ := spill_inv hsp
    rcases hh with ⟨_, e, _⟩ | ⟨_, v0, v1, e, _⟩
    · rw [e]
      rw [e] at last
      exact ⟨rfl, rfl, rfl, rfl, rfl, last⟩
    · have hne : vr ≠ victim := by
        intro e2
        apply hn
        rw [e2]
        exact List.getElem?_mem (getI_some hv).2.2
      have v2 : victim.toNat < m.clean.length := (getI_some hcv).2.1
      have s1 := setI_of_set m.vr2mem m.nextMemAddr v0 v1
      have s2 := setI_of_set m.clean Clean.spilled v0 v2
      refine ⟨?_, ?_, by rw [e], by rw [e]; simp, by rw [e]; simp, last⟩
      · rw [e]
        exact getI_setI_ne s2 hne
      · rw [e]
        exact getI_setI_ne s1 hne

/-- The restore of `ensure`, with the inserted instructions given by the
builders of the code. -/
theorem ensure_restore_built (vr : Int) (c : Class) (m : Mem)
    (hl : m.vr2mem.length = m.clean.length) :
    (vr ∈ c.name → ∃ p : Nat, ensure vr c m = some ((p : Int), c, m, []) ∧
      c.name[p]? = some vr ∧ ∀ q : Nat, q < p → c.name[q]? ≠ some vr) ∧
    (vr ∉ c.name → ∀ pr c1 m1 ins, allocate vr c m = some (pr, c1, m1, ins) →
      ∃ cl a R, getI m.clean vr = some cl ∧ getI m.vr2mem vr = some a ∧
        getI m1.clean vr = some cl ∧ getI m1.vr2mem vr = some a ∧ m1.k = m.k ∧
        ensure vr c m = some (pr, c1, m1, ins ++ R) ∧
        (cl = Clean.remat → R = [mkLoadI a pr]) ∧
        (cl ≠ Clean.remat → a ≠ INVALID → R = [mkLoadI a m.k, mkLoad m.k pr]) ∧
        (cl ≠ Clean.remat → a = INVALID → R = [])) ∧
    (∀ it ins B c7 m3, assignStep it c m = some (ins, B, c7, m3) →
      ∃ e1 e2 e3 c1 m1, ins = e1 ++ e2 ++ e3 ∧
        (it.src1.isReg = true →
          ∃ pr, ensure it.src1.vr c m = some (pr, c1, m1, e1) ∧ B.src1.pr = pr) ∧
        (it.src1.isReg = false → e1 = [] ∧ c1 = c ∧ m1 = m) ∧
        (it.src2.isReg = true →
          ∃ pr c2 m2, ensure it.src2.vr c1 m1 = some (pr, c2, m2, e2) ∧ B.src2.pr = pr) ∧
        (it.src2.isReg = false → e2 = [])) := by
  refine ⟨?_, ?_, ?_⟩
  · intro hin
    have hlt : c.name.indexOf vr < c.name.length := List.indexOf_lt_length.mpr hin
    refine ⟨c.name.indexOf vr, ?_, ?_, ?_⟩
    · unfold ensure
      rw [if_pos hlt]
    · rw [List.getElem?_eq_getElem hlt]
      simp
    · intro q hq hq2
      have hql : q < c.name.length := by omega
      rw [List.getElem?_eq_getElem hql] at hq2
      have e := Option.some.inj hq2
      have hf : q < List.findIdx (fun x => x == vr) c.name := hq
      have := List.not_of_lt_findIdx hf
      simp only [beq_eq_false_iff_ne, ne_eq] at this
      exact this e
  · intro hnot pr c1 m1 ins ha
    obtain ⟨e1, e2, e3, l1, l2, hs⟩ := allocate_mem ha hnot
    obtain ⟨cl, hcl⟩ := Option.isSome_iff_exists.mp hs
    obtain ⟨v0, v1, _⟩ := getI_some hcl
    obtain ⟨a, ha2⟩ := getI_total m1.vr2mem v0 (by rw [l2, hl, ← l1]; omega)
    have hnlt : ¬ c.name.indexOf vr < c.name.length := fun h => hnot (List.indexOf_lt_length.mp h)
    have hens : ∀ R, restore vr pr m1 = some R → ensure vr c m = some (pr, c1, m1, ins ++ R) := by
      intro R hR
      unfold ensure
      rw [if_neg hnlt]
      simp [ha, hR]
    by_cases q1 : cl = Clean.remat
    · refine ⟨cl, a, [mkLoadI a pr], by rw [← e1]; exact hcl, by rw [← e2]; exact ha2, hcl,
        ha2, e3, hens _ (by simp [restore, hcl, ha2, q1]), fun _ => rfl,
        fun h => absurd q1 h, fun h => absurd q1 h⟩
    · by_cases q2 : a = INVALID
      · refine ⟨cl, a, [], by rw [← e1]; exact hcl, by rw [← e2]; exact ha2, hcl,
          ha2, e3, hens _ (by simp [restore, hcl, ha2, q1, q2]), fun h => absurd h q1,
          fun _ h => absurd q2 h, fun _ _ => rfl⟩
      · refine ⟨cl, a, [mkLoadI a m.k, mkLoad m.k pr], by rw [← e1]; exact hcl,
          by rw [← e2]; exact ha2, hcl, ha2, e3,
          hens _ (by simp [restore, hcl, ha2, q1, q2, e3]), fun h => absurd h q1,
          fun _ _ => rfl, fun _ h => absurd h q2⟩
  · intro it ins B c7 m3 h
    obtain ⟨s1, c1, m1, ins1, s2, c2, m2, ins2, c3, c4, c5, c6, d, ins3, h1, h2, _, _, _, _,
      _, e, eB⟩ := assignStep_inv h
    have b1 : B.src1 = s1 := by rw [eB]
    have b2 : B.src2 = s2 := by rw [eB]
    refine ⟨ins1, ins2, ins3, c1, m1, e, ?_, ?_, ?_, ?_⟩
    · intro hr
      rcases assignSrc_inv h1 with ⟨hf, _⟩ | ⟨_, pr, he, es⟩
      · rw [hr] at hf
        cases hf
      · exact ⟨pr, he, by rw [b1, es]⟩
    · intro hr
      rcases assignSrc_inv h1 with ⟨_, _, x1, x2, x3⟩ | ⟨ht, _⟩
      · exact ⟨x3, x1, x2⟩
      · rw [hr] at ht
        cases ht
    · intro hr
      rcases assignSrc_inv h2 with ⟨hf, _⟩ | ⟨_, pr, he, es⟩
      · rw [hr] at hf
        cases hf
      · exact ⟨pr, c2, m2, he, by rw [b2, es]⟩
    · intro hr
      rcases assignSrc_inv h2 with ⟨_, _, _, _, x3⟩ | ⟨ht, _⟩
      · exact x3
      · rw [hr] at ht
        cases ht

/-- C22: the restore shape of `ensure`, for members whose `vr2mem` and
`clean` have the same size. If `vr` is the name of a physical register,
`ensure` returns the first such register, inserts nothing and changes neither
the class nor the members. Otherwise, whenever `allocate` returns `pr` with
the spill code `ins` (nothing, or an instruction with opcode `loadI`,
immediate `nextMemAddr` and destination `k` followed by one with opcode
`store`, source `pr` and address register `k`), `ensure` returns `pr` with the
state `allocate` left, and what it inserts before the cursor is `ins`
followed by the restore `R`. When `clean[vr]` is `remat`, `R` is one
instruction with opcode `loadI`, immediate `vr2mem[vr]` and destination `pr`.
When `clean[vr]` is not `remat` and `vr2mem[vr]` is not `INVALID`, `R` is an
instruction with opcode `loadI`, immediate `vr2mem[vr]` and destination `k`
followed by one with opcode `load`, source `k` and destination `pr`. When
`clean[vr]` is not `remat` and `vr2mem[vr]` is `INVALID`, `R` is empty. The
entries `clean[vr]` and `vr2mem[vr]` read after `allocate` are those from
before the call. In a step of `assignRegisters`, what is inserted before the
instruction is what the `ensure` of `src1` returned, then what the `ensure`
of `src2` returned, then what the allocation of the destination inserted. -/
theorem ensure_restore_shape (vr : Int) (c : Class) (m : Mem)
    (hl : m.vr2mem.length = m.clean.length) :
    (vr ∈ c.name → ∃ p : Nat, ensure vr c m = some ((p : Int), c, m, []) ∧
      c.name[p]? = some vr ∧ ∀ q : Nat, q < p → c.name[q]? ≠ some vr) ∧
    (vr ∉ c.name → ∀ pr c1 m1 ins, allocate vr c m = some (pr, c1, m1, ins) →
      ∃ cl a R, getI m.clean vr = some cl ∧ getI m.vr2mem vr = some a ∧
        getI m1.clean vr = some cl ∧ getI m1.vr2mem vr = some a ∧ m1.k = m.k ∧
        ensure vr c m = some (pr, c1, m1, ins ++ R) ∧
        (ins = [] ∨ ∃ u w, ins = [u, w] ∧ u.isLoadI m.nextMemAddr m.k ∧ w.isStore pr m.k) ∧
        (cl = Clean.remat → ∃ x, R = [x] ∧ x.isLoadI a pr) ∧
        (cl ≠ Clean.remat → a ≠ INVALID →
          ∃ x y, R = [x, y] ∧ x.isLoadI a m.k ∧ y.isLoad m.k pr) ∧
        (cl ≠ Clean.remat → a = INVALID → R = [])) ∧
    (∀ it ins B c7 m3, assignStep it c m = some (ins, B, c7, m3) →
      ∃ e1 e2 e3 c1 m1, ins = e1 ++ e2 ++ e3 ∧
        (it.src1.isReg = true →
          ∃ pr, ensure it.src1.vr c m = some (pr, c1, m1, e1) ∧ B.src1.pr = pr) ∧
        (it.src1.isReg = false → e1 = [] ∧ c1 = c ∧ m1 = m) ∧
        (it.src2.isReg = true →
          ∃ pr c2 m2, ensure it.src2.vr c1 m1 = some (pr, c2, m2, e2) ∧ B.src2.pr = pr) ∧
        (it.src2.isReg = false → e2 = [])) := by
  obtain ⟨h1, h2, h3⟩ := ensure_restore_built vr c m hl
  refine ⟨h1, ?_, h3⟩
  intro hnot pr c1 m1 ins ha
  obtain ⟨cl, a, R, a1, a2, a3, a4, a5, a6, a7, a8, a9⟩ := h2 hnot pr c1 m1 ins ha
  have hins : ins = [] ∨ ∃ u w, ins = [u, w] ∧ u.isLoadI m.nextMemAddr m.k ∧
      w.isStore pr m.k := by
    obtain ⟨c0, hc, _⟩ := allocate_inv ha
    rcases choose_inv hc with ⟨rest, _, _, _, e⟩ | ⟨_, _, _, hsp⟩
    · exact Or.inl e
    · obtain ⟨victim, cv, _, _, hh⟩ := spill_inv hsp
      rcases hh with ⟨_, _, e⟩ | ⟨_, _, _, _, e⟩
      · exact Or.inl e
      · exact Or.inr ⟨_, _, e, (by exact ⟨rfl, rfl, rfl, rfl, rfl, rfl, rfl⟩),
          (by exact ⟨rfl, rfl, rfl, rfl, rfl, rfl, rfl⟩)⟩
  refine ⟨cl, a, R, a1, a2, a3, a4, a5, a6, hins, ?_, ?_, a9⟩
  · intro q
    exact ⟨_, a7 q, (by exact ⟨rfl, rfl, rfl, rfl, rfl, rfl, rfl⟩)⟩
  · intro q1 q2
    exact ⟨_, _, a8 q1 q2, (by exact ⟨rfl, rfl, rfl, rfl, rfl, rfl, rfl⟩),
      (by exact ⟨rfl, rfl, rfl, rfl, rfl, rfl, rfl⟩)⟩

/-! ### The cache of tags along a run -/

theorem spill_cache {pr : Int} {c : Class} {m m1 : Mem} {ins : List Instruction}
    (h : CacheOK c m)
    (hu : ∀ p q v, getI c.name p = some v → getI c.name q = some v → v ≠ INVALID → p = q)
    (hs : spill pr c m = some (m1, ins)) : CachePre pr c m1 := by
  obtain ⟨victim, cl, hv, hcl, hh⟩ := spill_inv hs
  rcases hh with ⟨_, rfl, _⟩ | ⟨_, v0, v1, rfl, _⟩
  · exact fun p v _ hp => h p v hp
  · intro p v hne hp
    obtain ⟨a, b⟩ := h p v hp
    refine ⟨fun hv2 => ?_, b⟩
    obtain ⟨cc, h1, h2⟩ := a hv2
    refine ⟨cc, h1, ?_⟩
    have v2 : victim.toNat < m.clean.length := (getI_some hcl).2.1
    have s2 := setI_of_set m.clean Clean.spilled v0 v2
    have hvv : v ≠ victim := by
      intro e
      rw [e] at hp hv2
      exact hne (hu p pr victim hp hv hv2)
    show getI (m.clean.set victim.toNat Clean.spilled) v = some cc
    rw [getI_setI_ne s2 hvv]
    exact h2

theorem choose_cache {pr : Int} {c c1 : Class} {m m1 : Mem} {ins : List Instruction}
    (h : CacheOK c m)
    (hu : ∀ p q v, getI c.name p = some v → getI c.name q = some v → v ≠ INVALID → p = q)
    (hs : choose c m = some (pr, c1, m1, ins)) : CachePre pr c1 m1 := by
  rcases choose_inv hs with ⟨r, _, rfl, rfl, _⟩ | ⟨_, rfl, _, hsp⟩
  · exact fun p v _ hp => h p v hp
  · exact spill_cache h hu hsp

theorem occupy_cache {pr vr : Int} {c c2 : Class} {m : Mem} (h : CachePre pr c m)
    (ho : occupy pr vr c m = some c2) : CacheOK c2 m := by
  obtain ⟨p0, p1, cl, hcl, hcc, en, _⟩ := occupy_inv ho
  have e1 := setI_of_set c.name vr p0 p1
  rw [← en] at e1
  intro p v hp
  rw [getI_setI e1] at hp
  rw [getI_setI hcc]
  by_cases ep : p = pr
  · rw [if_pos ep] at hp ⊢
    obtain rfl := Option.some.inj hp
    refine ⟨fun _ => ⟨cl, rfl, hcl⟩, fun e => ?_⟩
    have := (getI_some hcl).1
    rw [e] at this
    simp [INVALID] at this
  · rw [if_neg ep] at hp ⊢
    exact h p v ep hp

theorem allocate_cache {pr vr : Int} {c c2 : Class} {m m1 : Mem} {ins : List Instruction}
    (h : CacheOK c m)
    (hu : ∀ p q v, getI c.name p = some v → getI c.name q = some v → v ≠ INVALID → p = q)
    (ha : allocate vr c m = some (pr, c2, m1, ins)) : CacheOK c2 m1 := by
  obtain ⟨c1, hc, ho⟩ := allocate_inv ha
  exact occupy_cache (choose_cache h hu hc) ho

theorem ensure_cache {pr vr : Int} {c c1 : Class} {m m1 : Mem} {ins : List Instruction}
    (h : CacheOK c m)
    (hu : ∀ p q v, getI c.name p = some v → getI c.name q = some v → v ≠ INVALID → p = q)
    (he : ensure vr c m = some (pr, c1, m1, ins)) : CacheOK c1 m1 := by
  rcases ensure_inv he with ⟨_, _, rfl, rfl, _⟩ | ⟨_, i0, i1, ha, _, _⟩
  · exact h
  · exact allocate_cache h hu ha

theorem freeRegister_cache {pr : Int} {c c1 : Class} {m : Mem} (h : CacheOK c m)
    (hf : freeRegister pr c = some c1) (hl : c.cclean.length = c.name.length) :
    CacheOK c1 m := by
  obtain ⟨p0, p1, en, _, _, ec, _⟩ := freeRegister_inv hf
  have e1 := setI_of_set c.name INVALID p0 p1
  have e2 := setI_of_set c.cclean Clean.dirty p0 (by rw [hl]; exact p1)
  rw [← en] at e1
  rw [← ec] at e2
  intro p v hp
  rw [getI_setI e1] at hp
  rw [getI_setI e2]
  by_cases ep : p = pr
  · rw [if_pos ep] at hp ⊢
    obtain rfl := Option.some.inj hp
    exact ⟨fun e => absurd rfl e, fun _ => rfl⟩
  · rw [if_neg ep] at hp ⊢
    exact h p v hp

theorem cacheOK_names {c c1 : Class} {m : Mem} (h : CacheOK c m) (hn : c1.name = c.name)
    (hc : c1.cclean = c.cclean) : CacheOK c1 m := by
  intro p v hp
  rw [hn] at hp
  rw [hc]
  exact h p v hp

theorem assignSrc_cache {r r1 : Register} {c c1 : Class} {m m1 : Mem} {ins : List Instruction}
    (h : CacheOK c m)
    (hu : ∀ p q v, getI c.name p = some v → getI c.name q = some v → v ≠ INVALID → p = q)
    (hs : assignSrc r c m = some (r1, c1, m1, ins)) : CacheOK c1 m1 := by
  rcases assignSrc_inv hs with ⟨_, _, rfl, rfl, _⟩ | ⟨_, pr, he, _⟩
  · exact h
  · exact ensure_cache h hu he

theorem freeIf_cache {b : Bool} {pr : Int} {c c1 : Class} {m : Mem} (h : CacheOK c m)
    (hf : freeIf b pr c = some c1) (hl : c.cclean.length = c.name.length) :
    CacheOK c1 m := by
  unfold freeIf at hf
  cases b with
  | true => exact freeRegister_cache h hf hl
  | false =>
    simp only [Bool.false_eq_true, if_false, Option.some.injEq] at hf
    rw [← hf]
    exact h

theorem keepNext_cache {r : Register} {c c1 : Class} {m : Mem} (h : CacheOK c m)
    (hk : keepNext r c = some c1) : CacheOK c1 m := by
  obtain ⟨a, _, _, b, _⟩ := keepNext_name hk
  exact cacheOK_names h a b

theorem assignDest_cache {r r1 : Register} {c c1 : Class} {m m1 : Mem}
    {ins : List Instruction} (h : CacheOK c m)
    (hu : ∀ p q v, getI c.name p = some v → getI c.name q = some v → v ≠ INVALID → p = q)
    (hs : assignDest r c m = some (r1, c1, m1, ins)) : CacheOK c1 m1 := by
  rcases assignDest_inv hs with ⟨_, _, rfl, rfl, _⟩ | ⟨_, pr, c2, nx, ha, _, e, _⟩
  · exact h
  · have := allocate_cache h hu ha
    rw [e]
    exact cacheOK_names this rfl rfl

/-- The sizes and the indices of the class and of the members hold after
every statement of the step of `assignRegisters`. -/
theorem assignStepPts_ok {K : Nat} {n : Int} {it : Instruction} {c c7 : Class} {m m3 : Mem}
    {pts : List (Class × Mem)} (h : ClassOK K n c) (hm : MemOK n m)
    (hr : ∀ o ∈ it.operands, o.ready n) (hs : assignStepPts it c m = some (pts, c7, m3)) :
    (∀ x ∈ pts, ClassOK K n x.1 ∧ MemOK n x.2) ∧ ClassOK K n c7 ∧ MemOK n m3 := by
  obtain ⟨s1, c1, m1, ins1, s2, c2, m2, ins2, c3, c4, c5, c6, d, ins3, h1, h2, h3, h4, h5, h6,
    h7, rfl⟩ := assignStepPts_inv hs
  have r1 := hr it.src1 (by simp [Instruction.operands])
  have r2 := hr it.src2 (by simp [Instruction.operands])
  have r3 := hr it.dest (by simp [Instruction.operands])
  obtain ⟨t1, d1, n1, i1, e1, ok1, hm1, a1, a2, a3, a4, a5⟩ := assignSrc_total h hm r1
  rw [h1] at e1
  simp only [Option.some.injEq, Prod.mk.injEq] at e1
  obtain ⟨rfl, rfl, rfl, rfl⟩ := e1
  obtain ⟨t2, d2, n2, i2, e2, ok2, hm2, b1, b2, b3, b4, b5⟩ := assignSrc_total ok1 hm1 r2
  rw [h2] at e2
  simp only [Option.some.injEq, Prod.mk.injEq] at e2
  obtain ⟨rfl, rfl, rfl, rfl⟩ := e2
  have pr1 : s1.pr ≠ INVALID → 0 ≤ s1.pr ∧ s1.pr < K := by
    intro hne
    cases hreg : it.src1.isReg with
    | true => exact a4 hreg
    | false => exact absurd (a5 hreg).1 hne
  have pr2 : s2.pr ≠ INVALID → 0 ≤ s2.pr ∧ s2.pr < K := by
    intro hne
    cases hreg : it.src2.isReg with
    | true => exact b4 hreg
    | false => exact absurd (b5 hreg).1 hne
  obtain ⟨d3, e3, ok3⟩ := freeIf_total (b := decide (s1.nu = INT_MAX)) s1.pr ok2
    (fun hb => by
      apply pr1
      intro hne
      cases hreg : it.src1.isReg with
      | true =>
        have := (a4 hreg).1
        rw [hne] at this
        simp [INVALID] at this
      | false =>
        have := (a5 hreg).2
        simp only [decide_eq_true_eq] at hb
        rw [this] at hb
        simp [INVALID, INT_MAX] at hb)
  rw [h3] at e3
  obtain rfl := Option.some.inj e3
  obtain ⟨d4, e4, ok4⟩ := freeIf_total (b := s2.isReg && decide (s2.nu = INT_MAX))
    s2.pr ok3 (fun hb => by
      simp only [Bool.and_eq_true] at hb
      exact b4 (by rw [← b2]; exact hb.1))
  rw [h4] at e4
  obtain rfl := Option.some.inj e4
  obtain ⟨d5, e5, ok5⟩ := keepNext_total ok4 pr1 a3
  rw [h5] at e5
  obtain rfl := Option.some.inj e5
  obtain ⟨d6, e6, ok6⟩ := keepNext_total ok5 pr2 b3
  rw [h6] at e6
  obtain rfl := Option.some.inj e6
  obtain ⟨t7, d7, n7, i3, e7, ok7, hm3⟩ := assignDest_total ok6 hm2 r3
  rw [h7] at e7
  simp only [Option.some.injEq, Prod.mk.injEq] at e7
  obtain ⟨rfl, rfl, rfl, rfl⟩ := e7
  refine ⟨?_, ok7, hm3⟩
  intro x hx
  simp only [List.mem_cons, List.mem_singleton, List.mem_nil_iff, or_false] at hx
  rcases hx with rfl | rfl | rfl | rfl | rfl | rfl | rfl
  · exact ⟨ok1, hm1⟩
  · exact ⟨ok2, hm2⟩
  · exact ⟨ok3, hm2⟩
  · exact ⟨ok4, hm2⟩
  · exact ⟨ok5, hm2⟩
  · exact ⟨ok6, hm2⟩
  · exact ⟨ok7, hm3⟩

theorem assignLoopPts_ok {K : Nat} {n : Int} : ∀ (ir : List Instruction) (c : Class) (m : Mem)
    (pts : List (Class × Mem)), ClassOK K n c → MemOK n m →
    (∀ it ∈ ir, ∀ o ∈ it.operands, o.ready n) → assignLoopPts ir c m = some pts →
    ∀ x ∈ pts, ClassOK K n x.1 ∧ MemOK n x.2
  | [], _, _, pts, _, _, _, h => by
    simp only [assignLoopPts, Option.some.injEq] at h
    subst h
    exact fun x hx => (by cases hx)
  | it :: rest, c, m, pts, hc, hm, hr, h => by
    simp only [assignLoopPts, Option.bind_eq_bind, Option.pure_def, Option.bind_eq_some,
      Option.some.injEq, Prod.exists] at h
    obtain ⟨p1, c1, m1, hs, more, hmo, rfl⟩ := h
    obtain ⟨a1, a2, a3⟩ := assignStepPts_ok hc hm (hr it (List.mem_cons_self _ _)) hs
    have b := assignLoopPts_ok rest c1 m1 more a2 a3
      (fun x hx => hr x (List.mem_cons_of_mem _ hx)) hmo
    intro x hx
    rcases List.mem_append.mp hx with hx | hx
    · exact a1 x hx
    · exact b x hx

theorem assignStepPts_cache {clean0 : List Clean} {vr2mem0 : List Int} {K : Nat} {n : Int}
    {rest : List Instruction} {it : Instruction} {c c7 : Class} {m m3 : Mem}
    {pts : List (Class × Mem)} (h : CacheOK c m)
    (hr : RunInv clean0 vr2mem0 (it :: rest) c m) (hd : DefsFresh (it :: rest))
    (hc : ClassOK K n c) (hm : MemOK n m) (hrd : ∀ o ∈ it.operands, o.ready n)
    (hs : assignStepPts it c m = some (pts, c7, m3)) :
    (∀ x ∈ pts, CacheOK x.1 x.2) ∧ CacheOK c7 m3 := by
  obtain ⟨u1, _, _⟩ := assignStepPts_run hr hd hs
  obtain ⟨o1, _, _⟩ := assignStepPts_ok hc hm hrd hs
  obtain ⟨s1, c1, m1, ins1, s2, c2, m2, ins2, c3, c4, c5, c6, d, ins3, h1, h2, h3, h4, h5, h6,
    h7, rfl⟩ := assignStepPts_inv hs
  have q1 := assignSrc_cache h hr.uniq h1
  have q2 := assignSrc_cache q1 (u1 (c1, m1) (by simp)).uniq h2
  have l2 := (o1 (c2, m2) (by simp)).1
  have l3 := (o1 (c3, m2) (by simp)).1
  have q3 := freeIf_cache q2 h3 (by rw [l2.lclean, l2.lname])
  have q4 := freeIf_cache q3 h4 (by rw [l3.lclean, l3.lname])
  have q5 := keepNext_cache q4 h5
  have q6 := keepNext_cache q5 h6
  have q7 := assignDest_cache q6 (u1 (c6, m2) (by simp)).uniq h7
  refine ⟨?_, q7⟩
  intro x hx
  simp only [List.mem_cons, List.mem_singleton, List.mem_nil_iff, or_false] at hx
  rcases hx with rfl | rfl | rfl | rfl | rfl | rfl | rfl
  · exact q1
  · exact q2
  · exact q3
  · exact q4
  · exact q5
  · exact q6
  · exact q7

theorem assignLoopPts_cache {clean0 : List Clean} {vr2mem0 : List Int} {K : Nat} {n : Int} :
    ∀ (ir : List Instruction) (c : Class) (m : Mem) (pts : List (Class × Mem)),
    CacheOK c m → RunInv clean0 vr2mem0 ir c m → DefsFresh ir → ClassOK K n c → MemOK n m →
    (∀ it ∈ ir, ∀ o ∈ it.operands, o.ready n) → assignLoopPts ir c m = some pts →
    ∀ x ∈ pts, CacheOK x.1 x.2
  | [], _, _, pts, _, _, _, _, _, _, h => by
    simp only [assignLoopPts, Option.some.injEq] at h
    subst h
    exact fun x hx => (by cases hx)
  | it :: rest, c, m, pts, hq, hr, hd, hc, hm, hrd, h => by
    simp only [assignLoopPts, Option.bind_eq_bind, Option.pure_def, Option.bind_eq_some,
      Option.some.injEq, Prod.exists] at h
    obtain ⟨p1, c1, m1, hs, more, hmo, rfl⟩ := h
    obtain ⟨a1, a2⟩ := assignStepPts_cache hq hr hd hc hm (hrd it (List.mem_cons_self _ _)) hs
    obtain ⟨_, u2, _⟩ := assignStepPts_run hr hd hs
    obtain ⟨_, o2, o3⟩ := assignStepPts_ok hc hm (hrd it (List.mem_cons_self _ _)) hs
    have b := assignLoopPts_cache rest c1 m1 more a2 u2 hd.2.2 o2 o3
      (fun x hx => hrd x (List.mem_cons_of_mem _ hx)) hmo
    intro x hx
    rcases List.mem_append.mp hx with hx | hx
    · exact a1 x hx
    · exact b x hx

theorem cacheOK_new (k : Int) (m : Mem) : CacheOK (Class.new k) m := by
  intro p v hp
  have e := getI_replicate hp
  obtain ⟨p0, p1, _⟩ := getI_some hp
  refine ⟨fun hne => absurd e hne, fun _ => ?_⟩
  simp only [Class.new, List.length_replicate] at p1
  simp [getI, Class.new, p0, p1]

theorem allocate_flag {pr vr : Int} {c c2 : Class} {m m1 : Mem} {ins : List Instruction}
    (h : FlagOK c) (ha : allocate vr c m = some (pr, c2, m1, ins)) : FlagOK c2 := by
  obtain ⟨c1, hc, ho⟩ := allocate_inv ha
  obtain ⟨p0, p1, cl, _, _, en, _, ef, _⟩ := occupy_inv ho
  have e1 : c1.name = c.name ∧ c1.free = c.free := by
    rcases choose_inv hc with ⟨r, _, e, _⟩ | ⟨_, e, _⟩
    · rw [e]
      exact ⟨rfl, rfl⟩
    · rw [e]
      exact ⟨rfl, rfl⟩
  intro p hp
  by_cases ep : p = pr
  · exfalso
    rw [ep, ef] at hp
    obtain ⟨_, q1, q2⟩ := getI_some hp
    rw [List.getElem?_set_self (by simpa using q1)] at q2
    cases q2
  · obtain ⟨q0, q1, q2⟩ := getI_some hp
    have hne : pr.toNat ≠ p.toNat := by omega
    rw [ef, List.getElem?_set_ne hne] at q2
    have hf : getI c.free p = some true := by
      unfold getI
      rw [if_pos q0, ← e1.2]
      exact q2
    have := h p hf
    obtain ⟨_, _, r2⟩ := getI_some this
    unfold getI
    rw [if_pos q0, en, List.getElem?_set_ne hne, e1.1]
    exact r2

theorem ensure_flag {pr vr : Int} {c c1 : Class} {m m1 : Mem} {ins : List Instruction}
    (h : FlagOK c) (he : ensure vr c m = some (pr, c1, m1, ins)) : FlagOK c1 := by
  rcases ensure_inv he with ⟨_, _, rfl, rfl, _⟩ | ⟨_, i0, i1, ha, _, _⟩
  · exact h
  · exact allocate_flag h ha

theorem assignSrc_flag {r r1 : Register} {c c1 : Class} {m m1 : Mem} {ins : List Instruction}
    (h : FlagOK c) (hs : assignSrc r c m = some (r1, c1, m1, ins)) : FlagOK c1 := by
  rcases assignSrc_inv hs with ⟨_, _, rfl, rfl, _⟩ | ⟨_, pr, he, _⟩
  · exact h
  · exact ensure_flag h he

theorem freeIf_flag {b : Bool} {pr : Int} {c c1 : Class} (h : FlagOK c)
    (hf : freeIf b pr c = some c1) : FlagOK c1 := by
  unfold freeIf at hf
  cases b with
  | false =>
    simp only [Bool.false_eq_true, if_false, Option.some.injEq] at hf
    rw [← hf]
    exact h
  | true =>
    simp only [if_true] at hf
    obtain ⟨p0, p1, en, _, ef, _⟩ := freeRegister_inv hf
    intro p hp
    by_cases ep : p = pr
    · rw [ep, en]
      unfold getI
      rw [if_pos p0]
      exact List.getElem?_set_self p1
    · obtain ⟨q0, q1, q2⟩ := getI_some hp
      have hne : pr.toNat ≠ p.toNat := by omega
      rw [ef, List.getElem?_set_ne hne] at q2
      have hf2 : getI c.free p = some true := by
        unfold getI
        rw [if_pos q0]
        exact q2
      obtain ⟨_, _, r2⟩ := getI_some (h p hf2)
      unfold getI
      rw [if_pos q0, en, List.getElem?_set_ne hne]
      exact r2

theorem keepNext_flag {r : Register} {c c1 : Class} (h : FlagOK c)
    (hk : keepNext r c = some c1) : FlagOK c1 := by
  obtain ⟨a, _, b, _⟩ := keepNext_name hk
  intro p hp
  rw [a]
  rw [b] at hp
  exact h p hp

theorem assignDest_flag {r r1 : Register} {c c1 : Class} {m m1 : Mem}
    {ins : List Instruction} (h : FlagOK c)
    (hs : assignDest r c m = some (r1, c1, m1, ins)) : FlagOK c1 := by
  rcases assignDest_inv hs with ⟨_, _, rfl, rfl, _⟩ | ⟨_, pr, c2, nx, ha, _, e, _⟩
  · exact h
  · have := allocate_flag h ha
    rw [e]
    exact this

theorem assignStepPts_flag {it : Instruction} {c c7 : Class} {m m3 : Mem}
    {pts : List (Class × Mem)} (h : FlagOK c)
    (hs : assignStepPts it c m = some (pts, c7, m3)) :
    (∀ x ∈ pts, FlagOK x.1) ∧ FlagOK c7 := by
  obtain ⟨s1, c1, m1, ins1, s2, c2, m2, ins2, c3, c4, c5, c6, d, ins3, h1, h2, h3, h4, h5, h6,
    h7, rfl⟩ := assignStepPts_inv hs
  have q1 := assignSrc_flag h h1
  have q2 := assignSrc_flag q1 h2
  have q3 := freeIf_flag q2 h3
  have q4 := freeIf_flag q3 h4
  have q5 := keepNext_flag q4 h5
  have q6 := keepNext_flag q5 h6
  have q7 := assignDest_flag q6 h7
  refine ⟨?_, q7⟩
  intro x hx
  simp only [List.mem_cons, List.mem_singleton, List.mem_nil_iff, or_false] at hx
  rcases hx with rfl | rfl | rfl | rfl | rfl | rfl | rfl
  · exact q1
  · exact q2
  · exact q3
  · exact q4
  · exact q5
  · exact q6
  · exact q7

theorem assignLoopPts_flag : ∀ (ir : List Instruction) (c : Class) (m : Mem)
    (pts : List (Class × Mem)), FlagOK c → assignLoopPts ir c m = some pts →
    ∀ x ∈ pts, FlagOK x.1
  | [], _, _, pts, _, h => by
    simp only [assignLoopPts, Option.some.injEq] at h
    subst h
    exact fun x hx => (by cases hx)
  | it :: rest, c, m, pts, hq, h => by
    simp only [assignLoopPts, Option.bind_eq_bind, Option.pure_def, Option.bind_eq_some,
      Option.some.injEq, Prod.exists] at h
    obtain ⟨p1, c1, m1, hs, more, hmo, rfl⟩ := h
    obtain ⟨a1, a2⟩ := assignStepPts_flag hq hs
    have b := assignLoopPts_flag rest c1 m1 more a2 hmo
    intro x hx
    rcases List.mem_append.mp hx with hx | hx
    · exact a1 x hx
    · exact b x hx

theorem flagOK_new (k : Int) : FlagOK (Class.new k) := by
  intro p hp
  obtain ⟨p0, p1, _⟩ := getI_some hp
  simp only [Class.new, List.length_replicate] at p1
  simp [getI, Class.new, p0, p1]

/-- The victim that `optimalPR` picks on `cclean` is spilled by `allocate`
exactly when its cached tag is `dirty`. -/
theorem victim_agrees {K : Nat} {n : Int} {c : Class} {m : Mem} (hc : ClassOK K n c)
    (hm : MemOK n m) (hq : CacheOK c m) (he : c.stk = []) :
    ∃ pr v cl m1 ins, optimalPR c = some pr ∧ getI c.name pr = some v ∧ v ≠ INVALID ∧
      getI c.cclean pr = some cl ∧ getI m.clean v = some cl ∧
      spill pr c m = some (m1, ins) ∧
      (cl = Clean.dirty → ins = [mkLoadI m.nextMemAddr m.k, mkStore pr m.k]) ∧
      (cl ≠ Clean.dirty → ins = [] ∧ m1 = m) := by
  obtain ⟨pr, h1, p0, p1⟩ := optimalPR_total hc
  obtain ⟨v, hv⟩ := getI_total c.name p0 (by rw [hc.lname]; exact p1)
  have hne : v ≠ INVALID := by
    intro e
    have := (classOK_nm hc pr v hv).1 e
    rw [he] at this
    cases this
  obtain ⟨cl, h2, h3⟩ := (hq pr v hv).1 hne
  obtain ⟨m1, ins, h4, _⟩ := spill_total hc hm p0 p1 he
  obtain ⟨victim, cv, w1, w2, w3⟩ := spill_inv h4
  rw [hv] at w1
  obtain rfl := Option.some.inj w1
  rw [h3] at w2
  obtain rfl := Option.some.inj w2
  refine ⟨pr, v, cl, m1, ins, h1, hv, hne, h2, h3, h4, ?_, ?_⟩
  · intro e
    rcases w3 with ⟨x, _⟩ | ⟨_, _, _, _, y⟩
    · exact absurd e x
    · exact y
  · intro e
    rcases w3 with ⟨_, x, y⟩ | ⟨x, _⟩
    · exact ⟨y, x⟩
    · exact absurd x e

/-- C24: cleanliness cache consistency. On every parsed block, with at least
two registers requested, the traced run returns, and in the state on entry to
`assignRegisters` and after every statement of it: a physical register `p`
with a name (`name[p] ≠ INVALID`) has `cclean[p] = clean[name[p]]`; a register
without a name, and a register whose flag `free` is set, has
`cclean[p] = dirty`; and when no register is on the free stack, so that
`allocate` would pick a victim, `optimalPR` returns a register with a name
for which the spill of `allocate` inserts the `loadI`/`store` pair exactly
when its cached tag is `dirty`, and inserts nothing and leaves the members
unchanged otherwise. -/
theorem cache_consistency (ir : List Instruction) (k : Int) (hk : 2 ≤ k)
    (hp : ∀ it ∈ ir, it.parsed = true) :
    ∃ pts, AllocatorPts ir k = some pts ∧ pts.length = 7 * ir.length + 1 ∧
      ∀ x ∈ pts,
        (∀ p v, getI x.1.name p = some v → v ≠ INVALID →
          ∃ cl, getI x.1.cclean p = some cl ∧ getI x.2.clean v = some cl) ∧
        (∀ p, getI x.1.name p = some INVALID → getI x.1.cclean p = some Clean.dirty) ∧
        (∀ p, getI x.1.free p = some true → getI x.1.cclean p = some Clean.dirty) ∧
        (x.1.stk = [] →
          ∃ pr v cl m1 ins, optimalPR x.1 = some pr ∧ getI x.1.name pr = some v ∧
            v ≠ INVALID ∧ getI x.1.cclean pr = some cl ∧ getI x.2.clean v = some cl ∧
            spill pr x.1 x.2 = some (m1, ins) ∧
            (cl = Clean.dirty → ins = [mkLoadI x.2.nextMemAddr x.2.k, mkStore pr x.2.k]) ∧
            (cl ≠ Clean.dirty → ins = [] ∧ m1 = x.2)) := by
  obtain ⟨r, ir1, lu, c0, m0, pts, _, h1, hmc, hmv, h3, h4, h5, h6, _, h8, h9⟩ :=
    run_start ir k hk hp
  obtain ⟨ir2, lu2, e1, l1, l2, _⟩ := computeLastUses_total ir hp
  rw [h1] at e1
  simp only [Option.some.injEq, Prod.mk.injEq] at e1
  obtain ⟨rfl, rfl⟩ := e1
  have e4 := h4
  simp only [AllocatorPts, h1, Option.bind_eq_bind, Option.some_bind, Option.pure_def,
    Option.bind_eq_some, Option.some.injEq, List.cons.injEq, Prod.mk.injEq] at e4
  obtain ⟨pts2, _, ⟨ec, _⟩, _⟩ := e4
  have okc : ∃ K, ClassOK K lu.vrName c0 := by
    rw [← ec]
    exact ⟨_, classOK_new (if k < lu.maxLive then k - 1 else k) lu.vrName
      (by split_ifs <;> omega)⟩
  obtain ⟨K, okc⟩ := okc
  have okm : MemOK lu.vrName m0 := ⟨by rw [hmc]; exact l1, by rw [hmc, hmv]; exact l2.symm⟩
  have q0 : CacheOK c0 m0 := by
    rw [← ec]
    exact cacheOK_new _ _
  have f0 : FlagOK c0 := by
    rw [← ec]
    exact flagOK_new _
  have fs := assignLoopPts_flag ir1 c0 m0 pts f0 h3
  have qs := assignLoopPts_cache ir1 c0 m0 pts q0 h5 h6 okc okm h9 h3
  have os := assignLoopPts_ok ir1 c0 m0 pts okc okm h9 h3
  obtain ⟨_, len, _⟩ := assignLoopPts_run ir1 c0 m0 pts h5 h6 h3
  refine ⟨_, h4, by simp [len, h8], ?_⟩
  have key : ∀ x : Class × Mem, CacheOK x.1 x.2 → FlagOK x.1 → ClassOK K lu.vrName x.1 →
      MemOK lu.vrName x.2 →
      (∀ p v, getI x.1.name p = some v → v ≠ INVALID →
          ∃ cl, getI x.1.cclean p = some cl ∧ getI x.2.clean v = some cl) ∧
        (∀ p, getI x.1.name p = some INVALID → getI x.1.cclean p = some Clean.dirty) ∧
        (∀ p, getI x.1.free p = some true → getI x.1.cclean p = some Clean.dirty) ∧
        (x.1.stk = [] →
          ∃ pr v cl m1 ins, optimalPR x.1 = some pr ∧ getI x.1.name pr = some v ∧
            v ≠ INVALID ∧ getI x.1.cclean pr = some cl ∧ getI x.2.clean v = some cl ∧
            spill pr x.1 x.2 = some (m1, ins) ∧
            (cl = Clean.dirty → ins = [mkLoadI x.2.nextMemAddr x.2.k, mkStore pr x.2.k]) ∧
            (cl ≠ Clean.dirty → ins = [] ∧ m1 = x.2)) := by
    intro x hq hf hc hm
    exact ⟨fun p v hv hne => (hq p v hv).1 hne, fun p hv => (hq p INVALID hv).2 rfl,
      fun p hv => (hq p INVALID (hf p hv)).2 rfl, fun he => victim_agrees hc hm hq he⟩
  intro x hx
  rcases List.mem_cons.mp hx with rfl | hx
  · exact key _ q0 f0 okc okm
  · exact key x (qs x hx) (fs x hx) (os x hx).1 (os x hx).2

/-! ### The claims above on concrete inputs -/

/-- Witness of C23: three calls of `allocate` on a fresh class of size `3`
return the registers `0`, `1`, `2`. -/
theorem free_stack_order_witness :
    (1 : Int) ≤ 3 ∧ ([0, 1, 2] : List Int).length = (3 : Int).toNat ∧
    (∀ v ∈ ([0, 1, 2] : List Int), (getI dirtyVictimState.2.clean v).isSome = true) ∧
    (Class.new 3).sz = 3 ∧
    (∀ p : Int, 0 ≤ p → p < 3 →
      getI (Class.new 3).free p = some true ∧ getI (Class.new 3).name p = some INVALID ∧
      getI (Class.new 3).next p = some INT_MAX ∧
      getI (Class.new 3).cclean p = some Clean.dirty ∧ p ∈ (Class.new 3).stk) ∧
    ∃ c1, allocateAll [0, 1, 2] (Class.new 3) dirtyVictimState.2 =
        some ((List.range (3 : Int).toNat).map Int.ofNat, c1, dirtyVictimState.2, []) ∧
      c1.stk = [] :=
  ⟨by decide, by decide, by decide,
    free_stack_order 3 (by decide) dirtyVictimState.2 [0, 1, 2] (by decide) (by decide)⟩

/-- Witness of C21 on `pressureBlock` with three registers requested: both
sources of the sum are released, and the sum takes the register `1` of its
second source. -/
theorem last_use_frees_first_witness :
    (2 : Int) ≤ 3 ∧ (∀ it ∈ pressureBlock, it.parsed = true) ∧
    (Allocator pressureBlock 3).map
        (fun r => r.groups.map (fun g => (g.1.length, g.2.src1.pr, g.2.src2.pr, g.2.dest.pr))) =
      some [(0, -1, -1, 0), (0, -1, -1, 1), (0, 0, 1, 1), (0, 1, 1, -1)] ∧
    ∃ r ir1 lu pts, Allocator pressureBlock 3 = some r ∧
      computeLastUses pressureBlock = some (ir1, lu) ∧
      AllocatorPts pressureBlock 3 = some pts ∧
      ∀ (i : Nat) (A : Instruction), ir1[i]? = some A → A.dest.isReg = true →
        ((A.src1.isReg = true ∧ A.src1.nu = INT_MAX) ∨
          (A.src2.isReg = true ∧ A.src2.nu = INT_MAX)) →
        ∃ g x y rest, r.groups[i]? = some g ∧ pts[7 * i + 6]? = some x ∧
          pts[7 * i + 7]? = some y ∧
          x.1.stk = (if A.src2.isReg = true ∧ A.src2.nu = INT_MAX then g.2.src2.pr
            else g.2.src1.pr) :: rest ∧
          getI x.1.name (if A.src2.isReg = true ∧ A.src2.nu = INT_MAX then g.2.src2.pr
            else g.2.src1.pr) = some INVALID ∧
          assignDest A.dest x.1 x.2 = some (g.2.dest, y.1, y.2, []) ∧
          y.2 = x.2 ∧ y.1.stk = rest ∧
          g.2.dest.pr = (if A.src2.isReg = true ∧ A.src2.nu = INT_MAX then g.2.src2.pr
            else g.2.src1.pr) :=
  ⟨by decide, by decide, by decide,
    last_use_frees_first pressureBlock 3 (by decide) (by decide)⟩

/-- Witness of C22 on the state `dirtyVictimState`: the virtual register `4`
is in the register `1`, which `ensure` returns; the virtual register `1` is
in no register, `allocate` spills the register `0` for it, and `ensure`
inserts `loadI 32768 => r3; store r0 => r3; loadI 1 => r0`. -/
theorem ensure_restore_shape_witness :
    dirtyVictimState.2.vr2mem.length = dirtyVictimState.2.clean.length ∧
    (4 : Int) ∈ dirtyVictimState.1.name ∧ (1 : Int) ∉ dirtyVictimState.1.name ∧
    (ensure 1 dirtyVictimState.1 dirtyVictimState.2).map (fun a => a.1) = some 0 ∧
    (ensure 1 dirtyVictimState.1 dirtyVictimState.2).map (fun a => a.2.2.2.map
        (fun s => (s.op, s.src1.isReg, s.src1.sr, s.src1.pr))) =
      some [(Opcode.loadI, false, 32768, -1), (Opcode.store, true, -1, 0),
        (Opcode.loadI, false, 1, -1)] ∧
    (ensure 1 dirtyVictimState.1 dirtyVictimState.2).map (fun a => a.2.2.2.map
        (fun s => (s.src2.isReg, s.src2.pr, s.dest.isReg, s.dest.pr))) =
      some [(false, -1, true, 3), (true, 3, false, -1), (false, -1, true, 0)] ∧
    (∃ p : Nat, ensure 4 dirtyVictimState.1 dirtyVictimState.2 =
        some ((p : Int), dirtyVictimState.1, dirtyVictimState.2, []) ∧
      dirtyVictimState.1.name[p]? = some 4 ∧
      ∀ q : Nat, q < p → dirtyVictimState.1.name[q]? ≠ some 4) ∧
    ∀ pr c1 m1 ins, allocate 1 dirtyVictimState.1 dirtyVictimState.2 = some (pr, c1, m1, ins) →
      ∃ cl a R, getI dirtyVictimState.2.clean 1 = some cl ∧
        getI dirtyVictimState.2.vr2mem 1 = some a ∧
        getI m1.clean 1 = some cl ∧ getI m1.vr2mem 1 = some a ∧
        m1.k = dirtyVictimState.2.k ∧
        ensure 1 dirtyVictimState.1 dirtyVictimState.2 = some (pr, c1, m1, ins ++ R) ∧
        (ins = [] ∨ ∃ u w, ins = [u, w] ∧
          u.isLoadI dirtyVictimState.2.nextMemAddr dirtyVictimState.2.k ∧
          w.isStore pr dirtyVictimState.2.k) ∧
        (cl = Clean.remat → ∃ x, R = [x] ∧ x.isLoadI a pr) ∧
        (cl ≠ Clean.remat → a ≠ INVALID →
          ∃ x y, R = [x, y] ∧ x.isLoadI a dirtyVictimState.2.k ∧
            y.isLoad dirtyVictimState.2.k pr) ∧
        (cl ≠ Clean.remat → a = INVALID → R = []) :=
  ⟨by decide, by decide, by decide, by decide, by decide, by decide,
    (ensure_restore_shape 4 dirtyVictimState.1 dirtyVictimState.2 (by decide)).1 (by decide),
    (ensure_restore_shape 1 dirtyVictimState.1 dirtyVictimState.2 (by decide)).2.1
      (by decide)⟩

/-- Witness of C24 on `deadDefBlock` with three registers requested, a run
in which a `remat` register and dirty registers are chosen as victims. -/
theorem cache_consistency_witness :
    (2 : Int) ≤ 3 ∧ (∀ it ∈ deadDefBlock, it.parsed = true) ∧
    ∃ pts, AllocatorPts deadDefBlock 3 = some pts ∧
      pts.length = 7 * deadDefBlock.length + 1 ∧
      ∀ x ∈ pts,
        (∀ p v, getI x.1.name p = some v → v ≠ INVALID →
          ∃ cl, getI x.1.cclean p = some cl ∧ getI x.2.clean v = some cl) ∧
        (∀ p, getI x.1.name p = some INVALID → getI x.1.cclean p = some Clean.dirty) ∧
        (∀ p, getI x.1.free p = some true → getI x.1.cclean p = some Clean.dirty) ∧
        (x.1.stk = [] →
          ∃ pr v cl m1 ins, optimalPR x.1 = some pr ∧ getI x.1.name pr = some v ∧
            v ≠ INVALID ∧ getI x.1.cclean pr = some cl ∧ getI x.2.clean v = some cl ∧
            spill pr x.1 x.2 = some (m1, ins) ∧
            (cl = Clean.dirty → ins = [mkLoadI x.2.nextMemAddr x.2.k, mkStore pr x.2.k]) ∧
            (cl ≠ Clean.dirty → ins = [] ∧ m1 = x.2)) :=
  ⟨by decide, by decide, cache_consistency deadDefBlock 3 (by decide) (by decide)⟩

end Alloc
